import Mathlib

/-!
# Stereo disparity engine: ground-truth preprocessing, error metrics, graph-cut update

A shallow embedding of the ground-truth cross-check of `StereoPair`, of the
`ErrorMetrics` scores and of the `GraphCutDisparity` solver, with proofs of their
specified properties.

Conventions of the embedding.

* A `cv::Mat` is a record of its dimensions and a total pixel function indexed by
  signed row and column (`at<T>(row, col)`); the program only reads and writes pixels
  it has bounds-checked, so values outside `[0, rows) × [0, cols)` are never observed.
* An unsigned 8-bit pixel is a `Nat`; a store of a signed `int` into such a pixel is
  written with an explicit `% 256`.
* `int` variables are `Int`; the `for (int k = 0; k < n; k++)` loops are `forLoop`.
* `float` / `double` quantities of the metrics are exact rationals, and the external
  square root (`sqrt`, `cv::norm`, `cv::meanStdDev`) is a parameter of the definitions
  that use it.
-/

namespace Stereo

/-! ## Matrices and loops -/

/-- A matrix in the style of `cv::Mat`: dimensions and a pixel accessor `at(row, col)`. -/
structure Mat (α : Type) where
  rows : Nat
  cols : Nat
  px : Int → Int → α

/-- The store `m.at<T>(i, j) = v`. -/
def Mat.set {α : Type} (m : Mat α) (i j : Int) (v : α) : Mat α :=
  { m with px := fun i' j' => if i' = i ∧ j' = j then v else m.px i' j' }

/-- The loop `for (int k = 0; k < n; k++) s = body(k, s)`. -/
def forLoop {σ : Type} (n : Nat) (body : Nat → σ → σ) (s : σ) : σ :=
  (List.range n).foldl (fun acc k => body k acc) s

/-! ## Ground-truth preprocessing (`dataset.cpp`, `StereoPair::StereoPair`) -/

/-- Body of the cross-check loop of the `StereoPair` constructor at pixel `(i, j)`:
first the left ground-truth pixel is tested against the current right map, then the
right ground-truth pixel against the current (just updated) left map. The state is the
pair `(true_disparity_left, true_disparity_right)`. -/
def cross_check_pixel (cols : Nat) (i j : Nat) (s : Mat Nat × Mat Nat) : Mat Nat × Mat Nat :=
  let d_left : Int := (s.1.px i j : Int)
  let j_right : Int := (j : Int) - d_left
  let tl : Mat Nat :=
    if j_right < 0 ∨ j_right ≥ (cols : Int) then s.1.set i j 0
    else if |(s.2.px i j_right : Int) - d_left| > 2 then s.1.set i j 0
    else s.1
  let d_right : Int := (s.2.px i j : Int)
  let j_left : Int := (j : Int) + d_right
  let tr : Mat Nat :=
    if j_left < 0 ∨ j_left ≥ (cols : Int) then s.2.set i j 0
    else if |(tl.px i j_left : Int) - d_right| > 2 then s.2.set i j 0
    else s.2
  (tl, tr)

/-- The in-place double loop over all pixels of the `StereoPair` constructor
(`dataset.cpp` lines 28-51), rows outermost. -/
def cross_check (rows cols : Nat) (s : Mat Nat × Mat Nat) : Mat Nat × Mat Nat :=
  forLoop rows (fun i => forLoop cols (fun j => cross_check_pixel cols i j)) s

/-- The left-map postcondition at pixel `(i, j)`: a nonzero disparity `d` points to an
in-range column `j - d` at which the right map agrees with `d` up to 2. -/
def LeftChecked (cols : Nat) (s : Mat Nat × Mat Nat) (i j : Nat) : Prop :=
  s.1.px i j ≠ 0 →
    0 ≤ (j : Int) - (s.1.px i j : Int) ∧ (j : Int) - (s.1.px i j : Int) < (cols : Int) ∧
    |(s.2.px i ((j : Int) - (s.1.px i j : Int)) : Int) - (s.1.px i j : Int)| ≤ 2

/-- The symmetric postcondition for the right map at pixel `(i, j)`, read against the
left map of `t` (which may be a different state than the one holding the right map). -/
def RightChecked (cols : Nat) (s t : Mat Nat × Mat Nat) (i j : Nat) : Prop :=
  s.2.px i j ≠ 0 →
    0 ≤ (j : Int) + (s.2.px i j : Int) ∧ (j : Int) + (s.2.px i j : Int) < (cols : Int) ∧
    |(t.1.px i ((j : Int) + (s.2.px i j : Int)) : Int) - (s.2.px i j : Int)| ≤ 2

instance (cols : Nat) (s : Mat Nat × Mat Nat) (i j : Nat) : Decidable (LeftChecked cols s i j) := by
  unfold LeftChecked; infer_instance

instance (cols : Nat) (s t : Mat Nat × Mat Nat) (i j : Nat) :
    Decidable (RightChecked cols s t i j) := by
  unfold RightChecked; infer_instance

/-! ## Example ground-truth maps -/

/-- A `1 × 4` left ground-truth map whose only nonzero pixel, `5` at column 3, points
out of the image (to column `-2`). -/
def gtLeftStale : Mat Nat :=
  { rows := 1, cols := 4, px := fun i j => if i = 0 ∧ j = 3 then 5 else 0 }

/-- A `1 × 4` right ground-truth map whose only nonzero pixel, `3` at column 0, points
to column 3 of the left map. -/
def gtRightStale : Mat Nat :=
  { rows := 1, cols := 4, px := fun i j => if i = 0 ∧ j = 0 then 3 else 0 }

/-- A `1 × 4` left ground-truth map: disparity 2 at column 3. -/
def gtLeftAgree : Mat Nat :=
  { rows := 1, cols := 4, px := fun i j => if i = 0 ∧ j = 3 then 2 else 0 }

/-- A `1 × 4` right ground-truth map: disparity 2 at column 1, the counterpart of
column 3 of `gtLeftAgree`. -/
def gtRightAgree : Mat Nat :=
  { rows := 1, cols := 4, px := fun i j => if i = 0 ∧ j = 1 then 2 else 0 }

/-! ## OpenCV primitives used by the error metrics

Integer-valued float matrices are exact, so `CV_32FC1` and `double` values are `ℚ`. -/

/-- The comparison `m != 0` on an 8-bit matrix: a mask holding 255 where it is true. -/
def Mat.neZero (m : Mat Nat) : Mat Nat :=
  { m with px := fun i j => if m.px i j ≠ 0 then 255 else 0 }

/-- The comparison `m == 0` on an 8-bit matrix: a mask holding 255 where it is true. -/
def Mat.eqZero (m : Mat Nat) : Mat Nat :=
  { m with px := fun i j => if m.px i j = 0 then 255 else 0 }

/-- The per-pixel bitwise and `a & b` of two masks. -/
def Mat.and (a b : Mat Nat) : Mat Nat :=
  { a with px := fun i j => a.px i j &&& b.px i j }

/-- The counter `cv::countNonZero`. -/
def countNonZero (m : Mat Nat) : Nat :=
  ∑ i ∈ Finset.range m.rows, ∑ j ∈ Finset.range m.cols, if m.px i j ≠ 0 then 1 else 0

/-- The conversion `m.convertTo(out, CV_32FC1)` of an 8-bit matrix. -/
def Mat.toFloat (m : Mat Nat) : Mat ℚ :=
  { rows := m.rows, cols := m.cols, px := fun i j => (m.px i j : ℚ) }

/-- The float matrix difference `a - b`. -/
def Mat.sub (a b : Mat ℚ) : Mat ℚ :=
  { a with px := fun i j => a.px i j - b.px i j }

/-- The difference `a - b` of two 8-bit matrices, which OpenCV saturates to `[0, 255]`:
a pixel where `b` exceeds `a` yields 0. -/
def Mat.subSat (a b : Mat Nat) : Mat Nat :=
  { a with px := fun i j => a.px i j - b.px i j }

/-- The matrix-minus-scalar expression `a - c`. -/
def Mat.subScalar (a : Mat ℚ) (c : ℚ) : Mat ℚ :=
  { a with px := fun i j => a.px i j - c }

/-- The per-pixel product `a.mul(b)`. -/
def Mat.mul (a b : Mat ℚ) : Mat ℚ :=
  { a with px := fun i j => a.px i j * b.px i j }

/-- The power `cv::pow(a, 2, out)`. -/
def Mat.sq (a : Mat ℚ) : Mat ℚ :=
  { a with px := fun i j => a.px i j ^ 2 }

/-- The masked store `m.setTo(v, mask)`: pixels where `mask` is nonzero become `v`. -/
def Mat.setTo (m : Mat ℚ) (v : ℚ) (mask : Mat Nat) : Mat ℚ :=
  { m with px := fun i j => if mask.px i j ≠ 0 then v else m.px i j }

/-- The comparison `abs(m) > thresh`: a mask holding 255 where it is true. -/
def Mat.absGt (m : Mat ℚ) (thresh : Int) : Mat Nat :=
  { rows := m.rows, cols := m.cols, px := fun i j => if |m.px i j| > (thresh : ℚ) then 255 else 0 }

/-- The first channel of `cv::sum(m)`. -/
def Mat.sum (m : Mat ℚ) : ℚ :=
  ∑ i ∈ Finset.range m.rows, ∑ j ∈ Finset.range m.cols, m.px i j

/-- The norm `cv::norm(m, NORM_L2)` of a float matrix, over the given square root. -/
def norm_L2 (sqrt : ℚ → ℚ) (m : Mat ℚ) : ℚ :=
  sqrt (∑ i ∈ Finset.range m.rows, ∑ j ∈ Finset.range m.cols, m.px i j ^ 2)

/-- The norm `cv::norm(m, NORM_L2)` of an 8-bit matrix, over the given square root. -/
def norm_L2_u8 (sqrt : ℚ → ℚ) (m : Mat Nat) : ℚ :=
  sqrt (∑ i ∈ Finset.range m.rows, ∑ j ∈ Finset.range m.cols, (m.px i j : ℚ) ^ 2)

/-- The masked `cv::meanStdDev(m, mean, std, mask)`: with `nz` the number of mask
pixels, `mean = Σ m / nz` and `std = sqrt(max(Σ m² / nz - mean², 0))`, both sums over
the mask (and `mean = 0` when the mask is empty). -/
def meanStdDev (sqrt : ℚ → ℚ) (m : Mat ℚ) (mask : Mat Nat) : ℚ × ℚ :=
  let nz : ℚ := (countNonZero mask : ℚ)
  let s : ℚ := ∑ i ∈ Finset.range m.rows, ∑ j ∈ Finset.range m.cols,
    if mask.px i j ≠ 0 then m.px i j else 0
  let sq : ℚ := ∑ i ∈ Finset.range m.rows, ∑ j ∈ Finset.range m.cols,
    if mask.px i j ≠ 0 then m.px i j ^ 2 else 0
  let mean : ℚ := s / nz
  (mean, sqrt (max (sq / nz - mean * mean) 0))

/-! ## Error metrics (`error-metrics.cpp`) -/

/-- The mask of `ErrorMetrics::get_unoccluded`: pixels unoccluded in both maps. -/
def get_unoccluded (gold_disparity guess_disparity : Mat Nat) : Mat Nat :=
  let gold_unoccluded := gold_disparity.neZero
  let guess_unoccluded := guess_disparity.neZero
  gold_unoccluded.and guess_unoccluded

/-- The triple of `ErrorMetrics::get_unoccluded_diff`: residuals `guess - gold` zeroed
outside the mask, the mask, and the number of mask pixels. -/
def get_unoccluded_diff (gold_disparity guess_disparity : Mat Nat) : Mat ℚ × Mat Nat × Nat :=
  let unoccluded_mask := get_unoccluded gold_disparity guess_disparity
  let num_pixel := countNonZero unoccluded_mask
  let guess_disparity_f := guess_disparity.toFloat
  let gold_disparity_f := gold_disparity.toFloat
  let diff := (guess_disparity_f.sub gold_disparity_f).setTo 0 unoccluded_mask.eqZero
  (diff, unoccluded_mask, num_pixel)

/-- The score of `ErrorMetrics::get_bad_matching_unoccluded`. -/
def get_bad_matching_unoccluded (gold_disparity guess_disparity : Mat Nat) (thresh : Int) : ℚ :=
  let r := get_unoccluded_diff gold_disparity guess_disparity
  let diff := r.1
  let num_pixel := r.2.2
  (countNonZero (diff.absGt thresh) : ℚ) / (num_pixel : ℚ)

/-- The score of `ErrorMetrics::get_rms_error_unoccluded`. -/
def get_rms_error_unoccluded (sqrt : ℚ → ℚ) (gold_disparity guess_disparity : Mat Nat) : ℚ :=
  let r := get_unoccluded_diff gold_disparity guess_disparity
  let diff := r.1
  let num_pixel := r.2.2
  1 / sqrt (num_pixel : ℚ) * norm_L2 sqrt diff

/-- The score of `ErrorMetrics::get_bias_unoccluded`. -/
def get_bias_unoccluded (gold_disparity guess_disparity : Mat Nat) : ℚ :=
  let r := get_unoccluded_diff gold_disparity guess_disparity
  let diff := r.1
  let num_pixel := r.2.2
  diff.sum / (num_pixel : ℚ)

/-- The score of `ErrorMetrics::get_correlation_unoccluded`. -/
def get_correlation_unoccluded (sqrt : ℚ → ℚ) (gold_disparity guess_disparity : Mat Nat) : ℚ :=
  let r := get_unoccluded_diff gold_disparity guess_disparity
  let unoccluded_mask := r.2.1
  let num_pixel := r.2.2
  let guess_disparity_f := guess_disparity.toFloat
  let gold_disparity_f := gold_disparity.toFloat
  let gold := meanStdDev sqrt gold_disparity_f unoccluded_mask
  let guess := meanStdDev sqrt guess_disparity_f unoccluded_mask
  let guess_gold_mul := (guess_disparity_f.mul gold_disparity_f).setTo 0 unoccluded_mask.eqZero
  let num := guess_gold_mul.sum - (num_pixel : ℚ) * guess.1 * gold.1
  let denom := ((num_pixel : ℚ) - 1) * guess.2 * gold.2
  num / denom

/-- The score of `ErrorMetrics::get_r_squared_unoccluded`. -/
def get_r_squared_unoccluded (gold_disparity guess_disparity : Mat Nat) : ℚ :=
  let r := get_unoccluded_diff gold_disparity guess_disparity
  let diff := r.1
  let unoccluded_mask := r.2.1
  let num_pixel := r.2.2
  let mean_diff := gold_disparity.toFloat.setTo 0 unoccluded_mask.eqZero
  let guess_mean := mean_diff.sum / (num_pixel : ℚ)
  let mean_diff := (mean_diff.subScalar guess_mean).setTo 0 unoccluded_mask.eqZero
  let mean_diff_sq := mean_diff.sq
  let diff_sq := diff.sq
  let ss_res := diff_sq.sum
  let ss_tot := mean_diff_sq.sum
  1 - ss_res / ss_tot

/-- The helper `count_and(a, b)`. -/
def count_and (a b : Mat Nat) : Nat :=
  countNonZero (a.and b)

/-- The vector of `ErrorMetrics::get_occlusion_confusion_matrix`. -/
def get_occlusion_confusion_matrix (gold_disparity guess_disparity : Mat Nat) : List Nat :=
  let gold_unoccluded := gold_disparity.neZero
  let gold_occluded := gold_disparity.eqZero
  let guess_unoccluded := guess_disparity.neZero
  let guess_occluded := guess_disparity.eqZero
  [countNonZero (gold_unoccluded.and guess_unoccluded),
   countNonZero (gold_unoccluded.and guess_occluded),
   countNonZero (gold_occluded.and guess_unoccluded),
   countNonZero (gold_occluded.and guess_occluded)]

/-- The score of `ErrorMetrics::get_rms_error_all`; the difference is taken on the 8-bit
matrices themselves. -/
def get_rms_error_all (sqrt : ℚ → ℚ) (gold_disparity guess_disparity : Mat Nat) : ℚ :=
  let num_pixel := gold_disparity.rows * gold_disparity.cols
  let diff := gold_disparity.subSat guess_disparity
  1 / sqrt (num_pixel : ℚ) * norm_L2_u8 sqrt diff

/-! ## The metrics as the specification words them -/

/-- All pixel positions of a `rows × cols` image. -/
def pixels (rows cols : Nat) : Finset (Nat × Nat) :=
  Finset.range rows ×ˢ Finset.range cols

/-- The mutually unoccluded set `U`: pixels nonzero in both `G` and `H`. -/
def unoccludedSet (G H : Mat Nat) : Finset (Nat × Nat) :=
  (pixels G.rows G.cols).filter (fun p => G.px p.1 p.2 ≠ 0 ∧ H.px p.1 p.2 ≠ 0)

/-- The residual `Δ = H - G` at a pixel, candidate minus ground truth. -/
def residual (G H : Mat Nat) (p : Nat × Nat) : ℚ :=
  (H.px p.1 p.2 : ℚ) - (G.px p.1 p.2 : ℚ)

/-- Bad-match rate as specified: the fraction of `U` where `|Δ| > t`. -/
def spec_bad_matching (G H : Mat Nat) (t : Int) : ℚ :=
  (((unoccludedSet G H).filter (fun p => |residual G H p| > (t : ℚ))).card : ℚ)
    / ((unoccludedSet G H).card : ℚ)

/-- Bias as specified: `Σ Δ / n` over `U`. -/
def spec_bias (G H : Mat Nat) : ℚ :=
  (∑ p ∈ unoccludedSet G H, residual G H p) / ((unoccludedSet G H).card : ℚ)

/-- The mean `μ` of the ground truth `G` over `U`. -/
def spec_gold_mean (G H : Mat Nat) : ℚ :=
  (∑ p ∈ unoccludedSet G H, (G.px p.1 p.2 : ℚ)) / ((unoccludedSet G H).card : ℚ)

/-- Residual sum of squares `ss_res = Σ Δ²` over `U`. -/
def spec_ss_res (G H : Mat Nat) : ℚ :=
  ∑ p ∈ unoccludedSet G H, residual G H p ^ 2

/-- Total sum of squares `ss_tot = Σ (G - μ)²` over `U`. -/
def spec_ss_tot (G H : Mat Nat) : ℚ :=
  ∑ p ∈ unoccludedSet G H, ((G.px p.1 p.2 : ℚ) - spec_gold_mean G H) ^ 2

/-- The correlation score as a function of the moments over `U`: `n = |U|`, the sums
`sG`, `sH` of the two maps, the sums `qG`, `qH` of their squares and the sum `sGH` of
their products. -/
def correlation_of_moments (sqrt : ℚ → ℚ) (n sG sH qG qH sGH : ℚ) : ℚ :=
  (sGH - n * (sH / n) * (sG / n))
    / ((n - 1) * sqrt (max (qH / n - sH / n * (sH / n)) 0)
        * sqrt (max (qG / n - sG / n * (sG / n)) 0))

/-- The map `M + c`: every pixel shifted by the integer constant `c`. -/
def translate (M : Mat Nat) (c : Int) : Mat Nat :=
  { M with px := fun i j => ((M.px i j : Int) + c).toNat }

/-- Every pixel of `M + c` stays within the 8-bit range `[0, 255]`. -/
def InByteRange (M : Mat Nat) (c : Int) : Prop :=
  ∀ i, i < M.rows → ∀ j, j < M.cols →
    0 ≤ (M.px i j : Int) + c ∧ (M.px i j : Int) + c ≤ 255

/-- The shift by `c` keeps the mutually unoccluded set: a pixel is nonzero in both `G`
and `H` exactly when it is nonzero in both `G + c` and `H + c`. -/
def KeepsUnoccluded (G H : Mat Nat) (c : Int) : Prop :=
  ∀ i, i < G.rows → ∀ j, j < G.cols →
    ((G.px i j ≠ 0 ∧ H.px i j ≠ 0) ↔ ((G.px i j : Int) + c ≠ 0 ∧ (H.px i j : Int) + c ≠ 0))

instance (M : Mat Nat) (c : Int) : Decidable (InByteRange M c) := by
  unfold InByteRange; infer_instance

instance (G H : Mat Nat) (c : Int) : Decidable (KeepsUnoccluded G H c) := by
  unfold KeepsUnoccluded; infer_instance

/-- Same dimensions. -/
def SameSize (G H : Mat Nat) : Prop :=
  H.rows = G.rows ∧ H.cols = G.cols

instance (G H : Mat Nat) : Decidable (SameSize G H) := by
  unfold SameSize; infer_instance

/-! ## Example disparity maps -/

/-- A one-row 8-bit matrix holding the listed pixel values. -/
def Mat.ofRow (l : List Nat) : Mat Nat :=
  { rows := 1, cols := l.length, px := fun i j => if i = 0 ∧ 0 ≤ j then l.getD j.toNat 0 else 0 }

/-- A five-pixel ground truth with one occluded pixel. -/
def goldFive : Mat Nat := Mat.ofRow [10, 0, 20, 30, 7]

/-- A five-pixel candidate with one occluded pixel; three pixels are mutually unoccluded
with `goldFive`. -/
def guessFive : Mat Nat := Mat.ofRow [12, 5, 0, 30, 1]

/-- A one-pixel ground truth holding 0. -/
def goldZero : Mat Nat := Mat.ofRow [0]

/-- A one-pixel candidate holding 5, above the ground truth `goldZero`. -/
def guessAbove : Mat Nat := Mat.ofRow [5]

/-- A two-pixel ground truth whose first pixel is occluded. -/
def goldShift : Mat Nat := Mat.ofRow [0, 5]

/-- A two-pixel candidate, unoccluded everywhere. -/
def guessShift : Mat Nat := Mat.ofRow [3, 5]

/-- A three-pixel ground truth without occluded pixels. -/
def goldDense : Mat Nat := Mat.ofRow [10, 30, 7]

/-- A three-pixel candidate without occluded pixels. -/
def guessDense : Mat Nat := Mat.ofRow [12, 30, 1]

/-! ## The stereo pair (`stereo-pair.h`) -/

/-- The fields of `StereoPair`: the float RGB images, the ground truth, the solver
outputs, the dimensions and the disparity bounds (the `name` string is left out). -/
structure StereoPair where
  left : Mat (ℚ × ℚ × ℚ)
  right : Mat (ℚ × ℚ × ℚ)
  true_disparity_left : Mat Nat
  true_disparity_right : Mat Nat
  disparity_left : Mat Nat
  disparity_right : Mat Nat
  base_offset : Int
  rows : Nat
  cols : Nat
  min_disparity_left : Int
  max_disparity_left : Int
  min_disparity_right : Int
  max_disparity_right : Int

/-! ## The graph-cut solver (`graph-cut.h`, `graph-cut.cpp`)

Edge weights and hash keys are unbounded integers (no `int` / `long` overflow). The
Boykov-Kolmogorov max-flow routine is a parameter: a function from the solver state
holding the constructed graph to the vertex colour map it leaves behind. -/

/-- The type `boost::default_color_type`. -/
inductive Color where
  | white
  | gray
  | green
  | red
  | black
  deriving DecidableEq

/-- The struct `Correspondence`: left pixel `(x, y)` matched to right pixel `(x + d, y)`. -/
structure Correspondence where
  x : Int
  y : Int
  d : Int
  deriving DecidableEq

/-- A directed edge with its capacity; vertices are their indices. -/
structure Edge where
  src : Nat
  tgt : Nat
  capacity : Int
  deriving DecidableEq

/-- The graph `g`: vertices `0 .. num_vertices - 1` and the edges in insertion order. -/
structure Graph where
  num_vertices : Nat
  edges : List Edge

/-- The state of a `GraphCutDisparity` object. `changed` is the local flag of
`update_correspondences`, which its closures capture by reference. -/
structure GraphCutDisparity where
  pair : StereoPair
  min_disparity : Int
  max_disparity : Int
  g : Graph
  source : Nat
  sink : Nat
  hash_to_graph_index : Int → Nat
  colors : Nat → Color
  Cp : Int
  V_smooth : Int
  left_occlusion_count : Mat Nat
  right_occlusion_count : Mat Nat
  num_iters : Nat
  changed : Bool

/-- The constant `NULL_DISPARITY`. -/
def NULL_DISPARITY : Int := 0

/-- The constant `INT_MAX`. -/
def INT_MAX : Int := 2147483647

/-- The test `GraphCutDisparity::is_active`. -/
def is_active (s : GraphCutDisparity) (c : Correspondence) : Prop :=
  (s.pair.disparity_left.px c.y c.x : Int) = -c.d

instance (s : GraphCutDisparity) (c : Correspondence) : Decidable (is_active s c) := by
  unfold is_active; infer_instance

/-- The key `GraphCutDisparity::correspondence_hash`. -/
def correspondence_hash (s : GraphCutDisparity) (c : Correspondence) : Int :=
  let hash_key : Int := c.x
  let hash_key := hash_key * (s.pair.rows : Int)
  let hash_key := hash_key + c.y
  let hash_key := hash_key * (s.max_disparity - s.min_disparity + 1)
  let hash_key := hash_key + (c.d - s.min_disparity)
  hash_key

/-- The lookup `GraphCutDisparity::get_index` (a missing key reads as 0). -/
def get_index (s : GraphCutDisparity) (c : Correspondence) : Nat :=
  s.hash_to_graph_index (correspondence_hash s c)

/-- The lookup `GraphCutDisparity::get_vertex`; a vertex descriptor is its index. -/
def get_vertex (s : GraphCutDisparity) (c : Correspondence) : Nat :=
  get_index s c

/-- The method `GraphCutDisparity::add_node`. -/
def add_node (c : Correspondence) (s : GraphCutDisparity) : GraphCutDisparity :=
  let idx := s.g.num_vertices
  let hash_key := correspondence_hash s c
  { s with
    g := { s.g with num_vertices := s.g.num_vertices + 1 }
    hash_to_graph_index := fun k => if k = hash_key then idx else s.hash_to_graph_index k }

/-- The method `GraphCutDisparity::add_edge`: an edge and its reverse. -/
def add_edge (c1 c2 : Correspondence) (w_uv w_vu : Int) (s : GraphCutDisparity) :
    GraphCutDisparity :=
  let u := get_vertex s c1
  let v := get_vertex s c2
  { s with g := { s.g with edges := s.g.edges ++ [⟨u, v, w_uv⟩, ⟨v, u, w_vu⟩] } }

/-- The method `GraphCutDisparity::add_source_edge`. -/
def add_source_edge (c : Correspondence) (w : Int) (s : GraphCutDisparity) : GraphCutDisparity :=
  let v := get_vertex s c
  { s with g := { s.g with edges := s.g.edges ++ [⟨s.source, v, w⟩, ⟨v, s.source, 0⟩] } }

/-- The method `GraphCutDisparity::add_sink_edge`. -/
def add_sink_edge (c : Correspondence) (w : Int) (s : GraphCutDisparity) : GraphCutDisparity :=
  let u := get_vertex s c
  { s with g := { s.g with edges := s.g.edges ++ [⟨u, s.sink, w⟩, ⟨s.sink, u, 0⟩] } }

/-- The iterator `GraphCutDisparity::for_each_active`: every pixel whose current stored
disparity is neither null nor `alpha`, in row-major order; `fn` may change the state.
The loop bounds are the pair's dimensions, which no `fn` changes. -/
def for_each_active (fn : Correspondence → GraphCutDisparity → GraphCutDisparity) (alpha : Int)
    (s : GraphCutDisparity) : GraphCutDisparity :=
  forLoop s.pair.rows (fun y => forLoop s.pair.cols (fun x t =>
    let d : Int := -(t.pair.disparity_left.px y x : Int)
    if d ≠ NULL_DISPARITY ∧ d ≠ alpha then fn ⟨x, y, d⟩ t else t)) s

/-- The test `GraphCutDisparity::within_bounds`. -/
def within_bounds (s : GraphCutDisparity) (c : Correspondence) : Prop :=
  c.x ≥ 0 ∧ (c.x + c.d) ≥ 0 ∧ c.y ≥ 0 ∧
  c.x < (s.pair.cols : Int) ∧ (c.x + c.d) < (s.pair.cols : Int) ∧ c.y < (s.pair.rows : Int)

instance (s : GraphCutDisparity) (c : Correspondence) : Decidable (within_bounds s c) := by
  unfold within_bounds; infer_instance

/-- The test `GraphCutDisparity::is_valid`. -/
def is_valid (s : GraphCutDisparity) (c : Correspondence) (alpha : Int) : Prop :=
  within_bounds s c ∧ (is_active s c ∨ c.d = alpha)

instance (s : GraphCutDisparity) (c : Correspondence) (alpha : Int) :
    Decidable (is_valid s c alpha) := by
  unfold is_valid; infer_instance

/-- The iterator `GraphCutDisparity::for_each_alpha`: every valid correspondence of
disparity `alpha`, in row-major order. -/
def for_each_alpha (fn : Correspondence → GraphCutDisparity → GraphCutDisparity) (alpha : Int)
    (s : GraphCutDisparity) : GraphCutDisparity :=
  forLoop s.pair.rows (fun y => forLoop s.pair.cols (fun x t =>
    let c : Correspondence := ⟨x, y, alpha⟩
    if is_valid t c alpha then fn c t else t)) s

/-- The helper `square`. -/
def square (x : Int) : Int := x * x

/-- The cost `GraphCutDisparity::data_cost`: the Euclidean norm of the colour difference,
truncated to an `int`, squared. -/
def data_cost (s : GraphCutDisparity) (c : Correspondence) : Int :=
  let col1 := s.pair.left.px c.y c.x
  let col2 := s.pair.right.px c.y (c.x + c.d)
  let q : ℚ := (col1.1 - col2.1) ^ 2 + (col1.2.1 - col2.2.1) ^ 2 + (col1.2.2 - col2.2.2) ^ 2
  square (Nat.sqrt ⌊q⌋.toNat : Int)

/-- The cost `GraphCutDisparity::occ_cost`. -/
def occ_cost (s : GraphCutDisparity) (c : Correspondence) : Int :=
  let occ_count : Int := 0
  let occ_count := if s.left_occlusion_count.px c.y c.x = 1 then occ_count + 1 else occ_count
  let occ_count :=
    if s.right_occlusion_count.px c.y (c.x + c.d) = 1 then occ_count + 1 else occ_count
  s.Cp * occ_count

/-- The method `GraphCutDisparity::record_occlusion_count`; the counters are 8-bit. -/
def record_occlusion_count (c : Correspondence) (_alpha : Int) (s : GraphCutDisparity) :
    GraphCutDisparity :=
  let l := s.left_occlusion_count.px c.y c.x
  let r := s.right_occlusion_count.px c.y (c.x + c.d)
  { s with
    left_occlusion_count := s.left_occlusion_count.set c.y c.x ((l + 1) % 256)
    right_occlusion_count := s.right_occlusion_count.set c.y (c.x + c.d) ((r + 1) % 256) }

/-- The method `GraphCutDisparity::record_occlusion_counts`. -/
def record_occlusion_counts (alpha : Int) (s : GraphCutDisparity) : GraphCutDisparity :=
  let s := for_each_active (fun c => record_occlusion_count c alpha) alpha s
  for_each_alpha (fun c => record_occlusion_count c alpha) alpha s

/-- The method `GraphCutDisparity::add_alpha_node`. -/
def add_alpha_node (c : Correspondence) (_alpha : Int) (s : GraphCutDisparity) :
    GraphCutDisparity :=
  let source_w := data_cost s c
  let sink_w := occ_cost s c
  let s := add_node c s
  let s := add_source_edge c source_w s
  add_sink_edge c sink_w s

/-- The method `GraphCutDisparity::add_alpha_nodes`. -/
def add_alpha_nodes (alpha : Int) (s : GraphCutDisparity) : GraphCutDisparity :=
  for_each_alpha (fun c => add_alpha_node c alpha) alpha s

/-- The list of `GraphCutDisparity::get_inactive_neighbors`. -/
def get_inactive_neighbors (s : GraphCutDisparity) (c : Correspondence) (alpha : Int) :
    List Correspondence :=
  let offset : List Int := [0, 0, 1, -1]
  (List.range offset.length).filterMap (fun i =>
    let c_tmp : Correspondence :=
      ⟨c.x + offset.getD i 0, c.y + offset.getD (offset.length - 1 - i) 0, c.d⟩
    if within_bounds s c_tmp ∧ ¬ is_valid s c_tmp alpha then some c_tmp else none)

/-- The cost `GraphCutDisparity::smooth_cost`. -/
def smooth_cost (s : GraphCutDisparity) (c : Correspondence) : Int :=
  let neighbors := get_inactive_neighbors s c c.d
  s.V_smooth * (neighbors.length : Int)

/-- The method `GraphCutDisparity::add_active_node`. -/
def add_active_node (c : Correspondence) (_alpha : Int) (s : GraphCutDisparity) :
    GraphCutDisparity :=
  let source_w := occ_cost s c
  let sink_w := data_cost s c + smooth_cost s c
  let s := add_node c s
  let s := add_source_edge c source_w s
  add_sink_edge c sink_w s

/-- The method `GraphCutDisparity::add_active_nodes`. -/
def add_active_nodes (alpha : Int) (s : GraphCutDisparity) : GraphCutDisparity :=
  for_each_active (fun c => add_active_node c alpha) alpha s

/-- The list of `GraphCutDisparity::get_conflicts`. -/
def get_conflicts (s : GraphCutDisparity) (c : Correspondence) (alpha : Int) :
    List Correspondence :=
  if is_active s c ∧ c.d ≠ alpha then
    let c_alpha : Correspondence := ⟨c.x, c.y, alpha⟩
    let conflicts : List Correspondence := if is_valid s c_alpha alpha then [c_alpha] else []
    let c_mapped : Correspondence := ⟨c.x + c.d - alpha, c.y, alpha⟩
    if is_valid s c_mapped alpha then conflicts ++ [c_mapped] else conflicts
  else []

/-- The method `GraphCutDisparity::add_conflict_edges`. -/
def add_conflict_edges (c : Correspondence) (alpha : Int) (s : GraphCutDisparity) :
    GraphCutDisparity :=
  let conflicts := get_conflicts s c alpha
  conflicts.foldl (fun t c_tmp => add_edge c c_tmp INT_MAX t.Cp t) s

/-- The method `GraphCutDisparity::add_all_conflict_edges`. -/
def add_all_conflict_edges (alpha : Int) (s : GraphCutDisparity) : GraphCutDisparity :=
  for_each_active (fun c => add_conflict_edges c alpha) alpha s

/-- The list of `GraphCutDisparity::get_neighbors`. -/
def get_neighbors (s : GraphCutDisparity) (c : Correspondence) (alpha : Int) :
    List Correspondence :=
  let offset : List Int := [0, 0, 1, -1]
  (List.range offset.length).filterMap (fun i =>
    let c_tmp : Correspondence :=
      ⟨c.x + offset.getD i 0, c.y + offset.getD (offset.length - 1 - i) 0, c.d⟩
    if is_valid s c_tmp alpha then some c_tmp else none)

/-- The method `GraphCutDisparity::add_neighbor_edges`. -/
def add_neighbor_edges (c : Correspondence) (alpha : Int) (s : GraphCutDisparity) :
    GraphCutDisparity :=
  let neighbors := get_neighbors s c alpha
  neighbors.foldl (fun t c_tmp =>
    if correspondence_hash t c > correspondence_hash t c_tmp then
      add_edge c c_tmp t.V_smooth t.V_smooth t
    else t) s

/-- The method `GraphCutDisparity::add_all_neighbor_edges`. -/
def add_all_neighbor_edges (alpha : Int) (s : GraphCutDisparity) : GraphCutDisparity :=
  let s := for_each_active (fun c => add_neighbor_edges c alpha) alpha s
  for_each_alpha (fun c => add_neighbor_edges c alpha) alpha s

/-- The method `GraphCutDisparity::initialize_graph`. -/
def initialize_graph (s : GraphCutDisparity) : GraphCutDisparity :=
  { s with
    g := { num_vertices := 2, edges := [] }
    hash_to_graph_index := fun _ => 0
    left_occlusion_count := { s.left_occlusion_count with px := fun _ _ => 0 }
    right_occlusion_count := { s.right_occlusion_count with px := fun _ _ => 0 }
    source := 0
    sink := 1 }

/-- The colour of the node of `c` after the max-flow run. -/
def node_color (s : GraphCutDisparity) (c : Correspondence) : Color :=
  s.colors (get_vertex s c)

/-- The first closure of `update_correspondences`: a previously active correspondence
whose node is not black is deactivated. -/
def update_active (c : Correspondence) (s : GraphCutDisparity) : GraphCutDisparity :=
  if node_color s c = Color.black then s
  else
    { s with
      changed := true
      pair := { s.pair with
        disparity_left := s.pair.disparity_left.set c.y c.x (NULL_DISPARITY % 256).toNat
        disparity_right :=
          s.pair.disparity_right.set c.y (c.x + c.d) (NULL_DISPARITY % 256).toNat } }

/-- The second closure of `update_correspondences`: an `alpha` correspondence is active
afterwards exactly when its node is not black. -/
def update_alpha (c : Correspondence) (s : GraphCutDisparity) : GraphCutDisparity :=
  let was_active : Bool := decide (is_active s c)
  let now_active : Bool := decide (node_color s c ≠ Color.black)
  if now_active ≠ was_active then
    if now_active then
      { s with
        changed := true
        pair := { s.pair with
          disparity_left := s.pair.disparity_left.set c.y c.x ((-c.d) % 256).toNat
          disparity_right := s.pair.disparity_right.set c.y (c.x + c.d) ((-c.d) % 256).toNat } }
    else
      { s with
        changed := true
        pair := { s.pair with
          disparity_left := s.pair.disparity_left.set c.y c.x (NULL_DISPARITY % 256).toNat
          disparity_right :=
            s.pair.disparity_right.set c.y (c.x + c.d) (NULL_DISPARITY % 256).toNat } }
  else s

/-- The method `GraphCutDisparity::update_correspondences`; the returned flag is the
`changed` field of the result. -/
def update_correspondences (alpha : Int) (s : GraphCutDisparity) : GraphCutDisparity :=
  let s := { s with changed := false }
  let s := for_each_active update_active alpha s
  for_each_alpha update_alpha alpha s

/-- The graph construction of `run_alpha_expansion`, up to the max-flow call. -/
def build_graph (alpha : Int) (s : GraphCutDisparity) : GraphCutDisparity :=
  let s := initialize_graph s
  let s := record_occlusion_counts alpha s
  let s := add_active_nodes alpha s
  let s := add_alpha_nodes alpha s
  let s := add_all_conflict_edges alpha s
  add_all_neighbor_edges alpha s

/-- The state after the call `boykov_kolmogorov_max_flow(g, source, sink)` of
`run_alpha_expansion`: the graph is built and `flow` has coloured its vertices. -/
def cut_graph (flow : GraphCutDisparity → Nat → Color) (alpha : Int)
    (s : GraphCutDisparity) : GraphCutDisparity :=
  let s := build_graph alpha s
  { s with colors := flow s }

/-- The method `GraphCutDisparity::run_alpha_expansion`, over the max-flow routine
`flow`; the returned flag is the `changed` field of the result. -/
def run_alpha_expansion (flow : GraphCutDisparity → Nat → Color) (alpha : Int)
    (s : GraphCutDisparity) : GraphCutDisparity :=
  update_correspondences alpha (cut_graph flow alpha s)

/-- The method `GraphCutDisparity::run_iteration`: the labels `min_disparity`, ...,
`max_disparity` in ascending order, each expanded as `-alpha`; returns the state and
the flag `improved`. -/
def run_iteration (flow : GraphCutDisparity → Nat → Color) (s : GraphCutDisparity) :
    GraphCutDisparity × Bool :=
  forLoop (s.max_disparity + 1 - s.min_disparity).toNat (fun k r =>
    let alpha : Int := s.min_disparity + (k : Int)
    let t := run_alpha_expansion flow (-alpha) r.1
    (t, t.changed || r.2)) (s, false)

/-- The state of `GraphCutDisparity::compute` when its iterations start: both maps
all null, the label range derived from the pair's bounds. -/
def compute_init (s : GraphCutDisparity) (pair : StereoPair) : GraphCutDisparity :=
  let pair := { pair with
    disparity_left := { rows := pair.rows, cols := pair.cols,
                        px := fun _ _ => (NULL_DISPARITY % 256).toNat }
    disparity_right := { rows := pair.rows, cols := pair.cols,
                         px := fun _ _ => (NULL_DISPARITY % 256).toNat } }
  let min_disparity :=
    if pair.min_disparity_left < pair.min_disparity_right then pair.min_disparity_left
    else pair.min_disparity_right
  let min_disparity := min_disparity - 2
  let min_disparity := if min_disparity < 1 then 1 else min_disparity
  let max_disparity :=
    if pair.max_disparity_left > pair.max_disparity_right then pair.max_disparity_left
    else pair.max_disparity_right
  let max_disparity := max_disparity + 2
  let max_disparity := if max_disparity > 255 then 255 else max_disparity
  { s with
    pair := pair
    min_disparity := min_disparity
    max_disparity := max_disparity
    left_occlusion_count := { rows := pair.rows, cols := pair.cols, px := fun _ _ => 0 }
    right_occlusion_count := { rows := pair.rows, cols := pair.cols, px := fun _ _ => 0 } }

/-- The method `GraphCutDisparity::compute`. -/
def compute (flow : GraphCutDisparity → Nat → Color) (s : GraphCutDisparity)
    (pair : StereoPair) : GraphCutDisparity :=
  let s := compute_init s pair
  forLoop s.num_iters (fun _ t => (run_iteration flow t).1) s

/-- The constructor `GraphCutDisparity::GraphCutDisparity(_Cp, _V)`; the members it
leaves unset start empty. -/
def GraphCutDisparity.new (pair : StereoPair) (Cp V : Int) : GraphCutDisparity :=
  { pair := pair, min_disparity := 0, max_disparity := 0,
    g := { num_vertices := 0, edges := [] }, source := 0, sink := 0,
    hash_to_graph_index := fun _ => 0, colors := fun _ => Color.white,
    Cp := Cp, V_smooth := V,
    left_occlusion_count := { rows := 0, cols := 0, px := fun _ _ => 0 },
    right_occlusion_count := { rows := 0, cols := 0, px := fun _ _ => 0 },
    num_iters := 2, changed := false }

/-! ## Uniqueness and the predicates of its proof -/

/-- Two distinct columns `x1`, `x2` of row `y` hold nonzero disparities `m1`, `m2` with
`x1 - m1 = x2 - m2`: two active correspondences share the right pixel. -/
def SharesRightPixel (L : Mat Nat) (y x1 x2 : Nat) : Prop :=
  x1 ≠ x2 ∧ L.px y x1 ≠ 0 ∧ L.px y x2 ≠ 0 ∧
    (x1 : Int) - (L.px y x1 : Int) = (x2 : Int) - (L.px y x2 : Int)

instance (L : Mat Nat) (y x1 x2 : Nat) : Decidable (SharesRightPixel L y x1 x2) := by
  unfold SharesRightPixel; infer_instance

/-- Uniqueness in a disparity map: no two active correspondences of the image share a
right pixel (a left pixel holds one disparity, so it is never shared). -/
def Unique (rows cols : Nat) (L : Mat Nat) : Prop :=
  ∀ y, y < rows → ∀ x1, x1 < cols → ∀ x2, x2 < cols → ¬ SharesRightPixel L y x1 x2

instance (rows cols : Nat) (L : Mat Nat) : Decidable (Unique rows cols L) := by
  unfold Unique; infer_instance

/-- The labelling of state `s` cuts no conflict edge of the `alpha` move: no active
correspondence with a black node has a conflicting `alpha` correspondence whose node
is not black. -/
def CutsNoConflictEdge (s : GraphCutDisparity) (alpha : Int) : Prop :=
  ∀ y, y < s.pair.rows → ∀ x, x < s.pair.cols →
    let c : Correspondence := ⟨x, y, -(s.pair.disparity_left.px y x : Int)⟩
    c.d ≠ NULL_DISPARITY → c.d ≠ alpha →
      ∀ c' ∈ get_conflicts s c alpha,
        ¬ (node_color s c = Color.black ∧ node_color s c' ≠ Color.black)

/-- The parts of the solver state that `update_correspondences` reads but never
writes are the same in `s` and `t`: colours, index map, label range, dimensions. -/
def SameGraph (s t : GraphCutDisparity) : Prop :=
  t.colors = s.colors ∧ t.hash_to_graph_index = s.hash_to_graph_index ∧
  t.min_disparity = s.min_disparity ∧ t.max_disparity = s.max_disparity ∧
  t.pair.rows = s.pair.rows ∧ t.pair.cols = s.pair.cols

/-- The parts of the solver state that the graph construction never writes are the
same in `s` and `t`: the pair and the label range. -/
def SamePair (s t : GraphCutDisparity) : Prop :=
  t.pair = s.pair ∧ t.min_disparity = s.min_disparity ∧ t.max_disparity = s.max_disparity

/-- What the first loop of `update_correspondences` does to one pixel of
`disparity_left`, from value `v` to `v1`: it keeps or nulls it, and a value that is
kept and is not `-alpha` belongs to a correspondence whose node is black. -/
def AfterDeactivation (s0 : GraphCutDisparity) (alpha : Int) (y x : Nat) (v v1 : Nat) : Prop :=
  (v1 = v ∨ v1 = 0) ∧
  (v1 ≠ 0 → (v1 : Int) ≠ -alpha → node_color s0 ⟨x, y, -(v : Int)⟩ = Color.black)

/-- What the second loop of `update_correspondences` does to one pixel of
`disparity_left`, from value `v1` to `v'`: it keeps it, nulls it, or stores `-alpha`
for an in-bounds `alpha` correspondence whose node is not black. -/
def AfterActivation (s0 : GraphCutDisparity) (alpha : Int) (y x : Nat) (v1 v' : Nat) : Prop :=
  v' = v1 ∨ v' = 0 ∨
  ((v' : Int) = -alpha ∧ within_bounds s0 ⟨x, y, alpha⟩ ∧
    node_color s0 ⟨x, y, alpha⟩ ≠ Color.black)

/-- The invariant of the graph-cut run started on a pair of the given dimensions: the
state still has these dimensions, its label range lies in `[1, 255]`, and its left
disparity map is unique. -/
def UniqueState (rows cols : Nat) (t : GraphCutDisparity) : Prop :=
  t.pair.rows = rows ∧ t.pair.cols = cols ∧ 1 ≤ t.min_disparity ∧ t.max_disparity ≤ 255 ∧
  Unique rows cols t.pair.disparity_left

/-! ## Example solver inputs -/

/-- A max-flow stand-in that leaves every vertex white: every active correspondence is
deactivated and every `alpha` candidate activated. -/
def flowAllWhite : GraphCutDisparity → Nat → Color := fun _ _ => Color.white

/-- A `1 × 6` pair with black images and ground-truth bounds `[2, 2]` on both sides,
so that the labels are `1, ..., 4`. -/
def pairSmall : StereoPair :=
  { left := { rows := 1, cols := 6, px := fun _ _ => (0, 0, 0) }
    right := { rows := 1, cols := 6, px := fun _ _ => (0, 0, 0) }
    true_disparity_left := { rows := 1, cols := 6, px := fun _ _ => 0 }
    true_disparity_right := { rows := 1, cols := 6, px := fun _ _ => 0 }
    disparity_left := { rows := 1, cols := 6, px := fun _ _ => 0 }
    disparity_right := { rows := 1, cols := 6, px := fun _ _ => 0 }
    base_offset := 0
    rows := 1
    cols := 6
    min_disparity_left := 2
    max_disparity_left := 2
    min_disparity_right := 2
    max_disparity_right := 2 }

/-- A `1 × 7` map that is in-bounds everywhere: its only nonzero pixel, `3` at column
3, points to columns 0 and 6. -/
def gtSelfInBounds : Mat Nat :=
  { rows := 1, cols := 7, px := fun i j => if i = 0 ∧ j = 3 then 3 else 0 }

/-- A `1 × 3` map that is in-bounds everywhere and agrees with itself: disparity 1 at
column 1. -/
def gtSelfAgree : Mat Nat :=
  { rows := 1, cols := 3, px := fun i j => if i = 0 ∧ j = 1 then 1 else 0 }

/-- A `1 × 3` left ground-truth map: disparity 1 at column 2, whose counterpart is
column 1 of the right map. -/
def gtLeftSmallDisp : Mat Nat :=
  { rows := 1, cols := 3, px := fun i j => if i = 0 ∧ j = 2 then 1 else 0 }

/-- A `1 × 3` right ground-truth map: disparity 10 at column 1, which points out of the
image. -/
def gtRightFar : Mat Nat :=
  { rows := 1, cols := 3, px := fun i j => if i = 0 ∧ j = 1 then 10 else 0 }

/-- A `1 × 16` left ground-truth map: disparity 15 at column 15, whose counterpart is
column 0 of the right map. -/
def gtLeftFifteen : Mat Nat :=
  { rows := 1, cols := 16, px := fun i j => if i = 0 ∧ j = 15 then 15 else 0 }

/-- A `1 × 16` right ground-truth map: the counterpart at column 0 reports 20. -/
def gtRightTwenty : Mat Nat :=
  { rows := 1, cols := 16, px := fun i j => if i = 0 ∧ j = 0 then 20 else 0 }

/-- Every disparity of `M` is in-bounds: `0 ≤ x - M[y, x]` and `x + M[y, x] < cols`. -/
def AllInBounds (rows cols : Nat) (M : Mat Nat) : Prop :=
  ∀ y, y < rows → ∀ x, x < cols →
    0 ≤ (x : Int) - (M.px y x : Int) ∧ (x : Int) + (M.px y x : Int) < (cols : Int)

instance (rows cols : Nat) (M : Mat Nat) : Decidable (AllInBounds rows cols M) := by
  unfold AllInBounds; infer_instance

/-- The map `M` agrees with itself: a nonzero disparity `d` at `(y, x)` differs by at
most 2 from the values of `M` at both counterparts `(y, x - d)` and `(y, x + d)`. -/
def SelfAgrees (rows cols : Nat) (M : Mat Nat) : Prop :=
  ∀ y, y < rows → ∀ x, x < cols → M.px y x ≠ 0 →
    |(M.px y ((x : Int) - (M.px y x : Int)) : Int) - (M.px y x : Int)| ≤ 2 ∧
    |(M.px y ((x : Int) + (M.px y x : Int)) : Int) - (M.px y x : Int)| ≤ 2

instance (rows cols : Nat) (M : Mat Nat) : Decidable (SelfAgrees rows cols M) := by
  unfold SelfAgrees; infer_instance

/-- A `1 × 6` pair whose ground-truth bounds are inverted (`min = 100`, `max = 10` on
both sides), so that the derived label range is empty: `d_min = 98 > d_max = 12`. -/
def pairInfeasible : StereoPair :=
  { pairSmall with
    min_disparity_left := 100
    max_disparity_left := 10
    min_disparity_right := 100
    max_disparity_right := 10 }

/-- The stored byte `v` is null or a label of the range `[m, M]`. -/
def InLabelRange (m M : Int) (v : Nat) : Prop :=
  v = 0 ∨ (m ≤ (v : Int) ∧ (v : Int) ≤ M)

/-- The label range of `t` is `[m, M]` and every value of its two disparity maps is
null or a label of that range. -/
def InRangeState (m M : Int) (t : GraphCutDisparity) : Prop :=
  t.min_disparity = m ∧ t.max_disparity = M ∧
  ∀ a b : Int, InLabelRange m M (t.pair.disparity_left.px a b) ∧
    InLabelRange m M (t.pair.disparity_right.px a b)

/-! ## The `StereoPair` constructor (`dataset.cpp`) -/

/-- One step of the scan of `cv::minMaxLoc`: a pixel selected by the mask updates the
running minimum and maximum. -/
def minMaxLoc_step (src mask : Mat Nat) (i j : Nat) (acc : Option (Nat × Nat)) :
    Option (Nat × Nat) :=
  if mask.px i j ≠ 0 then
    match acc with
    | none => some (src.px i j, src.px i j)
    | some (mn, mx) => some (min mn (src.px i j), max mx (src.px i j))
  else acc

/-- The call `cv::minMaxLoc(src, &mn, &mx, NULL, NULL, mask)` on an 8-bit matrix: the
minimum and maximum of `src` over the pixels where `mask` is nonzero, both 0 when the
mask selects no pixel. -/
def minMaxLoc (src mask : Mat Nat) : Int × Int :=
  match forLoop src.rows (fun i => forLoop src.cols (fun j => minMaxLoc_step src mask i j))
      none with
  | none => (0, 0)
  | some (mn, mx) => ((mn : Int), (mx : Int))

/-- The constructor `StereoPair::StereoPair`. Its arguments are the two images as
converted to `CV_32FC3` and the two ground-truth maps as converted to 8-bit gray; the
solver outputs start as empty matrices. -/
def StereoPair.new (_left _right : Mat (ℚ × ℚ × ℚ)) (_true_left _true_right : Mat Nat)
    (_base_offset : Int) : StereoPair :=
  let rows := _left.rows
  let cols := _left.cols
  let gt := cross_check rows cols (_true_left, _true_right)
  let nonzero := gt.1.neZero
  let mnmx_left := minMaxLoc gt.1 nonzero
  let nonzero := gt.2.neZero
  let mnmx_right := minMaxLoc gt.2 nonzero
  { left := _left
    right := _right
    true_disparity_left := gt.1
    true_disparity_right := gt.2
    disparity_left := { rows := 0, cols := 0, px := fun _ _ => 0 }
    disparity_right := { rows := 0, cols := 0, px := fun _ _ => 0 }
    base_offset := _base_offset
    rows := rows
    cols := cols
    min_disparity_left := mnmx_left.1
    max_disparity_left := mnmx_left.2
    min_disparity_right := mnmx_right.1
    max_disparity_right := mnmx_right.2 }

/-- The accumulator `acc` of the `minMaxLoc` scan describes the pixels `P` seen so far:
none of them is selected, or it holds the least and the greatest selected value. -/
def MinMaxOver (src mask : Mat Nat) (P : Nat → Nat → Prop) (acc : Option (Nat × Nat)) : Prop :=
  match acc with
  | none => ∀ i j : Nat, P i j → mask.px i j = 0
  | some (mn, mx) =>
    (∃ i j : Nat, P i j ∧ mask.px i j ≠ 0 ∧ src.px i j = mn) ∧
    (∃ i j : Nat, P i j ∧ mask.px i j ≠ 0 ∧ src.px i j = mx) ∧
    ∀ i j : Nat, P i j → mask.px i j ≠ 0 → mn ≤ src.px i j ∧ src.px i j ≤ mx

/-- The map `M` has a nonzero entry. -/
def HasNonzero (M : Mat Nat) : Prop :=
  ∃ y, y < M.rows ∧ ∃ x, x < M.cols ∧ M.px y x ≠ 0

instance (M : Mat Nat) : Decidable (HasNonzero M) := by
  unfold HasNonzero; infer_instance

/-- The integer `v` is the minimum of the nonzero entries of `M`. -/
def IsMinNonzero (M : Mat Nat) (v : Int) : Prop :=
  (∃ y x : Nat, y < M.rows ∧ x < M.cols ∧ M.px y x ≠ 0 ∧ (M.px y x : Int) = v) ∧
  ∀ y x : Nat, y < M.rows → x < M.cols → M.px y x ≠ 0 → v ≤ (M.px y x : Int)

/-- The integer `v` is the maximum of the nonzero entries of `M`. -/
def IsMaxNonzero (M : Mat Nat) (v : Int) : Prop :=
  (∃ y x : Nat, y < M.rows ∧ x < M.cols ∧ M.px y x ≠ 0 ∧ (M.px y x : Int) = v) ∧
  ∀ y x : Nat, y < M.rows → x < M.cols → M.px y x ≠ 0 → (M.px y x : Int) ≤ v

/-- A black `1 × 4` image. -/
def imageBlack : Mat (ℚ × ℚ × ℚ) :=
  { rows := 1, cols := 4, px := fun _ _ => (0, 0, 0) }

/-! ## The NCC solver (`ncc.h`, `ncc.cpp`)

The image pipeline of `NCCDisparity::disparity` (template, stripe, `filter2D`, `divide`,
`cvtColor`, `minMaxLoc`) is a parameter: the function giving the x-coordinate `maxLoc.x`
of the maximum of the detection signal, from the first column and the width of the
search region. -/

/-- The loop `for (int k = lo; k < hi; k++) s = body(k, s)`. -/
def forRange {σ : Type} (lo hi : Int) (body : Int → σ → σ) (s : σ) : σ :=
  forLoop (hi - lo).toNat (fun k => body (lo + (k : Int))) s

/-- The state of an `NCCDisparity` object. -/
structure NCCDisparity where
  pair : StereoPair
  window_size : Int

/-- The constructor `NCCDisparity::NCCDisparity(_window_size)`; the pair pointer is set
by `compute`. -/
def NCCDisparity.new (pair : StereoPair) (_window_size : Int) : NCCDisparity :=
  { pair := pair, window_size := _window_size }

/-- The search region `(min_j, max_j)` of `NCCDisparity::disparity` after clamping
(`ncc.cpp` lines 59-75); integer division truncates toward zero. -/
def search_region (s : NCCDisparity) (j : Int) (left : Bool) : Int × Int :=
  let r : Int := (s.window_size - 1).tdiv 2
  let min_j : Int :=
    if left then j - s.pair.max_disparity_left - r else j + s.pair.min_disparity_right - r
  let max_j : Int :=
    if left then j - s.pair.min_disparity_left + r else j + s.pair.max_disparity_right + r
  let min_j := if min_j < 0 then 0 else min_j
  let max_j := if max_j < 0 then 0 else max_j
  let min_j := if min_j ≥ (s.pair.cols : Int) then (s.pair.cols : Int) - 1 else min_j
  let max_j := if max_j ≥ (s.pair.cols : Int) then (s.pair.cols : Int) - 1 else max_j
  (min_j, max_j)

/-- The method `NCCDisparity::disparity` for the template centred at column `j`;
`maxLoc_x min_j bounds_width` is the x-coordinate of the maximum of the detection
signal computed on the search region. -/
def NCCDisparity.disparity (s : NCCDisparity) (maxLoc_x : Int → Int → Int) (j : Int)
    (left : Bool) : Int :=
  let r : Int := (s.window_size - 1).tdiv 2
  let min_j := (search_region s j left).1
  let max_j := (search_region s j left).2
  let bounds_width := max_j - min_j + 1
  if bounds_width < s.window_size then 0
  else
    let max_loc_orig := maxLoc_x min_j bounds_width + min_j + r
    if left then j - max_loc_orig else max_loc_orig - j

/-- The body of the double loop of `NCCDisparity::compute` at pixel `(i, j)`: both
disparities are computed and stored as 8-bit values. `locate i j left` is the detection
maximum for the template centred at `(i, j)`. -/
def ncc_pixel (locate : Int → Int → Bool → Int → Int → Int) (i j : Int) (t : NCCDisparity) :
    NCCDisparity :=
  let d_left := t.disparity (locate i j true) j true
  let d_right := t.disparity (locate i j false) j false
  { t with pair := { t.pair with
      disparity_left := t.pair.disparity_left.set i j (d_left % 256).toNat
      disparity_right := t.pair.disparity_right.set i j (d_right % 256).toNat } }

/-- The state of `NCCDisparity::compute` when its loops start: both maps all zero. -/
def NCCDisparity.compute_init (s : NCCDisparity) (pair : StereoPair) : NCCDisparity :=
  { s with pair := { pair with
      disparity_left := { rows := pair.rows, cols := pair.cols, px := fun _ _ => 0 }
      disparity_right := { rows := pair.rows, cols := pair.cols, px := fun _ _ => 0 } } }

/-- The method `NCCDisparity::compute`. -/
def NCCDisparity.compute (locate : Int → Int → Bool → Int → Int → Int) (s : NCCDisparity)
    (pair : StereoPair) : NCCDisparity :=
  let s := s.compute_init pair
  let r : Int := (s.window_size - 1).tdiv 2
  forRange r ((s.pair.rows : Int) - r) (fun i =>
    forRange r ((s.pair.cols : Int) - r) (fun j => ncc_pixel locate i j)) s

/-- The parts of the solver state that `NCCDisparity::disparity` reads are the same in
`s` and `t`: window size, dimensions and disparity bounds. -/
def SameSearch (s t : NCCDisparity) : Prop :=
  t.window_size = s.window_size ∧ t.pair.rows = s.pair.rows ∧ t.pair.cols = s.pair.cols ∧
  t.pair.min_disparity_left = s.pair.min_disparity_left ∧
  t.pair.max_disparity_left = s.pair.max_disparity_left ∧
  t.pair.min_disparity_right = s.pair.min_disparity_right ∧
  t.pair.max_disparity_right = s.pair.max_disparity_right

/-- A `3 × 6` pair with black images and ground-truth bounds `[2, 2]` on both sides. -/
def pairNcc : StereoPair := { pairSmall with rows := 3 }

/-- A detection maximum that is always at the first position of the signal. -/
def locateFirst : Int → Int → Bool → Int → Int → Int := fun _ _ _ _ _ => 0

/-- The lower disparity bound of the searched side: the left bounds when matching a
left-view pixel, the right bounds otherwise. -/
def searched_min (p : StereoPair) (left : Bool) : Int :=
  if left then p.min_disparity_left else p.min_disparity_right

/-- The upper disparity bound of the searched side. -/
def searched_max (p : StereoPair) (left : Bool) : Int :=
  if left then p.max_disparity_left else p.max_disparity_right

/-- The disparity map into which the result of a search is stored: `disparity_left`
for a left-view pixel, `disparity_right` otherwise. -/
def searched_map (p : StereoPair) (left : Bool) : Mat Nat :=
  if left then p.disparity_left else p.disparity_right

/-- The width `max_j - min_j + 1` of the clamped search region. -/
def bounds_width (s : NCCDisparity) (j : Int) (left : Bool) : Int :=
  (search_region s j left).2 - (search_region s j left).1 + 1

/-- Pixel `(i, j)` is visited by the loops of `NCCDisparity::compute`: it lies in
`[r, rows - r) × [r, cols - r)`. -/
def Interior (r : Int) (rows cols : Nat) (i j : Int) : Prop :=
  r ≤ i ∧ i < (rows : Int) - r ∧ r ≤ j ∧ j < (cols : Int) - r

instance (r : Int) (rows cols : Nat) (i j : Int) : Decidable (Interior r rows cols i j) := by
  unfold Interior; infer_instance

/-! ## Resizing a pair (`dataset.cpp`, `StereoPair::resize`) -/

/-- The conversion of a `float` to `int`: truncation toward zero. -/
def float_to_int (q : ℚ) : Int := if 0 ≤ q then ⌊q⌋ else ⌈q⌉

/-- Rounding to the nearest integer, ties to the even one. -/
def round_half_even (x : ℚ) : Int :=
  if x - (⌊x⌋ : ℚ) < 1 / 2 then ⌊x⌋
  else if 1 / 2 < x - (⌊x⌋ : ℚ) then ⌊x⌋ + 1
  else if ⌊x⌋ % 2 = 0 then ⌊x⌋ else ⌊x⌋ + 1

/-- The spacing of the `float` values around `q`: `2 ^ (e - 23)` when
`2 ^ e ≤ |q| < 2 ^ (e + 1)`, and the spacing `2 ^ (-149)` of the subnormal values when
`|q| < 2 ^ (-126)`. -/
def float_spacing (q : ℚ) : ℚ := (2 : ℚ) ^ (max (Int.log 2 |q|) (-126) - 23)

/-- The conversion to `float` (IEEE 754 single precision, round to nearest, ties to
even) of a value below the overflow threshold. -/
def to_float (q : ℚ) : ℚ := (round_half_even (q / float_spacing q) : ℚ) * float_spacing q

/-- The compound assignment `b *= scale` of an `int` bound `b` and a `float` scale: the
bound is converted to `float`, the product is a `float`, and it is converted back to
`int`. -/
def scale_bound (b : Int) (scale : ℚ) : Int :=
  float_to_int (to_float (to_float (b : ℚ) * scale))

/-- The OpenCV routines called by `StereoPair::resize`: `cv::resize` by a scale factor
and to a given size (cubic interpolation), and `cv::multiply` by a scalar. -/
structure ResizeKernel where
  resize_scaled : Mat (ℚ × ℚ × ℚ) → ℚ → Mat (ℚ × ℚ × ℚ)
  resize_image : Mat (ℚ × ℚ × ℚ) → Nat → Nat → Mat (ℚ × ℚ × ℚ)
  resize_map : Mat Nat → Nat → Nat → Mat Nat
  multiply : Mat Nat → ℚ → Mat Nat

/-- The method `StereoPair::resize`; each `int` bound is multiplied by the `float`
scale in `float` arithmetic and converted back to `int` (`scale_bound`). -/
def StereoPair.resize (K : ResizeKernel) (p : StereoPair) (scale : ℚ) : StereoPair :=
  let left := K.resize_scaled p.left scale
  let right := K.resize_image p.right left.rows left.cols
  let true_disparity_left := K.resize_map p.true_disparity_left left.rows left.cols
  let true_disparity_right := K.resize_map p.true_disparity_right left.rows left.cols
  let true_disparity_left := K.multiply true_disparity_left scale
  let true_disparity_right := K.multiply true_disparity_right scale
  { p with
    left := left
    right := right
    true_disparity_left := true_disparity_left
    true_disparity_right := true_disparity_right
    rows := left.rows
    cols := left.cols
    min_disparity_left := scale_bound p.min_disparity_left scale
    max_disparity_left := scale_bound p.max_disparity_left scale
    min_disparity_right := scale_bound p.min_disparity_right scale
    max_disparity_right := scale_bound p.max_disparity_right scale }

/-- A kernel that returns its input unchanged. -/
def kernelId : ResizeKernel :=
  { resize_scaled := fun m _ => m, resize_image := fun m _ _ => m,
    resize_map := fun m _ _ => m, multiply := fun m _ => m }

/-- The pair `pairSmall` with left bounds `[5, 81]` and right bounds `[5, 80]`. -/
def pairOddBound : StereoPair :=
  { pairSmall with min_disparity_left := 5, max_disparity_left := 81,
                   min_disparity_right := 5, max_disparity_right := 80 }

/-- The squared colour error between the left pixel `(y, x)` and the right pixel
`(y, x + d)` of `c`: the sum over the three channels of the squared difference. -/
def squared_colour_error (s : GraphCutDisparity) (c : Correspondence) : ℚ :=
  ((s.pair.left.px c.y c.x).1 - (s.pair.right.px c.y (c.x + c.d)).1) ^ 2
  + ((s.pair.left.px c.y c.x).2.1 - (s.pair.right.px c.y (c.x + c.d)).2.1) ^ 2
  + ((s.pair.left.px c.y c.x).2.2 - (s.pair.right.px c.y (c.x + c.d)).2.2) ^ 2

/-- A `1 × 6` pair whose left image holds the colour `(1, 1, 0)` at column 1 and black
elsewhere, with a black right image. -/
def pairTwoTone : StereoPair :=
  { pairSmall with
    left := { rows := 1, cols := 6,
              px := fun _ x => if x = 1 then (1, 1, 0) else (0, 0, 0) } }

/-- The bound `b'` is the bound `b` times `scale` computed in `float` and converted to
`int`; when the bound and the product are below `2 ^ 24` in magnitude, `b'` lies between
the floor and the ceiling of the product, so it is the product when that is an
integer. -/
def FloatScaled (b : Int) (scale : ℚ) (b' : Int) : Prop :=
  b' = float_to_int (to_float (to_float (b : ℚ) * scale)) ∧
  (|(b : ℚ)| < 2 ^ 24 → |(b : ℚ) * scale| < 2 ^ 24 →
    ⌊(b : ℚ) * scale⌋ ≤ b' ∧ b' ≤ ⌈(b : ℚ) * scale⌉ ∧
    ∀ n : Int, (b : ℚ) * scale = (n : ℚ) → b' = n)

/-- The pair `pairSmall` with left bounds `[10, 20]` and right bounds `[30, 40]`. -/
def pairTens : StereoPair :=
  { pairSmall with min_disparity_left := 10, max_disparity_left := 20,
                   min_disparity_right := 30, max_disparity_right := 40 }

/-- The `float` nearest to `0.7`. -/
def float_seven_tenths : ℚ := 11744051 / 16777216

/-- The correspondences `c` and `c'` share a pixel: the same left pixel `(x, y)` or
the same right pixel `(x + d, y)`. -/
def SharesPixel (c c' : Correspondence) : Prop :=
  c'.y = c.y ∧ (c'.x = c.x ∨ c'.x + c'.d = c.x + c.d)

/-- The two edges stored by a call `add_edge(c1, c2, w_uv, w_vu)` in state `s`. -/
def edge_pair (s : GraphCutDisparity) (c1 c2 : Correspondence) (w_uv w_vu : Int) : List Edge :=
  [⟨get_vertex s c1, get_vertex s c2, w_uv⟩, ⟨get_vertex s c2, get_vertex s c1, w_vu⟩]

/-- A `1 × 6` pair with black images whose left disparity map holds the single active
correspondence `(3, 0, -2)`. -/
def pairOneActive : StereoPair :=
  { pairSmall with
    disparity_left := { rows := 1, cols := 6, px := fun _ x => if x = 3 then 2 else 0 } }

/-- The parts of the state that fix vertex lookups, bounds and costs are the same in
`s` and `t`; only the edge list may differ. -/
def SameButEdges (s t : GraphCutDisparity) : Prop :=
  t.pair = s.pair ∧ t.min_disparity = s.min_disparity ∧ t.max_disparity = s.max_disparity ∧
  t.hash_to_graph_index = s.hash_to_graph_index ∧ t.Cp = s.Cp ∧ t.V_smooth = s.V_smooth ∧
  t.g.num_vertices = s.g.num_vertices ∧ t.source = s.source ∧ t.sink = s.sink ∧
  t.left_occlusion_count = s.left_occlusion_count ∧
  t.right_occlusion_count = s.right_occlusion_count ∧ t.colors = s.colors ∧
  t.num_iters = s.num_iters ∧ t.changed = s.changed

/-- A solver state on `pairOneActive` with label range `[1, 4]`, costs `C_p = 50` and
`V = 10`, and an empty graph. -/
def stateOneActive : GraphCutDisparity :=
  { GraphCutDisparity.new pairOneActive 50 10 with min_disparity := 1, max_disparity := 4 }

/-- The state `stateOneActive` once the nodes of the move `alpha = -1` are added. -/
def stateOneActiveNodes : GraphCutDisparity :=
  add_alpha_nodes (-1) (add_active_nodes (-1) (record_occlusion_counts (-1)
    (initialize_graph stateOneActive)))

/-- The state `stateOneActive` at the point of the move `alpha = -1` where the active
nodes are added: graph initialised, occlusion counts recorded. -/
def stateOneActiveCounted : GraphCutDisparity :=
  record_occlusion_counts (-1) (initialize_graph stateOneActive)

/-- The correspondence `c` lies in the domain of the key of state `s`: its row is a
row of the image and its signed disparity lies in `[-max_disparity, -min_disparity]`. -/
def InKeyDomain (s : GraphCutDisparity) (c : Correspondence) : Prop :=
  0 ≤ c.y ∧ c.y < (s.pair.rows : Int) ∧ -s.max_disparity ≤ c.d ∧ c.d ≤ -s.min_disparity

instance (s : GraphCutDisparity) (c : Correspondence) : Decidable (InKeyDomain s c) := by
  unfold InKeyDomain; infer_instance

/-- The pixels `(y, x)` of a `rows × cols` image in row-major order. -/
def pixel_list (rows cols : Nat) : List (Nat × Nat) :=
  (List.range rows).flatMap (fun y => (List.range cols).map (fun x => (y, x)))

/-- The correspondence that `for_each_active` visits at pixel `p`, if any. -/
def active_at (alpha : Int) (s : GraphCutDisparity) (p : Nat × Nat) : Option Correspondence :=
  let d : Int := -(s.pair.disparity_left.px p.1 p.2 : Int)
  if d ≠ NULL_DISPARITY ∧ d ≠ alpha then some ⟨p.2, p.1, d⟩ else none

/-- The correspondence that `for_each_alpha` visits at pixel `p`, if any. -/
def alpha_at (alpha : Int) (s : GraphCutDisparity) (p : Nat × Nat) : Option Correspondence :=
  if is_valid s ⟨p.2, p.1, alpha⟩ alpha then some ⟨p.2, p.1, alpha⟩ else none

/-- The correspondences that `for_each_active` visits in state `s`, in order. -/
def active_list (alpha : Int) (s : GraphCutDisparity) : List Correspondence :=
  (pixel_list s.pair.rows s.pair.cols).filterMap (active_at alpha s)

/-- The correspondences that `for_each_alpha` visits in state `s`, in order. -/
def alpha_list (alpha : Int) (s : GraphCutDisparity) : List Correspondence :=
  (pixel_list s.pair.rows s.pair.cols).filterMap (alpha_at alpha s)

/-- The step `h` adds the node of its argument: it records the next free vertex index
under the key of the correspondence and leaves the pair and the label range alone. -/
def AddsNode (h : Correspondence → GraphCutDisparity → GraphCutDisparity) : Prop :=
  ∀ c t, (h c t).pair = t.pair ∧ (h c t).min_disparity = t.min_disparity ∧
    (h c t).max_disparity = t.max_disparity ∧
    (h c t).g.num_vertices = t.g.num_vertices + 1 ∧
    (h c t).hash_to_graph_index
      = fun k => if k = correspondence_hash t c then t.g.num_vertices
                 else t.hash_to_graph_index k

/-- The left pixel of `c` is a pixel of the image. -/
def InImage (s : GraphCutDisparity) (c : Correspondence) : Prop :=
  0 ≤ c.y ∧ c.y < (s.pair.rows : Int) ∧ 0 ≤ c.x ∧ c.x < (s.pair.cols : Int)

instance (s : GraphCutDisparity) (c : Correspondence) : Decidable (InImage s c) := by
  unfold InImage; infer_instance

/-- The correspondence `c` is visited by `for_each_active`: it is the active
correspondence of a pixel of the image, not null and not of disparity `alpha`. -/
def ActiveInMove (alpha : Int) (s : GraphCutDisparity) (c : Correspondence) : Prop :=
  InImage s c ∧ is_active s c ∧ c.d ≠ NULL_DISPARITY ∧ c.d ≠ alpha

instance (alpha : Int) (s : GraphCutDisparity) (c : Correspondence) :
    Decidable (ActiveInMove alpha s c) := by
  unfold ActiveInMove; infer_instance

/-- The correspondence `c` is visited by `for_each_alpha`: it has disparity `alpha` and
is within bounds. -/
def AlphaInMove (alpha : Int) (s : GraphCutDisparity) (c : Correspondence) : Prop :=
  c.d = alpha ∧ within_bounds s c

instance (alpha : Int) (s : GraphCutDisparity) (c : Correspondence) :
    Decidable (AlphaInMove alpha s c) := by
  unfold AlphaInMove; infer_instance

/-- The correspondences considered in the move `alpha`: the nodes of its graph. -/
def Considered (alpha : Int) (s : GraphCutDisparity) (c : Correspondence) : Prop :=
  ActiveInMove alpha s c ∨ AlphaInMove alpha s c

instance (alpha : Int) (s : GraphCutDisparity) (c : Correspondence) :
    Decidable (Considered alpha s c) := by
  unfold Considered; infer_instance

/-- The list of the correspondences considered in the move, in the order in which
their nodes are added. -/
def considered_list (alpha : Int) (s : GraphCutDisparity) : List Correspondence :=
  active_list alpha s ++ alpha_list alpha s

/-- The state `t` is the freshly initialised graph of `s` up to its occlusion counts:
two vertices, no edge, no key, and the pair, range and costs of `s`. -/
def FreshGraph (s t : GraphCutDisparity) : Prop :=
  t.pair = s.pair ∧ t.min_disparity = s.min_disparity ∧ t.max_disparity = s.max_disparity ∧
  t.g.num_vertices = 2 ∧ t.g.edges = [] ∧ t.hash_to_graph_index = (fun _ => 0) ∧
  t.source = 0 ∧ t.sink = 1 ∧ t.Cp = s.Cp ∧ t.V_smooth = s.V_smooth

/-- The stored disparities of the image lie in the label range of `s`, and so does
the label expanded by the move `alpha`. -/
def KeyedMove (alpha : Int) (s : GraphCutDisparity) : Prop :=
  (-s.max_disparity ≤ alpha ∧ alpha ≤ -s.min_disparity) ∧
  ∀ y, y < s.pair.rows → ∀ x, x < s.pair.cols →
    InLabelRange s.min_disparity s.max_disparity (s.pair.disparity_left.px (y : Nat) (x : Nat))

instance (alpha : Int) (s : GraphCutDisparity) : Decidable (KeyedMove alpha s) := by
  unfold KeyedMove InLabelRange; infer_instance

/-- The four 4-connected neighbours of `c` with the same disparity, in the order in
which `get_neighbors` and `get_inactive_neighbors` build them. -/
def four_neighbors (c : Correspondence) : List Correspondence :=
  [⟨c.x, c.y - 1, c.d⟩, ⟨c.x, c.y + 1, c.d⟩, ⟨c.x + 1, c.y, c.d⟩, ⟨c.x - 1, c.y, c.d⟩]

/-- The correspondences `c1` and `c2` have the same disparity and their left pixels
differ by one in `x` or by one in `y`. -/
def Adjacent (c1 c2 : Correspondence) : Prop :=
  c1.d = c2.d ∧
  ((c1.y = c2.y ∧ (c2.x = c1.x + 1 ∨ c2.x = c1.x - 1)) ∨
   (c1.x = c2.x ∧ (c2.y = c1.y + 1 ∨ c2.y = c1.y - 1)))

instance (c1 c2 : Correspondence) : Decidable (Adjacent c1 c2) := by
  unfold Adjacent; infer_instance

/-- The calls `add_edge(c, c_tmp, V, V)` that `add_neighbor_edges(c, alpha)` makes in
state `s`, in order, as pairs `(c, c_tmp)`. -/
def neighbor_calls_of (alpha : Int) (s : GraphCutDisparity) (c : Correspondence) :
    List (Correspondence × Correspondence) :=
  ((get_neighbors s c alpha).filter
    (fun c' => decide (correspondence_hash s c > correspondence_hash s c'))).map (fun c' => (c, c'))

/-- The calls of `add_edge` that `add_all_neighbor_edges(alpha)` makes in state `s`, in
order. -/
def neighbor_edge_calls (alpha : Int) (s : GraphCutDisparity) :
    List (Correspondence × Correspondence) :=
  (considered_list alpha s).flatMap (neighbor_calls_of alpha s)

/-- Every active correspondence of the image is within bounds: its right pixel is a
pixel of the image. -/
def ActiveWithinBounds (s : GraphCutDisparity) : Prop :=
  ∀ y, y < s.pair.rows → ∀ x, x < s.pair.cols →
    s.pair.disparity_left.px (y : Nat) (x : Nat) ≠ 0 →
      within_bounds s ⟨(x : Nat), (y : Nat), -(s.pair.disparity_left.px (y : Nat) (x : Nat) : Int)⟩

instance (s : GraphCutDisparity) : Decidable (ActiveWithinBounds s) := by
  unfold ActiveWithinBounds; infer_instance

/-- The value that the first loop of `update_correspondences` leaves at a pixel
`(y, x)` that held `v`: null when `(x, y, -v)` is visited and its node is not black. -/
def deactivated (s : GraphCutDisparity) (alpha : Int) (y x : Nat) (v : Nat) : Nat :=
  if (-(v : Int) ≠ NULL_DISPARITY ∧ -(v : Int) ≠ alpha) ∧
      node_color s ⟨x, y, -(v : Int)⟩ ≠ Color.black then 0 else v

/-- The value that the second loop of `update_correspondences` leaves at a pixel
`(y, x)` that held `v`: for an in-bounds `(x, y, alpha)`, the byte of `-alpha` when its
node is not black, and no `-alpha` when its node is black. -/
def activated (s : GraphCutDisparity) (alpha : Int) (y x : Nat) (v : Nat) : Nat :=
  if within_bounds s ⟨x, y, alpha⟩ then
    if node_color s ⟨x, y, alpha⟩ ≠ Color.black then
      (if (v : Int) = -alpha then v else ((-alpha) % 256).toNat)
    else (if (v : Int) = -alpha then 0 else v)
  else v

/-- A max-flow stand-in that leaves every vertex black: every active correspondence
stays active and no `alpha` candidate is active afterwards. -/
def flowAllBlack : GraphCutDisparity → Nat → Color := fun _ _ => Color.black

/-- The candidate `c` of disparity `alpha` is activated by the move: it is in bounds,
its node is not black, and it was not active before. -/
def ActivatedInMove (alpha : Int) (s : GraphCutDisparity) (c : Correspondence) : Prop :=
  AlphaInMove alpha s c ∧ node_color s c ≠ Color.black ∧ ¬ is_active s c

/-- The state of the move `alpha = -1` on `stateOneActive` after a max-flow run that
leaves every vertex white. -/
def stateAllWhite : GraphCutDisparity := cut_graph flowAllWhite (-1) stateOneActive

/-! ## Cuts, energy and selections of a move -/

/-- The vertex `v` is on the source side of the cut that the colouring `col` describes:
it is the source, or a vertex other than the sink that is coloured black. -/
def on_source_side (s : GraphCutDisparity) (col : Nat → Color) (v : Nat) : Prop :=
  v = s.source ∨ (v ≠ s.sink ∧ col v = Color.black)

instance (s : GraphCutDisparity) (col : Nat → Color) (v : Nat) :
    Decidable (on_source_side s col v) := by
  unfold on_source_side; infer_instance

/-- The edge `e` crosses the cut from the source side to the sink side. -/
def is_cut (s : GraphCutDisparity) (col : Nat → Color) (e : Edge) : Prop :=
  on_source_side s col e.src ∧ ¬ on_source_side s col e.tgt

instance (s : GraphCutDisparity) (col : Nat → Color) (e : Edge) : Decidable (is_cut s col e) := by
  unfold is_cut; infer_instance

/-- The capacity of a list of edges across the cut. -/
def cut_of_edges (s : GraphCutDisparity) (col : Nat → Color) (l : List Edge) : Int :=
  (l.map (fun e => if is_cut s col e then e.capacity else 0)).sum

/-- The value of the cut that the colouring `col` describes in the graph of `s`: the
total capacity of the edges from its source side to its sink side. -/
def cut_value (s : GraphCutDisparity) (col : Nat → Color) : Int :=
  cut_of_edges s col s.g.edges

/-- The colouring `col` describes a minimum cut of the graph of `s`. -/
def IsMinCut (s : GraphCutDisparity) (col : Nat → Color) : Prop :=
  ∀ col' : Nat → Color, cut_value s col ≤ cut_value s col'

/-- All active correspondences of the image, in row-major order. -/
def all_active (s : GraphCutDisparity) : List Correspondence :=
  active_list NULL_DISPARITY s

/-- The data term of the energy: the data cost of every active correspondence. -/
def data_term (s : GraphCutDisparity) : Int :=
  ((all_active s).map (data_cost s)).sum

/-- The number of occluded left pixels: pixels of no active correspondence. -/
def occluded_left (s : GraphCutDisparity) : Nat :=
  (pixel_list s.pair.rows s.pair.cols).countP
    (fun p => decide (s.pair.disparity_left.px p.1 p.2 = 0))

/-- The number of occluded right pixels: pixels `(y, x)` of the right image that are
the right pixel of no active correspondence. -/
def occluded_right (s : GraphCutDisparity) : Nat :=
  (pixel_list s.pair.rows s.pair.cols).countP
    (fun q => decide (∀ c ∈ all_active s, ¬ (c.y = (q.1 : Int) ∧ c.x + c.d = (q.2 : Int))))

/-- The number of pairs of active correspondences of the same disparity whose left
pixels differ by one in `x` or in `y`, each pair counted once. -/
def active_pairs (s : GraphCutDisparity) : Nat :=
  ((all_active s).map (fun c =>
    (([⟨c.x + 1, c.y, c.d⟩, ⟨c.x, c.y + 1, c.d⟩] : List Correspondence).filter
      (fun n => decide (InImage s n ∧ is_active s n))).length)).sum

/-- The number of broken neighbour pairs: an active correspondence together with an
in-bounds 4-neighbour of the same disparity that is not active. -/
def broken_pairs (s : GraphCutDisparity) : Nat :=
  ((all_active s).map (fun c =>
    ((four_neighbors c).filter
      (fun n => decide (within_bounds s n ∧ ¬ is_active s n))).length)).sum

/-- The energy with the smoothness term worded as in the specification: the data cost
of the active correspondences, `C_p` per occluded pixel, `V` per pair of neighbouring
active correspondences of the same disparity. -/
def spec_energy (s : GraphCutDisparity) : Int :=
  data_term s + s.Cp * ((occluded_left s : Int) + (occluded_right s : Int))
    + s.V_smooth * (active_pairs s : Int)

/-- The energy whose smoothness term counts discontinuities: the data cost of the
active correspondences, `C_p` per occluded pixel, `V` per broken neighbour pair. -/
def energy (s : GraphCutDisparity) : Int :=
  data_term s + s.Cp * ((occluded_left s : Int) + (occluded_right s : Int))
    + s.V_smooth * (broken_pairs s : Int)

/-- A `1 × 3` pair with black images, all-null disparity maps and the ground-truth
bounds `[1, 1]` on both sides. -/
def pairThree : StereoPair :=
  { left := { rows := 1, cols := 3, px := fun _ _ => (0, 0, 0) }
    right := { rows := 1, cols := 3, px := fun _ _ => (0, 0, 0) }
    true_disparity_left := { rows := 1, cols := 3, px := fun _ _ => 0 }
    true_disparity_right := { rows := 1, cols := 3, px := fun _ _ => 0 }
    disparity_left := { rows := 1, cols := 3, px := fun _ _ => 0 }
    disparity_right := { rows := 1, cols := 3, px := fun _ _ => 0 }
    base_offset := 0
    rows := 1
    cols := 3
    min_disparity_left := 1
    max_disparity_left := 1
    min_disparity_right := 1
    max_disparity_right := 1 }

/-- The state in which `compute` starts its iterations on `pairThree` with `C_p = 1`
and `V = 10`: all-null maps and the label range `[1, 3]`. -/
def stateThree : GraphCutDisparity :=
  compute_init (GraphCutDisparity.new pairThree 1 10) pairThree

/-- A max-flow stand-in for the run on `pairThree`: every vertex white while the left
pixel `(0, 1)` is null, every vertex black afterwards. -/
def flowThree : GraphCutDisparity → Nat → Color := fun s _ =>
  if s.pair.disparity_left.px 0 1 = 0 then Color.white else Color.black

/-- The four edges stored with the node of `c` when it is added as vertex `i` in
state `s`: an `alpha` node has its data cost on the source edge and its occlusion cost
on the sink edge, an active node the other way round. -/
def node_edges (s : GraphCutDisparity) (alpha : Int) (c : Correspondence) (i : Nat) : List Edge :=
  if c.d = alpha then
    [⟨s.source, i, data_cost s c⟩, ⟨i, s.source, 0⟩, ⟨i, s.sink, occ_cost s c⟩, ⟨s.sink, i, 0⟩]
  else
    [⟨s.source, i, occ_cost s c⟩, ⟨i, s.source, 0⟩, ⟨i, s.sink, data_cost s c⟩, ⟨s.sink, i, 0⟩]

/-- The step that adds the node of a considered correspondence. -/
def add_move_node (alpha : Int) (c : Correspondence) (u : GraphCutDisparity) :
    GraphCutDisparity :=
  if c.d = alpha then add_alpha_node c alpha u else add_active_node c alpha u

/-- The parts of the state that fix the costs are the same in `s` and `t`. -/
def SameCosts (s t : GraphCutDisparity) : Prop :=
  t.pair = s.pair ∧ t.min_disparity = s.min_disparity ∧ t.max_disparity = s.max_disparity ∧
  t.Cp = s.Cp ∧ t.V_smooth = s.V_smooth ∧ t.source = s.source ∧ t.sink = s.sink ∧
  t.left_occlusion_count = s.left_occlusion_count ∧
  t.right_occlusion_count = s.right_occlusion_count

/-- The node of `c` is black under the colouring `col` of the graph of `s`. -/
def black_node (s : GraphCutDisparity) (col : Nat → Color) (c : Correspondence) : Prop :=
  col (get_vertex s c) = Color.black

instance (s : GraphCutDisparity) (col : Nat → Color) (c : Correspondence) :
    Decidable (black_node s col c) := by
  unfold black_node; infer_instance

instance (c c' : Correspondence) : Decidable (SharesPixel c c') := by
  unfold SharesPixel; infer_instance

/-- The number of conflict partners of a considered correspondence `c`: the
correspondences of the other kind (`alpha` candidates for an active one, active ones
for an `alpha` candidate) that share a pixel with it. -/
def partners (alpha : Int) (s : GraphCutDisparity) (c : Correspondence) : Nat :=
  (if c.d = alpha then active_list alpha s else alpha_list alpha s).countP
    (fun c' => decide (SharesPixel c c'))

/-- The energy of a configuration given as a finite set `X` of correspondences, on
the images and costs of `s`: the data cost of its members, `C_p` per pixel of either
image that no member uses, `V` per member and in-bounds 4-neighbour outside `X`. -/
def config_energy (s : GraphCutDisparity) (X : Finset Correspondence) : Int :=
  (∑ c in X, data_cost s c)
    + s.Cp * (2 * ((s.pair.rows * s.pair.cols : Nat) : Int) - 2 * (X.card : Int))
    + s.V_smooth * ∑ c in X,
        (((four_neighbors c).filter
          (fun n => decide (within_bounds s n ∧ n ∉ X))).length : Int)

/-- The right pixel of a correspondence, as a pixel of the image. -/
def right_pixel (c : Correspondence) : Nat × Nat := (c.y.toNat, (c.x + c.d).toNat)

/-- The value of the cut of the graph of a move that selects the considered
correspondences satisfying `sel`: data cost of a selected node, occlusion cost of an
unselected one; per conflict, `INT_MAX` when both ends are selected and `C_p` when
neither is; `V` per neighbour call with exactly one end selected. -/
def graph_cost (alpha : Int) (s : GraphCutDisparity) (sel : Correspondence → Prop)
    [DecidablePred sel] : Int :=
  (∑ c in (considered_list alpha s).toFinset,
      (if sel c then data_cost s c else s.Cp * (2 - (partners alpha s c : Int))))
  + (∑ c in (active_list alpha s).toFinset, ∑ a in (alpha_list alpha s).toFinset,
      (if SharesPixel c a then
        (if sel c ∧ sel a then INT_MAX else 0) + (if ¬ sel c ∧ ¬ sel a then s.Cp else 0)
       else 0))
  + s.V_smooth * (∑ p in (neighbor_edge_calls alpha s).toFinset,
      ((if sel p.1 ∧ ¬ sel p.2 then 1 else 0) + (if sel p.2 ∧ ¬ sel p.1 then 1 else 0)))

/-- The part of the energy that a move cannot change: `C_p` for every pixel of either
image that no considered correspondence uses. -/
def move_constant (alpha : Int) (s : GraphCutDisparity) : Int :=
  s.Cp * (2 * ((s.pair.rows * s.pair.cols : Nat) : Int)
    - 2 * ((considered_list alpha s).toFinset.card : Int)
    + ∑ c in (active_list alpha s).toFinset, ∑ a in (alpha_list alpha s).toFinset,
        (if SharesPixel c a then 1 else 0))

/-- The number of pairs of a selected correspondence and an in-bounds 4-neighbour
that is not considered in the move. -/
def kept_open (alpha : Int) (s : GraphCutDisparity) (sel : Correspondence → Prop)
    [DecidablePred sel] : Int :=
  ∑ c in (considered_list alpha s).toFinset.filter sel,
    (((four_neighbors c).filter
      (fun n => decide (within_bounds s n ∧ ¬ Considered alpha s n))).length : Int)

/-- The considered correspondence `c` is selected by the colouring of `s`: an `alpha`
candidate whose node is not black, or an active correspondence whose node is black. -/
def selected_after (s : GraphCutDisparity) (alpha : Int) (c : Correspondence) : Prop :=
  if c.d = alpha then node_color s c ≠ Color.black else node_color s c = Color.black

instance (s : GraphCutDisparity) (alpha : Int) (c : Correspondence) :
    Decidable (selected_after s alpha c) := by
  unfold selected_after; infer_instance

/-- The images, dimensions, label range and costs are the same in `s` and `t`. -/
def SameImages (s t : GraphCutDisparity) : Prop :=
  t.pair.left = s.pair.left ∧ t.pair.right = s.pair.right ∧ t.pair.rows = s.pair.rows ∧
  t.pair.cols = s.pair.cols ∧ t.Cp = s.Cp ∧ t.V_smooth = s.V_smooth ∧
  t.min_disparity = s.min_disparity ∧ t.max_disparity = s.max_disparity

/-- The state is feasible: its label range lies in `[1, 255]`, every stored disparity
of the image is null or a label of the range, every active correspondence is within
bounds, and no two active correspondences share a right pixel. -/
def Feasible (s : GraphCutDisparity) : Prop :=
  (1 ≤ s.min_disparity ∧ s.max_disparity ≤ 255) ∧
  (∀ y, y < s.pair.rows → ∀ x, x < s.pair.cols →
    InLabelRange s.min_disparity s.max_disparity (s.pair.disparity_left.px (y : Nat) (x : Nat))) ∧
  ActiveWithinBounds s ∧ Unique s.pair.rows s.pair.cols s.pair.disparity_left

instance (s : GraphCutDisparity) : Decidable (Feasible s) := by
  unfold Feasible InLabelRange; infer_instance

/-- The considered correspondence `c` is selected by the colouring `col` of the graph
of `s`: an `alpha` candidate whose node is not black, or an active correspondence
whose node is black. -/
def selected_by (s : GraphCutDisparity) (col : Nat → Color) (alpha : Int)
    (c : Correspondence) : Prop :=
  if c.d = alpha then ¬ black_node s col c else black_node s col c

instance (s : GraphCutDisparity) (col : Nat → Color) (alpha : Int) (c : Correspondence) :
    Decidable (selected_by s col alpha c) := by
  unfold selected_by; infer_instance

/-- The colouring of the graph of a move that describes the current configuration:
the node of every active correspondence black, and the node of an `alpha` candidate
black unless it is active. -/
def keep_coloring (alpha : Int) (s : GraphCutDisparity) : Nat → Color := fun v =>
  match (considered_list alpha s)[v - 2]? with
  | some c => if c.d = alpha ∧ is_active s c then Color.white else Color.black
  | none => Color.white

/-- The labels that `run_iteration` expands in state `s`, in order. -/
def iteration_labels (s : GraphCutDisparity) : List Int :=
  (List.range (s.max_disparity + 1 - s.min_disparity).toNat).map
    (fun k : Nat => s.min_disparity + (k : Int))

/-- In the run of the moves `-d` for the labels `d` of the list, started in state `s`,
the colouring that `flow` returns for each move describes a minimum cut of the graph
of that move, of a value below `INT_MAX`. -/
def MinCutMoves (flow : GraphCutDisparity → Nat → Color) :
    GraphCutDisparity → List Int → Prop
  | _, [] => True
  | s, d :: ds =>
    (IsMinCut (build_graph (-d) s) (flow (build_graph (-d) s)) ∧
      cut_value (build_graph (-d) s) (flow (build_graph (-d) s)) < INT_MAX) ∧
    MinCutMoves flow (run_alpha_expansion flow (-d) s) ds

/-- The states `s` and `t` hold the same values in the columns `0 .. cols - 1` of row
`i` of both maps. -/
def SameRow (cols : Nat) (i : Int) (s t : Mat Nat × Mat Nat) : Prop :=
  ∀ b : Int, 0 ≤ b → b < (cols : Int) → s.1.px i b = t.1.px i b ∧ s.2.px i b = t.2.px i b

/-- A `2 × 4` left ground-truth map: disparity 2 at `(0, 3)` and disparity 1 at
`(1, 2)`. -/
def gtLeftRows : Mat Nat :=
  { rows := 2, cols := 4,
    px := fun i j => if i = 0 ∧ j = 3 then 2 else if i = 1 ∧ j = 2 then 1 else 0 }

/-- A `2 × 4` right ground-truth map: disparity 2 at `(0, 1)` and disparity 1 at
`(1, 1)`. -/
def gtRightRows : Mat Nat :=
  { rows := 2, cols := 4,
    px := fun i j => if i = 0 ∧ j = 1 then 2 else if i = 1 ∧ j = 1 then 1 else 0 }

/-- The map `gtLeftRows` with row 1 replaced: disparity 3 at `(1, 0)`. -/
def gtLeftRowsOther : Mat Nat :=
  { rows := 2, cols := 4,
    px := fun i j => if i = 0 ∧ j = 3 then 2 else if i = 1 ∧ j = 0 then 3 else 0 }

/-- The map `gtRightRows` with row 1 replaced: disparity 2 at `(1, 3)`. -/
def gtRightRowsOther : Mat Nat :=
  { rows := 2, cols := 4,
    px := fun i j => if i = 0 ∧ j = 1 then 2 else if i = 1 ∧ j = 3 then 2 else 0 }

/-- A black `2 × 4` image. -/
def imageBlackRows : Mat (ℚ × ℚ × ℚ) :=
  { rows := 2, cols := 4, px := fun _ _ => (0, 0, 0) }

/-- The two disparity maps of `s` describe the same set of active correspondences: a
nonzero `disparity_left[y, x] = m` has its right pixel `x - m` in the image with
`disparity_right[y, x - m] = m`, and a nonzero `disparity_right[y, x] = m` has its left
pixel `x + m` in the image with `disparity_left[y, x + m] = m`. -/
def Consistent (s : GraphCutDisparity) : Prop :=
  (∀ y, y < s.pair.rows → ∀ x, x < s.pair.cols →
    s.pair.disparity_left.px (y : Nat) (x : Nat) ≠ 0 →
      0 ≤ (x : Int) - (s.pair.disparity_left.px (y : Nat) (x : Nat) : Int) ∧
      s.pair.disparity_right.px (y : Nat)
          ((x : Int) - (s.pair.disparity_left.px (y : Nat) (x : Nat) : Int))
        = s.pair.disparity_left.px (y : Nat) (x : Nat)) ∧
  (∀ y, y < s.pair.rows → ∀ x, x < s.pair.cols →
    s.pair.disparity_right.px (y : Nat) (x : Nat) ≠ 0 →
      (x : Int) + (s.pair.disparity_right.px (y : Nat) (x : Nat) : Int) < (s.pair.cols : Int) ∧
      s.pair.disparity_left.px (y : Nat)
          ((x : Int) + (s.pair.disparity_right.px (y : Nat) (x : Nat) : Int))
        = s.pair.disparity_right.px (y : Nat) (x : Nat))

instance (s : GraphCutDisparity) : Decidable (Consistent s) := by
  unfold Consistent; infer_instance

/-- The invariant of the graph-cut run for the consistency of its maps: the label range
lies in `[1, 255]` and the two maps are consistent. -/
def ConsistentState (t : GraphCutDisparity) : Prop :=
  1 ≤ t.min_disparity ∧ t.max_disparity ≤ 255 ∧ Consistent t

/-! ## The detection pipeline of the NCC solver (`ncc.cpp`)

The image pipeline of `NCCDisparity::disparity` spelled out: views, channels,
`filter2D`, `divide`, `cvtColor`, `minMaxLoc`. Float pixels are `ℚ`. -/

/-- The view `m(cv::Rect(x, y, width, height))`: element `(a, b)` of the view is element
`(y + a, x + b)` of `m`. -/
def Mat.roi {α : Type} (m : Mat α) (x y width height : Int) : Mat α :=
  { rows := height.toNat, cols := width.toNat, px := fun a b => m.px (y + a) (x + b) }

/-- Channel `c` of a three-channel float matrix, as `cv::split` stores it. -/
def Mat.channel (m : Mat (ℚ × ℚ × ℚ)) (c : Nat) : Mat ℚ :=
  { rows := m.rows, cols := m.cols,
    px := fun a b =>
      if c = 0 then (m.px a b).1 else if c = 1 then (m.px a b).2.1 else (m.px a b).2.2 }

/-- The call `cv::merge` on three channels. -/
def merge (c0 c1 c2 : Mat ℚ) : Mat (ℚ × ℚ × ℚ) :=
  { rows := c0.rows, cols := c0.cols, px := fun a b => (c0.px a b, c1.px a b, c2.px a b) }

/-- The index `cv::borderInterpolate(p, len, BORDER_REFLECT_101)`, the default border
of `cv::filter2D`: the matrix is mirrored about its first and last elements. -/
def reflect101 (p : Int) (len : Nat) : Int :=
  if len ≤ 1 then 0
  else
    let period : Int := 2 * (len : Int) - 2
    let q : Int := p % period
    if q < (len : Int) then q else period - q

/-- The call `cv::filter2D(src, dst, -1, kernel)`: the correlation of `src` with
`kernel`, anchored at the kernel centre (the default anchor `(-1, -1)`), of the size of
`src`; `border p len` is the index that stands for index `p` of a dimension of length
`len`. -/
def filter2D (border : Int → Nat → Int) (src kernel : Mat ℚ) : Mat ℚ :=
  { rows := src.rows, cols := src.cols,
    px := fun y x =>
      ∑ a ∈ Finset.range kernel.rows, ∑ b ∈ Finset.range kernel.cols,
        kernel.px a b *
          src.px (border (y + (a : Int) - ((kernel.rows / 2 : Nat) : Int)) src.rows)
            (border (x + (b : Int) - ((kernel.cols / 2 : Nat) : Int)) src.cols) }

/-- The call `cv::divide(a, b, dst)` on three-channel float matrices, element by
element; a zero divisor gives 0. -/
def divide (a b : Mat (ℚ × ℚ × ℚ)) : Mat (ℚ × ℚ × ℚ) :=
  { a with px := fun i j =>
      ((a.px i j).1 / (b.px i j).1, (a.px i j).2.1 / (b.px i j).2.1,
        (a.px i j).2.2 / (b.px i j).2.2) }

/-- The grey value of `CV_BGR2GRAY` for a float pixel. -/
def gray (p : ℚ × ℚ × ℚ) : ℚ :=
  114 / 1000 * p.1 + 587 / 1000 * p.2.1 + 299 / 1000 * p.2.2

/-- The call `cv::cvtColor(m, out, CV_BGR2GRAY)` on a float matrix. -/
def cvtColor_BGR2GRAY (m : Mat (ℚ × ℚ × ℚ)) : Mat ℚ :=
  { rows := m.rows, cols := m.cols, px := fun i j => gray (m.px i j) }

/-- One step of the scan of `cv::minMaxLoc` for the maximum of a float matrix: a pixel
strictly above the running maximum replaces it. -/
def maxLoc_step (src : Mat ℚ) (i j : Nat) (acc : Option (ℚ × Int × Int)) :
    Option (ℚ × Int × Int) :=
  match acc with
  | none => some (src.px i j, (j : Int), (i : Int))
  | some (mx, x, y) => if src.px i j > mx then some (src.px i j, (j : Int), (i : Int))
      else some (mx, x, y)

/-- The point `maxLoc = (x, y)` of `cv::minMaxLoc(src, NULL, NULL, NULL, &maxLoc)`: the
first maximum in row-major order, and `(-1, -1)` for an empty matrix. -/
def maxLoc (src : Mat ℚ) : Int × Int :=
  match forLoop src.rows (fun i => forLoop src.cols (fun j => maxLoc_step src i j)) none with
  | none => (-1, -1)
  | some (_, x, y) => (x, y)

/-- One channel of `cv::mean(m)`. -/
def Mat.mean (m : Mat ℚ) : ℚ :=
  (∑ i ∈ Finset.range m.rows, ∑ j ∈ Finset.range m.cols, m.px i j) /
    ((m.rows : ℚ) * (m.cols : ℚ))

/-- The method `NCCDisparity::get_template`: the window of side `window_size` centred at
`(i, j)`, minus its mean in every channel. -/
def NCCDisparity.get_template (s : NCCDisparity) (i j : Int) (left : Bool) :
    Mat (ℚ × ℚ × ℚ) :=
  let r : Int := (s.window_size - 1).tdiv 2
  let min_i := i - r
  let min_j := j - r
  let t := (if left then s.pair.left else s.pair.right).roi min_j min_i
    s.window_size s.window_size
  { t with px := fun a b =>
      ((t.px a b).1 - (t.channel 0).mean, (t.px a b).2.1 - (t.channel 1).mean,
        (t.px a b).2.2 - (t.channel 2).mean) }

/-- The method `NCCDisparity::get_row`: the stripe of height `window_size` centred at
row `i`. -/
def NCCDisparity.get_row (s : NCCDisparity) (i : Int) (im : Mat (ℚ × ℚ × ℚ)) :
    Mat (ℚ × ℚ × ℚ) :=
  let r : Int := (s.window_size - 1).tdiv 2
  let min_i := i - r
  im.roi 0 min_i s.pair.cols s.window_size

/-- The detection signal of `NCCDisparity::disparity` (`ncc.cpp` lines 83-118) on the
search region that starts at column `min_j` and is `bounds_width` wide: stripe and
magnitude are cropped, each channel is correlated with the template, the centre row of
the result is cut out at `cv::Rect(0, r, bounds_width - window_size + 1, 1)`, divided by
the same cut of the magnitude and converted to grey. -/
def NCCDisparity.detections (border : Int → Nat → Int) (s : NCCDisparity)
    (t row magnitude : Mat (ℚ × ℚ × ℚ)) (min_j bounds_width : Int) : Mat ℚ :=
  let r : Int := (s.window_size - 1).tdiv 2
  let row := row.roi min_j 0 bounds_width s.window_size
  let magnitude := magnitude.roi min_j 0 bounds_width s.window_size
  let detections := merge (filter2D border (row.channel 0) (t.channel 0))
    (filter2D border (row.channel 1) (t.channel 1))
    (filter2D border (row.channel 2) (t.channel 2))
  let detections := detections.roi 0 r (bounds_width - s.window_size + 1) 1
  let detections := divide detections
    (magnitude.roi 0 r (bounds_width - s.window_size + 1) 1)
  cvtColor_BGR2GRAY detections

/-- The call `disparity(t, row, magnitude, j, left)` with its image pipeline spelled
out: `maxLoc.x` is the first maximum of the detection signal. -/
def NCCDisparity.disparity_call (border : Int → Nat → Int) (s : NCCDisparity)
    (t row magnitude : Mat (ℚ × ℚ × ℚ)) (j : Int) (left : Bool) : Int :=
  s.disparity
    (fun min_j bounds_width => (maxLoc (s.detections border t row magnitude min_j bounds_width)).1)
    j left

/-- The normalised correlation of the template `t` centred on column `col` of the
full-width stripe `row`: element `(a, b)` of the template lies over the stripe pixel
`(a, col - r + b)`, so that the centre element `(r, r)` lies over column `col`; each
channel is divided by the magnitude at column `col` of the centre row, and the result is
converted to grey. -/
def window_score (window_size : Int) (t row magnitude : Mat (ℚ × ℚ × ℚ)) (col : Int) : ℚ :=
  let r : Int := (window_size - 1).tdiv 2
  let corr : Nat → ℚ := fun c =>
    ∑ a ∈ Finset.range window_size.toNat, ∑ b ∈ Finset.range window_size.toNat,
      (t.channel c).px a b * (row.channel c).px a (col - r + (b : Int))
  gray (corr 0 / (magnitude.px r col).1, corr 1 / (magnitude.px r col).2.1,
    corr 2 / (magnitude.px r col).2.2)

/-- A `3 × 8` pair whose views show the same two grey pixels at disparity 2: values 1
and 2 at columns 4 and 5 of row 1 on the left, and at columns 2 and 3 of row 1 on the
right; the left bounds are `[1, 2]`. -/
def pairShift : StereoPair :=
  { pairSmall with
    left := { rows := 3, cols := 8, px := fun i j =>
      if i = 1 ∧ j = 4 then (1, 1, 1) else if i = 1 ∧ j = 5 then (2, 2, 2) else (0, 0, 0) }
    right := { rows := 3, cols := 8, px := fun i j =>
      if i = 1 ∧ j = 2 then (1, 1, 1) else if i = 1 ∧ j = 3 then (2, 2, 2) else (0, 0, 0) }
    rows := 3
    cols := 8
    min_disparity_left := 1
    max_disparity_left := 2
    min_disparity_right := 1
    max_disparity_right := 2 }

/-- The disparity that the specification attaches to the call
`disparity(t, row, magnitude, j, left)`: 0 when the search region is narrower than the
window, and otherwise `j - match_x` for a left template and `match_x - j` for a right
one, where `match_x = min_j + maxLoc.x` is the full-image column on which the template
is centred for the maximal detection value. -/
def centred_match_disparity (border : Int → Nat → Int) (s : NCCDisparity)
    (t row magnitude : Mat (ℚ × ℚ × ℚ)) (j : Int) (left : Bool) : Int :=
  let min_j := (search_region s j left).1
  let bounds_width := bounds_width s j left
  if bounds_width < s.window_size then 0
  else
    let match_x := min_j + (maxLoc (s.detections border t row magnitude min_j bounds_width)).1
    if left then j - match_x else match_x - j

/-- The template of the example: the window of the left view of `pairShift` centred at
`(1, 5)`, for `window_size = 3`. -/
def templateShift : Mat (ℚ × ℚ × ℚ) := (NCCDisparity.new pairShift 3).get_template 1 5 true

/-- The stripe of the example: rows 0 to 2 of the right view of `pairShift`. -/
def rowShift : Mat (ℚ × ℚ × ℚ) := (NCCDisparity.new pairShift 3).get_row 1 pairShift.right

/-! ## Runs of `compute` and an example run with minimum cuts -/

/-- The labelling of `s` cuts no conflict edge of the correspondence stored at the
pixel `(y, x)`. -/
def CutsNoConflictEdgeAt (s : GraphCutDisparity) (alpha : Int) (y x : Nat) : Prop :=
  -(s.pair.disparity_left.px y x : Int) ≠ NULL_DISPARITY →
  -(s.pair.disparity_left.px y x : Int) ≠ alpha →
    ∀ c' ∈ get_conflicts s ⟨x, y, -(s.pair.disparity_left.px y x : Int)⟩ alpha,
      ¬ (node_color s ⟨x, y, -(s.pair.disparity_left.px y x : Int)⟩ = Color.black ∧
        node_color s c' ≠ Color.black)

instance (s : GraphCutDisparity) (alpha : Int) (y x : Nat) :
    Decidable (CutsNoConflictEdgeAt s alpha y x) := by
  unfold CutsNoConflictEdgeAt; infer_instance

instance (s : GraphCutDisparity) (alpha : Int) : Decidable (CutsNoConflictEdge s alpha) :=
  inferInstanceAs (Decidable (∀ y, y < s.pair.rows → ∀ x, x < s.pair.cols →
    CutsNoConflictEdgeAt s alpha y x))

/-- In the run of the moves `-d` for the labels `d` of the list, started in state `s`,
the colouring that `flow` returns for each move cuts no conflict edge of that move. -/
def ConflictFreeMoves (flow : GraphCutDisparity → Nat → Color) :
    GraphCutDisparity → List Int → Prop
  | _, [] => True
  | s, d :: ds =>
    CutsNoConflictEdge (cut_graph flow (-d) s) (-d) ∧
    ConflictFreeMoves flow (run_alpha_expansion flow (-d) s) ds

/-- In the run of `n` iterations started in state `s`, the colouring that `flow`
returns for each move cuts no conflict edge of that move. -/
def ConflictFreeRun (flow : GraphCutDisparity → Nat → Color) :
    GraphCutDisparity → Nat → Prop
  | _, 0 => True
  | s, n + 1 =>
    ConflictFreeMoves flow s (iteration_labels s) ∧
    ConflictFreeRun flow (run_iteration flow s).1 n

/-- The state of the run started in `s` after `n` full iterations and the first `k`
moves of the next one. -/
def run_state (flow : GraphCutDisparity → Nat → Color) (s : GraphCutDisparity)
    (n k : Nat) : GraphCutDisparity :=
  let t := forLoop n (fun _ u => (run_iteration flow u).1) s
  ((iteration_labels t).take k).foldl (fun u d => run_alpha_expansion flow (-d) u) t

/-- The total capacity of the edges from `u` to `v` in the graph of `s`. -/
def terminal_capacity (s : GraphCutDisparity) (u v : Nat) : Int :=
  ((s.g.edges.filter (fun e => e.src = u ∧ e.tgt = v)).map (fun e => e.capacity)).sum

/-- A max-flow stand-in that looks at the terminal edges only: a vertex is black when
its edge from the source has at least the capacity of its edge to the sink. -/
def flowTerminal : GraphCutDisparity → Nat → Color := fun s v =>
  if terminal_capacity s s.source v ≥ terminal_capacity s v s.sink then Color.black
  else Color.white

/-- A `1 × 4` pair with ground-truth bounds `[1, 1]` whose left pixels 1 and 3 have the
colours of the right pixels 0 and 1: the matches are `(1, 0, -1)` and `(3, 0, -2)`. -/
def pairFour : StereoPair :=
  { left := { rows := 1, cols := 4, px := fun _ x =>
      if x = 1 then (2, 0, 0) else if x = 2 then (6, 0, 0) else if x = 3 then (4, 0, 0)
      else (0, 0, 0) }
    right := { rows := 1, cols := 4, px := fun _ x =>
      if x = 0 then (2, 0, 0) else if x = 1 then (4, 0, 0) else if x = 2 then (8, 0, 0)
      else (10, 0, 0) }
    true_disparity_left := { rows := 1, cols := 4, px := fun _ _ => 0 }
    true_disparity_right := { rows := 1, cols := 4, px := fun _ _ => 0 }
    disparity_left := { rows := 1, cols := 4, px := fun _ _ => 0 }
    disparity_right := { rows := 1, cols := 4, px := fun _ _ => 0 }
    base_offset := 0
    rows := 1
    cols := 4
    min_disparity_left := 1
    max_disparity_left := 1
    min_disparity_right := 1
    max_disparity_right := 1 }

/-- The state in which `compute` starts its iterations on `pairFour` with `C_p = 1` and
`V = 1`: all-null maps, the label range `[1, 3]` and two iterations to run. -/
def stateFour : GraphCutDisparity :=
  compute_init (GraphCutDisparity.new pairFour 1 1) pairFour

/-- The state of the run of `compute` on `pairFour` with the colourings of
`flowTerminal` after its first `k` moves; the six moves expand the labels
`1, 2, 3, 1, 2, 3`. -/
def stateFourAfter (k : Nat) : GraphCutDisparity :=
  (([1, 2, 3, 1, 2, 3] : List Int).take k).foldl
    (fun u d => run_alpha_expansion flowTerminal (-d) u) stateFour

instance (flow : GraphCutDisparity → Nat → Color) :
    (s : GraphCutDisparity) → (l : List Int) → Decidable (ConflictFreeMoves flow s l)
  | _, [] => isTrue trivial
  | s, d :: ds =>
    have := instDecidableConflictFreeMoves flow (run_alpha_expansion flow (-d) s) ds
    inferInstanceAs (Decidable (CutsNoConflictEdge (cut_graph flow (-d) s) (-d) ∧
      ConflictFreeMoves flow (run_alpha_expansion flow (-d) s) ds))

/-- The graph of the first move of the run on `pairFour`: three `alpha = -1`
candidates. -/
def edgesFourFirst : List Edge :=
  [⟨0, 2, 0⟩, ⟨2, 0, 0⟩, ⟨2, 1, 2⟩, ⟨1, 2, 0⟩, ⟨0, 3, 4⟩, ⟨3, 0, 0⟩, ⟨3, 1, 2⟩, ⟨1, 3, 0⟩,
   ⟨0, 4, 16⟩, ⟨4, 0, 0⟩, ⟨4, 1, 2⟩, ⟨1, 4, 0⟩, ⟨3, 2, 1⟩, ⟨2, 3, 1⟩, ⟨4, 3, 1⟩, ⟨3, 4, 1⟩]

/-- The graph of the moves `alpha = -2` of the run on `pairFour`: the active
`(1, 0, -1)` as vertex 2 and the candidates `(2, 0, -2)`, `(3, 0, -2)` as vertices 3
and 4, with the conflict edge from vertex 2 to vertex 3. -/
def edgesFourSecond : List Edge :=
  [⟨0, 2, 1⟩, ⟨2, 0, 0⟩, ⟨2, 1, 0⟩, ⟨1, 2, 0⟩, ⟨0, 3, 16⟩, ⟨3, 0, 0⟩, ⟨3, 1, 1⟩, ⟨1, 3, 0⟩,
   ⟨0, 4, 0⟩, ⟨4, 0, 0⟩, ⟨4, 1, 2⟩, ⟨1, 4, 0⟩, ⟨2, 3, 2147483647⟩, ⟨3, 2, 1⟩, ⟨4, 3, 1⟩,
   ⟨3, 4, 1⟩]

/-- The graph of the moves `alpha = -3` of the run on `pairFour`: the active
`(1, 0, -1)` and `(3, 0, -2)` as vertices 2 and 3 and the candidate `(3, 0, -3)` as
vertex 4, in conflict with both. -/
def edgesFourThird : List Edge :=
  [⟨0, 2, 1⟩, ⟨2, 0, 0⟩, ⟨2, 1, 0⟩, ⟨1, 2, 0⟩, ⟨0, 3, 1⟩, ⟨3, 0, 0⟩, ⟨3, 1, 0⟩, ⟨1, 3, 0⟩,
   ⟨0, 4, 4⟩, ⟨4, 0, 0⟩, ⟨4, 1, 0⟩, ⟨1, 4, 0⟩, ⟨2, 4, 2147483647⟩, ⟨4, 2, 1⟩,
   ⟨3, 4, 2147483647⟩, ⟨4, 3, 1⟩]

/-- The graph of the move `alpha = -1` of the second iteration of the run on
`pairFour`: the active `(3, 0, -2)` as vertex 2 and the candidates `(1, 0, -1)`,
`(2, 0, -1)`, `(3, 0, -1)` as vertices 3, 4 and 5. -/
def edgesFourFourth : List Edge :=
  [⟨0, 2, 0⟩, ⟨2, 0, 0⟩, ⟨2, 1, 0⟩, ⟨1, 2, 0⟩, ⟨0, 3, 0⟩, ⟨3, 0, 0⟩, ⟨3, 1, 2⟩, ⟨1, 3, 0⟩,
   ⟨0, 4, 4⟩, ⟨4, 0, 0⟩, ⟨4, 1, 1⟩, ⟨1, 4, 0⟩, ⟨0, 5, 16⟩, ⟨5, 0, 0⟩, ⟨5, 1, 1⟩, ⟨1, 5, 0⟩,
   ⟨2, 5, 2147483647⟩, ⟨5, 2, 1⟩, ⟨2, 4, 2147483647⟩, ⟨4, 2, 1⟩, ⟨4, 3, 1⟩, ⟨3, 4, 1⟩,
   ⟨5, 4, 1⟩, ⟨4, 5, 1⟩]

/-- The graph of state `s` has the terminals 0 and 1 and the edge list `l`. -/
def HasEdges (s : GraphCutDisparity) (l : List Edge) : Prop :=
  s.source = 0 ∧ s.sink = 1 ∧ s.g.edges = l

instance (s : GraphCutDisparity) (l : List Edge) : Decidable (HasEdges s l) := by
  unfold HasEdges; infer_instance

/-! ## Loop rules -/

theorem forLoop_zero {σ : Type} (body : Nat → σ → σ) (s : σ) : forLoop 0 body s = s := rfl

theorem forLoop_succ {σ : Type} (n : Nat) (body : Nat → σ → σ) (s : σ) :
    forLoop (n + 1) body s = body n (forLoop n body s) := by
  simp [forLoop, List.range_succ, List.foldl_append]

/-- Invariant rule for `forLoop`: an invariant indexed by the number of completed
iterations that holds initially and is preserved by each iteration holds at exit. -/
theorem forLoop_inv {σ : Type} (I : Nat → σ → Prop) (n : Nat) (body : Nat → σ → σ) (s : σ)
    (h0 : I 0 s) (hstep : ∀ k, k < n → ∀ t, I k t → I (k + 1) (body k t)) :
    I n (forLoop n body s) := by
  induction n with
  | zero => simpa [forLoop_zero] using h0
  | succ m ih =>
    rw [forLoop_succ]
    exact hstep m (Nat.lt_succ_self m) _
      (ih (fun k hk t ht => hstep k (Nat.lt_succ_of_lt hk) t ht))

/-- Rule for a row-major double loop whose body at `(y, x)` changes the observed map
`get` only at `(y, x)`: at exit every pixel of the image is related by `R` to its value
at entry, provided the body relates the old and new value of its own pixel and keeps
the side condition `Env`. -/
theorem forPixels_rel {σ β : Type} (rows cols : Nat) (body : Nat → Nat → σ → σ)
    (get : σ → Int → Int → β) (Env : σ → Prop) (R : Nat → Nat → β → β → Prop)
    (hEnv : ∀ y x t, Env t → Env (body y x t))
    (hat : ∀ y x t, Env t → R y x (get t y x) (get (body y x t) y x))
    (hframe : ∀ (y x : Nat) t (a b : Int), Env t → (a ≠ (y : Int) ∨ b ≠ (x : Int)) →
      get (body y x t) a b = get t a b)
    (s : σ) (hs : Env s) :
    Env (forLoop rows (fun y => forLoop cols (fun x => body y x)) s) ∧
    ∀ y x : Nat, y < rows → x < cols →
      R y x (get s y x) (get (forLoop rows (fun y => forLoop cols (fun x => body y x)) s) y x) := by
  have inner : ∀ (y : Nat) (t : σ),
      (Env t ∧
        (∀ y' x' : Nat, y' < y → x' < cols → R y' x' (get s y' x') (get t y' x')) ∧
        (∀ y' x' : Nat, y ≤ y' → get t y' x' = get s y' x')) →
      (Env (forLoop cols (fun x => body y x) t) ∧
        (∀ y' x' : Nat, y' < y + 1 → x' < cols →
          R y' x' (get s y' x') (get (forLoop cols (fun x => body y x) t) y' x')) ∧
        (∀ y' x' : Nat, y + 1 ≤ y' →
          get (forLoop cols (fun x => body y x) t) y' x' = get s y' x')) := by
    intro y t ht
    obtain ⟨hE, hP, hU⟩ := ht
    have key := forLoop_inv
      (fun m u => Env u ∧
        (∀ y' x' : Nat, ((y' < y ∧ x' < cols) ∨ (y' = y ∧ x' < m)) →
          R y' x' (get s y' x') (get u y' x')) ∧
        (∀ y' x' : Nat, (y < y' ∨ (y' = y ∧ m ≤ x')) → get u y' x' = get s y' x'))
      cols (fun x => body y x) t
      (by
        refine ⟨hE, ?_, ?_⟩
        · intro y' x' h
          rcases h with ⟨h1, h2⟩ | ⟨_, h2⟩
          · exact hP y' x' h1 h2
          · omega
        · intro y' x' h
          exact hU y' x' (by omega))
      (by
        intro m _ u hu
        obtain ⟨hE', hP', hU'⟩ := hu
        refine ⟨hEnv y m u hE', ?_, ?_⟩
        · intro y' x' h
          by_cases hp : y' = y ∧ x' = m
          · obtain ⟨rfl, rfl⟩ := hp
            have := hat y' x' u hE'
            rw [hU' y' x' (Or.inr ⟨rfl, le_refl _⟩)] at this
            exact this
          · rw [hframe y m u _ _ hE' (by omega)]
            exact hP' y' x' (by omega)
        · intro y' x' h
          rw [hframe y m u _ _ hE' (by omega)]
          exact hU' y' x' (by omega))
    obtain ⟨kE, kP, kU⟩ := key
    refine ⟨kE, ?_, ?_⟩
    · intro y' x' h1 h2
      exact kP y' x' (by omega)
    · intro y' x' h
      exact kU y' x' (Or.inl (by omega))
  have outer := forLoop_inv
    (fun n t => Env t ∧
      (∀ y' x' : Nat, y' < n → x' < cols → R y' x' (get s y' x') (get t y' x')) ∧
      (∀ y' x' : Nat, n ≤ y' → get t y' x' = get s y' x'))
    rows (fun y => forLoop cols (fun x => body y x)) s
    (by
      refine ⟨hs, ?_, ?_⟩
      · intro y' x' h; omega
      · intro y' x' _; rfl)
    (by
      intro n _ t ht
      exact inner n t ht)
  exact ⟨outer.1, outer.2.1⟩

/-! ## The graph-cut iterators -/

theorem Mat.set_px {α : Type} (m : Mat α) (i j a b : Int) (v : α) :
    (m.set i j v).px a b = if a = i ∧ b = j then v else m.px a b := rfl

theorem for_each_active_inv (P : GraphCutDisparity → Prop)
    (fn : Correspondence → GraphCutDisparity → GraphCutDisparity) (alpha : Int)
    (s : GraphCutDisparity) (hfn : ∀ c t, P t → P (fn c t)) (hs : P s) :
    P (for_each_active fn alpha s) := by
  unfold for_each_active
  refine forLoop_inv (fun _ t => P t) _ _ s hs ?_
  intro y _ t ht
  refine forLoop_inv (fun _ u => P u) _ _ t ht ?_
  intro x _ u hu
  simp only []
  split_ifs
  · exact hfn _ u hu
  · exact hu

theorem for_each_alpha_inv (P : GraphCutDisparity → Prop)
    (fn : Correspondence → GraphCutDisparity → GraphCutDisparity) (alpha : Int)
    (s : GraphCutDisparity) (hfn : ∀ c t, P t → P (fn c t)) (hs : P s) :
    P (for_each_alpha fn alpha s) := by
  unfold for_each_alpha
  refine forLoop_inv (fun _ t => P t) _ _ s hs ?_
  intro y _ t ht
  refine forLoop_inv (fun _ u => P u) _ _ t ht ?_
  intro x _ u hu
  simp only []
  split_ifs
  · exact hfn _ u hu
  · exact hu

theorem foldl_inv {σ ι : Type} (P : σ → Prop) (f : σ → ι → σ) (l : List ι) (s : σ)
    (hf : ∀ t i, P t → P (f t i)) (hs : P s) : P (l.foldl f s) := by
  induction l generalizing s with
  | nil => exact hs
  | cons a l ih => exact ih (f s a) (hf s a hs)

/-! ## The graph construction leaves the pair alone -/

theorem add_node_samePair (s0 : GraphCutDisparity) (c : Correspondence) (t : GraphCutDisparity)
    (h : SamePair s0 t) : SamePair s0 (add_node c t) := h

theorem add_edge_samePair (s0 : GraphCutDisparity) (c1 c2 : Correspondence) (w1 w2 : Int)
    (t : GraphCutDisparity) (h : SamePair s0 t) : SamePair s0 (add_edge c1 c2 w1 w2 t) := h

theorem add_source_edge_samePair (s0 : GraphCutDisparity) (c : Correspondence) (w : Int)
    (t : GraphCutDisparity) (h : SamePair s0 t) : SamePair s0 (add_source_edge c w t) := h

theorem add_sink_edge_samePair (s0 : GraphCutDisparity) (c : Correspondence) (w : Int)
    (t : GraphCutDisparity) (h : SamePair s0 t) : SamePair s0 (add_sink_edge c w t) := h

theorem record_occlusion_count_samePair (s0 : GraphCutDisparity) (c : Correspondence)
    (alpha : Int) (t : GraphCutDisparity) (h : SamePair s0 t) :
    SamePair s0 (record_occlusion_count c alpha t) := h

theorem add_alpha_node_samePair (s0 : GraphCutDisparity) (c : Correspondence)
    (alpha : Int) (t : GraphCutDisparity) (h : SamePair s0 t) :
    SamePair s0 (add_alpha_node c alpha t) := h

theorem add_active_node_samePair (s0 : GraphCutDisparity) (c : Correspondence)
    (alpha : Int) (t : GraphCutDisparity) (h : SamePair s0 t) :
    SamePair s0 (add_active_node c alpha t) := h

theorem add_conflict_edges_samePair (s0 : GraphCutDisparity) (c : Correspondence)
    (alpha : Int) (t : GraphCutDisparity) (h : SamePair s0 t) :
    SamePair s0 (add_conflict_edges c alpha t) := by
  unfold add_conflict_edges
  exact foldl_inv (SamePair s0) _ _ t (fun u c' hu => add_edge_samePair s0 c c' _ _ u hu) h

theorem add_neighbor_edges_samePair (s0 : GraphCutDisparity) (c : Correspondence)
    (alpha : Int) (t : GraphCutDisparity) (h : SamePair s0 t) :
    SamePair s0 (add_neighbor_edges c alpha t) := by
  unfold add_neighbor_edges
  refine foldl_inv (SamePair s0) _ _ t ?_ h
  intro u c' hu
  split_ifs
  · exact add_edge_samePair s0 c c' _ _ u hu
  · exact hu

theorem initialize_graph_samePair (s0 t : GraphCutDisparity) (h : SamePair s0 t) :
    SamePair s0 (initialize_graph t) := h

theorem record_occlusion_counts_samePair (s0 : GraphCutDisparity) (alpha : Int)
    (t : GraphCutDisparity) (h : SamePair s0 t) :
    SamePair s0 (record_occlusion_counts alpha t) := by
  unfold record_occlusion_counts
  exact for_each_alpha_inv (SamePair s0) _ alpha _
    (fun c u hu => record_occlusion_count_samePair s0 c alpha u hu)
    (for_each_active_inv (SamePair s0) _ alpha t
      (fun c u hu => record_occlusion_count_samePair s0 c alpha u hu) h)

theorem add_active_nodes_samePair (s0 : GraphCutDisparity) (alpha : Int)
    (t : GraphCutDisparity) (h : SamePair s0 t) : SamePair s0 (add_active_nodes alpha t) :=
  for_each_active_inv (SamePair s0) (fun c => add_active_node c alpha) alpha t
    (fun c u hu => add_active_node_samePair s0 c alpha u hu) h

theorem add_alpha_nodes_samePair (s0 : GraphCutDisparity) (alpha : Int)
    (t : GraphCutDisparity) (h : SamePair s0 t) : SamePair s0 (add_alpha_nodes alpha t) :=
  for_each_alpha_inv (SamePair s0) (fun c => add_alpha_node c alpha) alpha t
    (fun c u hu => add_alpha_node_samePair s0 c alpha u hu) h

theorem add_all_conflict_edges_samePair (s0 : GraphCutDisparity) (alpha : Int)
    (t : GraphCutDisparity) (h : SamePair s0 t) :
    SamePair s0 (add_all_conflict_edges alpha t) :=
  for_each_active_inv (SamePair s0) (fun c => add_conflict_edges c alpha) alpha t
    (fun c u hu => add_conflict_edges_samePair s0 c alpha u hu) h

theorem add_all_neighbor_edges_samePair (s0 : GraphCutDisparity) (alpha : Int)
    (t : GraphCutDisparity) (h : SamePair s0 t) :
    SamePair s0 (add_all_neighbor_edges alpha t) := by
  unfold add_all_neighbor_edges
  exact for_each_alpha_inv (SamePair s0) _ alpha _
    (fun c u hu => add_neighbor_edges_samePair s0 c alpha u hu)
    (for_each_active_inv (SamePair s0) _ alpha t
      (fun c u hu => add_neighbor_edges_samePair s0 c alpha u hu) h)

theorem build_graph_eq (alpha : Int) (s : GraphCutDisparity) :
    build_graph alpha s =
      add_all_neighbor_edges alpha (add_all_conflict_edges alpha (add_alpha_nodes alpha
        (add_active_nodes alpha (record_occlusion_counts alpha (initialize_graph s))))) := rfl

theorem build_graph_samePair (alpha : Int) (s : GraphCutDisparity) :
    SamePair s (build_graph alpha s) := by
  rw [build_graph_eq]
  have h0 : SamePair s (initialize_graph s) := initialize_graph_samePair s s ⟨rfl, rfl, rfl⟩
  have h1 := record_occlusion_counts_samePair s alpha (initialize_graph s) h0
  have h2 := add_active_nodes_samePair s alpha
    (record_occlusion_counts alpha (initialize_graph s)) h1
  have h3 := add_alpha_nodes_samePair s alpha
    (add_active_nodes alpha (record_occlusion_counts alpha (initialize_graph s))) h2
  have h4 := add_all_conflict_edges_samePair s alpha
    (add_alpha_nodes alpha
      (add_active_nodes alpha (record_occlusion_counts alpha (initialize_graph s)))) h3
  exact add_all_neighbor_edges_samePair s alpha
    (add_all_conflict_edges alpha (add_alpha_nodes alpha
      (add_active_nodes alpha (record_occlusion_counts alpha (initialize_graph s))))) h4

theorem cut_graph_pair (flow : GraphCutDisparity → Nat → Color) (alpha : Int)
    (s : GraphCutDisparity) : (cut_graph flow alpha s).pair = (build_graph alpha s).pair := by
  simp only [cut_graph]

theorem cut_graph_min (flow : GraphCutDisparity → Nat → Color) (alpha : Int)
    (s : GraphCutDisparity) :
    (cut_graph flow alpha s).min_disparity = (build_graph alpha s).min_disparity := by
  simp only [cut_graph]

theorem cut_graph_max (flow : GraphCutDisparity → Nat → Color) (alpha : Int)
    (s : GraphCutDisparity) :
    (cut_graph flow alpha s).max_disparity = (build_graph alpha s).max_disparity := by
  simp only [cut_graph]

theorem cut_graph_samePair (flow : GraphCutDisparity → Nat → Color) (alpha : Int)
    (s : GraphCutDisparity) : SamePair s (cut_graph flow alpha s) := by
  have h := build_graph_samePair alpha s
  unfold SamePair at h ⊢
  rw [cut_graph_pair, cut_graph_min, cut_graph_max]
  exact h

/-! ## The update after the cut, pixel by pixel -/

theorem SameGraph.refl (s : GraphCutDisparity) : SameGraph s s :=
  ⟨rfl, rfl, rfl, rfl, rfl, rfl⟩

theorem node_color_same (s0 t : GraphCutDisparity) (h : SameGraph s0 t) (c : Correspondence) :
    node_color t c = node_color s0 c := by
  obtain ⟨h1, h2, h3, h4, h5, _⟩ := h
  simp only [node_color, get_vertex, get_index, correspondence_hash, h1, h2, h3, h4, h5]

theorem within_bounds_same (s0 t : GraphCutDisparity) (h : SameGraph s0 t) (c : Correspondence) :
    within_bounds t c ↔ within_bounds s0 c := by
  obtain ⟨_, _, _, _, h5, h6⟩ := h
  simp only [within_bounds, h5, h6]

theorem update_active_sameGraph (s0 : GraphCutDisparity) (c : Correspondence)
    (t : GraphCutDisparity) (h : SameGraph s0 t) : SameGraph s0 (update_active c t) := by
  unfold update_active
  split_ifs
  · exact h
  · exact h

theorem update_alpha_sameGraph (s0 : GraphCutDisparity) (c : Correspondence)
    (t : GraphCutDisparity) (h : SameGraph s0 t) : SameGraph s0 (update_alpha c t) := by
  unfold update_alpha
  simp only []
  split_ifs
  · exact h
  · exact h
  · exact h

theorem update_active_left (c : Correspondence) (t : GraphCutDisparity) (a b : Int) :
    (update_active c t).pair.disparity_left.px a b =
      if node_color t c = Color.black then t.pair.disparity_left.px a b
      else if a = c.y ∧ b = c.x then 0 else t.pair.disparity_left.px a b := by
  unfold update_active
  split_ifs <;> simp_all [Mat.set_px, NULL_DISPARITY]

theorem update_alpha_left (c : Correspondence) (t : GraphCutDisparity) (a b : Int) :
    (update_alpha c t).pair.disparity_left.px a b =
      if (node_color t c ≠ Color.black) = is_active t c then t.pair.disparity_left.px a b
      else if a = c.y ∧ b = c.x then
        (if node_color t c ≠ Color.black then ((-c.d) % 256).toNat else 0)
      else t.pair.disparity_left.px a b := by
  unfold update_alpha
  by_cases hn : node_color t c = Color.black <;> by_cases hw : is_active t c <;>
    simp [hn, hw, Mat.set_px, NULL_DISPARITY]

theorem update_active_phase (alpha : Int) (s0 s : GraphCutDisparity) (hs : SameGraph s0 s) :
    SameGraph s0 (for_each_active update_active alpha s) ∧
    ∀ y x : Nat, y < s.pair.rows → x < s.pair.cols →
      AfterDeactivation s0 alpha y x (s.pair.disparity_left.px y x)
        ((for_each_active update_active alpha s).pair.disparity_left.px y x) := by
  unfold for_each_active
  refine forPixels_rel s.pair.rows s.pair.cols
    (fun y x t =>
      if -(t.pair.disparity_left.px y x : Int) ≠ NULL_DISPARITY ∧
          -(t.pair.disparity_left.px y x : Int) ≠ alpha
        then update_active ⟨x, y, -(t.pair.disparity_left.px y x : Int)⟩ t else t)
    (fun t => t.pair.disparity_left.px) (SameGraph s0) (AfterDeactivation s0 alpha)
    ?_ ?_ ?_ s hs
  · intro y x t ht
    simp only []
    split_ifs
    · exact update_active_sameGraph s0 _ t ht
    · exact ht
  · intro y x t ht
    simp only []
    by_cases hc : -(t.pair.disparity_left.px y x : Int) ≠ NULL_DISPARITY ∧
        -(t.pair.disparity_left.px y x : Int) ≠ alpha
    · rw [if_pos hc, update_active_left]
      by_cases hb : node_color t ⟨x, y, -(t.pair.disparity_left.px y x : Int)⟩ = Color.black
      · rw [if_pos hb]
        refine ⟨Or.inl rfl, fun _ _ => ?_⟩
        rw [← node_color_same s0 t ht]
        exact hb
      · rw [if_neg hb]
        simp only [and_self, if_true]
        exact ⟨Or.inr rfl, fun h => absurd rfl h⟩
    · rw [if_neg hc]
      refine ⟨Or.inl rfl, fun h1 h2 => ?_⟩
      exfalso
      apply hc
      simp only [NULL_DISPARITY]
      omega
  · intro y x t a b ht hab
    simp only []
    split_ifs
    · rw [update_active_left]
      split_ifs with h1 h2
      · rfl
      · exfalso
        simp only [] at h2
        omega
      · rfl
    · rfl

theorem update_alpha_phase (alpha : Int) (hlo : -255 ≤ alpha) (hhi : alpha ≤ -1)
    (s0 s : GraphCutDisparity) (hs : SameGraph s0 s) :
    SameGraph s0 (for_each_alpha update_alpha alpha s) ∧
    ∀ y x : Nat, y < s.pair.rows → x < s.pair.cols →
      AfterActivation s0 alpha y x (s.pair.disparity_left.px y x)
        ((for_each_alpha update_alpha alpha s).pair.disparity_left.px y x) := by
  unfold for_each_alpha
  refine forPixels_rel s.pair.rows s.pair.cols
    (fun y x t =>
      if is_valid t ⟨x, y, alpha⟩ alpha then update_alpha ⟨x, y, alpha⟩ t else t)
    (fun t => t.pair.disparity_left.px) (SameGraph s0) (AfterActivation s0 alpha)
    ?_ ?_ ?_ s hs
  · intro y x t ht
    simp only []
    split_ifs
    · exact update_alpha_sameGraph s0 _ t ht
    · exact ht
  · intro y x t ht
    simp only []
    by_cases hv : is_valid t ⟨x, y, alpha⟩ alpha
    · rw [if_pos hv, update_alpha_left]
      by_cases he : (node_color t ⟨x, y, alpha⟩ ≠ Color.black) = is_active t ⟨x, y, alpha⟩
      · rw [if_pos he]
        exact Or.inl rfl
      · rw [if_neg he]
        simp only [and_self, if_true]
        by_cases hb : node_color t ⟨x, y, alpha⟩ ≠ Color.black
        · rw [if_pos hb]
          refine Or.inr (Or.inr ⟨?_, ?_, ?_⟩)
          · have h256 : (-alpha) % 256 = -alpha := Int.emod_eq_of_lt (by omega) (by omega)
            rw [h256, Int.toNat_of_nonneg (by omega)]
          · exact (within_bounds_same s0 t ht _).mp hv.1
          · rw [← node_color_same s0 t ht]
            exact hb
        · rw [if_neg hb]
          exact Or.inr (Or.inl rfl)
    · rw [if_neg hv]
      exact Or.inl rfl
  · intro y x t a b ht hab
    simp only []
    split_ifs
    · rw [update_alpha_left]
      split_ifs with h1 h2 h3
      · rfl
      · exfalso
        simp only [] at h2
        omega
      · exfalso
        simp only [] at h2
        omega
      · rfl
    · rfl

theorem update_correspondences_eq (alpha : Int) (s : GraphCutDisparity) :
    update_correspondences alpha s =
      for_each_alpha update_alpha alpha
        (for_each_active update_active alpha { s with changed := false }) := rfl

/-- The effect of `update_correspondences` on each pixel of `disparity_left`. -/
theorem update_correspondences_left (alpha : Int) (hlo : -255 ≤ alpha) (hhi : alpha ≤ -1)
    (s : GraphCutDisparity) :
    SameGraph s (update_correspondences alpha s) ∧
    ∀ y x : Nat, y < s.pair.rows → x < s.pair.cols →
      ∃ v1 : Nat,
        AfterDeactivation s alpha y x (s.pair.disparity_left.px y x) v1 ∧
        AfterActivation s alpha y x v1
          ((update_correspondences alpha s).pair.disparity_left.px y x) := by
  rw [update_correspondences_eq]
  have h0 : SameGraph s { s with changed := false } := ⟨rfl, rfl, rfl, rfl, rfl, rfl⟩
  obtain ⟨hE1, hR1⟩ := update_active_phase alpha s { s with changed := false } h0
  obtain ⟨hE2, hR2⟩ := update_alpha_phase alpha hlo hhi s
    (for_each_active update_active alpha { s with changed := false }) hE1
  refine ⟨hE2, ?_⟩
  intro y x hy hx
  refine ⟨(for_each_active update_active alpha { s with changed := false }).pair.disparity_left.px
    y x, hR1 y x hy hx, ?_⟩
  exact hR2 y x (by rw [hE1.2.2.2.2.1]; exact hy) (by rw [hE1.2.2.2.2.2]; exact hx)

/-- A pixel that ends nonzero and different from `-alpha` kept its value, and the node of
its correspondence is black. -/
theorem update_kept (s : GraphCutDisparity) (alpha : Int) (y x : Nat) (v v1 v' : Nat)
    (h1 : AfterDeactivation s alpha y x v v1) (h2 : AfterActivation s alpha y x v1 v')
    (hnz : v' ≠ 0) (hna : (v' : Int) ≠ -alpha) :
    v' = v ∧ node_color s ⟨x, y, -(v : Int)⟩ = Color.black := by
  rcases h2 with e | e | ⟨e, _, _⟩
  · subst e
    rcases h1.1 with e1 | e1
    · exact ⟨e1, h1.2 hnz hna⟩
    · exact absurd e1 hnz
  · exact absurd e hnz
  · exact absurd e hna

/-- A pixel that ends as `-alpha` either held it before or was activated: its `alpha`
correspondence is in bounds and its node is not black. -/
theorem update_alpha_valued (s : GraphCutDisparity) (alpha : Int) (y x : Nat) (v v1 v' : Nat)
    (h1 : AfterDeactivation s alpha y x v v1) (h2 : AfterActivation s alpha y x v1 v')
    (hnz : v' ≠ 0) :
    v' = v ∨ (within_bounds s ⟨x, y, alpha⟩ ∧ node_color s ⟨x, y, alpha⟩ ≠ Color.black) := by
  rcases h2 with e | e | ⟨_, hb, hc⟩
  · subst e
    rcases h1.1 with e1 | e1
    · exact Or.inl e1
    · exact absurd e1 hnz
  · exact absurd e hnz
  · exact Or.inr ⟨hb, hc⟩

theorem mapped_mem_get_conflicts (s : GraphCutDisparity) (c : Correspondence) (alpha : Int)
    (ha : is_active s c) (hd : c.d ≠ alpha)
    (hv : within_bounds s ⟨c.x + c.d - alpha, c.y, alpha⟩) :
    (⟨c.x + c.d - alpha, c.y, alpha⟩ : Correspondence) ∈ get_conflicts s c alpha := by
  have hvalid : is_valid s ⟨c.x + c.d - alpha, c.y, alpha⟩ alpha := ⟨hv, Or.inr rfl⟩
  unfold get_conflicts
  rw [if_pos ⟨ha, hd⟩]
  simp only []
  rw [if_pos hvalid]
  exact List.mem_append_right _ (List.mem_singleton.mpr rfl)

/-- One side of the clash analysis: a pixel `x1` that ends as `-alpha` and a pixel `x2`
that ends with another nonzero value cannot share their right pixel. -/
theorem update_no_clash (alpha : Int) (s : GraphCutDisparity)
    (hU : Unique s.pair.rows s.pair.cols s.pair.disparity_left)
    (hcut : CutsNoConflictEdge s alpha) (y x1 x2 : Nat)
    (hy : y < s.pair.rows) (hx1 : x1 < s.pair.cols) (hx2 : x2 < s.pair.cols) (hne : x1 ≠ x2)
    (v1' v2' : Nat) (hnz1 : v1' ≠ 0) (hnz2 : v2' ≠ 0)
    (ha1 : (v1' : Int) = -alpha) (ha2 : (v2' : Int) ≠ -alpha)
    (hk2 : v2' = s.pair.disparity_left.px y x2 ∧
      node_color s ⟨x2, y, -(s.pair.disparity_left.px y x2 : Int)⟩ = Color.black)
    (hv1 : v1' = s.pair.disparity_left.px y x1 ∨
      (within_bounds s ⟨x1, y, alpha⟩ ∧ node_color s ⟨x1, y, alpha⟩ ≠ Color.black)) :
    (x1 : Int) - (v1' : Int) ≠ (x2 : Int) - (v2' : Int) := by
  intro heq
  obtain ⟨e2, hb2⟩ := hk2
  rcases hv1 with e1 | ⟨hwb, hnb⟩
  · apply hU y hy x1 hx1 x2 hx2
    refine ⟨hne, ?_, ?_, ?_⟩
    · rw [← e1]; exact hnz1
    · rw [← e2]; exact hnz2
    · rw [← e1, ← e2]; exact heq
  · have hc := hcut y hy x2 hx2
    simp only [] at hc
    have hd0 : -(s.pair.disparity_left.px y x2 : Int) ≠ NULL_DISPARITY := by
      simp only [NULL_DISPARITY]
      rw [← e2]
      omega
    have hda : -(s.pair.disparity_left.px y x2 : Int) ≠ alpha := by
      rw [← e2]
      omega
    have hmap : ((x2 : Int) + -(s.pair.disparity_left.px y x2 : Int) - alpha) = (x1 : Int) := by
      rw [← e2]
      omega
    have hmem := mapped_mem_get_conflicts s
      ⟨x2, y, -(s.pair.disparity_left.px y x2 : Int)⟩ alpha
      (by unfold is_active; simp)
      hda
      (by simp only []; rw [hmap]; exact hwb)
    simp only [] at hmem
    rw [hmap] at hmem
    exact hc hd0 hda _ hmem ⟨hb2, hnb⟩

/-- The update after the cut keeps uniqueness when the labelling cuts no conflict edge. -/
theorem update_preserves_unique (alpha : Int) (hlo : -255 ≤ alpha) (hhi : alpha ≤ -1)
    (s : GraphCutDisparity)
    (hU : Unique s.pair.rows s.pair.cols s.pair.disparity_left)
    (hcut : CutsNoConflictEdge s alpha) :
    Unique s.pair.rows s.pair.cols (update_correspondences alpha s).pair.disparity_left := by
  obtain ⟨_, hR⟩ := update_correspondences_left alpha hlo hhi s
  intro y hy x1 hx1 x2 hx2 hsh
  obtain ⟨hne, hnz1, hnz2, heq⟩ := hsh
  obtain ⟨w1, hd1, hact1⟩ := hR y x1 hy hx1
  obtain ⟨w2, hd2, hact2⟩ := hR y x2 hy hx2
  by_cases ha1 : ((update_correspondences alpha s).pair.disparity_left.px y x1 : Int) = -alpha
  · by_cases ha2 : ((update_correspondences alpha s).pair.disparity_left.px y x2 : Int) = -alpha
    · omega
    · exact update_no_clash alpha s hU hcut y x1 x2 hy hx1 hx2 hne _ _ hnz1 hnz2 ha1 ha2
        (update_kept s alpha y x2 _ _ _ hd2 hact2 hnz2 ha2)
        (update_alpha_valued s alpha y x1 _ _ _ hd1 hact1 hnz1) heq
  · by_cases ha2 : ((update_correspondences alpha s).pair.disparity_left.px y x2 : Int) = -alpha
    · exact update_no_clash alpha s hU hcut y x2 x1 hy hx2 hx1 (Ne.symm hne) _ _ hnz2 hnz1
        ha2 ha1
        (update_kept s alpha y x1 _ _ _ hd1 hact1 hnz1 ha1)
        (update_alpha_valued s alpha y x2 _ _ _ hd2 hact2 hnz2) heq.symm
    · obtain ⟨e1, _⟩ := update_kept s alpha y x1 _ _ _ hd1 hact1 hnz1 ha1
      obtain ⟨e2, _⟩ := update_kept s alpha y x2 _ _ _ hd2 hact2 hnz2 ha2
      apply hU y hy x1 hx1 x2 hx2
      refine ⟨hne, ?_, ?_, ?_⟩
      · rw [← e1]; exact hnz1
      · rw [← e2]; exact hnz2
      · rw [← e1, ← e2]; exact heq

/-! ## Uniqueness along the run -/

theorem run_alpha_expansion_eq (flow : GraphCutDisparity → Nat → Color) (alpha : Int)
    (s : GraphCutDisparity) :
    run_alpha_expansion flow alpha s = update_correspondences alpha (cut_graph flow alpha s) := by
  unfold run_alpha_expansion
  rfl

theorem run_alpha_expansion_unique (flow : GraphCutDisparity → Nat → Color)
    (alpha : Int) (hlo : -255 ≤ alpha) (hhi : alpha ≤ -1) (s : GraphCutDisparity)
    (hU : Unique s.pair.rows s.pair.cols s.pair.disparity_left)
    (hcut : CutsNoConflictEdge (cut_graph flow alpha s) alpha) :
    Unique s.pair.rows s.pair.cols (run_alpha_expansion flow alpha s).pair.disparity_left ∧
    (run_alpha_expansion flow alpha s).pair.rows = s.pair.rows ∧
    (run_alpha_expansion flow alpha s).pair.cols = s.pair.cols ∧
    (run_alpha_expansion flow alpha s).min_disparity = s.min_disparity ∧
    (run_alpha_expansion flow alpha s).max_disparity = s.max_disparity := by
  obtain ⟨hp, hpmin, hpmax⟩ := cut_graph_samePair flow alpha s
  have hU' : Unique (cut_graph flow alpha s).pair.rows (cut_graph flow alpha s).pair.cols
      (cut_graph flow alpha s).pair.disparity_left := by
    rw [hp]
    exact hU
  have hres := update_preserves_unique alpha hlo hhi (cut_graph flow alpha s) hU' hcut
  obtain ⟨hG, _⟩ := update_correspondences_left alpha hlo hhi (cut_graph flow alpha s)
  obtain ⟨_, _, g3, g4, g5, g6⟩ := hG
  rw [run_alpha_expansion_eq]
  rw [hp] at hres g5 g6
  exact ⟨hres, g5, g6, by rw [g3, hpmin], by rw [g4, hpmax]⟩

theorem run_alpha_expansion_uniqueState (flow : GraphCutDisparity → Nat → Color)
    (alpha : Int) (hlo : -255 ≤ alpha) (hhi : alpha ≤ -1) (rows cols : Nat)
    (s : GraphCutDisparity) (hS : UniqueState rows cols s)
    (hcut : CutsNoConflictEdge (cut_graph flow alpha s) alpha) :
    UniqueState rows cols (run_alpha_expansion flow alpha s) := by
  obtain ⟨hr, hc, hmin, hmax, hU⟩ := hS
  subst hr
  subst hc
  obtain ⟨h1, h2, h3, h4, h5⟩ := run_alpha_expansion_unique flow alpha hlo hhi s hU hcut
  exact ⟨h2, h3, by rw [h4]; exact hmin, by rw [h5]; exact hmax, h1⟩

theorem compute_init_uniqueState (s0 : GraphCutDisparity) (pair : StereoPair) :
    UniqueState pair.rows pair.cols (compute_init s0 pair) := by
  refine ⟨rfl, rfl, ?_, ?_, ?_⟩
  · simp only [compute_init]
    split_ifs <;> omega
  · simp only [compute_init]
    split_ifs <;> omega
  · intro y _ x1 _ x2 _ h
    exact h.2.1 rfl

/-! ## Facts about one cross-check step -/

theorem ccp_left_frame (cols i j : Nat) (s : Mat Nat × Mat Nat) (a b : Int)
    (h : a ≠ (i : Int) ∨ b ≠ (j : Int)) :
    (cross_check_pixel cols i j s).1.px a b = s.1.px a b := by
  have hne : ¬ (a = (i : Int) ∧ b = (j : Int)) := by tauto
  simp only [cross_check_pixel, Mat.set]
  split_ifs <;> simp [hne]

theorem ccp_right_frame (cols i j : Nat) (s : Mat Nat × Mat Nat) (a b : Int)
    (h : a ≠ (i : Int) ∨ b ≠ (j : Int)) :
    (cross_check_pixel cols i j s).2.px a b = s.2.px a b := by
  have hne : ¬ (a = (i : Int) ∧ b = (j : Int)) := by tauto
  simp only [cross_check_pixel, Mat.set]
  split_ifs <;> simp [hne]

/-- A left pixel that survives its own step kept its value and passed the test against
the right map as it stood before the step. -/
theorem ccp_left_at (cols i j : Nat) (s : Mat Nat × Mat Nat)
    (h : (cross_check_pixel cols i j s).1.px i j ≠ 0) :
    (cross_check_pixel cols i j s).1.px i j = s.1.px i j ∧
    0 ≤ (j : Int) - (s.1.px i j : Int) ∧ (j : Int) - (s.1.px i j : Int) < (cols : Int) ∧
    |(s.2.px i ((j : Int) - (s.1.px i j : Int)) : Int) - (s.1.px i j : Int)| ≤ 2 := by
  simp only [cross_check_pixel, Mat.set] at h ⊢
  split_ifs at h ⊢ with h1 h2
  · simp at h
  · simp at h
  · push_neg at h1
    exact ⟨rfl, h1.1, h1.2, not_lt.mp h2⟩

/-- A right pixel that survives its own step kept its value and passed the test against
the left map as it stood after the left half of the same step. -/
theorem ccp_right_at (cols i j : Nat) (s : Mat Nat × Mat Nat)
    (h : (cross_check_pixel cols i j s).2.px i j ≠ 0) :
    (cross_check_pixel cols i j s).2.px i j = s.2.px i j ∧
    0 ≤ (j : Int) + (s.2.px i j : Int) ∧ (j : Int) + (s.2.px i j : Int) < (cols : Int) ∧
    |((cross_check_pixel cols i j s).1.px i ((j : Int) + (s.2.px i j : Int)) : Int)
        - (s.2.px i j : Int)| ≤ 2 := by
  simp only [cross_check_pixel, Mat.set] at h ⊢
  split_ifs at h ⊢ with h1 h2 h3 h4 h5 h6 h7 h8
  all_goals first
    | (exfalso; simp at h; done)
    | (push_neg at *; refine ⟨rfl, ?_, ?_, ?_⟩ <;> omega)

/-! ## The left map after the cross-check -/

theorem cross_check_row_left (cols i : Nat) (s : Mat Nat × Mat Nat)
    (hO : ∀ i' j : Nat, i' < i → j < cols → LeftChecked cols s i' j) :
    ∀ i' j : Nat, i' < i + 1 → j < cols →
      LeftChecked cols (forLoop cols (fun j => cross_check_pixel cols i j) s) i' j := by
  have key := forLoop_inv
    (fun n t => ∀ i' j : Nat, j < cols → (i' < i ∨ (i' = i ∧ j < n)) → LeftChecked cols t i' j)
    cols (fun j => cross_check_pixel cols i j) s
    (by
      intro i' j hj h
      rcases h with h | ⟨_, h⟩
      · exact hO i' j h hj
      · omega)
    (by
      intro k _ t hI i' j hj hcase
      by_cases hp : i' = i ∧ j = k
      · obtain ⟨rfl, rfl⟩ := hp
        intro hne
        obtain ⟨e, b1, b2, b3⟩ := ccp_left_at cols i' j t hne
        have hd : t.1.px i' j ≠ 0 := by rw [← e]; exact hne
        rw [e, ccp_right_frame cols i' j t _ _ (Or.inr (by omega))]
        exact ⟨b1, b2, b3⟩
      · have hold : i' < i ∨ (i' = i ∧ j < k) := by omega
        have hL := hI i' j hj hold
        unfold LeftChecked at hL ⊢
        rw [ccp_left_frame cols i k t _ _ (by omega)]
        intro hne
        obtain ⟨b1, b2, b3⟩ := hL hne
        rw [ccp_right_frame cols i k t _ _ (by omega)]
        exact ⟨b1, b2, b3⟩)
  intro i' j hi hj
  exact key i' j hj (by omega)

theorem cross_check_left_checked (rows cols : Nat) (s : Mat Nat × Mat Nat) :
    ∀ i j : Nat, i < rows → j < cols → LeftChecked cols (cross_check rows cols s) i j := by
  have key := forLoop_inv
    (fun n t => ∀ i j : Nat, i < n → j < cols → LeftChecked cols t i j)
    rows (fun i => forLoop cols (fun j => cross_check_pixel cols i j)) s
    (by intro i j hi; omega)
    (by
      intro k _ t hI
      exact cross_check_row_left cols k t hI)
  exact key

/-! ## The right map after the cross-check -/

theorem cross_check_row_right (cols i : Nat) (s0 s : Mat Nat × Mat Nat)
    (hO : ∀ i' j : Nat, i' < i → j < cols → RightChecked cols s s0 i' j)
    (hF : ∀ a b : Int, (i : Int) ≤ a → s.1.px a b = s0.1.px a b) :
    (∀ i' j : Nat, i' < i + 1 → j < cols →
      RightChecked cols (forLoop cols (fun j => cross_check_pixel cols i j) s) s0 i' j) ∧
    (∀ a b : Int, ((i + 1 : Nat) : Int) ≤ a →
      (forLoop cols (fun j => cross_check_pixel cols i j) s).1.px a b = s0.1.px a b) := by
  have key := forLoop_inv
    (fun n t =>
      (∀ i' j : Nat, j < cols → (i' < i ∨ (i' = i ∧ j < n)) → RightChecked cols t s0 i' j) ∧
      (∀ a b : Int, ((i : Int) < a ∨ (a = (i : Int) ∧ (n : Int) ≤ b)) →
        t.1.px a b = s0.1.px a b))
    cols (fun j => cross_check_pixel cols i j) s
    (by
      refine ⟨?_, ?_⟩
      · intro i' j hj h
        rcases h with h | ⟨_, h⟩
        · exact hO i' j h hj
        · omega
      · intro a b h
        exact hF a b (by omega))
    (by
      intro k _ t hI
      obtain ⟨hR, hU⟩ := hI
      refine ⟨?_, ?_⟩
      · intro i' j hj hcase
        by_cases hp : i' = i ∧ j = k
        · obtain ⟨rfl, rfl⟩ := hp
          intro hne
          obtain ⟨e, b1, b2, b3⟩ := ccp_right_at cols i' j t hne
          have hd : t.2.px i' j ≠ 0 := by rw [← e]; exact hne
          rw [ccp_left_frame cols i' j t _ _ (Or.inr (by omega)),
            hU _ _ (Or.inr ⟨rfl, by omega⟩)] at b3
          rw [e]
          exact ⟨b1, b2, b3⟩
        · have hold : i' < i ∨ (i' = i ∧ j < k) := by omega
          have hL := hR i' j hj hold
          unfold RightChecked at hL ⊢
          rw [ccp_right_frame cols i k t _ _ (by omega)]
          exact hL
      · intro a b h
        rw [ccp_left_frame cols i k t _ _ (by omega)]
        exact hU a b (by omega))
  refine ⟨?_, ?_⟩
  · intro i' j hi hj
    exact key.1 i' j hj (by omega)
  · intro a b h
    exact key.2 a b (Or.inl (by omega))

theorem cross_check_right_checked (rows cols : Nat) (s0 : Mat Nat × Mat Nat) :
    ∀ i j : Nat, i < rows → j < cols → RightChecked cols (cross_check rows cols s0) s0 i j := by
  have key := forLoop_inv
    (fun n t =>
      (∀ i j : Nat, i < n → j < cols → RightChecked cols t s0 i j) ∧
      (∀ a b : Int, (n : Int) ≤ a → t.1.px a b = s0.1.px a b))
    rows (fun i => forLoop cols (fun j => cross_check_pixel cols i j)) s0
    (by
      refine ⟨?_, ?_⟩
      · intro i j hi; omega
      · intro a b _; rfl)
    (by
      intro k _ t hI
      exact cross_check_row_right cols k s0 t hI.1 hI.2)
  exact key.1

/-! ## Fixed points of the cross-check -/

theorem Mat.set_same {α : Type} (m : Mat α) (i j : Int) (v : α) (h : m.px i j = v) :
    m.set i j v = m := by
  cases m with
  | mk r c f =>
    simp only [Mat.set, Mat.mk.injEq, true_and]
    funext a b
    by_cases hab : a = i ∧ b = j
    · obtain ⟨rfl, rfl⟩ := hab
      simpa using h.symm
    · simp [hab]

/-- A step at a pixel whose both checks already hold changes nothing. -/
theorem ccp_fixed (cols i j : Nat) (s : Mat Nat × Mat Nat)
    (hl : LeftChecked cols s i j) (hr : RightChecked cols s s i j) :
    cross_check_pixel cols i j s = s := by
  have htl : (if (j : Int) - (s.1.px i j : Int) < 0 ∨ (j : Int) - (s.1.px i j : Int) ≥ (cols : Int)
        then s.1.set i j 0
      else if |(s.2.px i ((j : Int) - (s.1.px i j : Int)) : Int) - (s.1.px i j : Int)| > 2
        then s.1.set i j 0
      else s.1) = s.1 := by
    by_cases hd : s.1.px i j = 0
    · have h0 : s.1.set i j 0 = s.1 := Mat.set_same _ _ _ _ hd
      split_ifs <;> first | rfl | exact h0
    · obtain ⟨b1, b2, b3⟩ := hl hd
      rw [if_neg (by omega), if_neg (not_lt.mpr b3)]
  have htr : (if (j : Int) + (s.2.px i j : Int) < 0 ∨ (j : Int) + (s.2.px i j : Int) ≥ (cols : Int)
        then s.2.set i j 0
      else if |(s.1.px i ((j : Int) + (s.2.px i j : Int)) : Int) - (s.2.px i j : Int)| > 2
        then s.2.set i j 0
      else s.2) = s.2 := by
    by_cases hd : s.2.px i j = 0
    · have h0 : s.2.set i j 0 = s.2 := Mat.set_same _ _ _ _ hd
      split_ifs <;> first | rfl | exact h0
    · obtain ⟨b1, b2, b3⟩ := hr hd
      rw [if_neg (by omega), if_neg (not_lt.mpr b3)]
  have : cross_check_pixel cols i j s = (s.1, s.2) := by
    simp only [cross_check_pixel]
    rw [htl, htr]
  simpa using this

theorem cross_check_fixed (rows cols : Nat) (s : Mat Nat × Mat Nat)
    (hl : ∀ i j : Nat, i < rows → j < cols → LeftChecked cols s i j)
    (hr : ∀ i j : Nat, i < rows → j < cols → RightChecked cols s s i j) :
    cross_check rows cols s = s := by
  refine forLoop_inv (fun _ t => t = s) rows _ s rfl ?_
  intro i hi t ht
  subst ht
  refine forLoop_inv (fun _ u => u = t) cols _ t rfl ?_
  intro j hj u hu
  subst hu
  exact ccp_fixed cols i j u (hl i j hi hj) (hr i j hi hj)

/-! ## Pixel-level facts about the metric helpers -/

theorem countNonZero_eq_card (m : Mat Nat) :
    countNonZero m = ((pixels m.rows m.cols).filter (fun p => m.px p.1 p.2 ≠ 0)).card := by
  unfold countNonZero pixels
  rw [Finset.card_filter, Finset.sum_product]

theorem Mat.sum_eq_pixels (m : Mat ℚ) :
    m.sum = ∑ p ∈ pixels m.rows m.cols, m.px p.1 p.2 := by
  unfold Mat.sum pixels
  rw [Finset.sum_product]

theorem get_unoccluded_px (G H : Mat Nat) (i j : Int) :
    (get_unoccluded G H).px i j ≠ 0 ↔ (G.px i j ≠ 0 ∧ H.px i j ≠ 0) := by
  simp only [get_unoccluded, Mat.and, Mat.neZero]
  by_cases hg : G.px i j = 0 <;> by_cases hh : H.px i j = 0 <;> simp [hg, hh]

theorem eqZero_px (m : Mat Nat) (i j : Int) :
    (m.eqZero).px i j ≠ 0 ↔ m.px i j = 0 := by
  simp only [Mat.eqZero]
  by_cases h : m.px i j = 0 <;> simp [h]

theorem get_unoccluded_diff_px (G H : Mat Nat) (i j : Int) :
    (get_unoccluded_diff G H).1.px i j =
      if G.px i j ≠ 0 ∧ H.px i j ≠ 0 then (H.px i j : ℚ) - (G.px i j : ℚ) else 0 := by
  have hm := get_unoccluded_px G H i j
  have he := eqZero_px (get_unoccluded G H) i j
  simp only [get_unoccluded_diff, Mat.setTo, Mat.sub, Mat.toFloat]
  by_cases hU : G.px i j ≠ 0 ∧ H.px i j ≠ 0
  · rw [if_pos hU, if_neg]
    rw [he]
    exact hm.mpr hU
  · rw [if_neg hU, if_pos]
    rw [he]
    by_contra hne
    exact hU (hm.mp hne)

theorem get_unoccluded_diff_count (G H : Mat Nat) :
    (get_unoccluded_diff G H).2.2 = (unoccludedSet G H).card := by
  have h := countNonZero_eq_card (get_unoccluded G H)
  simp only [get_unoccluded_diff]
  rw [h]
  unfold unoccludedSet
  congr 1
  apply Finset.filter_congr
  intro p _
  exact get_unoccluded_px G H p.1 p.2

/-- A sum over all pixels of a quantity that vanishes off `U` is a sum over `U`. -/
theorem sum_pixels_unoccluded (G H : Mat Nat) (f : Nat × Nat → ℚ) :
    (∑ p ∈ pixels G.rows G.cols, if G.px p.1 p.2 ≠ 0 ∧ H.px p.1 p.2 ≠ 0 then f p else 0)
      = ∑ p ∈ unoccludedSet G H, f p := by
  unfold unoccludedSet
  rw [Finset.sum_filter]

/-- A float matrix of the size of `G` that vanishes off `U` sums to its sum over `U`. -/
theorem Mat.sum_unoccluded (G H : Mat Nat) (m : Mat ℚ) (f : Nat × Nat → ℚ)
    (hr : m.rows = G.rows) (hc : m.cols = G.cols)
    (hpx : ∀ i j : Nat, m.px i j = if G.px i j ≠ 0 ∧ H.px i j ≠ 0 then f (i, j) else 0) :
    m.sum = ∑ p ∈ unoccludedSet G H, f p := by
  rw [Mat.sum_eq_pixels, hr, hc, ← sum_pixels_unoccluded]
  apply Finset.sum_congr rfl
  intro p _
  exact hpx p.1 p.2

theorem unoccluded_mem (G H : Mat Nat) (p : Nat × Nat) :
    p ∈ unoccludedSet G H ↔
      (p.1 < G.rows ∧ p.2 < G.cols) ∧ (G.px p.1 p.2 ≠ 0 ∧ H.px p.1 p.2 ≠ 0) := by
  simp [unoccludedSet, pixels]

theorem setTo_unoccluded_px (G H : Mat Nat) (m : Mat ℚ) (i j : Int) :
    (m.setTo 0 (get_unoccluded G H).eqZero).px i j =
      if G.px i j ≠ 0 ∧ H.px i j ≠ 0 then m.px i j else 0 := by
  have hm := get_unoccluded_px G H i j
  have he := eqZero_px (get_unoccluded G H) i j
  simp only [Mat.setTo]
  by_cases hU : G.px i j ≠ 0 ∧ H.px i j ≠ 0
  · rw [if_pos hU, if_neg]
    rw [he]
    exact hm.mpr hU
  · rw [if_neg hU, if_pos]
    rw [he]
    by_contra hne
    exact hU (hm.mp hne)

/-- The bad-match score as a ratio of two counts over `U`. -/
theorem bad_matching_unoccluded_counts (G H : Mat Nat) (t : Int) (hs : SameSize G H)
    (ht : 0 ≤ t) :
    get_bad_matching_unoccluded G H t = spec_bad_matching G H t := by
  unfold get_bad_matching_unoccluded spec_bad_matching
  simp only []
  rw [get_unoccluded_diff_count, countNonZero_eq_card]
  have e1 : ((get_unoccluded_diff G H).1.absGt t).rows = G.rows := hs.1
  have e2 : ((get_unoccluded_diff G H).1.absGt t).cols = G.cols := hs.2
  rw [e1, e2]
  congr 2
  unfold unoccludedSet
  rw [Finset.filter_filter]
  congr 1
  apply Finset.filter_congr
  intro p _
  simp only [Mat.absGt, get_unoccluded_diff_px, residual]
  by_cases hU : G.px p.1 p.2 ≠ 0 ∧ H.px p.1 p.2 ≠ 0
  · rw [if_pos hU]
    by_cases hb : |(H.px p.1 p.2 : ℚ) - (G.px p.1 p.2 : ℚ)| > (t : ℚ)
    · simp [hb, hU]
    · simp [hb]
  · rw [if_neg hU]
    simp [hU, ht]

/-- The bias score as a sum over `U` divided by `|U|`. -/
theorem bias_unoccluded_sum (G H : Mat Nat) (hs : SameSize G H) :
    get_bias_unoccluded G H = spec_bias G H := by
  unfold get_bias_unoccluded spec_bias
  simp only []
  rw [get_unoccluded_diff_count,
    Mat.sum_unoccluded G H (get_unoccluded_diff G H).1 (residual G H) hs.1 hs.2
      (fun i j => get_unoccluded_diff_px G H i j)]

/-- The mean that `get_r_squared_unoccluded` subtracts is the mean of `G` over `U`. -/
theorem r_squared_mean (G H : Mat Nat) :
    (G.toFloat.setTo 0 (get_unoccluded G H).eqZero).sum / ((get_unoccluded_diff G H).2.2 : ℚ)
      = spec_gold_mean G H := by
  unfold spec_gold_mean
  rw [get_unoccluded_diff_count,
    Mat.sum_unoccluded G H _ (fun p => (G.px p.1 p.2 : ℚ)) rfl rfl
      (fun i j => setTo_unoccluded_px G H G.toFloat i j)]

/-- The R² score in terms of the two sums of squares over `U`. -/
theorem r_squared_unoccluded_sums (G H : Mat Nat) (hs : SameSize G H) :
    get_r_squared_unoccluded G H = 1 - spec_ss_res G H / spec_ss_tot G H := by
  have hres : (get_unoccluded_diff G H).1.sq.sum = spec_ss_res G H := by
    unfold spec_ss_res
    apply Mat.sum_unoccluded G H _ (fun p => residual G H p ^ 2) hs.1 hs.2
    intro i j
    show (get_unoccluded_diff G H).1.px i j ^ 2 = _
    rw [get_unoccluded_diff_px]
    by_cases hU : G.px i j ≠ 0 ∧ H.px i j ≠ 0
    · simp only [if_pos hU, residual]
    · simp only [if_neg hU]
      norm_num
  have htot : (((G.toFloat.setTo 0 (get_unoccluded G H).eqZero).subScalar
        (spec_gold_mean G H)).setTo 0 (get_unoccluded G H).eqZero).sq.sum = spec_ss_tot G H := by
    unfold spec_ss_tot
    apply Mat.sum_unoccluded G H _
      (fun p => ((G.px p.1 p.2 : ℚ) - spec_gold_mean G H) ^ 2) rfl rfl
    intro i j
    show (((G.toFloat.setTo 0 (get_unoccluded G H).eqZero).subScalar
        (spec_gold_mean G H)).setTo 0 (get_unoccluded G H).eqZero).px i j ^ 2 = _
    rw [setTo_unoccluded_px]
    by_cases hU : G.px i j ≠ 0 ∧ H.px i j ≠ 0
    · simp only [if_pos hU]
      show ((G.toFloat.setTo 0 (get_unoccluded G H).eqZero).px i j - spec_gold_mean G H) ^ 2 = _
      rw [setTo_unoccluded_px, if_pos hU]
      rfl
    · simp only [if_neg hU]
      norm_num
  have hmean := r_squared_mean G H
  unfold get_r_squared_unoccluded
  simp only []
  have e : (get_unoccluded_diff G H).2.1 = get_unoccluded G H := rfl
  rw [e, hmean, hres, htot]

theorem diff_sq_sum (G H : Mat Nat) (hs : SameSize G H) :
    (get_unoccluded_diff G H).1.sq.sum = spec_ss_res G H := by
  unfold spec_ss_res
  apply Mat.sum_unoccluded G H _ (fun p => residual G H p ^ 2) hs.1 hs.2
  intro i j
  show (get_unoccluded_diff G H).1.px i j ^ 2 = _
  rw [get_unoccluded_diff_px]
  by_cases hU : G.px i j ≠ 0 ∧ H.px i j ≠ 0
  · simp only [if_pos hU, residual]
  · simp only [if_neg hU]
    norm_num

/-- The unoccluded RMSE in terms of `|U|` and the residual sum of squares over `U`. -/
theorem rms_error_unoccluded_sums (sqrt : ℚ → ℚ) (G H : Mat Nat) (hs : SameSize G H) :
    get_rms_error_unoccluded sqrt G H
      = 1 / sqrt ((unoccludedSet G H).card : ℚ) * sqrt (spec_ss_res G H) := by
  have h : norm_L2 sqrt (get_unoccluded_diff G H).1 = sqrt ((get_unoccluded_diff G H).1.sq.sum) :=
    rfl
  unfold get_rms_error_unoccluded
  simp only []
  rw [h, diff_sq_sum G H hs, get_unoccluded_diff_count]

/-- The masked mean and deviation of a map of the size of `G`, over the mask of `U`. -/
theorem meanStdDev_unoccluded (sqrt : ℚ → ℚ) (G H M : Mat Nat)
    (hr : M.rows = G.rows) (hc : M.cols = G.cols) :
    meanStdDev sqrt M.toFloat (get_unoccluded G H) =
      ((∑ p ∈ unoccludedSet G H, (M.px p.1 p.2 : ℚ)) / ((unoccludedSet G H).card : ℚ),
       sqrt (max ((∑ p ∈ unoccludedSet G H, (M.px p.1 p.2 : ℚ) ^ 2)
            / ((unoccludedSet G H).card : ℚ)
          - (∑ p ∈ unoccludedSet G H, (M.px p.1 p.2 : ℚ)) / ((unoccludedSet G H).card : ℚ)
            * ((∑ p ∈ unoccludedSet G H, (M.px p.1 p.2 : ℚ))
                / ((unoccludedSet G H).card : ℚ))) 0)) := by
  have hn : (countNonZero (get_unoccluded G H) : ℚ) = ((unoccludedSet G H).card : ℚ) := by
    have := get_unoccluded_diff_count G H
    simp only [get_unoccluded_diff] at this
    rw [this]
  have h1 : (∑ i ∈ Finset.range M.toFloat.rows, ∑ j ∈ Finset.range M.toFloat.cols,
      if (get_unoccluded G H).px i j ≠ 0 then M.toFloat.px i j else 0)
      = ∑ p ∈ unoccludedSet G H, (M.px p.1 p.2 : ℚ) := by
    have e1 : M.toFloat.rows = G.rows := hr
    have e2 : M.toFloat.cols = G.cols := hc
    rw [e1, e2, ← sum_pixels_unoccluded, pixels, Finset.sum_product]
    apply Finset.sum_congr rfl
    intro i _
    apply Finset.sum_congr rfl
    intro j _
    simp only [get_unoccluded_px]
    rfl
  have h2 : (∑ i ∈ Finset.range M.toFloat.rows, ∑ j ∈ Finset.range M.toFloat.cols,
      if (get_unoccluded G H).px i j ≠ 0 then M.toFloat.px i j ^ 2 else 0)
      = ∑ p ∈ unoccludedSet G H, (M.px p.1 p.2 : ℚ) ^ 2 := by
    have e1 : M.toFloat.rows = G.rows := hr
    have e2 : M.toFloat.cols = G.cols := hc
    rw [e1, e2, ← sum_pixels_unoccluded, pixels, Finset.sum_product]
    apply Finset.sum_congr rfl
    intro i _
    apply Finset.sum_congr rfl
    intro j _
    simp only [get_unoccluded_px]
    rfl
  unfold meanStdDev
  simp only []
  rw [hn, h1, h2]

/-- The correlation score in terms of the moments over `U`. -/
theorem correlation_unoccluded_moments (sqrt : ℚ → ℚ) (G H : Mat Nat) (hs : SameSize G H) :
    get_correlation_unoccluded sqrt G H =
      correlation_of_moments sqrt ((unoccludedSet G H).card : ℚ)
        (∑ p ∈ unoccludedSet G H, (G.px p.1 p.2 : ℚ))
        (∑ p ∈ unoccludedSet G H, (H.px p.1 p.2 : ℚ))
        (∑ p ∈ unoccludedSet G H, (G.px p.1 p.2 : ℚ) ^ 2)
        (∑ p ∈ unoccludedSet G H, (H.px p.1 p.2 : ℚ) ^ 2)
        (∑ p ∈ unoccludedSet G H, (H.px p.1 p.2 : ℚ) * (G.px p.1 p.2 : ℚ)) := by
  have hmul : ((H.toFloat.mul G.toFloat).setTo 0 (get_unoccluded G H).eqZero).sum
      = ∑ p ∈ unoccludedSet G H, (H.px p.1 p.2 : ℚ) * (G.px p.1 p.2 : ℚ) := by
    apply Mat.sum_unoccluded G H _ (fun p => (H.px p.1 p.2 : ℚ) * (G.px p.1 p.2 : ℚ)) hs.1 hs.2
    intro i j
    rw [setTo_unoccluded_px]
    rfl
  have e : (get_unoccluded_diff G H).2.1 = get_unoccluded G H := rfl
  unfold get_correlation_unoccluded correlation_of_moments
  simp only []
  rw [e, meanStdDev_unoccluded sqrt G H G rfl rfl, meanStdDev_unoccluded sqrt G H H hs.1 hs.2,
    hmul, get_unoccluded_diff_count]

/-! ## Translation of both maps by a constant -/

theorem translate_px_cast (M : Mat Nat) (c : Int) (i j : Int)
    (h : 0 ≤ (M.px i j : Int) + c) :
    ((translate M c).px i j : ℚ) = (M.px i j : ℚ) + (c : ℚ) := by
  have e : (((translate M c).px i j : Nat) : Int) = (M.px i j : Int) + c := by
    simp only [translate]
    exact Int.toNat_of_nonneg h
  have e2 : (((translate M c).px i j : Int) : ℚ) = (((M.px i j : Int) + c : Int) : ℚ) := by
    rw [e]
  push_cast at e2
  exact e2

theorem translate_px_ne (M : Mat Nat) (c : Int) (i j : Int)
    (h : 0 ≤ (M.px i j : Int) + c) :
    (translate M c).px i j ≠ 0 ↔ (M.px i j : Int) + c ≠ 0 := by
  simp only [translate]
  omega

theorem translate_cond (G H : Mat Nat) (c : Int) (hs : SameSize G H)
    (hG : InByteRange G c) (hH : InByteRange H c) (hU : KeepsUnoccluded G H c)
    (i j : Nat) (hi : i < G.rows) (hj : j < G.cols) :
    ((translate G c).px i j ≠ 0 ∧ (translate H c).px i j ≠ 0) ↔
      (G.px i j ≠ 0 ∧ H.px i j ≠ 0) := by
  have h1 := (hG i hi j hj).1
  have h2 := (hH i (by rw [hs.1]; exact hi) j (by rw [hs.2]; exact hj)).1
  rw [translate_px_ne G c i j h1, translate_px_ne H c i j h2]
  exact (hU i hi j hj).symm

theorem unoccludedSet_translate (G H : Mat Nat) (c : Int) (hs : SameSize G H)
    (hG : InByteRange G c) (hH : InByteRange H c) (hU : KeepsUnoccluded G H c) :
    unoccludedSet (translate G c) (translate H c) = unoccludedSet G H := by
  unfold unoccludedSet
  have e1 : (translate G c).rows = G.rows := rfl
  have e2 : (translate G c).cols = G.cols := rfl
  rw [e1, e2]
  apply Finset.filter_congr
  intro p hp
  simp only [pixels, Finset.mem_product, Finset.mem_range] at hp
  exact translate_cond G H c hs hG hH hU p.1 p.2 hp.1 hp.2

theorem translate_value (G H M : Mat Nat) (c : Int) (hr : M.rows = G.rows)
    (hc : M.cols = G.cols) (hM : InByteRange M c) (p : Nat × Nat)
    (hp : p ∈ unoccludedSet G H) :
    ((translate M c).px p.1 p.2 : ℚ) = (M.px p.1 p.2 : ℚ) + (c : ℚ) := by
  rw [unoccluded_mem] at hp
  exact translate_px_cast M c p.1 p.2
    (hM p.1 (by rw [hr]; exact hp.1.1) p.2 (by rw [hc]; exact hp.1.2)).1

theorem countNonZero_congr (a b : Mat Nat) (hr : a.rows = b.rows) (hc : a.cols = b.cols)
    (h : ∀ i j : Nat, i < b.rows → j < b.cols → (a.px i j ≠ 0 ↔ b.px i j ≠ 0)) :
    countNonZero a = countNonZero b := by
  unfold countNonZero
  rw [hr, hc]
  apply Finset.sum_congr rfl
  intro i hi
  apply Finset.sum_congr rfl
  intro j hj
  have := h i j (Finset.mem_range.mp hi) (Finset.mem_range.mp hj)
  by_cases hb : b.px i j ≠ 0
  · rw [if_pos hb, if_pos (this.mpr hb)]
  · rw [if_neg hb, if_neg (fun ha => hb (this.mp ha))]

/-- The masked residual matrix is the same before and after the shift. -/
theorem translate_diff_px (G H : Mat Nat) (c : Int) (hs : SameSize G H)
    (hG : InByteRange G c) (hH : InByteRange H c) (hU : KeepsUnoccluded G H c)
    (i j : Nat) (hi : i < G.rows) (hj : j < G.cols) :
    (get_unoccluded_diff (translate G c) (translate H c)).1.px i j
      = (get_unoccluded_diff G H).1.px i j := by
  rw [get_unoccluded_diff_px, get_unoccluded_diff_px]
  have hcnd := translate_cond G H c hs hG hH hU i j hi hj
  have h1 := (hG i hi j hj).1
  have h2 := (hH i (by rw [hs.1]; exact hi) j (by rw [hs.2]; exact hj)).1
  by_cases hc' : G.px i j ≠ 0 ∧ H.px i j ≠ 0
  · rw [if_pos hc', if_pos (hcnd.mpr hc'), translate_px_cast G c i j h1,
      translate_px_cast H c i j h2]
    ring
  · rw [if_neg hc', if_neg (fun h => hc' (hcnd.mp h))]

theorem translate_residual (G H : Mat Nat) (c : Int) (hs : SameSize G H)
    (hG : InByteRange G c) (hH : InByteRange H c) (p : Nat × Nat)
    (hp : p ∈ unoccludedSet G H) :
    residual (translate G c) (translate H c) p = residual G H p := by
  unfold residual
  rw [translate_value G H G c rfl rfl hG p hp, translate_value G H H c hs.1 hs.2 hH p hp]
  ring

theorem translate_sum (G H M : Mat Nat) (c : Int) (hr : M.rows = G.rows)
    (hc : M.cols = G.cols) (hM : InByteRange M c) :
    (∑ p ∈ unoccludedSet G H, ((translate M c).px p.1 p.2 : ℚ))
      = (∑ p ∈ unoccludedSet G H, (M.px p.1 p.2 : ℚ)) + ((unoccludedSet G H).card : ℚ) * (c : ℚ) := by
  rw [Finset.sum_congr rfl (fun p hp => translate_value G H M c hr hc hM p hp),
    Finset.sum_add_distrib, Finset.sum_const, nsmul_eq_mul]

theorem translate_sum_sq (G H M : Mat Nat) (c : Int) (hr : M.rows = G.rows)
    (hc : M.cols = G.cols) (hM : InByteRange M c) :
    (∑ p ∈ unoccludedSet G H, ((translate M c).px p.1 p.2 : ℚ) ^ 2)
      = (∑ p ∈ unoccludedSet G H, (M.px p.1 p.2 : ℚ) ^ 2)
        + 2 * (c : ℚ) * (∑ p ∈ unoccludedSet G H, (M.px p.1 p.2 : ℚ))
        + ((unoccludedSet G H).card : ℚ) * (c : ℚ) ^ 2 := by
  have h : ∀ p ∈ unoccludedSet G H, ((translate M c).px p.1 p.2 : ℚ) ^ 2
      = (M.px p.1 p.2 : ℚ) ^ 2 + 2 * (c : ℚ) * (M.px p.1 p.2 : ℚ) + (c : ℚ) ^ 2 := by
    intro p hp
    rw [translate_value G H M c hr hc hM p hp]
    ring
  rw [Finset.sum_congr rfl h, Finset.sum_add_distrib, Finset.sum_add_distrib,
    Finset.sum_const, nsmul_eq_mul, ← Finset.mul_sum]

theorem translate_sum_mul (G H : Mat Nat) (c : Int) (hs : SameSize G H)
    (hG : InByteRange G c) (hH : InByteRange H c) :
    (∑ p ∈ unoccludedSet G H,
        ((translate H c).px p.1 p.2 : ℚ) * ((translate G c).px p.1 p.2 : ℚ))
      = (∑ p ∈ unoccludedSet G H, (H.px p.1 p.2 : ℚ) * (G.px p.1 p.2 : ℚ))
        + (c : ℚ) * (∑ p ∈ unoccludedSet G H, (H.px p.1 p.2 : ℚ))
        + (c : ℚ) * (∑ p ∈ unoccludedSet G H, (G.px p.1 p.2 : ℚ))
        + ((unoccludedSet G H).card : ℚ) * (c : ℚ) ^ 2 := by
  have h : ∀ p ∈ unoccludedSet G H,
      ((translate H c).px p.1 p.2 : ℚ) * ((translate G c).px p.1 p.2 : ℚ)
      = (H.px p.1 p.2 : ℚ) * (G.px p.1 p.2 : ℚ) + (c : ℚ) * (H.px p.1 p.2 : ℚ)
        + (c : ℚ) * (G.px p.1 p.2 : ℚ) + (c : ℚ) ^ 2 := by
    intro p hp
    rw [translate_value G H G c rfl rfl hG p hp, translate_value G H H c hs.1 hs.2 hH p hp]
    ring
  rw [Finset.sum_congr rfl h, Finset.sum_add_distrib, Finset.sum_add_distrib,
    Finset.sum_add_distrib, Finset.sum_const, nsmul_eq_mul, ← Finset.mul_sum, ← Finset.mul_sum]

/-- Shifting both maps by `c` shifts the moments over a nonempty `U` without changing
the correlation score. -/
theorem correlation_of_moments_shift (sqrt : ℚ → ℚ) (n sG sH qG qH sGH c : ℚ) (hn : n ≠ 0) :
    correlation_of_moments sqrt n (sG + n * c) (sH + n * c)
        (qG + 2 * c * sG + n * c ^ 2) (qH + 2 * c * sH + n * c ^ 2)
        (sGH + c * sH + c * sG + n * c ^ 2)
      = correlation_of_moments sqrt n sG sH qG qH sGH := by
  have hA : sGH + c * sH + c * sG + n * c ^ 2 - n * ((sH + n * c) / n) * ((sG + n * c) / n)
      = sGH - n * (sH / n) * (sG / n) := by
    field_simp
    ring
  have hB : ∀ s q : ℚ, (q + 2 * c * s + n * c ^ 2) / n - (s + n * c) / n * ((s + n * c) / n)
      = q / n - s / n * (s / n) := by
    intro s q
    field_simp
    ring
  unfold correlation_of_moments
  rw [hA, hB sG qG, hB sH qH]

theorem translate_gold_mean (G H : Mat Nat) (c : Int) (hs : SameSize G H)
    (hG : InByteRange G c) (hH : InByteRange H c) (hU : KeepsUnoccluded G H c)
    (hn : ((unoccludedSet G H).card : ℚ) ≠ 0) :
    spec_gold_mean (translate G c) (translate H c) = spec_gold_mean G H + (c : ℚ) := by
  unfold spec_gold_mean
  rw [unoccludedSet_translate G H c hs hG hH hU, translate_sum G H G c rfl rfl hG]
  field_simp
  ring

theorem translate_ss_res (G H : Mat Nat) (c : Int) (hs : SameSize G H)
    (hG : InByteRange G c) (hH : InByteRange H c) (hU : KeepsUnoccluded G H c) :
    spec_ss_res (translate G c) (translate H c) = spec_ss_res G H := by
  unfold spec_ss_res
  rw [unoccludedSet_translate G H c hs hG hH hU]
  apply Finset.sum_congr rfl
  intro p hp
  rw [translate_residual G H c hs hG hH p hp]

theorem translate_ss_tot (G H : Mat Nat) (c : Int) (hs : SameSize G H)
    (hG : InByteRange G c) (hH : InByteRange H c) (hU : KeepsUnoccluded G H c) :
    spec_ss_tot (translate G c) (translate H c) = spec_ss_tot G H := by
  unfold spec_ss_tot
  rw [unoccludedSet_translate G H c hs hG hH hU]
  apply Finset.sum_congr rfl
  intro p hp
  have hpos : 0 < (unoccludedSet G H).card := Finset.card_pos.mpr ⟨p, hp⟩
  have hn : ((unoccludedSet G H).card : ℚ) ≠ 0 := by
    exact_mod_cast (Nat.pos_iff_ne_zero.mp hpos)
  rw [translate_gold_mean G H c hs hG hH hU hn, translate_value G H G c rfl rfl hG p hp]
  ring

theorem translate_sameSize (G H : Mat Nat) (c : Int) (hs : SameSize G H) :
    SameSize (translate G c) (translate H c) := hs

theorem translate_correlation (sqrt : ℚ → ℚ) (G H : Mat Nat) (c : Int) (hs : SameSize G H)
    (hG : InByteRange G c) (hH : InByteRange H c) (hU : KeepsUnoccluded G H c) :
    get_correlation_unoccluded sqrt (translate G c) (translate H c)
      = get_correlation_unoccluded sqrt G H := by
  rw [correlation_unoccluded_moments sqrt _ _ (translate_sameSize G H c hs),
    correlation_unoccluded_moments sqrt G H hs,
    unoccludedSet_translate G H c hs hG hH hU]
  by_cases hn : ((unoccludedSet G H).card : ℚ) = 0
  · have hempty : unoccludedSet G H = ∅ := by
      apply Finset.card_eq_zero.mp
      exact_mod_cast hn
    rw [hempty]
    simp only [Finset.sum_empty]
  · rw [translate_sum G H G c rfl rfl hG, translate_sum G H H c hs.1 hs.2 hH,
      translate_sum_sq G H G c rfl rfl hG, translate_sum_sq G H H c hs.1 hs.2 hH,
      translate_sum_mul G H c hs hG hH]
    exact correlation_of_moments_shift sqrt _ _ _ _ _ _ _ hn

theorem translate_bad_matching (G H : Mat Nat) (c : Int) (hs : SameSize G H)
    (hG : InByteRange G c) (hH : InByteRange H c) (hU : KeepsUnoccluded G H c) (t : Int) :
    get_bad_matching_unoccluded (translate G c) (translate H c) t
      = get_bad_matching_unoccluded G H t := by
  unfold get_bad_matching_unoccluded
  simp only []
  rw [get_unoccluded_diff_count, get_unoccluded_diff_count,
    unoccludedSet_translate G H c hs hG hH hU]
  congr 2
  refine countNonZero_congr ((get_unoccluded_diff (translate G c) (translate H c)).1.absGt t)
    ((get_unoccluded_diff G H).1.absGt t) rfl rfl ?_
  intro i j hi hj
  have hi' : i < G.rows := by
    have : ((get_unoccluded_diff G H).1.absGt t).rows = G.rows := hs.1
    rw [← this]; exact hi
  have hj' : j < G.cols := by
    have : ((get_unoccluded_diff G H).1.absGt t).cols = G.cols := hs.2
    rw [← this]; exact hj
  simp only [Mat.absGt]
  rw [translate_diff_px G H c hs hG hH hU i j hi' hj']

/-! ## The cross-check only removes disparities -/

theorem ccp_left_zeroes (cols i j : Nat) (s : Mat Nat × Mat Nat) (a b : Int) :
    (cross_check_pixel cols i j s).1.px a b = s.1.px a b ∨
    (cross_check_pixel cols i j s).1.px a b = 0 := by
  by_cases hab : a = (i : Int) ∧ b = (j : Int)
  · simp only [cross_check_pixel, Mat.set]
    split_ifs <;> simp [hab]
  · left
    exact ccp_left_frame cols i j s a b (by tauto)

theorem ccp_right_zeroes (cols i j : Nat) (s : Mat Nat × Mat Nat) (a b : Int) :
    (cross_check_pixel cols i j s).2.px a b = s.2.px a b ∨
    (cross_check_pixel cols i j s).2.px a b = 0 := by
  by_cases hab : a = (i : Int) ∧ b = (j : Int)
  · simp only [cross_check_pixel, Mat.set]
    split_ifs <;> simp [hab]
  · left
    exact ccp_right_frame cols i j s a b (by tauto)

/-- Every pixel of the cross-checked maps holds its input value or 0. -/
theorem cross_check_zeroes (rows cols : Nat) (s : Mat Nat × Mat Nat) :
    ∀ a b : Int,
      ((cross_check rows cols s).1.px a b = s.1.px a b ∨ (cross_check rows cols s).1.px a b = 0) ∧
      ((cross_check rows cols s).2.px a b = s.2.px a b ∨ (cross_check rows cols s).2.px a b = 0) := by
  refine forLoop_inv
    (fun _ t => ∀ a b : Int,
      (t.1.px a b = s.1.px a b ∨ t.1.px a b = 0) ∧ (t.2.px a b = s.2.px a b ∨ t.2.px a b = 0))
    rows _ s (fun a b => ⟨Or.inl rfl, Or.inl rfl⟩) ?_
  intro i _ t ht
  refine forLoop_inv
    (fun _ u => ∀ a b : Int,
      (u.1.px a b = s.1.px a b ∨ u.1.px a b = 0) ∧ (u.2.px a b = s.2.px a b ∨ u.2.px a b = 0))
    cols _ t ht ?_
  intro j _ u hu a b
  obtain ⟨h1, h2⟩ := hu a b
  refine ⟨?_, ?_⟩
  · rcases ccp_left_zeroes cols i j u a b with e | e
    · rw [e]; exact h1
    · exact Or.inr e
  · rcases ccp_right_zeroes cols i j u a b with e | e
    · rw [e]; exact h2
    · exact Or.inr e

/-- The cross-check keeps the dimensions recorded in the two matrices. -/
theorem cross_check_dims (rows cols : Nat) (s : Mat Nat × Mat Nat) :
    (cross_check rows cols s).1.rows = s.1.rows ∧ (cross_check rows cols s).1.cols = s.1.cols ∧
    (cross_check rows cols s).2.rows = s.2.rows ∧ (cross_check rows cols s).2.cols = s.2.cols := by
  refine forLoop_inv
    (fun _ t => t.1.rows = s.1.rows ∧ t.1.cols = s.1.cols ∧
      t.2.rows = s.2.rows ∧ t.2.cols = s.2.cols)
    rows _ s ⟨rfl, rfl, rfl, rfl⟩ ?_
  intro i _ t ht
  refine forLoop_inv
    (fun _ u => u.1.rows = s.1.rows ∧ u.1.cols = s.1.cols ∧
      u.2.rows = s.2.rows ∧ u.2.cols = s.2.cols)
    cols _ t ht ?_
  intro j _ u hu
  obtain ⟨h1, h2, h3, h4⟩ := hu
  simp only [cross_check_pixel, Mat.set]
  refine ⟨?_, ?_, ?_, ?_⟩
  · split_ifs <;> exact h1
  · split_ifs <;> exact h2
  · split_ifs <;> exact h3
  · split_ifs <;> exact h4

/-! ## The labels of one iteration -/

/-- The first component of a loop over a state paired with a flag is a left fold. -/
theorem forLoop_fst_fold {σ : Type} (n : Nat) (f : Nat → σ → σ) (g : Nat → σ × Bool → Bool)
    (s : σ × Bool) :
    (forLoop n (fun k r => (f k r.1, g k r)) s).1 = (List.range n).foldl (fun t k => f k t) s.1 := by
  induction n with
  | zero => rfl
  | succ m ih =>
    rw [forLoop_succ, List.range_succ, List.foldl_append, ← ih]
    rfl

/-- The loop of `run_iteration` is a left fold of `run_alpha_expansion` over the labels
`min_disparity + k`, `k = 0, 1, ...`, each passed negated. -/
theorem run_iteration_fold (flow : GraphCutDisparity → Nat → Color) (s : GraphCutDisparity) :
    (run_iteration flow s).1 =
      ((List.range (s.max_disparity + 1 - s.min_disparity).toNat).map
        (fun k : Nat => s.min_disparity + (k : Int))).foldl
        (fun t d => run_alpha_expansion flow (-d) t) s := by
  rw [List.foldl_map]
  exact forLoop_fst_fold (s.max_disparity + 1 - s.min_disparity).toNat
    (fun k t => run_alpha_expansion flow (-(s.min_disparity + (k : Int))) t)
    (fun k r => (run_alpha_expansion flow (-(s.min_disparity + (k : Int))) r.1).changed || r.2)
    (s, false)

/-- The labels `m + k` for `k < M + 1 - m` are the integers of `[m, M]` in ascending
order. -/
theorem labels_eq_sort (m M : Int) :
    (List.range (M + 1 - m).toNat).map (fun k : Nat => m + (k : Int))
      = (Finset.Icc m M).sort (· ≤ ·) := by
  apply List.eq_of_perm_of_sorted (r := (· ≤ ·))
  · apply (List.perm_ext_iff_of_nodup ?_ (Finset.sort_nodup _ _)).mpr
    · intro d
      rw [Finset.mem_sort, Finset.mem_Icc, List.mem_map]
      constructor
      · rintro ⟨k, hk, rfl⟩
        rw [List.mem_range] at hk
        omega
      · intro h
        refine ⟨(d - m).toNat, ?_, ?_⟩
        · rw [List.mem_range]
          omega
        · omega
    · apply List.Nodup.map
      · intro a b hab
        simp only [] at hab
        omega
      · exact List.nodup_range _
  · rw [List.Sorted, List.pairwise_map]
    exact List.Pairwise.imp (fun {a b} (h : a < b) => by omega) (List.pairwise_lt_range _)
  · exact Finset.sort_sorted _ _

theorem run_iteration_empty (flow : GraphCutDisparity → Nat → Color) (s : GraphCutDisparity)
    (h : s.max_disparity < s.min_disparity) : run_iteration flow s = (s, false) := by
  have hn : (s.max_disparity + 1 - s.min_disparity).toNat = 0 := by omega
  unfold run_iteration
  rw [hn, forLoop_zero]

theorem compute_init_min (s0 : GraphCutDisparity) (pair : StereoPair) :
    (compute_init s0 pair).min_disparity
      = max 1 (min pair.min_disparity_left pair.min_disparity_right - 2) := by
  simp only [compute_init]
  split_ifs <;> omega

theorem compute_init_max (s0 : GraphCutDisparity) (pair : StereoPair) :
    (compute_init s0 pair).max_disparity
      = min 255 (max pair.max_disparity_left pair.max_disparity_right + 2) := by
  simp only [compute_init]
  split_ifs <;> omega

/-! ## The values written by the graph-cut update -/

theorem for_each_alpha_inv_d (P : GraphCutDisparity → Prop)
    (fn : Correspondence → GraphCutDisparity → GraphCutDisparity) (alpha : Int)
    (s : GraphCutDisparity) (hfn : ∀ c t, c.d = alpha → P t → P (fn c t)) (hs : P s) :
    P (for_each_alpha fn alpha s) := by
  unfold for_each_alpha
  refine forLoop_inv (fun _ t => P t) _ _ s hs ?_
  intro y _ t ht
  refine forLoop_inv (fun _ u => P u) _ _ t ht ?_
  intro x _ u hu
  simp only []
  split_ifs
  · exact hfn _ u rfl hu
  · exact hu

theorem set_inLabelRange (m M : Int) (mat : Mat Nat) (i j : Int) (v : Nat)
    (hv : InLabelRange m M v) (h : ∀ a b : Int, InLabelRange m M (mat.px a b)) :
    ∀ a b : Int, InLabelRange m M ((mat.set i j v).px a b) := by
  intro a b
  rw [Mat.set_px]
  split_ifs
  · exact hv
  · exact h a b

theorem null_inLabelRange (m M : Int) : InLabelRange m M (NULL_DISPARITY % 256).toNat :=
  Or.inl (by decide)

theorem update_active_inRange (m M : Int) (c : Correspondence) (t : GraphCutDisparity)
    (h : InRangeState m M t) : InRangeState m M (update_active c t) := by
  obtain ⟨h1, h2, h3⟩ := h
  unfold update_active
  split_ifs
  · exact ⟨h1, h2, h3⟩
  · refine ⟨h1, h2, fun a b => ⟨?_, ?_⟩⟩
    · exact set_inLabelRange m M _ _ _ _ (null_inLabelRange m M) (fun a b => (h3 a b).1) a b
    · exact set_inLabelRange m M _ _ _ _ (null_inLabelRange m M) (fun a b => (h3 a b).2) a b

theorem update_alpha_inRange (m M : Int) (hm : 1 ≤ m) (hM : M ≤ 255) (c : Correspondence)
    (hc : m ≤ -c.d ∧ -c.d ≤ M) (t : GraphCutDisparity)
    (h : InRangeState m M t) : InRangeState m M (update_alpha c t) := by
  obtain ⟨h1, h2, h3⟩ := h
  have hlabel : InLabelRange m M ((-c.d) % 256).toNat := by
    right
    have h256 : (-c.d) % 256 = -c.d := Int.emod_eq_of_lt (by omega) (by omega)
    rw [h256, Int.toNat_of_nonneg (by omega)]
    exact hc
  unfold update_alpha
  simp only []
  split_ifs
  · refine ⟨h1, h2, fun a b => ⟨?_, ?_⟩⟩
    · exact set_inLabelRange m M _ _ _ _ hlabel (fun a b => (h3 a b).1) a b
    · exact set_inLabelRange m M _ _ _ _ hlabel (fun a b => (h3 a b).2) a b
  · refine ⟨h1, h2, fun a b => ⟨?_, ?_⟩⟩
    · exact set_inLabelRange m M _ _ _ _ (null_inLabelRange m M) (fun a b => (h3 a b).1) a b
    · exact set_inLabelRange m M _ _ _ _ (null_inLabelRange m M) (fun a b => (h3 a b).2) a b
  · exact ⟨h1, h2, h3⟩

theorem update_correspondences_inRange (m M : Int) (hm : 1 ≤ m) (hM : M ≤ 255) (d : Int)
    (hd : m ≤ d ∧ d ≤ M) (s : GraphCutDisparity) (h : InRangeState m M s) :
    InRangeState m M (update_correspondences (-d) s) := by
  rw [update_correspondences_eq]
  have h0 : InRangeState m M { s with changed := false } := h
  have h1 := for_each_active_inv (InRangeState m M) update_active (-d)
    { s with changed := false } (fun c t ht => update_active_inRange m M c t ht) h0
  exact for_each_alpha_inv_d (InRangeState m M) update_alpha (-d) _
    (fun c t hc ht => update_alpha_inRange m M hm hM c (by rw [hc]; omega) t ht) h1

theorem cut_graph_inRange (flow : GraphCutDisparity → Nat → Color) (m M : Int) (alpha : Int)
    (s : GraphCutDisparity) (h : InRangeState m M s) :
    InRangeState m M (cut_graph flow alpha s) := by
  obtain ⟨hp, hmin, hmax⟩ := cut_graph_samePair flow alpha s
  obtain ⟨h1, h2, h3⟩ := h
  refine ⟨by rw [hmin]; exact h1, by rw [hmax]; exact h2, ?_⟩
  rw [hp]
  exact h3

theorem run_alpha_expansion_inRange (flow : GraphCutDisparity → Nat → Color) (m M : Int)
    (hm : 1 ≤ m) (hM : M ≤ 255) (d : Int) (hd : m ≤ d ∧ d ≤ M) (s : GraphCutDisparity)
    (h : InRangeState m M s) : InRangeState m M (run_alpha_expansion flow (-d) s) := by
  rw [run_alpha_expansion_eq]
  exact update_correspondences_inRange m M hm hM d hd _ (cut_graph_inRange flow m M (-d) s h)

theorem run_iteration_inRange (flow : GraphCutDisparity → Nat → Color) (m M : Int)
    (hm : 1 ≤ m) (hM : M ≤ 255) (s : GraphCutDisparity) (h : InRangeState m M s) :
    InRangeState m M (run_iteration flow s).1 := by
  unfold run_iteration
  have key := forLoop_inv
    (fun _ (r : GraphCutDisparity × Bool) => InRangeState m M r.1)
    (s.max_disparity + 1 - s.min_disparity).toNat
    (fun k r =>
      let alpha : Int := s.min_disparity + (k : Int)
      let t := run_alpha_expansion flow (-alpha) r.1
      (t, t.changed || r.2)) (s, false) h
    (by
      intro k hk r hr
      simp only []
      have h1 : s.min_disparity = m := h.1
      have h2 : s.max_disparity = M := h.2.1
      exact run_alpha_expansion_inRange flow m M hm hM _ (by omega) r.1 hr)
  exact key

theorem compute_init_inRange (s0 : GraphCutDisparity) (pair : StereoPair) :
    InRangeState (compute_init s0 pair).min_disparity (compute_init s0 pair).max_disparity
      (compute_init s0 pair) :=
  ⟨rfl, rfl, fun _ _ => ⟨Or.inl rfl, Or.inl rfl⟩⟩

theorem compute_inRange (flow : GraphCutDisparity → Nat → Color) (s0 : GraphCutDisparity)
    (pair : StereoPair) :
    InRangeState (compute_init s0 pair).min_disparity (compute_init s0 pair).max_disparity
      (compute flow s0 pair) := by
  have hm : 1 ≤ (compute_init s0 pair).min_disparity := by
    rw [compute_init_min]; exact le_max_left _ _
  have hM : (compute_init s0 pair).max_disparity ≤ 255 := by
    rw [compute_init_max]; exact min_le_left _ _
  unfold compute
  exact forLoop_inv
    (fun _ t => InRangeState (compute_init s0 pair).min_disparity
      (compute_init s0 pair).max_disparity t) _ _ _
    (compute_init_inRange s0 pair)
    (fun _ _ t ht => run_iteration_inRange flow _ _ hm hM t ht)

theorem compute_empty (flow : GraphCutDisparity → Nat → Color) (s0 : GraphCutDisparity)
    (pair : StereoPair)
    (h : (compute_init s0 pair).max_disparity < (compute_init s0 pair).min_disparity) :
    compute flow s0 pair = compute_init s0 pair := by
  unfold compute
  refine forLoop_inv (fun _ t => t = compute_init s0 pair) _ _ _ rfl ?_
  intro _ _ t ht
  subst ht
  rw [run_iteration_empty flow _ h]

/-! ## The scan of `minMaxLoc` -/

/-- Rule for a row-major double loop that accumulates over the pixels: an invariant
indexed by the set of pixels seen so far, true of the empty set at entry and extended
by each iteration with the pixel it visits, holds of the whole image at exit. -/
theorem forPixels_acc {σ : Type} (rows cols : Nat) (body : Nat → Nat → σ → σ)
    (I : (Nat → Nat → Prop) → σ → Prop)
    (hext : ∀ (P Q : Nat → Nat → Prop) (t : σ), (∀ i j, P i j ↔ Q i j) → I P t → I Q t)
    (hstep : ∀ (y x : Nat) (P : Nat → Nat → Prop) (t : σ), y < rows → x < cols → I P t →
      I (fun i j => P i j ∨ (i = y ∧ j = x)) (body y x t))
    (s : σ) (h0 : I (fun _ _ => False) s) :
    I (fun i j => i < rows ∧ j < cols)
      (forLoop rows (fun y => forLoop cols (fun x => body y x)) s) := by
  refine forLoop_inv (fun n t => I (fun i j => i < n ∧ j < cols) t) rows _ s
    (hext _ _ s (fun i j => by constructor <;> intro h <;> [exact h.elim; omega]) h0) ?_
  intro y hy t ht
  have inner := forLoop_inv
    (fun m u => I (fun i j => (i < y ∧ j < cols) ∨ (i = y ∧ j < m)) u)
    cols (fun x => body y x) t
    (hext _ _ t (fun i j => by constructor <;> intro h <;> omega) ht)
    (by
      intro m hm u hu
      refine hext _ _ _ ?_ (hstep y m _ u hy hm hu)
      intro i j
      constructor <;> intro h <;> omega)
  refine hext _ _ _ ?_ inner
  intro i j
  constructor <;> intro h <;> omega

theorem MinMaxOver_ext (src mask : Mat Nat) (P Q : Nat → Nat → Prop) (acc : Option (Nat × Nat))
    (h : ∀ i j, P i j ↔ Q i j) (hP : MinMaxOver src mask P acc) : MinMaxOver src mask Q acc := by
  cases acc with
  | none =>
    intro i j hq
    exact hP i j ((h i j).mpr hq)
  | some p =>
    obtain ⟨mn, mx⟩ := p
    obtain ⟨⟨i1, j1, a1, b1, c1⟩, ⟨i2, j2, a2, b2, c2⟩, h3⟩ := hP
    exact ⟨⟨i1, j1, (h i1 j1).mp a1, b1, c1⟩, ⟨i2, j2, (h i2 j2).mp a2, b2, c2⟩,
      fun i j hq hm => h3 i j ((h i j).mpr hq) hm⟩

theorem MinMaxOver_step (src mask : Mat Nat) (y x : Nat) (P : Nat → Nat → Prop)
    (acc : Option (Nat × Nat)) (hP : MinMaxOver src mask P acc) :
    MinMaxOver src mask (fun i j => P i j ∨ (i = y ∧ j = x)) (minMaxLoc_step src mask y x acc) := by
  unfold minMaxLoc_step
  by_cases hm : mask.px y x ≠ 0
  · rw [if_pos hm]
    cases acc with
    | none =>
      refine ⟨⟨y, x, Or.inr ⟨rfl, rfl⟩, hm, rfl⟩, ⟨y, x, Or.inr ⟨rfl, rfl⟩, hm, rfl⟩, ?_⟩
      intro i j hq hmask
      rcases hq with hp | ⟨rfl, rfl⟩
      · exact absurd (hP i j hp) hmask
      · exact ⟨le_refl _, le_refl _⟩
    | some p =>
      obtain ⟨mn, mx⟩ := p
      obtain ⟨⟨i1, j1, a1, b1, c1⟩, ⟨i2, j2, a2, b2, c2⟩, h3⟩ := hP
      refine ⟨?_, ?_, ?_⟩
      · by_cases hlt : mn ≤ src.px y x
        · exact ⟨i1, j1, Or.inl a1, b1, by rw [c1]; exact (min_eq_left hlt).symm⟩
        · exact ⟨y, x, Or.inr ⟨rfl, rfl⟩, hm, (min_eq_right (by omega)).symm⟩
      · by_cases hlt : src.px y x ≤ mx
        · exact ⟨i2, j2, Or.inl a2, b2, by rw [c2]; exact (max_eq_left hlt).symm⟩
        · exact ⟨y, x, Or.inr ⟨rfl, rfl⟩, hm, (max_eq_right (by omega)).symm⟩
      · intro i j hq hmask
        rcases hq with hp | ⟨rfl, rfl⟩
        · obtain ⟨l, u⟩ := h3 i j hp hmask
          exact ⟨le_trans (min_le_left _ _) l, le_trans u (le_max_left _ _)⟩
        · exact ⟨min_le_right _ _, le_max_right _ _⟩
  · rw [if_neg hm]
    cases acc with
    | none =>
      intro i j hq
      rcases hq with hp | ⟨rfl, rfl⟩
      · exact hP i j hp
      · exact not_not.mp hm
    | some p =>
      obtain ⟨mn, mx⟩ := p
      obtain ⟨⟨i1, j1, a1, b1, c1⟩, ⟨i2, j2, a2, b2, c2⟩, h3⟩ := hP
      refine ⟨⟨i1, j1, Or.inl a1, b1, c1⟩, ⟨i2, j2, Or.inl a2, b2, c2⟩, ?_⟩
      intro i j hq hmask
      rcases hq with hp | ⟨rfl, rfl⟩
      · exact h3 i j hp hmask
      · exact absurd hmask hm

/-- The accumulator of the complete `minMaxLoc` scan describes the whole image. -/
theorem minMaxLoc_scan (src mask : Mat Nat) :
    MinMaxOver src mask (fun i j => i < src.rows ∧ j < src.cols)
      (forLoop src.rows (fun i => forLoop src.cols (fun j => minMaxLoc_step src mask i j))
        none) :=
  forPixels_acc src.rows src.cols (fun i j => minMaxLoc_step src mask i j)
    (MinMaxOver src mask) (MinMaxOver_ext src mask)
    (fun y x P t _ _ ht => MinMaxOver_step src mask y x P t ht) none
    (fun _ _ h => h.elim)

/-- When the mask selects a pixel, `minMaxLoc` returns the least and the greatest
selected value. -/
theorem minMaxLoc_spec (src mask : Mat Nat)
    (h : ∃ y, y < src.rows ∧ ∃ x, x < src.cols ∧ mask.px y x ≠ 0) :
    ∃ mn mx : Nat, minMaxLoc src mask = ((mn : Int), (mx : Int)) ∧
      MinMaxOver src mask (fun i j => i < src.rows ∧ j < src.cols) (some (mn, mx)) := by
  have hscan := minMaxLoc_scan src mask
  unfold minMaxLoc
  cases hacc : forLoop src.rows
      (fun i => forLoop src.cols (fun j => minMaxLoc_step src mask i j)) none with
  | none =>
    rw [hacc] at hscan
    obtain ⟨y, hy, x, hx, hne⟩ := h
    exact absurd (hscan y x ⟨hy, hx⟩) hne
  | some p =>
    obtain ⟨mn, mx⟩ := p
    rw [hacc] at hscan
    exact ⟨mn, mx, rfl, hscan⟩

theorem neZero_px (m : Mat Nat) (i j : Int) : (m.neZero).px i j ≠ 0 ↔ m.px i j ≠ 0 := by
  simp only [Mat.neZero]
  by_cases h : m.px i j = 0 <;> simp [h]

/-- The bounds that `minMaxLoc` finds under the nonzero mask of an 8-bit map with a
nonzero entry. -/
theorem minMaxLoc_neZero (M : Mat Nat) (h8 : ∀ y x : Int, M.px y x ≤ 255) (hnz : HasNonzero M) :
    IsMinNonzero M (minMaxLoc M M.neZero).1 ∧ IsMaxNonzero M (minMaxLoc M M.neZero).2 ∧
    1 ≤ (minMaxLoc M M.neZero).1 ∧ (minMaxLoc M M.neZero).1 ≤ (minMaxLoc M M.neZero).2 ∧
    (minMaxLoc M M.neZero).2 ≤ 255 := by
  have hsel : ∃ y, y < M.rows ∧ ∃ x, x < M.cols ∧ (M.neZero).px y x ≠ 0 := by
    obtain ⟨y, hy, x, hx, hne⟩ := hnz
    exact ⟨y, hy, x, hx, (neZero_px M y x).mpr hne⟩
  obtain ⟨mn, mx, he, ⟨i1, j1, a1, b1, c1⟩, ⟨i2, j2, a2, b2, c2⟩, h3⟩ :=
    minMaxLoc_spec M M.neZero hsel
  rw [he]
  simp only []
  have n1 := (neZero_px M i1 j1).mp b1
  have n2 := (neZero_px M i2 j2).mp b2
  refine ⟨⟨⟨i1, j1, a1.1, a1.2, n1, by rw [c1]⟩, ?_⟩, ⟨⟨i2, j2, a2.1, a2.2, n2, by rw [c2]⟩, ?_⟩,
    ?_, ?_, ?_⟩
  · intro y x hy hx hne
    have := (h3 y x ⟨hy, hx⟩ ((neZero_px M y x).mpr hne)).1
    exact_mod_cast this
  · intro y x hy hx hne
    have := (h3 y x ⟨hy, hx⟩ ((neZero_px M y x).mpr hne)).2
    exact_mod_cast this
  · have : 1 ≤ mn := by rw [← c1]; omega
    exact_mod_cast this
  · have : mn ≤ mx := by
      have := (h3 i1 j1 a1 b1).2
      rw [c1] at this
      exact this
    exact_mod_cast this
  · have : mx ≤ 255 := by rw [← c2]; exact h8 i2 j2
    exact_mod_cast this

theorem cross_check_8bit (rows cols : Nat) (s : Mat Nat × Mat Nat)
    (h1 : ∀ y x : Int, s.1.px y x ≤ 255) (h2 : ∀ y x : Int, s.2.px y x ≤ 255) :
    (∀ y x : Int, (cross_check rows cols s).1.px y x ≤ 255) ∧
    (∀ y x : Int, (cross_check rows cols s).2.px y x ≤ 255) := by
  have hz := cross_check_zeroes rows cols s
  constructor
  · intro y x
    rcases (hz y x).1 with e | e
    · rw [e]; exact h1 y x
    · rw [e]; omega
  · intro y x
    rcases (hz y x).2 with e | e
    · rw [e]; exact h2 y x
    · rw [e]; omega

/-! ## The NCC search region and loops -/

theorem tdiv_window (r : Int) : (2 * r + 1 - 1).tdiv 2 = r := by
  have h : 2 * r + 1 - 1 = 2 * r := by ring
  rw [h]
  exact Int.mul_tdiv_cancel_left r (by decide)

theorem sameSearch_self (s : NCCDisparity) : SameSearch s s :=
  ⟨rfl, rfl, rfl, rfl, rfl, rfl, rfl⟩

theorem search_region_same (s t : NCCDisparity) (h : SameSearch s t) (j : Int) (left : Bool) :
    search_region t j left = search_region s j left := by
  obtain ⟨h1, _, h3, h4, h5, h6, h7⟩ := h
  simp only [search_region, h1, h3, h4, h5, h6, h7]

theorem disparity_same (s t : NCCDisparity) (h : SameSearch s t) (f : Int → Int → Int) (j : Int)
    (left : Bool) : t.disparity f j left = s.disparity f j left := by
  have hreg := search_region_same s t h j left
  obtain ⟨h1, _⟩ := h
  simp only [NCCDisparity.disparity, hreg, h1]

theorem ncc_pixel_sameSearch (locate : Int → Int → Bool → Int → Int → Int) (i j : Int)
    (s t : NCCDisparity) (h : SameSearch s t) : SameSearch s (ncc_pixel locate i j t) := h

theorem ncc_pixel_left (locate : Int → Int → Bool → Int → Int → Int) (i j : Int)
    (t : NCCDisparity) (a b : Int) :
    (ncc_pixel locate i j t).pair.disparity_left.px a b =
      if a = i ∧ b = j then (t.disparity (locate i j true) j true % 256).toNat
      else t.pair.disparity_left.px a b := rfl

theorem ncc_pixel_right (locate : Int → Int → Bool → Int → Int → Int) (i j : Int)
    (t : NCCDisparity) (a b : Int) :
    (ncc_pixel locate i j t).pair.disparity_right.px a b =
      if a = i ∧ b = j then (t.disparity (locate i j false) j false % 256).toNat
      else t.pair.disparity_right.px a b := rfl

/-- The double loop of `NCCDisparity::compute` writes no pixel outside
`[r, rows - r) × [r, cols - r)`. -/
theorem ncc_loops_frame (locate : Int → Int → Bool → Int → Int → Int) (r rows cols : Int)
    (s : NCCDisparity) (a b : Int)
    (hout : ¬ (r ≤ a ∧ a < rows - r ∧ r ≤ b ∧ b < cols - r)) :
    (forRange r (rows - r) (fun i =>
        forRange r (cols - r) (fun j => ncc_pixel locate i j)) s).pair.disparity_left.px a b
      = s.pair.disparity_left.px a b ∧
    (forRange r (rows - r) (fun i =>
        forRange r (cols - r) (fun j => ncc_pixel locate i j)) s).pair.disparity_right.px a b
      = s.pair.disparity_right.px a b := by
  unfold forRange
  refine forLoop_inv
    (fun _ t => t.pair.disparity_left.px a b = s.pair.disparity_left.px a b ∧
      t.pair.disparity_right.px a b = s.pair.disparity_right.px a b)
    _ _ s ⟨rfl, rfl⟩ ?_
  intro ky hky t ht
  refine forLoop_inv
    (fun _ u => u.pair.disparity_left.px a b = s.pair.disparity_left.px a b ∧
      u.pair.disparity_right.px a b = s.pair.disparity_right.px a b)
    _ _ t ht ?_
  intro kx hkx u hu
  have hne : ¬ (a = r + (ky : Int) ∧ b = r + (kx : Int)) := by
    intro h
    apply hout
    omega
  rw [ncc_pixel_left, ncc_pixel_right, if_neg hne, if_neg hne]
  exact hu

/-- The double loop of `NCCDisparity::compute` leaves at every pixel of
`[r, rows - r) × [r, cols - r)` the two disparities computed for that pixel. -/
theorem ncc_loops_at (locate : Int → Int → Bool → Int → Int → Int) (r rows cols : Int)
    (s : NCCDisparity) (i j : Int) (hi : r ≤ i ∧ i < rows - r) (hj : r ≤ j ∧ j < cols - r) :
    (forRange r (rows - r) (fun i =>
        forRange r (cols - r) (fun j => ncc_pixel locate i j)) s).pair.disparity_left.px i j
      = (s.disparity (locate i j true) j true % 256).toNat ∧
    (forRange r (rows - r) (fun i =>
        forRange r (cols - r) (fun j => ncc_pixel locate i j)) s).pair.disparity_right.px i j
      = (s.disparity (locate i j false) j false % 256).toNat := by
  unfold forRange
  have key := forPixels_rel (rows - r - r).toNat (cols - r - r).toNat
    (fun ky kx => ncc_pixel locate (r + (ky : Int)) (r + (kx : Int)))
    (fun t a b => (t.pair.disparity_left.px (r + a) (r + b),
      t.pair.disparity_right.px (r + a) (r + b)))
    (SameSearch s)
    (fun ky kx _ v =>
      v = ((s.disparity (locate (r + (ky : Int)) (r + (kx : Int)) true) (r + (kx : Int)) true
              % 256).toNat,
           (s.disparity (locate (r + (ky : Int)) (r + (kx : Int)) false) (r + (kx : Int)) false
              % 256).toNat))
    (fun ky kx t ht => ncc_pixel_sameSearch locate _ _ s t ht)
    (by
      intro ky kx t ht
      simp only []
      rw [ncc_pixel_left, ncc_pixel_right, if_pos ⟨rfl, rfl⟩, if_pos ⟨rfl, rfl⟩,
        disparity_same s t ht, disparity_same s t ht])
    (by
      intro ky kx t a b _ hab
      simp only []
      have hne : ¬ (r + a = r + (ky : Int) ∧ r + b = r + (kx : Int)) := by omega
      rw [ncc_pixel_left, ncc_pixel_right, if_neg hne, if_neg hne])
    s (sameSearch_self s)
  have hk := key.2 (i - r).toNat (j - r).toNat (by omega) (by omega)
  simp only [] at hk
  have e1 : r + (((i - r).toNat : Nat) : Int) = i := by omega
  have e2 : r + (((j - r).toNat : Nat) : Int) = j := by omega
  rw [e1, e2] at hk
  exact ⟨congrArg Prod.fst hk, congrArg Prod.snd hk⟩

theorem compute_init_sameSearch (s : NCCDisparity) : SameSearch s (s.compute_init s.pair) :=
  ⟨rfl, rfl, rfl, rfl, rfl, rfl, rfl⟩

/-- After `NCCDisparity::compute`, a pixel visited by the loops holds the two
disparities computed for it, stored as 8-bit values. -/
theorem ncc_compute_at (locate : Int → Int → Bool → Int → Int → Int) (s : NCCDisparity)
    (i j : Int) (left : Bool)
    (h : Interior ((s.window_size - 1).tdiv 2) s.pair.rows s.pair.cols i j) :
    (searched_map (NCCDisparity.compute locate s s.pair).pair left).px i j
      = (s.disparity (locate i j left) j left % 256).toNat := by
  obtain ⟨h1, h2, h3, h4⟩ := h
  have key := ncc_loops_at locate ((s.window_size - 1).tdiv 2) ((s.pair.rows : Nat) : Int)
    ((s.pair.cols : Nat) : Int) (s.compute_init s.pair) i j ⟨h1, h2⟩ ⟨h3, h4⟩
  rw [disparity_same s _ (compute_init_sameSearch s),
    disparity_same s _ (compute_init_sameSearch s)] at key
  cases left
  · exact key.2
  · exact key.1

/-- After `NCCDisparity::compute`, a pixel not visited by the loops is 0 in both
maps. -/
theorem ncc_compute_frame (locate : Int → Int → Bool → Int → Int → Int) (s : NCCDisparity)
    (pair : StereoPair) (i j : Int)
    (h : ¬ Interior ((s.window_size - 1).tdiv 2) pair.rows pair.cols i j) :
    (NCCDisparity.compute locate s pair).pair.disparity_left.px i j = 0 ∧
    (NCCDisparity.compute locate s pair).pair.disparity_right.px i j = 0 :=
  ncc_loops_frame locate ((s.window_size - 1).tdiv 2) ((pair.rows : Nat) : Int)
    ((pair.cols : Nat) : Int) (s.compute_init pair) i j h

/-- The value returned by `NCCDisparity::disparity` is 0 or lies within the bounds of
the searched side, when the window is odd and at least 3, the bounds are ordered
within `[0, 255]`, the column is at least `r` from both edges and the reported maximum
lies inside the detection signal. -/
theorem disparity_range (s : NCCDisparity) (f : Int → Int → Int) (r j : Int) (left : Bool)
    (hw : s.window_size = 2 * r + 1) (hr : 1 ≤ r)
    (hmin : 0 ≤ searched_min s.pair left)
    (hmax : searched_max s.pair left ≤ 255)
    (hj : r ≤ j ∧ j < (s.pair.cols : Int) - r)
    (hx : s.window_size ≤ bounds_width s j left →
      0 ≤ f (search_region s j left).1 (bounds_width s j left) ∧
      f (search_region s j left).1 (bounds_width s j left)
        < bounds_width s j left - s.window_size + 1) :
    s.disparity f j left = 0 ∨
      (searched_min s.pair left ≤ s.disparity f j left ∧
        s.disparity f j left ≤ searched_max s.pair left) := by
  have hr2 : (s.window_size - 1).tdiv 2 = r := by rw [hw]; exact tdiv_window r
  obtain ⟨hj1, hj2⟩ := hj
  unfold bounds_width at hx
  cases left
  · simp only [searched_min, searched_max, NCCDisparity.disparity, search_region, hr2,
      Bool.false_eq_true, if_false] at hmin hmax hx ⊢
    rw [hw] at hx ⊢
    split_ifs at hx ⊢ <;> omega
  · simp only [searched_min, searched_max, NCCDisparity.disparity, search_region, hr2,
      if_true] at hmin hmax hx ⊢
    rw [hw] at hx ⊢
    split_ifs at hx ⊢ <;> omega

/-! ## Conversion to `int` and the data term -/

theorem float_to_int_of_int (n : Int) : float_to_int (n : ℚ) = n := by
  unfold float_to_int
  split_ifs
  · exact Int.floor_intCast n
  · exact Int.ceil_intCast n

theorem float_to_int_near (q : ℚ) : |(float_to_int q : ℚ) - q| < 1 := by
  unfold float_to_int
  split_ifs
  · rw [abs_lt]
    constructor
    · linarith [Int.lt_floor_add_one q]
    · linarith [Int.floor_le q]
  · rw [abs_lt]
    constructor
    · linarith [Int.le_ceil q]
    · linarith [Int.ceil_lt_add_one q]

theorem float_to_int_abs_le (q : ℚ) : |(float_to_int q : ℚ)| ≤ |q| := by
  unfold float_to_int
  split_ifs with h
  · have h1 : (0 : ℚ) ≤ ((⌊q⌋ : Int) : ℚ) := by exact_mod_cast Int.floor_nonneg.mpr h
    rw [abs_of_nonneg h1, abs_of_nonneg h]
    exact Int.floor_le q
  · push_neg at h
    have h1 : ((⌈q⌉ : Int) : ℚ) ≤ 0 := by
      exact_mod_cast Int.ceil_le.mpr (by simpa using h.le)
    rw [abs_of_nonpos h1, abs_of_neg h]
    linarith [Int.le_ceil q]

theorem data_cost_nonneg (s : GraphCutDisparity) (c : Correspondence) : 0 ≤ data_cost s c := by
  unfold data_cost square
  exact mul_self_nonneg _

theorem squared_colour_error_nonneg (s : GraphCutDisparity) (c : Correspondence) :
    0 ≤ squared_colour_error s c := by
  unfold squared_colour_error
  positivity

theorem data_cost_le_error (s : GraphCutDisparity) (c : Correspondence) :
    (data_cost s c : ℚ) ≤ squared_colour_error s c := by
  have hq := squared_colour_error_nonneg s c
  have h1 : data_cost s c
      = ((Nat.sqrt ⌊squared_colour_error s c⌋.toNat : Nat) : Int)
        * ((Nat.sqrt ⌊squared_colour_error s c⌋.toNat : Nat) : Int) := rfl
  rw [h1]
  have h2 : Nat.sqrt ⌊squared_colour_error s c⌋.toNat * Nat.sqrt ⌊squared_colour_error s c⌋.toNat
      ≤ ⌊squared_colour_error s c⌋.toNat := Nat.sqrt_le _
  have h3 : ((⌊squared_colour_error s c⌋.toNat : Nat) : Int) = ⌊squared_colour_error s c⌋ :=
    Int.toNat_of_nonneg (Int.floor_nonneg.mpr hq)
  have h4 : (((Nat.sqrt ⌊squared_colour_error s c⌋.toNat : Nat) : Int)
        * ((Nat.sqrt ⌊squared_colour_error s c⌋.toNat : Nat) : Int)) ≤ ⌊squared_colour_error s c⌋ := by
    rw [← h3]
    exact_mod_cast h2
  calc (((((Nat.sqrt ⌊squared_colour_error s c⌋.toNat : Nat) : Int)
        * ((Nat.sqrt ⌊squared_colour_error s c⌋.toNat : Nat) : Int)) : Int) : ℚ)
      ≤ ((⌊squared_colour_error s c⌋ : Int) : ℚ) := by exact_mod_cast h4
    _ ≤ squared_colour_error s c := Int.floor_le _

theorem int_log_two_eq (r : ℚ) (e : Int) (h1 : (2 : ℚ) ^ e ≤ r) (h2 : r < (2 : ℚ) ^ (e + 1)) :
    Int.log 2 r = e := by
  have h0 : 0 < r := lt_of_lt_of_le (zpow_pos (by norm_num) e) h1
  have a : e ≤ Int.log 2 r := by
    apply (Int.zpow_le_iff_le_log (by norm_num : 1 < 2) h0).mp
    exact_mod_cast h1
  have b : Int.log 2 r < e + 1 := by
    apply (Int.lt_zpow_iff_log_lt (by norm_num : 1 < 2) h0).mp
    exact_mod_cast h2
  omega

theorem round_half_even_between (x : ℚ) (a b : Int) (ha : (a : ℚ) ≤ x) (hb : x ≤ (b : ℚ)) :
    a ≤ round_half_even x ∧ round_half_even x ≤ b := by
  have hfl : a ≤ ⌊x⌋ := Int.le_floor.mpr ha
  have hfb : ⌊x⌋ ≤ b := by
    have h := Int.floor_le x
    have h2 : (⌊x⌋ : ℚ) ≤ (b : ℚ) := le_trans h hb
    exact_mod_cast h2
  have hup : x - (⌊x⌋ : ℚ) ≥ 1 / 2 → ⌊x⌋ + 1 ≤ b := by
    intro h
    have hlt : (⌊x⌋ : ℚ) < x := by linarith
    have : (⌊x⌋ : ℚ) < (b : ℚ) := lt_of_lt_of_le hlt hb
    have : ⌊x⌋ < b := by exact_mod_cast this
    omega
  unfold round_half_even
  split_ifs with h1 h2 h3
  · exact ⟨hfl, hfb⟩
  · exact ⟨by omega, hup (le_of_lt h2)⟩
  · exact ⟨hfl, hfb⟩
  · exact ⟨by omega, hup (not_lt.mp h1)⟩

theorem float_spacing_inv (q : ℚ) (hq : |q| < 2 ^ 24) :
    ∃ M : Nat, 0 < M ∧ float_spacing q = 1 / (M : ℚ) := by
  have hk : max (Int.log 2 |q|) (-126) - 23 ≤ 0 := by
    have hlog : Int.log 2 |q| < 24 := by
      by_cases h0 : 0 < |q|
      · apply (Int.lt_zpow_iff_log_lt (by norm_num : 1 < 2) h0).mp
        exact_mod_cast hq
      · rw [Int.log_of_right_le_zero 2 (not_lt.mp h0)]
        norm_num
    omega
  refine ⟨2 ^ (-(max (Int.log 2 |q|) (-126) - 23)).toNat, by positivity, ?_⟩
  unfold float_spacing
  generalize max (Int.log 2 |q|) (-126) - 23 = k at hk
  obtain ⟨n, rfl⟩ : ∃ n : Nat, k = -(n : Int) := ⟨(-k).toNat, by omega⟩
  simp [zpow_neg]

/-- A value below `2 ^ 24` in magnitude that lies between two integers is converted to
a `float` between them. -/
theorem to_float_between (p : ℚ) (a b : Int) (hp : |p| < 2 ^ 24) (ha : (a : ℚ) ≤ p)
    (hb : p ≤ (b : ℚ)) : (a : ℚ) ≤ to_float p ∧ to_float p ≤ (b : ℚ) := by
  obtain ⟨M, hM, hs⟩ := float_spacing_inv p hp
  have hMq : (0 : ℚ) < (M : ℚ) := by exact_mod_cast hM
  unfold to_float
  rw [hs]
  have hdiv : p / (1 / (M : ℚ)) = p * (M : ℚ) := by field_simp
  rw [hdiv]
  have h := round_half_even_between (p * (M : ℚ)) (a * (M : Int)) (b * (M : Int))
    (by push_cast; exact mul_le_mul_of_nonneg_right ha hMq.le)
    (by push_cast; exact mul_le_mul_of_nonneg_right hb hMq.le)
  obtain ⟨h1, h2⟩ := h
  have h1q : ((a * (M : Int) : Int) : ℚ) ≤ (round_half_even (p * (M : ℚ)) : ℚ) := by
    exact_mod_cast h1
  have h2q : (round_half_even (p * (M : ℚ)) : ℚ) ≤ ((b * (M : Int) : Int) : ℚ) := by
    exact_mod_cast h2
  push_cast at h1q h2q
  constructor
  · rw [mul_one_div, le_div_iff₀ hMq]
    exact h1q
  · rw [mul_one_div, div_le_iff₀ hMq]
    exact h2q

theorem to_float_int (n : Int) (hn : |(n : ℚ)| < 2 ^ 24) : to_float (n : ℚ) = (n : ℚ) := by
  obtain ⟨h1, h2⟩ := to_float_between (n : ℚ) n n hn (le_refl _) (le_refl _)
  exact le_antisymm h2 h1

theorem float_to_int_between (r : ℚ) (a b : Int) (ha : (a : ℚ) ≤ r) (hb : r ≤ (b : ℚ)) :
    a ≤ float_to_int r ∧ float_to_int r ≤ b := by
  unfold float_to_int
  split_ifs with h
  · refine ⟨Int.le_floor.mpr ha, ?_⟩
    have h2 : (⌊r⌋ : ℚ) ≤ (b : ℚ) := le_trans (Int.floor_le r) hb
    exact_mod_cast h2
  · refine ⟨?_, Int.ceil_le.mpr hb⟩
    have h2 : (a : ℚ) ≤ (⌈r⌉ : ℚ) := le_trans ha (Int.le_ceil r)
    exact_mod_cast h2

theorem floatScaled_scale_bound (b : Int) (scale : ℚ) : FloatScaled b scale (scale_bound b scale) := by
  refine ⟨rfl, ?_⟩
  intro hb hp
  unfold scale_bound
  rw [to_float_int b hb]
  have hbt := to_float_between ((b : ℚ) * scale) ⌊(b : ℚ) * scale⌋ ⌈(b : ℚ) * scale⌉ hp
    (Int.floor_le _) (Int.le_ceil _)
  have h := float_to_int_between _ _ _ hbt.1 hbt.2
  refine ⟨h.1, h.2, ?_⟩
  intro n hn
  rw [hn] at h ⊢
  simp only [Int.floor_intCast, Int.ceil_intCast] at h
  omega

theorem round_half_even_near (x : ℚ) (n : Int) (h : |x - (n : ℚ)| < 1 / 2) :
    round_half_even x = n := by
  rw [abs_lt] at h
  have hb := round_half_even_between x (n - 1) (n + 1) (by push_cast; linarith)
    (by push_cast; linarith)
  unfold round_half_even at hb ⊢
  by_cases hx : (n : ℚ) ≤ x
  · have hf : ⌊x⌋ = n := by
      rw [Int.floor_eq_iff]
      constructor <;> linarith
    rw [hf]
    rw [if_pos (by linarith)]
  · have hf : ⌊x⌋ = n - 1 := by
      rw [Int.floor_eq_iff]
      push_cast
      constructor <;> linarith
    rw [hf]
    push_cast
    rw [if_neg (by linarith), if_pos (by linarith)]
    omega

/-- The `float` nearest to a value of the binade `[2 ^ e, 2 ^ (e + 1))`. -/
theorem to_float_of_near (q : ℚ) (e n : Int) (he : -126 ≤ e) (h1 : (2 : ℚ) ^ e ≤ |q|)
    (h2 : |q| < (2 : ℚ) ^ (e + 1)) (hn : |q / (2 : ℚ) ^ (e - 23) - (n : ℚ)| < 1 / 2) :
    to_float q = (n : ℚ) * (2 : ℚ) ^ (e - 23) := by
  unfold to_float float_spacing
  rw [int_log_two_eq |q| e h1 h2, max_eq_left he, round_half_even_near _ n hn]

theorem scale_bound_examples :
    scale_bound 80 (1 / 2) = 40 ∧ scale_bound 81 (1 / 2) = 40 ∧
    scale_bound 10 float_seven_tenths = 7 ∧ scale_bound 20 float_seven_tenths = 14 ∧
    scale_bound 30 float_seven_tenths = 21 ∧ scale_bound 40 float_seven_tenths = 28 := by
  have i80 : to_float (80 : ℚ) = 80 := by
    have h := to_float_int 80 (by norm_num)
    exact_mod_cast h
  have i81 : to_float (81 : ℚ) = 81 := by
    have h := to_float_int 81 (by norm_num)
    exact_mod_cast h
  have i10 : to_float (10 : ℚ) = 10 := by
    have h := to_float_int 10 (by norm_num)
    exact_mod_cast h
  have i20 : to_float (20 : ℚ) = 20 := by
    have h := to_float_int 20 (by norm_num)
    exact_mod_cast h
  have i30 : to_float (30 : ℚ) = 30 := by
    have h := to_float_int 30 (by norm_num)
    exact_mod_cast h
  have i40 : to_float (40 : ℚ) = 40 := by
    have h := to_float_int 40 (by norm_num)
    exact_mod_cast h
  have p81 : to_float (81 * (1 / 2)) = 81 / 2 := by
    have h := to_float_of_near (81 * (1 / 2)) 5 10616832 (by norm_num) (by norm_num [abs_of_pos])
      (by norm_num [abs_of_pos]) (by norm_num [abs_of_pos])
    rw [h]
    norm_num
  have p10 : to_float (10 * float_seven_tenths) = 7 := by
    have h := to_float_of_near (10 * float_seven_tenths) 2 14680064 (by norm_num)
      (by norm_num [abs_of_pos, float_seven_tenths])
      (by norm_num [abs_of_pos, float_seven_tenths])
      (by norm_num [abs_of_pos, abs_lt, float_seven_tenths])
    rw [h]
    norm_num
  have p20 : to_float (20 * float_seven_tenths) = 14 := by
    have h := to_float_of_near (20 * float_seven_tenths) 3 14680064 (by norm_num)
      (by norm_num [abs_of_pos, float_seven_tenths])
      (by norm_num [abs_of_pos, float_seven_tenths])
      (by norm_num [abs_of_pos, abs_lt, float_seven_tenths])
    rw [h]
    norm_num
  have p30 : to_float (30 * float_seven_tenths) = 21 := by
    have h := to_float_of_near (30 * float_seven_tenths) 4 11010048 (by norm_num)
      (by norm_num [abs_of_pos, float_seven_tenths])
      (by norm_num [abs_of_pos, float_seven_tenths])
      (by norm_num [abs_of_pos, abs_lt, float_seven_tenths])
    rw [h]
    norm_num
  have p40 : to_float (40 * float_seven_tenths) = 28 := by
    have h := to_float_of_near (40 * float_seven_tenths) 4 14680064 (by norm_num)
      (by norm_num [abs_of_pos, float_seven_tenths])
      (by norm_num [abs_of_pos, float_seven_tenths])
      (by norm_num [abs_of_pos, abs_lt, float_seven_tenths])
    rw [h]
    norm_num
  have f40 : float_to_int (40 : ℚ) = 40 := float_to_int_of_int 40
  have f81 : float_to_int (81 / 2 : ℚ) = 40 := by
    unfold float_to_int
    rw [if_pos (by norm_num), Int.floor_eq_iff]
    norm_num
  have f7 : float_to_int (7 : ℚ) = 7 := float_to_int_of_int 7
  have f14 : float_to_int (14 : ℚ) = 14 := float_to_int_of_int 14
  have f21 : float_to_int (21 : ℚ) = 21 := float_to_int_of_int 21
  have f28 : float_to_int (28 : ℚ) = 28 := float_to_int_of_int 28
  unfold scale_bound
  push_cast
  rw [i80, i81, i10, i20, i30, i40, p81, p10, p20, p30, p40]
  have e80 : (80 : ℚ) * (1 / 2) = 40 := by norm_num
  rw [e80, i40]
  exact ⟨f40, f81, f7, f14, f21, f28⟩

/-! ## Edges added by the graph construction -/

theorem add_edge_edges (c1 c2 : Correspondence) (w1 w2 : Int) (s : GraphCutDisparity) :
    (add_edge c1 c2 w1 w2 s).g.edges = s.g.edges ++ edge_pair s c1 c2 w1 w2 := rfl

theorem sameButEdges_self (s : GraphCutDisparity) : SameButEdges s s :=
  ⟨rfl, rfl, rfl, rfl, rfl, rfl, rfl, rfl, rfl, rfl, rfl, rfl, rfl, rfl⟩

theorem add_edge_sameButEdges (s : GraphCutDisparity) (c1 c2 : Correspondence) (w1 w2 : Int)
    (t : GraphCutDisparity) (h : SameButEdges s t) :
    SameButEdges s (add_edge c1 c2 w1 w2 t) := h

theorem get_vertex_same (s t : GraphCutDisparity) (h : SameButEdges s t) (c : Correspondence) :
    get_vertex t c = get_vertex s c := by
  obtain ⟨h1, h2, h3, h4, _⟩ := h
  simp only [get_vertex, get_index, correspondence_hash, h1, h2, h3, h4]

theorem edge_pair_same (s t : GraphCutDisparity) (h : SameButEdges s t) (c1 c2 : Correspondence)
    (w1 w2 : Int) : edge_pair t c1 c2 w1 w2 = edge_pair s c1 c2 w1 w2 := by
  simp only [edge_pair, get_vertex_same s t h]

/-- Folding calls of `add_edge` over a list appends their edge pairs in order. -/
theorem foldl_add_edge (s : GraphCutDisparity) (c : Correspondence)
    (w1 w2 : GraphCutDisparity → Int)
    (hw1 : ∀ t, SameButEdges s t → w1 t = w1 s) (hw2 : ∀ t, SameButEdges s t → w2 t = w2 s)
    (l : List Correspondence) (t : GraphCutDisparity) (ht : SameButEdges s t) :
    SameButEdges s (l.foldl (fun u c' => add_edge c c' (w1 u) (w2 u) u) t) ∧
    (l.foldl (fun u c' => add_edge c c' (w1 u) (w2 u) u) t).g.edges
      = t.g.edges ++ l.flatMap (fun c' => edge_pair s c c' (w1 s) (w2 s)) := by
  induction l generalizing t with
  | nil => exact ⟨ht, by simp⟩
  | cons a l ih =>
    rw [List.foldl_cons]
    obtain ⟨h1, h2⟩ := ih (add_edge c a (w1 t) (w2 t) t) (add_edge_sameButEdges s c a _ _ t ht)
    refine ⟨h1, ?_⟩
    rw [h2, add_edge_edges, edge_pair_same s t ht, hw1 t ht, hw2 t ht, List.flatMap_cons,
      List.append_assoc]

theorem get_conflicts_eq (s : GraphCutDisparity) (c : Correspondence) (alpha : Int)
    (ha : is_active s c) (hd : c.d ≠ alpha) :
    get_conflicts s c alpha
      = (if within_bounds s ⟨c.x, c.y, alpha⟩ then [(⟨c.x, c.y, alpha⟩ : Correspondence)] else [])
        ++ (if within_bounds s ⟨c.x + c.d - alpha, c.y, alpha⟩
            then [(⟨c.x + c.d - alpha, c.y, alpha⟩ : Correspondence)] else []) := by
  unfold get_conflicts
  rw [if_pos ⟨ha, hd⟩]
  simp only [is_valid, or_true, and_true]
  split_ifs <;> simp

theorem add_conflict_edges_edges (c : Correspondence) (alpha : Int) (s : GraphCutDisparity) :
    SameButEdges s (add_conflict_edges c alpha s) ∧
    (add_conflict_edges c alpha s).g.edges
      = s.g.edges ++ (get_conflicts s c alpha).flatMap
          (fun c' => edge_pair s c c' INT_MAX s.Cp) := by
  unfold add_conflict_edges
  exact foldl_add_edge s c (fun _ => INT_MAX) (fun u => u.Cp) (fun _ _ => rfl)
    (fun t ht => ht.2.2.2.2.1) _ s (sameButEdges_self s)

theorem get_inactive_neighbors_self (s : GraphCutDisparity) (c : Correspondence) :
    get_inactive_neighbors s c c.d = [] := by
  unfold get_inactive_neighbors
  rw [List.filterMap_eq_nil_iff]
  intro i _
  simp only [is_valid, or_true, and_true]
  rw [if_neg]
  intro h
  exact h.2 h.1

theorem smooth_cost_zero (s : GraphCutDisparity) (c : Correspondence) : smooth_cost s c = 0 := by
  unfold smooth_cost
  simp only [get_inactive_neighbors_self]
  simp

theorem add_node_index (c : Correspondence) (s : GraphCutDisparity) :
    get_vertex (add_node c s) c = s.g.num_vertices := by
  simp [get_vertex, get_index, add_node, correspondence_hash]

theorem add_active_node_edges (c : Correspondence) (alpha : Int) (s : GraphCutDisparity) :
    (add_active_node c alpha s).g.edges
      = s.g.edges ++
        [⟨s.source, s.g.num_vertices, occ_cost s c⟩, ⟨s.g.num_vertices, s.source, 0⟩,
         ⟨s.g.num_vertices, s.sink, data_cost s c + smooth_cost s c⟩,
         ⟨s.sink, s.g.num_vertices, 0⟩] := by
  have h := add_node_index c s
  simp only [add_active_node, add_sink_edge, add_source_edge]
  have h1 : get_vertex (add_source_edge c (occ_cost s c) (add_node c s)) c = s.g.num_vertices := h
  simp only [add_source_edge] at h1
  rw [h1, h]
  simp [add_node]

/-! ## The correspondence key and the nodes of a move -/

/-- Two numbers `a * R + b` with digits `b` in the same window of width `R` are equal
only when quotient and digit agree. -/
theorem mixed_radix_unique (a1 a2 b1 b2 R lo : Int) (h1 : lo ≤ b1 ∧ b1 < lo + R)
    (h2 : lo ≤ b2 ∧ b2 < lo + R) (h : a1 * R + b1 = a2 * R + b2) : a1 = a2 ∧ b1 = b2 := by
  have hR : 0 < R := by omega
  have hk : (a1 - a2) * R = b2 - b1 := by linarith
  have ha : a1 = a2 := by
    by_contra hne
    rcases lt_or_gt_of_ne hne with hlt | hgt
    · have h3 : (a1 - a2) * R ≤ (-1) * R :=
        mul_le_mul_of_nonneg_right (by omega) (le_of_lt hR)
      omega
    · have h3 : 1 * R ≤ (a1 - a2) * R :=
        mul_le_mul_of_nonneg_right (by omega) (le_of_lt hR)
      omega
  subst ha
  exact ⟨rfl, by omega⟩

theorem correspondence_hash_eq (s : GraphCutDisparity) (c : Correspondence) :
    correspondence_hash s c
      = ((c.x * (s.pair.rows : Int) + c.y) * (s.max_disparity - s.min_disparity + 1))
        + (c.d - s.min_disparity) := rfl

theorem correspondence_hash_inj (s : GraphCutDisparity) (c1 c2 : Correspondence)
    (h1 : InKeyDomain s c1) (h2 : InKeyDomain s c2)
    (h : correspondence_hash s c1 = correspondence_hash s c2) : c1 = c2 := by
  obtain ⟨x1, y1, d1⟩ := c1
  obtain ⟨x2, y2, d2⟩ := c2
  obtain ⟨a1, a2, a3, a4⟩ := h1
  obtain ⟨b1, b2, b3, b4⟩ := h2
  simp only at a1 a2 a3 a4 b1 b2 b3 b4
  rw [correspondence_hash_eq, correspondence_hash_eq] at h
  simp only at h
  obtain ⟨e1, e2⟩ := mixed_radix_unique _ _ _ _ (s.max_disparity - s.min_disparity + 1)
    (-s.max_disparity - s.min_disparity) (by constructor <;> omega) (by constructor <;> omega) h
  obtain ⟨e3, e4⟩ := mixed_radix_unique _ _ _ _ (s.pair.rows : Int) 0
    (by constructor <;> omega) (by constructor <;> omega) e1
  have e5 : d1 = d2 := by omega
  subst e3
  subst e4
  subst e5
  rfl

theorem forPixels_foldl {σ : Type} (rows cols : Nat) (body : Nat → Nat → σ → σ) (s : σ) :
    forLoop rows (fun y => forLoop cols (fun x => body y x)) s
      = (pixel_list rows cols).foldl (fun t p => body p.1 p.2 t) s := by
  unfold pixel_list
  induction rows with
  | zero => rfl
  | succ n ih =>
    rw [forLoop_succ, ih, List.range_succ, List.flatMap_append, List.foldl_append]
    simp only [List.flatMap_cons, List.flatMap_nil, List.append_nil]
    rw [List.foldl_map]
    rfl

theorem mem_pixel_list (rows cols : Nat) (p : Nat × Nat) :
    p ∈ pixel_list rows cols ↔ p.1 < rows ∧ p.2 < cols := by
  obtain ⟨y, x⟩ := p
  simp [pixel_list]

theorem pixel_list_nodup (rows cols : Nat) : (pixel_list rows cols).Nodup := by
  unfold pixel_list
  rw [List.nodup_flatMap]
  constructor
  · intro y _
    exact (List.nodup_range cols).map (fun a b h => by simpa using h)
  · refine (List.nodup_range rows).pairwise_of_forall_ne ?_
    intro a _ b _ hab
    intro p h1 h2
    simp only [List.mem_map] at h1 h2
    obtain ⟨_, _, rfl⟩ := h1
    obtain ⟨_, _, h⟩ := h2
    exact hab (by simpa using (congrArg Prod.fst h).symm)

/-- A conditional fold whose test and argument read only a part of the state that the
steps preserve is a fold over the pre-computed list of arguments. -/
theorem foldl_filterMap_inv {σ ι κ : Type} (P : σ → Prop) (pick : σ → ι → Option κ)
    (fn : κ → σ → σ) (s : σ) (hpick : ∀ t, P t → pick t = pick s)
    (hfn : ∀ c t, P t → P (fn c t)) (l : List ι) (t : σ) (ht : P t) :
    l.foldl (fun u i => match pick u i with | some c => fn c u | none => u) t
      = (l.filterMap (pick s)).foldl (fun u c => fn c u) t := by
  induction l generalizing t with
  | nil => rfl
  | cons a l ih =>
    rw [List.foldl_cons, List.filterMap_cons, hpick t ht]
    cases h : pick s a with
    | none => exact ih t ht
    | some c =>
      simp only [List.foldl_cons]
      exact ih (fn c t) (hfn c t ht)

theorem for_each_active_foldl (fn : Correspondence → GraphCutDisparity → GraphCutDisparity)
    (alpha : Int) (s : GraphCutDisparity) (hfn : ∀ c t, (fn c t).pair = t.pair) :
    for_each_active fn alpha s = (active_list alpha s).foldl (fun t c => fn c t) s := by
  unfold for_each_active active_list
  rw [forPixels_foldl]
  have key := foldl_filterMap_inv (fun t : GraphCutDisparity => t.pair = s.pair)
    (fun t p => active_at alpha t p) fn s
    (by
      intro t ht
      funext p
      simp only [active_at, ht])
    (fun c t ht => (hfn c t).trans ht)
    (pixel_list s.pair.rows s.pair.cols) s rfl
  rw [← key]
  congr 1
  funext t p
  simp only [active_at]
  split_ifs <;> rfl

theorem for_each_alpha_foldl (fn : Correspondence → GraphCutDisparity → GraphCutDisparity)
    (alpha : Int) (s : GraphCutDisparity) (hfn : ∀ c t, (fn c t).pair = t.pair) :
    for_each_alpha fn alpha s = (alpha_list alpha s).foldl (fun t c => fn c t) s := by
  unfold for_each_alpha alpha_list
  rw [forPixels_foldl]
  have key := foldl_filterMap_inv (fun t : GraphCutDisparity => t.pair = s.pair)
    (fun t p => alpha_at alpha t p) fn s
    (by
      intro t ht
      funext p
      simp only [alpha_at, is_valid, within_bounds, is_active, ht])
    (fun c t ht => (hfn c t).trans ht)
    (pixel_list s.pair.rows s.pair.cols) s rfl
  rw [← key]
  congr 1
  funext t p
  simp only [alpha_at]
  split_ifs <;> rfl

theorem add_active_node_addsNode (alpha : Int) : AddsNode (fun c => add_active_node c alpha) :=
  fun _ _ => ⟨rfl, rfl, rfl, rfl, rfl⟩

theorem add_alpha_node_addsNode (alpha : Int) : AddsNode (fun c => add_alpha_node c alpha) :=
  fun _ _ => ⟨rfl, rfl, rfl, rfl, rfl⟩

theorem correspondence_hash_same (s t : GraphCutDisparity) (h1 : t.pair = s.pair)
    (h2 : t.min_disparity = s.min_disparity) (h3 : t.max_disparity = s.max_disparity)
    (c : Correspondence) : correspondence_hash t c = correspondence_hash s c := by
  simp only [correspondence_hash, h1, h2, h3]

/-- Adding the nodes of a list of correspondences with pairwise distinct keys gives
them consecutive vertex indices in list order and leaves the other keys alone. -/
theorem foldl_addsNode (h : Correspondence → GraphCutDisparity → GraphCutDisparity)
    (hh : AddsNode h) (l : List Correspondence) (t0 : GraphCutDisparity)
    (hnd : (l.map (correspondence_hash t0)).Nodup) :
    (l.foldl (fun t c => h c t) t0).pair = t0.pair ∧
    (l.foldl (fun t c => h c t) t0).min_disparity = t0.min_disparity ∧
    (l.foldl (fun t c => h c t) t0).max_disparity = t0.max_disparity ∧
    (l.foldl (fun t c => h c t) t0).g.num_vertices = t0.g.num_vertices + l.length ∧
    (∀ c ∈ l, get_index (l.foldl (fun t c => h c t) t0) c = t0.g.num_vertices + l.indexOf c) ∧
    (∀ k, k ∉ l.map (correspondence_hash t0) →
      (l.foldl (fun t c => h c t) t0).hash_to_graph_index k = t0.hash_to_graph_index k) := by
  induction l generalizing t0 with
  | nil =>
    refine ⟨rfl, rfl, rfl, rfl, ?_, fun _ _ => rfl⟩
    intro c hc
    exact absurd hc (List.not_mem_nil c)
  | cons a l ih =>
    obtain ⟨p1, p2, p3, p4, p5⟩ := hh a t0
    have hsame : ∀ c, correspondence_hash (h a t0) c = correspondence_hash t0 c :=
      correspondence_hash_same t0 (h a t0) p1 p2 p3
    have hmap : l.map (correspondence_hash (h a t0)) = l.map (correspondence_hash t0) :=
      List.map_congr_left (fun c _ => hsame c)
    rw [List.map_cons, List.nodup_cons] at hnd
    obtain ⟨hna, hnl⟩ := hnd
    obtain ⟨q1, q2, q3, q4, q5, q6⟩ := ih (h a t0) (by rw [hmap]; exact hnl)
    rw [List.foldl_cons]
    refine ⟨q1.trans p1, q2.trans p2, q3.trans p3, ?_, ?_, ?_⟩
    · rw [q4, p4, List.length_cons]
      omega
    · intro c hc
      by_cases hca : c = a
      · subst hca
        rw [List.indexOf_cons_self, get_index,
          correspondence_hash_same t0 _ (q1.trans p1) (q2.trans p2) (q3.trans p3),
          q6 _ (by rw [hmap]; exact hna), p5]
        simp
      · have hcl : c ∈ l := by
          rcases List.mem_cons.mp hc with e | e
          · exact absurd e hca
          · exact e
        rw [q5 c hcl, p4, List.indexOf_cons_ne _ (Ne.symm hca)]
        omega
    · intro k hk
      rw [List.map_cons, List.mem_cons, not_or] at hk
      rw [q6 k (by rw [hmap]; exact hk.2), p5]
      simp [hk.1]

theorem mem_active_list (alpha : Int) (s : GraphCutDisparity) (c : Correspondence) :
    c ∈ active_list alpha s ↔ ActiveInMove alpha s c := by
  unfold active_list ActiveInMove InImage is_active
  rw [List.mem_filterMap]
  constructor
  · rintro ⟨⟨y, x⟩, hp, hc⟩
    rw [mem_pixel_list] at hp
    simp only [active_at] at hc
    split_ifs at hc with hd
    simp only [Option.some.injEq] at hc
    subst hc
    simp only
    refine ⟨⟨by omega, by omega, by omega, by omega⟩, ?_, hd.1, hd.2⟩
    omega
  · rintro ⟨⟨h1, h2, h3, h4⟩, h5, h6, h7⟩
    refine ⟨(c.y.toNat, c.x.toNat), ?_, ?_⟩
    · rw [mem_pixel_list]
      simp only
      omega
    · have hy : ((c.y.toNat : Nat) : Int) = c.y := Int.toNat_of_nonneg h1
      have hx : ((c.x.toNat : Nat) : Int) = c.x := Int.toNat_of_nonneg h3
      simp only [active_at, hy, hx, h5, neg_neg]
      rw [if_pos ⟨h6, h7⟩]

theorem mem_alpha_list (alpha : Int) (s : GraphCutDisparity) (c : Correspondence) :
    c ∈ alpha_list alpha s ↔ AlphaInMove alpha s c := by
  unfold alpha_list AlphaInMove
  rw [List.mem_filterMap]
  constructor
  · rintro ⟨⟨y, x⟩, hp, hc⟩
    simp only [alpha_at] at hc
    split_ifs at hc with hd
    simp only [Option.some.injEq] at hc
    subst hc
    exact ⟨rfl, hd.1⟩
  · rintro ⟨h1, h2⟩
    obtain ⟨b1, b2, b3, b4, b5, b6⟩ := h2
    refine ⟨(c.y.toNat, c.x.toNat), ?_, ?_⟩
    · rw [mem_pixel_list]
      simp only
      omega
    · have hy : ((c.y.toNat : Nat) : Int) = c.y := Int.toNat_of_nonneg b3
      have hx : ((c.x.toNat : Nat) : Int) = c.x := Int.toNat_of_nonneg b1
      have hv : is_valid s ⟨c.x, c.y, alpha⟩ alpha := by
        refine ⟨?_, Or.inr rfl⟩
        rw [← h1]
        exact ⟨b1, b2, b3, b4, b5, b6⟩
      simp only [alpha_at, hy, hx]
      rw [if_pos hv, ← h1]

theorem active_list_nodup (alpha : Int) (s : GraphCutDisparity) : (active_list alpha s).Nodup := by
  unfold active_list
  refine List.Nodup.filterMap ?_ (pixel_list_nodup _ _)
  intro p q c hp hq
  simp only [active_at, Option.mem_def] at hp hq
  split_ifs at hp hq
  simp only [Option.some.injEq] at hp hq
  rw [← hq] at hp
  simp only [Correspondence.mk.injEq] at hp
  obtain ⟨y, x⟩ := p
  obtain ⟨y', x'⟩ := q
  simp only [Prod.mk.injEq]
  simp only at hp
  omega

theorem alpha_list_nodup (alpha : Int) (s : GraphCutDisparity) : (alpha_list alpha s).Nodup := by
  unfold alpha_list
  refine List.Nodup.filterMap ?_ (pixel_list_nodup _ _)
  intro p q c hp hq
  simp only [alpha_at, Option.mem_def] at hp hq
  split_ifs at hp hq
  simp only [Option.some.injEq] at hp hq
  rw [← hq] at hp
  simp only [Correspondence.mk.injEq] at hp
  obtain ⟨y, x⟩ := p
  obtain ⟨y', x'⟩ := q
  simp only [Prod.mk.injEq]
  simp only at hp
  omega

theorem mem_considered_list (alpha : Int) (s : GraphCutDisparity) (c : Correspondence) :
    c ∈ considered_list alpha s ↔ Considered alpha s c := by
  unfold considered_list Considered
  rw [List.mem_append, mem_active_list, mem_alpha_list]

theorem considered_list_nodup (alpha : Int) (s : GraphCutDisparity) :
    (considered_list alpha s).Nodup := by
  unfold considered_list
  rw [List.nodup_append]
  refine ⟨active_list_nodup alpha s, alpha_list_nodup alpha s, ?_⟩
  intro c h1 h2
  rw [mem_active_list] at h1
  rw [mem_alpha_list] at h2
  exact h1.2.2.2 h2.1

theorem active_list_congr (alpha : Int) (s t : GraphCutDisparity) (h : t.pair = s.pair) :
    active_list alpha t = active_list alpha s := by
  have e : active_at alpha t = active_at alpha s := by
    funext p
    simp only [active_at, h]
  simp only [active_list, e, h]

theorem alpha_list_congr (alpha : Int) (s t : GraphCutDisparity) (h : t.pair = s.pair) :
    alpha_list alpha t = alpha_list alpha s := by
  have e : alpha_at alpha t = alpha_at alpha s := by
    funext p
    simp only [alpha_at, is_valid, within_bounds, is_active, h]
  simp only [alpha_list, e, h]

theorem considered_list_congr (alpha : Int) (s t : GraphCutDisparity) (h : t.pair = s.pair) :
    considered_list alpha t = considered_list alpha s := by
  simp only [considered_list, active_list_congr alpha s t h, alpha_list_congr alpha s t h]

theorem record_occlusion_counts_fresh (alpha : Int) (s : GraphCutDisparity) :
    FreshGraph s (record_occlusion_counts alpha (initialize_graph s)) := by
  unfold record_occlusion_counts
  refine for_each_alpha_inv (FreshGraph s) _ alpha _ (fun c t ht => ht) ?_
  exact for_each_active_inv (FreshGraph s) _ alpha _ (fun c t ht => ht)
    ⟨rfl, rfl, rfl, rfl, rfl, rfl, rfl, rfl, rfl, rfl⟩

theorem considered_inKeyDomain (alpha : Int) (s : GraphCutDisparity) (hk : KeyedMove alpha s)
    (c : Correspondence) (hc : Considered alpha s c) : InKeyDomain s c := by
  obtain ⟨⟨k1, k2⟩, k3⟩ := hk
  rcases hc with ⟨⟨h1, h2, h3, h4⟩, h5, h6, _⟩ | ⟨h1, h2⟩
  · have hr := k3 c.y.toNat (by omega) c.x.toNat (by omega)
    rw [Int.toNat_of_nonneg h1, Int.toNat_of_nonneg h3] at hr
    unfold is_active at h5
    unfold NULL_DISPARITY at h6
    rcases hr with e | ⟨e1, e2⟩
    · exfalso
      rw [e] at h5
      simp at h5
      omega
    · exact ⟨h1, h2, by omega, by omega⟩
  · obtain ⟨_, _, b3, _, _, b6⟩ := h2
    exact ⟨b3, b6, by omega, by omega⟩

theorem considered_keys_nodup (alpha : Int) (s : GraphCutDisparity) (hk : KeyedMove alpha s) :
    ((considered_list alpha s).map (correspondence_hash s)).Nodup := by
  refine List.Nodup.map_on ?_ (considered_list_nodup alpha s)
  intro c1 h1 c2 h2 h
  rw [mem_considered_list] at h1 h2
  exact correspondence_hash_inj s c1 c2 (considered_inKeyDomain alpha s hk c1 h1)
    (considered_inKeyDomain alpha s hk c2 h2) h

/-- The two node-adding phases of `run_alpha_expansion` give the considered
correspondences the vertex indices `2, 3, ...` in the order of `considered_list`. -/
theorem add_nodes_index (alpha : Int) (s t : GraphCutDisparity) (hf : FreshGraph s t)
    (hk : KeyedMove alpha s) :
    (add_alpha_nodes alpha (add_active_nodes alpha t)).pair = s.pair ∧
    (add_alpha_nodes alpha (add_active_nodes alpha t)).min_disparity = s.min_disparity ∧
    (add_alpha_nodes alpha (add_active_nodes alpha t)).max_disparity = s.max_disparity ∧
    (add_alpha_nodes alpha (add_active_nodes alpha t)).g.num_vertices
      = 2 + (considered_list alpha s).length ∧
    ∀ c ∈ considered_list alpha s,
      get_index (add_alpha_nodes alpha (add_active_nodes alpha t)) c
        = 2 + (considered_list alpha s).indexOf c := by
  obtain ⟨f1, f2, f3, f4, _, _, _⟩ := hf
  have hfold : add_alpha_nodes alpha (add_active_nodes alpha t)
      = (considered_list alpha s).foldl
          (fun u c => if c.d = alpha then add_alpha_node c alpha u else add_active_node c alpha u)
          t := by
    unfold add_alpha_nodes add_active_nodes
    rw [for_each_active_foldl (fun c => add_active_node c alpha) alpha t (fun _ _ => rfl)]
    have hp : ((active_list alpha t).foldl (fun u c => add_active_node c alpha u) t).pair
        = t.pair :=
      foldl_inv (fun u : GraphCutDisparity => u.pair = t.pair)
        (fun u c => add_active_node c alpha u) _ t
        (fun u c hu => hu) rfl
    rw [for_each_alpha_foldl (fun c => add_alpha_node c alpha) alpha _ (fun _ _ => rfl),
      alpha_list_congr alpha t _ hp, alpha_list_congr alpha s t f1,
      active_list_congr alpha s t f1]
    unfold considered_list
    rw [List.foldl_append]
    have e1 : ∀ (l : List Correspondence), (∀ c ∈ l, c.d ≠ alpha) → ∀ u : GraphCutDisparity,
        l.foldl (fun u c =>
          if c.d = alpha then add_alpha_node c alpha u else add_active_node c alpha u) u
          = l.foldl (fun u c => add_active_node c alpha u) u := by
      intro l
      induction l with
      | nil => intro _ _; rfl
      | cons a l ih =>
        intro hl u
        rw [List.foldl_cons, List.foldl_cons, if_neg (hl a (List.mem_cons_self a l))]
        exact ih (fun c hc => hl c (List.mem_cons_of_mem a hc)) _
    have e2 : ∀ (l : List Correspondence), (∀ c ∈ l, c.d = alpha) → ∀ u : GraphCutDisparity,
        l.foldl (fun u c =>
          if c.d = alpha then add_alpha_node c alpha u else add_active_node c alpha u) u
          = l.foldl (fun u c => add_alpha_node c alpha u) u := by
      intro l
      induction l with
      | nil => intro _ _; rfl
      | cons a l ih =>
        intro hl u
        rw [List.foldl_cons, List.foldl_cons, if_pos (hl a (List.mem_cons_self a l))]
        exact ih (fun c hc => hl c (List.mem_cons_of_mem a hc)) _
    rw [e1 _ (fun c hc => ((mem_active_list alpha s c).mp hc).2.2.2),
      e2 _ (fun c hc => ((mem_alpha_list alpha s c).mp hc).1)]
  have hadds : AddsNode (fun c u =>
      if c.d = alpha then add_alpha_node c alpha u else add_active_node c alpha u) := by
    intro c u
    by_cases hc : c.d = alpha
    · simp only [if_pos hc]
      exact add_alpha_node_addsNode alpha c u
    · simp only [if_neg hc]
      exact add_active_node_addsNode alpha c u
  have hnd : ((considered_list alpha s).map (correspondence_hash t)).Nodup := by
    have hm : (considered_list alpha s).map (correspondence_hash t)
        = (considered_list alpha s).map (correspondence_hash s) :=
      List.map_congr_left (fun c _ => correspondence_hash_same s t f1 f2 f3 c)
    rw [hm]
    exact considered_keys_nodup alpha s hk
  obtain ⟨q1, q2, q3, q4, q5, _⟩ := foldl_addsNode _ hadds (considered_list alpha s) t hnd
  rw [hfold]
  refine ⟨q1.trans f1, q2.trans f2, q3.trans f3, by rw [q4, f4], ?_⟩
  intro c hc
  rw [q5 c hc, f4]

theorem sameButEdges_trans (s t u : GraphCutDisparity) (h1 : SameButEdges s t)
    (h2 : SameButEdges t u) : SameButEdges s u := by
  obtain ⟨a1, a2, a3, a4, a5, a6, a7, a8, a9, a10, a11, a12, a13, a14⟩ := h1
  obtain ⟨b1, b2, b3, b4, b5, b6, b7, b8, b9, b10, b11, b12, b13, b14⟩ := h2
  exact ⟨b1.trans a1, b2.trans a2, b3.trans a3, b4.trans a4, b5.trans a5, b6.trans a6,
    b7.trans a7, b8.trans a8, b9.trans a9, b10.trans a10, b11.trans a11, b12.trans a12,
    b13.trans a13, b14.trans a14⟩

theorem add_conflict_edges_keeps (s : GraphCutDisparity) (c : Correspondence) (alpha : Int)
    (t : GraphCutDisparity) (h : SameButEdges s t) :
    SameButEdges s (add_conflict_edges c alpha t) :=
  sameButEdges_trans s t _ h (add_conflict_edges_edges c alpha t).1

theorem add_neighbor_edges_keeps (s : GraphCutDisparity) (c : Correspondence) (alpha : Int)
    (t : GraphCutDisparity) (h : SameButEdges s t) :
    SameButEdges s (add_neighbor_edges c alpha t) := by
  unfold add_neighbor_edges
  refine foldl_inv (SameButEdges s) _ _ t ?_ h
  intro u c' hu
  split_ifs
  · exact add_edge_sameButEdges s c c' _ _ u hu
  · exact hu

theorem add_all_conflict_edges_keeps (alpha : Int) (t : GraphCutDisparity) :
    SameButEdges t (add_all_conflict_edges alpha t) :=
  for_each_active_inv (SameButEdges t) (fun c => add_conflict_edges c alpha) alpha t
    (fun c u hu => add_conflict_edges_keeps t c alpha u hu) (sameButEdges_self t)

theorem add_all_neighbor_edges_keeps (alpha : Int) (t : GraphCutDisparity) :
    SameButEdges t (add_all_neighbor_edges alpha t) := by
  unfold add_all_neighbor_edges
  exact for_each_alpha_inv (SameButEdges t) _ alpha _
    (fun c u hu => add_neighbor_edges_keeps t c alpha u hu)
    (for_each_active_inv (SameButEdges t) _ alpha t
      (fun c u hu => add_neighbor_edges_keeps t c alpha u hu) (sameButEdges_self t))

theorem get_index_same (s t : GraphCutDisparity) (h : SameButEdges s t) (c : Correspondence) :
    get_index t c = get_index s c := get_vertex_same s t h c

/-- In the graph of a move every considered correspondence has the vertex index
`2 + ` its position in `considered_list`. -/
theorem build_graph_index (alpha : Int) (s : GraphCutDisparity) (hk : KeyedMove alpha s)
    (c : Correspondence) (hc : c ∈ considered_list alpha s) :
    get_index (build_graph alpha s) c = 2 + (considered_list alpha s).indexOf c ∧
    (build_graph alpha s).g.num_vertices = 2 + (considered_list alpha s).length := by
  rw [build_graph_eq]
  have hf := record_occlusion_counts_fresh alpha s
  obtain ⟨_, _, _, h4, h5⟩ := add_nodes_index alpha s _ hf hk
  have k1 := add_all_conflict_edges_keeps alpha
    (add_alpha_nodes alpha (add_active_nodes alpha
      (record_occlusion_counts alpha (initialize_graph s))))
  have k2 := add_all_neighbor_edges_keeps alpha (add_all_conflict_edges alpha
    (add_alpha_nodes alpha (add_active_nodes alpha
      (record_occlusion_counts alpha (initialize_graph s)))))
  have k := sameButEdges_trans _ _ _ k1 k2
  rw [get_index_same _ _ k c, h5 c hc, k.2.2.2.2.2.2.1, h4]
  exact ⟨rfl, rfl⟩

theorem build_graph_index_inj (alpha : Int) (s : GraphCutDisparity) (hk : KeyedMove alpha s)
    (c1 c2 : Correspondence) (h1 : Considered alpha s c1) (h2 : Considered alpha s c2)
    (hne : c1 ≠ c2) :
    get_index (build_graph alpha s) c1 ≠ get_index (build_graph alpha s) c2 := by
  rw [← mem_considered_list] at h1 h2
  rw [(build_graph_index alpha s hk c1 h1).1, (build_graph_index alpha s hk c2 h2).1]
  intro h
  apply hne
  have h' : (considered_list alpha s).indexOf c1 = (considered_list alpha s).indexOf c2 := by
    omega
  exact (List.indexOf_inj h1 h2).mp h'

/-! ## The smoothness edges of a move -/

theorem filterMap_ite_map {ι κ : Type} (f : ι → κ) (p : κ → Prop) [DecidablePred p]
    (l : List ι) :
    l.filterMap (fun i => if p (f i) then some (f i) else none)
      = (l.map f).filter (fun c => decide (p c)) := by
  induction l with
  | nil => rfl
  | cons a l ih =>
    rw [List.filterMap_cons, List.map_cons, List.filter_cons]
    by_cases h : p (f a)
    · simp [h, ih]
    · simp [h, ih]

theorem neighbor_offsets (c : Correspondence) :
    (List.range 4).map (fun i =>
      (⟨c.x + ([0, 0, 1, -1] : List Int).getD i 0,
        c.y + ([0, 0, 1, -1] : List Int).getD (4 - 1 - i) 0, c.d⟩ : Correspondence))
      = four_neighbors c := by
  simp only [four_neighbors, List.range_succ, List.range_zero, List.nil_append,
    List.cons_append, List.map_cons, List.map_nil]
  simp
  constructor <;> rfl

theorem get_neighbors_eq (s : GraphCutDisparity) (c : Correspondence) (alpha : Int) :
    get_neighbors s c alpha = (four_neighbors c).filter (fun c' => decide (is_valid s c' alpha)) := by
  rw [← neighbor_offsets c]
  exact filterMap_ite_map _ (fun c' => is_valid s c' alpha) _

theorem get_inactive_neighbors_eq (s : GraphCutDisparity) (c : Correspondence) (alpha : Int) :
    get_inactive_neighbors s c alpha
      = (four_neighbors c).filter
          (fun c' => decide (within_bounds s c' ∧ ¬ is_valid s c' alpha)) := by
  rw [← neighbor_offsets c]
  exact filterMap_ite_map _ (fun c' => within_bounds s c' ∧ ¬ is_valid s c' alpha) _

theorem mem_four_neighbors (c c' : Correspondence) : c' ∈ four_neighbors c ↔ Adjacent c c' := by
  obtain ⟨x, y, d⟩ := c
  obtain ⟨x', y', d'⟩ := c'
  simp only [four_neighbors, Adjacent, List.mem_cons, Correspondence.mk.injEq, List.mem_nil_iff,
    or_false]
  constructor
  · intro h
    rcases h with ⟨rfl, rfl, rfl⟩ | ⟨rfl, rfl, rfl⟩ | ⟨rfl, rfl, rfl⟩ | ⟨rfl, rfl, rfl⟩
    · exact ⟨rfl, Or.inr ⟨rfl, Or.inr rfl⟩⟩
    · exact ⟨rfl, Or.inr ⟨rfl, Or.inl rfl⟩⟩
    · exact ⟨rfl, Or.inl ⟨rfl, Or.inl rfl⟩⟩
    · exact ⟨rfl, Or.inl ⟨rfl, Or.inr rfl⟩⟩
  · rintro ⟨rfl, h⟩
    rcases h with ⟨rfl, rfl | rfl⟩ | ⟨rfl, rfl | rfl⟩
    · exact Or.inr (Or.inr (Or.inl ⟨rfl, rfl, rfl⟩))
    · exact Or.inr (Or.inr (Or.inr ⟨rfl, rfl, rfl⟩))
    · exact Or.inr (Or.inl ⟨rfl, rfl, rfl⟩)
    · exact Or.inl ⟨rfl, rfl, rfl⟩

theorem four_neighbors_nodup (c : Correspondence) : (four_neighbors c).Nodup := by
  obtain ⟨x, y, d⟩ := c
  simp only [four_neighbors, List.nodup_cons, List.mem_cons, Correspondence.mk.injEq,
    List.mem_nil_iff, or_false, not_or, List.not_mem_nil, not_false_eq_true, List.nodup_nil,
    and_true]
  omega

theorem get_neighbors_same (s t : GraphCutDisparity) (h : t.pair = s.pair) (c : Correspondence)
    (alpha : Int) : get_neighbors t c alpha = get_neighbors s c alpha := by
  simp only [get_neighbors, is_valid, within_bounds, is_active, h]

theorem foldl_neighbor_edges (s : GraphCutDisparity) (c : Correspondence)
    (l : List Correspondence) (u : GraphCutDisparity) (hu : SameButEdges s u) :
    SameButEdges s (l.foldl (fun t c' =>
        if correspondence_hash t c > correspondence_hash t c' then
          add_edge c c' t.V_smooth t.V_smooth t
        else t) u) ∧
    (l.foldl (fun t c' =>
        if correspondence_hash t c > correspondence_hash t c' then
          add_edge c c' t.V_smooth t.V_smooth t
        else t) u).g.edges
      = u.g.edges ++
        ((l.filter (fun c' => decide (correspondence_hash s c > correspondence_hash s c'))).map
          (fun c' => (c, c'))).flatMap
          (fun p => edge_pair s p.1 p.2 s.V_smooth s.V_smooth) := by
  induction l generalizing u with
  | nil => exact ⟨hu, by simp⟩
  | cons a l ih =>
    have hh : ∀ c', correspondence_hash u c' = correspondence_hash s c' :=
      correspondence_hash_same s u hu.1 hu.2.1 hu.2.2.1
    rw [List.foldl_cons, hh c, hh a, List.filter_cons]
    by_cases hc : correspondence_hash s c > correspondence_hash s a
    · rw [if_pos hc]
      obtain ⟨h1, h2⟩ := ih (add_edge c a u.V_smooth u.V_smooth u)
        (add_edge_sameButEdges s c a _ _ u hu)
      refine ⟨h1, ?_⟩
      rw [h2, add_edge_edges, edge_pair_same s u hu, hu.2.2.2.2.2.1]
      simp [hc]
    · rw [if_neg hc]
      obtain ⟨h1, h2⟩ := ih u hu
      refine ⟨h1, ?_⟩
      rw [h2]
      simp [hc]

theorem add_neighbor_edges_edges (s : GraphCutDisparity) (c : Correspondence) (alpha : Int)
    (t : GraphCutDisparity) (ht : SameButEdges s t) :
    SameButEdges s (add_neighbor_edges c alpha t) ∧
    (add_neighbor_edges c alpha t).g.edges
      = t.g.edges ++ (neighbor_calls_of alpha s c).flatMap
          (fun p => edge_pair s p.1 p.2 s.V_smooth s.V_smooth) := by
  unfold add_neighbor_edges neighbor_calls_of
  simp only []
  rw [get_neighbors_same s t ht.1]
  exact foldl_neighbor_edges s c _ t ht

theorem foldl_add_neighbor_edges (s : GraphCutDisparity) (alpha : Int)
    (l : List Correspondence) (t : GraphCutDisparity) (ht : SameButEdges s t) :
    SameButEdges s (l.foldl (fun u c => add_neighbor_edges c alpha u) t) ∧
    (l.foldl (fun u c => add_neighbor_edges c alpha u) t).g.edges
      = t.g.edges ++ (l.flatMap (neighbor_calls_of alpha s)).flatMap
          (fun p => edge_pair s p.1 p.2 s.V_smooth s.V_smooth) := by
  induction l generalizing t with
  | nil => exact ⟨ht, by simp⟩
  | cons a l ih =>
    obtain ⟨h1, h2⟩ := add_neighbor_edges_edges s a alpha t ht
    obtain ⟨h3, h4⟩ := ih (add_neighbor_edges a alpha t) h1
    rw [List.foldl_cons]
    refine ⟨h3, ?_⟩
    rw [h4, h2, List.flatMap_cons, List.flatMap_append, List.append_assoc]

theorem add_neighbor_edges_pair (c : Correspondence) (alpha : Int) (t : GraphCutDisparity) :
    (add_neighbor_edges c alpha t).pair = t.pair :=
  (add_neighbor_edges_keeps t c alpha t (sameButEdges_self t)).1

theorem add_all_neighbor_edges_foldl (alpha : Int) (s : GraphCutDisparity) :
    add_all_neighbor_edges alpha s
      = (considered_list alpha s).foldl (fun u c => add_neighbor_edges c alpha u) s := by
  unfold add_all_neighbor_edges
  simp only []
  rw [for_each_active_foldl (fun c => add_neighbor_edges c alpha) alpha s
    (fun c t => add_neighbor_edges_pair c alpha t)]
  have hp : ((active_list alpha s).foldl (fun u c => add_neighbor_edges c alpha u) s).pair
      = s.pair :=
    foldl_inv (fun u : GraphCutDisparity => u.pair = s.pair)
      (fun u c => add_neighbor_edges c alpha u) _ s
      (fun u c hu => (add_neighbor_edges_pair c alpha u).trans hu) rfl
  rw [for_each_alpha_foldl (fun c => add_neighbor_edges c alpha) alpha _
    (fun c t => add_neighbor_edges_pair c alpha t), alpha_list_congr alpha s _ hp]
  unfold considered_list
  rw [List.foldl_append]

/-- The edges stored by `add_all_neighbor_edges`: one pair of edges of capacity `V` per
call of `neighbor_edge_calls`, in order. -/
theorem add_all_neighbor_edges_edges (alpha : Int) (s : GraphCutDisparity) :
    SameButEdges s (add_all_neighbor_edges alpha s) ∧
    (add_all_neighbor_edges alpha s).g.edges
      = s.g.edges ++ (neighbor_edge_calls alpha s).flatMap
          (fun p => edge_pair s p.1 p.2 s.V_smooth s.V_smooth) := by
  rw [add_all_neighbor_edges_foldl]
  exact foldl_add_neighbor_edges s alpha _ s (sameButEdges_self s)

theorem activeInMove_within_bounds (alpha : Int) (s : GraphCutDisparity)
    (hb : ActiveWithinBounds s) (c : Correspondence) (hc : ActiveInMove alpha s c) :
    within_bounds s c := by
  obtain ⟨⟨h1, h2, h3, h4⟩, h5, h6, _⟩ := hc
  have h := hb c.y.toNat (by omega) c.x.toNat (by omega)
  rw [Int.toNat_of_nonneg h1, Int.toNat_of_nonneg h3] at h
  unfold is_active at h5
  unfold NULL_DISPARITY at h6
  have hne : s.pair.disparity_left.px c.y c.x ≠ 0 := by
    intro e
    rw [e] at h5
    simp at h5
    omega
  have hw := h hne
  rw [h5, neg_neg] at hw
  exact hw

theorem considered_valid (alpha : Int) (s : GraphCutDisparity) (hb : ActiveWithinBounds s)
    (c : Correspondence) (hc : Considered alpha s c) : is_valid s c alpha := by
  rcases hc with h | h
  · exact ⟨activeInMove_within_bounds alpha s hb c h, Or.inl h.2.1⟩
  · exact ⟨h.2, Or.inr h.1⟩

theorem valid_neighbor_considered (alpha : Int) (s : GraphCutDisparity) (c1 c2 : Correspondence)
    (h1 : Considered alpha s c1) (ha : Adjacent c1 c2) (hv : is_valid s c2 alpha) :
    Considered alpha s c2 := by
  by_cases hd : c2.d = alpha
  · exact Or.inr ⟨hd, hv.1⟩
  · left
    have hact : is_active s c2 := by
      rcases hv.2 with h | h
      · exact h
      · exact absurd h hd
    have hd1 : c1.d ≠ alpha := by rw [ha.1]; exact hd
    have hnz : c1.d ≠ NULL_DISPARITY := by
      rcases h1 with h | h
      · exact h.2.2.1
      · exact absurd h.1 hd1
    obtain ⟨b1, _, b3, b4, _, b6⟩ := hv.1
    exact ⟨⟨b3, b6, b1, b4⟩, hact, by rw [← ha.1]; exact hnz, hd⟩

theorem mem_neighbor_edge_calls (alpha : Int) (s : GraphCutDisparity) (c1 c2 : Correspondence) :
    (c1, c2) ∈ neighbor_edge_calls alpha s ↔
      Considered alpha s c1 ∧ Adjacent c1 c2 ∧ is_valid s c2 alpha ∧
        correspondence_hash s c1 > correspondence_hash s c2 := by
  unfold neighbor_edge_calls neighbor_calls_of
  rw [List.mem_flatMap]
  constructor
  · rintro ⟨c, hc, hm⟩
    rw [List.mem_map] at hm
    obtain ⟨c', hc', he⟩ := hm
    simp only [Prod.mk.injEq] at he
    obtain ⟨rfl, rfl⟩ := he
    rw [List.mem_filter, get_neighbors_eq, List.mem_filter, mem_four_neighbors] at hc'
    obtain ⟨⟨ha, hv⟩, hh⟩ := hc'
    exact ⟨(mem_considered_list alpha s c).mp hc, ha, of_decide_eq_true hv, of_decide_eq_true hh⟩
  · rintro ⟨h1, h2, h3, h4⟩
    refine ⟨c1, (mem_considered_list alpha s c1).mpr h1, ?_⟩
    rw [List.mem_map]
    refine ⟨c2, ?_, rfl⟩
    rw [List.mem_filter, get_neighbors_eq, List.mem_filter, mem_four_neighbors]
    exact ⟨⟨h2, decide_eq_true h3⟩, decide_eq_true h4⟩

theorem neighbor_edge_calls_nodup (alpha : Int) (s : GraphCutDisparity) :
    (neighbor_edge_calls alpha s).Nodup := by
  unfold neighbor_edge_calls
  rw [List.nodup_flatMap]
  constructor
  · intro c _
    unfold neighbor_calls_of
    refine List.Nodup.map (fun a b h => (Prod.mk.injEq _ _ _ _ ▸ h).2) ?_
    rw [get_neighbors_eq]
    exact ((four_neighbors_nodup c).filter _).filter _
  · refine (considered_list_nodup alpha s).pairwise_of_forall_ne ?_
    intro a _ b _ hab p h1 h2
    unfold neighbor_calls_of at h1 h2
    rw [List.mem_map] at h1 h2
    obtain ⟨_, _, e1⟩ := h1
    obtain ⟨_, _, e2⟩ := h2
    apply hab
    have := congrArg Prod.fst (e1.trans e2.symm)
    exact this

theorem adjacent_symm (c1 c2 : Correspondence) (h : Adjacent c1 c2) : Adjacent c2 c1 := by
  obtain ⟨h1, h2⟩ := h
  refine ⟨h1.symm, ?_⟩
  rcases h2 with ⟨e, h | h⟩ | ⟨e, h | h⟩
  · exact Or.inl ⟨e.symm, Or.inr (by omega)⟩
  · exact Or.inl ⟨e.symm, Or.inl (by omega)⟩
  · exact Or.inr ⟨e.symm, Or.inr (by omega)⟩
  · exact Or.inr ⟨e.symm, Or.inl (by omega)⟩

theorem adjacent_ne (c1 c2 : Correspondence) (h : Adjacent c1 c2) : c1 ≠ c2 := by
  intro e
  subst e
  obtain ⟨_, h2⟩ := h
  rcases h2 with ⟨_, h | h⟩ | ⟨_, h | h⟩ <;> omega

/-! ## The update after the cut, exactly -/

/-- Variant of `forPixels_acc` whose step may use that the visited pixel is new. -/
theorem forPixels_acc_fresh {σ : Type} (rows cols : Nat) (body : Nat → Nat → σ → σ)
    (I : (Nat → Nat → Prop) → σ → Prop)
    (hext : ∀ (P Q : Nat → Nat → Prop) (t : σ), (∀ i j, P i j ↔ Q i j) → I P t → I Q t)
    (hstep : ∀ (y x : Nat) (P : Nat → Nat → Prop) (t : σ), y < rows → x < cols → ¬ P y x →
      I P t → I (fun i j => P i j ∨ (i = y ∧ j = x)) (body y x t))
    (s : σ) (h0 : I (fun _ _ => False) s) :
    I (fun i j => i < rows ∧ j < cols)
      (forLoop rows (fun y => forLoop cols (fun x => body y x)) s) := by
  refine forLoop_inv (fun n t => I (fun i j => i < n ∧ j < cols) t) rows _ s
    (hext _ _ s (fun i j => by constructor <;> intro h <;> [exact h.elim; omega]) h0) ?_
  intro y hy t ht
  have inner := forLoop_inv
    (fun m u => I (fun i j => (i < y ∧ j < cols) ∨ (i = y ∧ j < m)) u)
    cols (fun x => body y x) t
    (hext _ _ t (fun i j => by constructor <;> intro h <;> omega) ht)
    (by
      intro m hm u hu
      refine hext _ _ _ ?_ (hstep y m _ u hy hm (by omega) hu)
      intro i j
      constructor <;> intro h <;> omega)
  refine hext _ _ _ ?_ inner
  intro i j
  constructor <;> intro h <;> omega

/-- Rule for a row-major double loop with a flag: when the body at `(y, x)` changes the
observed map only at `(y, x)` and raises the flag exactly when it changes that pixel,
the flag at exit is raised exactly when it was raised at entry or some pixel of the
image differs from its value at entry; pixels outside the image are unchanged. -/
theorem forPixels_flag {σ β : Type} (rows cols : Nat) (body : Nat → Nat → σ → σ)
    (get : σ → Int → Int → β) (flag : σ → Bool) (Env : σ → Prop)
    (hEnv : ∀ y x t, Env t → Env (body y x t))
    (hflag : ∀ (y x : Nat) t, Env t →
      (flag (body y x t) = true ↔ (flag t = true ∨ get (body y x t) y x ≠ get t y x)))
    (hframe : ∀ (y x : Nat) t (a b : Int), Env t → (a ≠ (y : Int) ∨ b ≠ (x : Int)) →
      get (body y x t) a b = get t a b)
    (s : σ) (hs : Env s) :
    (flag (forLoop rows (fun y => forLoop cols (fun x => body y x)) s) = true ↔
      (flag s = true ∨ ∃ y x : Nat, y < rows ∧ x < cols ∧
        get (forLoop rows (fun y => forLoop cols (fun x => body y x)) s) y x ≠ get s y x)) ∧
    (∀ a b : Int, (¬ ∃ y x : Nat, y < rows ∧ x < cols ∧ a = (y : Int) ∧ b = (x : Int)) →
      get (forLoop rows (fun y => forLoop cols (fun x => body y x)) s) a b = get s a b) := by
  have key := forPixels_acc_fresh rows cols body
    (fun P t => Env t ∧
      (∀ a b : Int, (¬ ∃ y x : Nat, P y x ∧ a = (y : Int) ∧ b = (x : Int)) →
        get t a b = get s a b) ∧
      (flag t = true ↔ (flag s = true ∨ ∃ y x : Nat, P y x ∧ get t y x ≠ get s y x)))
    (by
      intro P Q t hPQ ⟨h1, h2, h3⟩
      refine ⟨h1, ?_, ?_⟩
      · intro a b hn
        apply h2 a b
        rintro ⟨y, x, hp, e⟩
        exact hn ⟨y, x, (hPQ y x).mp hp, e⟩
      · rw [h3]
        constructor
        · rintro (h | ⟨y, x, hp, e⟩)
          · exact Or.inl h
          · exact Or.inr ⟨y, x, (hPQ y x).mp hp, e⟩
        · rintro (h | ⟨y, x, hp, e⟩)
          · exact Or.inl h
          · exact Or.inr ⟨y, x, (hPQ y x).mpr hp, e⟩)
    (by
      intro y x P t hy hx hnew ⟨h1, h2, h3⟩
      have hold : get t y x = get s y x := by
        apply h2
        rintro ⟨y', x', hp, e1, e2⟩
        have e1' : y = y' := by exact_mod_cast e1
        have e2' : x = x' := by exact_mod_cast e2
        subst e1'
        subst e2'
        exact hnew hp
      refine ⟨hEnv y x t h1, ?_, ?_⟩
      · intro a b hn
        rw [hframe y x t a b h1]
        · apply h2
          rintro ⟨y', x', hp, e⟩
          exact hn ⟨y', x', Or.inl hp, e⟩
        · by_contra hc
          push_neg at hc
          exact hn ⟨y, x, Or.inr ⟨rfl, rfl⟩, hc.1, hc.2⟩
      · rw [hflag y x t h1, h3]
        constructor
        · rintro ((h | ⟨y', x', hp, e⟩) | h)
          · exact Or.inl h
          · right
            refine ⟨y', x', Or.inl hp, ?_⟩
            have hne : (y' : Int) ≠ (y : Int) ∨ (x' : Int) ≠ (x : Int) := by
              by_contra hc
              push_neg at hc
              have e1' : y' = y := by exact_mod_cast hc.1
              have e2' : x' = x := by exact_mod_cast hc.2
              subst e1'
              subst e2'
              exact hnew hp
            rw [hframe y x t _ _ h1 hne]
            exact e
          · right
            refine ⟨y, x, Or.inr ⟨rfl, rfl⟩, ?_⟩
            rw [← hold]
            exact h
        · rintro (h | ⟨y', x', hp, e⟩)
          · exact Or.inl (Or.inl h)
          · rcases hp with hp | ⟨rfl, rfl⟩
            · left
              right
              refine ⟨y', x', hp, ?_⟩
              have hne : (y' : Int) ≠ (y : Int) ∨ (x' : Int) ≠ (x : Int) := by
                by_contra hc
                push_neg at hc
                have e1' : y' = y := by exact_mod_cast hc.1
                have e2' : x' = x := by exact_mod_cast hc.2
                subst e1'
                subst e2'
                exact hnew hp
              rw [hframe y x t _ _ h1 hne] at e
              exact e
            · right
              rw [hold]
              exact e)
    s ⟨hs, fun _ _ _ => rfl, by simp⟩
  obtain ⟨_, k2, k3⟩ := key
  refine ⟨?_, ?_⟩
  · rw [k3]
    constructor
    · rintro (h | ⟨y, x, ⟨h1, h2⟩, e⟩)
      · exact Or.inl h
      · exact Or.inr ⟨y, x, h1, h2, e⟩
    · rintro (h | ⟨y, x, h1, h2, e⟩)
      · exact Or.inl h
      · exact Or.inr ⟨y, x, ⟨h1, h2⟩, e⟩
  · intro a b hn
    apply k2
    rintro ⟨y, x, ⟨h1, h2⟩, e⟩
    exact hn ⟨y, x, h1, h2, e⟩

/-- The first loop of `update_correspondences`, pixel by pixel, with its flag. -/
theorem update_active_exact (alpha : Int) (s0 s : GraphCutDisparity) (hs : SameGraph s0 s) :
    SameGraph s0 (for_each_active update_active alpha s) ∧
    (∀ y x : Nat, y < s.pair.rows → x < s.pair.cols →
      (for_each_active update_active alpha s).pair.disparity_left.px y x
        = deactivated s0 alpha y x (s.pair.disparity_left.px y x)) ∧
    ((for_each_active update_active alpha s).changed = true ↔
      (s.changed = true ∨ ∃ y x : Nat, y < s.pair.rows ∧ x < s.pair.cols ∧
        (for_each_active update_active alpha s).pair.disparity_left.px y x
          ≠ s.pair.disparity_left.px y x)) ∧
    (∀ a b : Int, (¬ ∃ y x : Nat, y < s.pair.rows ∧ x < s.pair.cols ∧ a = (y : Int) ∧ b = (x : Int)) →
      (for_each_active update_active alpha s).pair.disparity_left.px a b
        = s.pair.disparity_left.px a b) := by
  have hbody_left : ∀ (y x : Nat) (t : GraphCutDisparity) (a b : Int), SameGraph s0 t →
      (if -(t.pair.disparity_left.px y x : Int) ≠ NULL_DISPARITY ∧
          -(t.pair.disparity_left.px y x : Int) ≠ alpha
        then update_active ⟨x, y, -(t.pair.disparity_left.px y x : Int)⟩ t
        else t).pair.disparity_left.px a b
      = if a = (y : Int) ∧ b = (x : Int) then deactivated s0 alpha y x (t.pair.disparity_left.px y x)
        else t.pair.disparity_left.px a b := by
    intro y x t a b ht
    unfold deactivated
    have hcol := node_color_same s0 t ht ⟨x, y, -(t.pair.disparity_left.px y x : Int)⟩
    by_cases hc : -(t.pair.disparity_left.px y x : Int) ≠ NULL_DISPARITY ∧
        -(t.pair.disparity_left.px y x : Int) ≠ alpha
    · by_cases hb : node_color s0 ⟨x, y, -(t.pair.disparity_left.px y x : Int)⟩ = Color.black
      · by_cases hab : a = (y : Int) ∧ b = (x : Int)
        · simp [hc, hb, hab, update_active_left, hcol]
        · simp [hc, hb, hab, update_active_left, hcol]
      · by_cases hab : a = (y : Int) ∧ b = (x : Int)
        · simp [hc, hb, hab, update_active_left, hcol]
        · simp [hc, hb, hab, update_active_left, hcol]
    · by_cases hab : a = (y : Int) ∧ b = (x : Int)
      · simp [hc, hab]
      · simp [hc, hab]
  have hbody_flag : ∀ (y x : Nat) (t : GraphCutDisparity), SameGraph s0 t →
      ((if -(t.pair.disparity_left.px y x : Int) ≠ NULL_DISPARITY ∧
          -(t.pair.disparity_left.px y x : Int) ≠ alpha
        then update_active ⟨x, y, -(t.pair.disparity_left.px y x : Int)⟩ t
        else t).changed = true ↔
        (t.changed = true ∨
          deactivated s0 alpha y x (t.pair.disparity_left.px y x)
            ≠ t.pair.disparity_left.px y x)) := by
    intro y x t ht
    unfold deactivated
    have hcol := node_color_same s0 t ht ⟨x, y, -(t.pair.disparity_left.px y x : Int)⟩
    by_cases hc : -(t.pair.disparity_left.px y x : Int) ≠ NULL_DISPARITY ∧
        -(t.pair.disparity_left.px y x : Int) ≠ alpha
    · by_cases hb : node_color s0 ⟨x, y, -(t.pair.disparity_left.px y x : Int)⟩ = Color.black
      · simp [hc, hb, update_active, hcol]
      · have hnz : t.pair.disparity_left.px y x ≠ 0 := by
          intro h0
          apply hc.1
          rw [h0]
          rfl
        simp [hc, hb, update_active, hcol, Ne.symm hnz]
    · simp [hc]
  unfold for_each_active
  have hrel := forPixels_rel s.pair.rows s.pair.cols
    (fun y x t =>
      if -(t.pair.disparity_left.px y x : Int) ≠ NULL_DISPARITY ∧
          -(t.pair.disparity_left.px y x : Int) ≠ alpha
        then update_active ⟨x, y, -(t.pair.disparity_left.px y x : Int)⟩ t else t)
    (fun t => t.pair.disparity_left.px) (SameGraph s0)
    (fun y x v v' => v' = deactivated s0 alpha y x v)
    (by
      intro y x t ht
      simp only []
      split_ifs
      · exact update_active_sameGraph s0 _ t ht
      · exact ht)
    (by
      intro y x t ht
      simp only []
      rw [hbody_left y x t _ _ ht, if_pos ⟨rfl, rfl⟩])
    (by
      intro y x t a b ht hab
      simp only []
      rw [hbody_left y x t a b ht, if_neg (by omega)])
    s hs
  have hflag := forPixels_flag s.pair.rows s.pair.cols
    (fun y x t =>
      if -(t.pair.disparity_left.px y x : Int) ≠ NULL_DISPARITY ∧
          -(t.pair.disparity_left.px y x : Int) ≠ alpha
        then update_active ⟨x, y, -(t.pair.disparity_left.px y x : Int)⟩ t else t)
    (fun t => t.pair.disparity_left.px) (fun t => t.changed) (SameGraph s0)
    (by
      intro y x t ht
      simp only []
      split_ifs
      · exact update_active_sameGraph s0 _ t ht
      · exact ht)
    (by
      intro y x t ht
      simp only []
      rw [hbody_flag y x t ht, hbody_left y x t _ _ ht, if_pos ⟨rfl, rfl⟩])
    (by
      intro y x t a b ht hab
      simp only []
      rw [hbody_left y x t a b ht, if_neg (by omega)])
    s hs
  exact ⟨hrel.1, hrel.2, hflag.1, hflag.2⟩

theorem byte_of_label (alpha : Int) (hlo : -255 ≤ alpha) (hhi : alpha ≤ -1) :
    ((((-alpha) % 256).toNat : Nat) : Int) = -alpha := by
  have h256 : (-alpha) % 256 = -alpha := Int.emod_eq_of_lt (by omega) (by omega)
  rw [h256, Int.toNat_of_nonneg (by omega)]

/-- The second loop of `update_correspondences`, pixel by pixel, with its flag. -/
theorem update_alpha_exact (alpha : Int) (hlo : -255 ≤ alpha) (hhi : alpha ≤ -1)
    (s0 s : GraphCutDisparity) (hs : SameGraph s0 s) :
    SameGraph s0 (for_each_alpha update_alpha alpha s) ∧
    (∀ y x : Nat, y < s.pair.rows → x < s.pair.cols →
      (for_each_alpha update_alpha alpha s).pair.disparity_left.px y x
        = activated s0 alpha y x (s.pair.disparity_left.px y x)) ∧
    ((for_each_alpha update_alpha alpha s).changed = true ↔
      (s.changed = true ∨ ∃ y x : Nat, y < s.pair.rows ∧ x < s.pair.cols ∧
        (for_each_alpha update_alpha alpha s).pair.disparity_left.px y x
          ≠ s.pair.disparity_left.px y x)) ∧
    (∀ a b : Int, (¬ ∃ y x : Nat, y < s.pair.rows ∧ x < s.pair.cols ∧ a = (y : Int) ∧ b = (x : Int)) →
      (for_each_alpha update_alpha alpha s).pair.disparity_left.px a b
        = s.pair.disparity_left.px a b) := by
  have hbyte := byte_of_label alpha hlo hhi
  have hbody_left : ∀ (y x : Nat) (t : GraphCutDisparity) (a b : Int), SameGraph s0 t →
      (if is_valid t ⟨x, y, alpha⟩ alpha then update_alpha ⟨x, y, alpha⟩ t
        else t).pair.disparity_left.px a b
      = if a = (y : Int) ∧ b = (x : Int) then activated s0 alpha y x (t.pair.disparity_left.px y x)
        else t.pair.disparity_left.px a b := by
    intro y x t a b ht
    unfold activated
    have hcol := node_color_same s0 t ht ⟨x, y, alpha⟩
    have hwb := within_bounds_same s0 t ht ⟨x, y, alpha⟩
    have hva : is_valid t ⟨x, y, alpha⟩ alpha ↔ within_bounds s0 ⟨x, y, alpha⟩ := by
      unfold is_valid
      rw [hwb]
      simp
    have hact : is_active t ⟨x, y, alpha⟩ ↔ (t.pair.disparity_left.px y x : Int) = -alpha := by
      unfold is_active
      rfl
    by_cases hv : within_bounds s0 ⟨x, y, alpha⟩
    · rw [if_pos (hva.mpr hv), if_pos hv, update_alpha_left, hcol]
      by_cases hb : node_color s0 ⟨x, y, alpha⟩ = Color.black
      · by_cases ha : (t.pair.disparity_left.px y x : Int) = -alpha
        · by_cases hab : a = (y : Int) ∧ b = (x : Int)
          · simp [hb, ha, hab, hact]
          · simp [hb, ha, hab, hact]
        · by_cases hab : a = (y : Int) ∧ b = (x : Int)
          · simp [hb, ha, hab, hact]
          · simp [hb, ha, hab, hact]
      · by_cases ha : (t.pair.disparity_left.px y x : Int) = -alpha
        · by_cases hab : a = (y : Int) ∧ b = (x : Int)
          · simp [hb, ha, hab, hact]
          · simp [hb, ha, hab, hact]
        · by_cases hab : a = (y : Int) ∧ b = (x : Int)
          · simp [hb, ha, hab, hact]
          · simp [hb, ha, hab, hact]
    · rw [if_neg (fun h => hv (hva.mp h)), if_neg hv]
      by_cases hab : a = (y : Int) ∧ b = (x : Int)
      · simp [hab]
      · simp [hab]
  have hbody_flag : ∀ (y x : Nat) (t : GraphCutDisparity), SameGraph s0 t →
      ((if is_valid t ⟨x, y, alpha⟩ alpha then update_alpha ⟨x, y, alpha⟩ t
        else t).changed = true ↔
        (t.changed = true ∨
          activated s0 alpha y x (t.pair.disparity_left.px y x)
            ≠ t.pair.disparity_left.px y x)) := by
    intro y x t ht
    unfold activated
    have hcol := node_color_same s0 t ht ⟨x, y, alpha⟩
    have hwb := within_bounds_same s0 t ht ⟨x, y, alpha⟩
    have hva : is_valid t ⟨x, y, alpha⟩ alpha ↔ within_bounds s0 ⟨x, y, alpha⟩ := by
      unfold is_valid
      rw [hwb]
      simp
    have hact : is_active t ⟨x, y, alpha⟩ ↔ (t.pair.disparity_left.px y x : Int) = -alpha := by
      unfold is_active
      rfl
    by_cases hv : within_bounds s0 ⟨x, y, alpha⟩
    · rw [if_pos (hva.mpr hv), if_pos hv]
      unfold update_alpha
      rw [hcol]
      by_cases hb : node_color s0 ⟨x, y, alpha⟩ = Color.black
      · by_cases ha : (t.pair.disparity_left.px y x : Int) = -alpha
        · have hnz : t.pair.disparity_left.px y x ≠ 0 := by
            intro h0
            rw [h0] at ha
            simp at ha
            omega
          simp [hb, ha, hact, Ne.symm hnz]
        · simp [hb, ha, hact]
      · by_cases ha : (t.pair.disparity_left.px y x : Int) = -alpha
        · simp [hb, ha, hact]
        · have hne : ((-alpha) % 256).toNat ≠ t.pair.disparity_left.px y x := by
            intro h0
            apply ha
            rw [← h0]
            exact hbyte
          simp [hb, ha, hact, hne]
    · rw [if_neg (fun h => hv (hva.mp h)), if_neg hv]
      simp
  unfold for_each_alpha
  have hrel := forPixels_rel s.pair.rows s.pair.cols
    (fun y x t =>
      if is_valid t ⟨x, y, alpha⟩ alpha then update_alpha ⟨x, y, alpha⟩ t else t)
    (fun t => t.pair.disparity_left.px) (SameGraph s0)
    (fun y x v v' => v' = activated s0 alpha y x v)
    (by
      intro y x t ht
      simp only []
      split_ifs
      · exact update_alpha_sameGraph s0 _ t ht
      · exact ht)
    (by
      intro y x t ht
      simp only []
      rw [hbody_left y x t _ _ ht, if_pos ⟨rfl, rfl⟩])
    (by
      intro y x t a b ht hab
      simp only []
      rw [hbody_left y x t a b ht, if_neg (by omega)])
    s hs
  have hflag := forPixels_flag s.pair.rows s.pair.cols
    (fun y x t =>
      if is_valid t ⟨x, y, alpha⟩ alpha then update_alpha ⟨x, y, alpha⟩ t else t)
    (fun t => t.pair.disparity_left.px) (fun t => t.changed) (SameGraph s0)
    (by
      intro y x t ht
      simp only []
      split_ifs
      · exact update_alpha_sameGraph s0 _ t ht
      · exact ht)
    (by
      intro y x t ht
      simp only []
      rw [hbody_flag y x t ht, hbody_left y x t _ _ ht, if_pos ⟨rfl, rfl⟩])
    (by
      intro y x t a b ht hab
      simp only []
      rw [hbody_left y x t a b ht, if_neg (by omega)])
    s hs
  exact ⟨hrel.1, hrel.2, hflag.1, hflag.2⟩

theorem Mat.ext_px {α : Type} (m n : Mat α) (hr : m.rows = n.rows) (hc : m.cols = n.cols)
    (hp : ∀ a b : Int, m.px a b = n.px a b) : m = n := by
  cases m
  cases n
  simp only [Mat.mk.injEq] at *
  exact ⟨hr, hc, funext (fun a => funext (fun b => hp a b))⟩

theorem update_correspondences_dims (alpha : Int) (s : GraphCutDisparity) :
    (update_correspondences alpha s).pair.disparity_left.rows = s.pair.disparity_left.rows ∧
    (update_correspondences alpha s).pair.disparity_left.cols = s.pair.disparity_left.cols := by
  rw [update_correspondences_eq]
  refine for_each_alpha_inv
    (fun t => t.pair.disparity_left.rows = s.pair.disparity_left.rows ∧
      t.pair.disparity_left.cols = s.pair.disparity_left.cols) update_alpha alpha _ ?_ ?_
  · intro c t ht
    unfold update_alpha
    simp only []
    split_ifs <;> exact ht
  · refine for_each_active_inv
      (fun t => t.pair.disparity_left.rows = s.pair.disparity_left.rows ∧
        t.pair.disparity_left.cols = s.pair.disparity_left.cols) update_active alpha _ ?_ ⟨rfl, rfl⟩
    intro c t ht
    unfold update_active
    split_ifs <;> exact ht

/-- The effect of `update_correspondences` on `disparity_left` and on its flag: every
pixel of the image goes through the deactivation and then the activation of its own
correspondences, the rest of the map is untouched, and the flag is raised exactly
when some pixel of the image has changed. -/
theorem update_correspondences_exact (alpha : Int) (hlo : -255 ≤ alpha) (hhi : alpha ≤ -1)
    (s : GraphCutDisparity) :
    (∀ y x : Nat, y < s.pair.rows → x < s.pair.cols →
      (update_correspondences alpha s).pair.disparity_left.px y x
        = activated s alpha y x (deactivated s alpha y x (s.pair.disparity_left.px y x))) ∧
    ((update_correspondences alpha s).changed = true ↔
      ∃ y x : Nat, y < s.pair.rows ∧ x < s.pair.cols ∧
        (update_correspondences alpha s).pair.disparity_left.px y x
          ≠ s.pair.disparity_left.px y x) ∧
    (∀ a b : Int, (¬ ∃ y x : Nat, y < s.pair.rows ∧ x < s.pair.cols ∧ a = (y : Int) ∧ b = (x : Int)) →
      (update_correspondences alpha s).pair.disparity_left.px a b
        = s.pair.disparity_left.px a b) := by
  rw [update_correspondences_eq]
  have h0 : SameGraph s { s with changed := false } := ⟨rfl, rfl, rfl, rfl, rfl, rfl⟩
  obtain ⟨a1, a2, a3, a4⟩ := update_active_exact alpha s { s with changed := false } h0
  obtain ⟨b1, b2, b3, b4⟩ := update_alpha_exact alpha hlo hhi s
    (for_each_active update_active alpha { s with changed := false }) a1
  have hr : (for_each_active update_active alpha { s with changed := false }).pair.rows
      = s.pair.rows := a1.2.2.2.2.1
  have hc : (for_each_active update_active alpha { s with changed := false }).pair.cols
      = s.pair.cols := a1.2.2.2.2.2
  rw [hr, hc] at b2 b3 b4
  have hbyte := byte_of_label alpha hlo hhi
  have hpix : ∀ y x : Nat, y < s.pair.rows → x < s.pair.cols →
      (for_each_alpha update_alpha alpha
        (for_each_active update_active alpha { s with changed := false })).pair.disparity_left.px y x
        = activated s alpha y x (deactivated s alpha y x (s.pair.disparity_left.px y x)) := by
    intro y x hy hx
    rw [b2 y x hy hx, a2 y x hy hx]
  refine ⟨hpix, ?_, ?_⟩
  · rw [b3, a3]
    simp only [Bool.false_eq_true, false_or]
    constructor
    · rintro (⟨y, x, hy, hx, h⟩ | ⟨y, x, hy, hx, h⟩)
      · refine ⟨y, x, hy, hx, ?_⟩
        rw [hpix y x hy hx]
        have hd := a2 y x hy hx
        simp only [] at hd h
        rw [hd] at h
        unfold deactivated at h ⊢
        unfold activated
        unfold NULL_DISPARITY at h ⊢
        split_ifs at h ⊢ <;> omega
      · by_cases he : (for_each_active update_active alpha
            { s with changed := false }).pair.disparity_left.px y x
            = s.pair.disparity_left.px y x
        · exact ⟨y, x, hy, hx, by rw [← he]; exact h⟩
        · refine ⟨y, x, hy, hx, ?_⟩
          rw [hpix y x hy hx]
          have hd := a2 y x hy hx
          simp only [] at hd he
          rw [hd] at he
          unfold deactivated at he ⊢
          unfold activated
          unfold NULL_DISPARITY at he ⊢
          split_ifs at he ⊢ <;> omega
    · rintro ⟨y, x, hy, hx, h⟩
      by_cases he : (for_each_active update_active alpha
          { s with changed := false }).pair.disparity_left.px y x
          = s.pair.disparity_left.px y x
      · right
        exact ⟨y, x, hy, hx, by rw [he]; exact h⟩
      · left
        exact ⟨y, x, hy, hx, he⟩
  · intro a b hn
    rw [b4 a b hn]
    exact a4 a b hn

theorem update_active_right (c : Correspondence) (t : GraphCutDisparity) (a b : Int) :
    (update_active c t).pair.disparity_right.px a b =
      if node_color t c = Color.black then t.pair.disparity_right.px a b
      else if a = c.y ∧ b = c.x + c.d then 0 else t.pair.disparity_right.px a b := by
  unfold update_active
  split_ifs <;> simp_all [Mat.set_px, NULL_DISPARITY]

theorem update_alpha_right (c : Correspondence) (t : GraphCutDisparity) (a b : Int) :
    (update_alpha c t).pair.disparity_right.px a b =
      if (node_color t c ≠ Color.black) = is_active t c then t.pair.disparity_right.px a b
      else if a = c.y ∧ b = c.x + c.d then
        (if node_color t c ≠ Color.black then ((-c.d) % 256).toNat else 0)
      else t.pair.disparity_right.px a b := by
  unfold update_alpha
  by_cases hn : node_color t c = Color.black <;> by_cases hw : is_active t c <;>
    simp [hn, hw, Mat.set_px, NULL_DISPARITY]

/-- The first loop of `update_correspondences` on `disparity_right`: it only writes
nulls, and it nulls the right pixel of every visited correspondence whose node is not
black. -/
theorem update_active_right_phase (alpha : Int) (s0 s : GraphCutDisparity)
    (hs : SameGraph s0 s) :
    (∀ a b : Int,
      (for_each_active update_active alpha s).pair.disparity_right.px a b
          = s.pair.disparity_right.px a b ∨
        (for_each_active update_active alpha s).pair.disparity_right.px a b = 0) ∧
    (∀ y x : Nat, y < s.pair.rows → x < s.pair.cols →
      (-(s.pair.disparity_left.px y x : Int) ≠ NULL_DISPARITY ∧
        -(s.pair.disparity_left.px y x : Int) ≠ alpha) →
      node_color s0 ⟨x, y, -(s.pair.disparity_left.px y x : Int)⟩ ≠ Color.black →
      (for_each_active update_active alpha s).pair.disparity_right.px y
        ((x : Int) + -(s.pair.disparity_left.px y x : Int)) = 0) := by
  unfold for_each_active
  have key := forPixels_acc_fresh s.pair.rows s.pair.cols
    (fun y x t =>
      if -(t.pair.disparity_left.px y x : Int) ≠ NULL_DISPARITY ∧
          -(t.pair.disparity_left.px y x : Int) ≠ alpha
        then update_active ⟨x, y, -(t.pair.disparity_left.px y x : Int)⟩ t else t)
    (fun P t => SameGraph s0 t ∧
      (∀ i j : Nat, ¬ P i j → t.pair.disparity_left.px i j = s.pair.disparity_left.px i j) ∧
      (∀ a b : Int, t.pair.disparity_right.px a b = s.pair.disparity_right.px a b ∨
        t.pair.disparity_right.px a b = 0) ∧
      (∀ i j : Nat, P i j →
        (-(s.pair.disparity_left.px i j : Int) ≠ NULL_DISPARITY ∧
          -(s.pair.disparity_left.px i j : Int) ≠ alpha) →
        node_color s0 ⟨j, i, -(s.pair.disparity_left.px i j : Int)⟩ ≠ Color.black →
        t.pair.disparity_right.px i ((j : Int) + -(s.pair.disparity_left.px i j : Int)) = 0))
    (by
      intro P Q t hPQ ⟨h1, h2, h3, h4⟩
      exact ⟨h1, fun i j hn => h2 i j (fun hp => hn ((hPQ i j).mp hp)), h3,
        fun i j hq => h4 i j ((hPQ i j).mpr hq)⟩)
    (by
      intro y x P t hy hx hnew ⟨h1, h2, h3, h4⟩
      have hold := h2 y x hnew
      have hcol := node_color_same s0 t h1 ⟨x, y, -(t.pair.disparity_left.px y x : Int)⟩
      simp only []
      by_cases hc : -(t.pair.disparity_left.px y x : Int) ≠ NULL_DISPARITY ∧
          -(t.pair.disparity_left.px y x : Int) ≠ alpha
      · rw [if_pos hc]
        refine ⟨update_active_sameGraph s0 _ t h1, ?_, ?_, ?_⟩
        · intro i j hn
          push_neg at hn
          rw [update_active_left]
          have hij : ¬ ((i : Int) = (y : Int) ∧ (j : Int) = (x : Int)) := by
            intro h
            exact hn.2 (by exact_mod_cast h.1) (by exact_mod_cast h.2)
          split_ifs
          · exact h2 i j hn.1
          · exact h2 i j hn.1
        · intro a b
          rw [update_active_right]
          split_ifs
          · exact h3 a b
          · exact Or.inr rfl
          · exact h3 a b
        · intro i j hp hcond hnb
          rw [update_active_right]
          rcases hp with hp | ⟨rfl, rfl⟩
          · split_ifs
            · exact h4 i j hp hcond hnb
            · rfl
            · exact h4 i j hp hcond hnb
          · rw [hold] at hcol ⊢
            rw [if_neg (by rw [hcol]; exact hnb), if_pos ⟨rfl, rfl⟩]
      · rw [if_neg hc]
        refine ⟨h1, fun i j hn => h2 i j (fun hp => hn (Or.inl hp)), h3, ?_⟩
        intro i j hp hcond hnb
        rcases hp with hp | ⟨rfl, rfl⟩
        · exact h4 i j hp hcond hnb
        · rw [hold] at hc
          exact absurd hcond hc)
    s ⟨hs, fun _ _ _ => rfl, fun _ _ => Or.inl rfl, fun _ _ h => h.elim⟩
  obtain ⟨_, _, k3, k4⟩ := key
  exact ⟨k3, fun y x hy hx => k4 y x ⟨hy, hx⟩⟩

/-! ## The right map after the update -/

/-- The second loop of `update_correspondences` on `disparity_right`: the right pixel
`(y, x + alpha)` of the candidate `(x, y, alpha)` is written when the candidate is in
bounds and changes its status; no other right pixel is written. -/
theorem update_alpha_right_phase (alpha : Int) (s0 s : GraphCutDisparity)
    (hs : SameGraph s0 s) :
    (∀ y x : Nat, y < s.pair.rows → x < s.pair.cols →
      (for_each_alpha update_alpha alpha s).pair.disparity_right.px y ((x : Int) + alpha)
        = if within_bounds s0 ⟨x, y, alpha⟩ ∧
              ¬ (node_color s0 ⟨x, y, alpha⟩ ≠ Color.black ↔
                (s.pair.disparity_left.px y x : Int) = -alpha)
          then (if node_color s0 ⟨x, y, alpha⟩ ≠ Color.black then ((-alpha) % 256).toNat else 0)
          else s.pair.disparity_right.px y ((x : Int) + alpha)) ∧
    (∀ a b : Int, (¬ ∃ y x : Nat, y < s.pair.rows ∧ x < s.pair.cols ∧ a = (y : Int) ∧ b = (x : Int)) →
      (for_each_alpha update_alpha alpha s).pair.disparity_right.px a (b + alpha)
        = s.pair.disparity_right.px a (b + alpha)) := by
  have hbody : ∀ (y x : Nat) (t : GraphCutDisparity) (a b : Int), SameGraph s0 t →
      (if is_valid t ⟨x, y, alpha⟩ alpha then update_alpha ⟨x, y, alpha⟩ t
        else t).pair.disparity_right.px a (b + alpha)
      = if a = (y : Int) ∧ b = (x : Int) then
          (if within_bounds s0 ⟨x, y, alpha⟩ ∧
              ¬ (node_color s0 ⟨x, y, alpha⟩ ≠ Color.black ↔
                (t.pair.disparity_left.px y x : Int) = -alpha)
          then (if node_color s0 ⟨x, y, alpha⟩ ≠ Color.black then ((-alpha) % 256).toNat else 0)
          else t.pair.disparity_right.px y ((x : Int) + alpha))
        else t.pair.disparity_right.px a (b + alpha) := by
    intro y x t a b ht
    have hcol := node_color_same s0 t ht ⟨x, y, alpha⟩
    have hwb := within_bounds_same s0 t ht ⟨x, y, alpha⟩
    have hva : is_valid t ⟨x, y, alpha⟩ alpha ↔ within_bounds s0 ⟨x, y, alpha⟩ := by
      unfold is_valid
      rw [hwb]
      simp
    have hact : is_active t ⟨x, y, alpha⟩ ↔ (t.pair.disparity_left.px y x : Int) = -alpha := by
      unfold is_active
      rfl
    by_cases hv : within_bounds s0 ⟨x, y, alpha⟩
    · rw [if_pos (hva.mpr hv), update_alpha_right, hcol]
      by_cases hb : node_color s0 ⟨x, y, alpha⟩ = Color.black
      · by_cases ha : (t.pair.disparity_left.px y x : Int) = -alpha
        · by_cases hab : a = (y : Int) ∧ b = (x : Int)
          · simp [hb, ha, hab, hact, hv]
          · have hab' : ¬ (a = (y : Int) ∧ b + alpha = (x : Int) + alpha) := by omega
            simp [hb, ha, hab, hab', hact, hv]
        · by_cases hab : a = (y : Int) ∧ b = (x : Int)
          · simp [hb, ha, hab, hact, hv]
          · have hab' : ¬ (a = (y : Int) ∧ b + alpha = (x : Int) + alpha) := by omega
            simp [hb, ha, hab, hab', hact, hv]
      · by_cases ha : (t.pair.disparity_left.px y x : Int) = -alpha
        · by_cases hab : a = (y : Int) ∧ b = (x : Int)
          · simp [hb, ha, hab, hact, hv]
          · have hab' : ¬ (a = (y : Int) ∧ b + alpha = (x : Int) + alpha) := by omega
            simp [hb, ha, hab, hab', hact, hv]
        · by_cases hab : a = (y : Int) ∧ b = (x : Int)
          · simp [hb, ha, hab, hact, hv]
          · have hab' : ¬ (a = (y : Int) ∧ b + alpha = (x : Int) + alpha) := by omega
            simp [hb, ha, hab, hab', hact, hv]
    · rw [if_neg (fun h => hv (hva.mp h))]
      by_cases hab : a = (y : Int) ∧ b = (x : Int)
      · simp [hab, hv]
      · simp [hab]
  have hleft : ∀ (y x : Nat) (t : GraphCutDisparity) (a b : Int), SameGraph s0 t →
      (a ≠ (y : Int) ∨ b ≠ (x : Int)) →
      (if is_valid t ⟨x, y, alpha⟩ alpha then update_alpha ⟨x, y, alpha⟩ t
        else t).pair.disparity_left.px a b = t.pair.disparity_left.px a b := by
    intro y x t a b ht hab
    split_ifs
    · rw [update_alpha_left]
      split_ifs with h1 h2 h3
      · rfl
      · exfalso
        simp only [] at h2
        omega
      · exfalso
        simp only [] at h2
        omega
      · rfl
    · rfl
  unfold for_each_alpha
  have hrel := forPixels_rel s.pair.rows s.pair.cols
    (fun y x t =>
      if is_valid t ⟨x, y, alpha⟩ alpha then update_alpha ⟨x, y, alpha⟩ t else t)
    (fun t a b => (t.pair.disparity_left.px a b, t.pair.disparity_right.px a (b + alpha)))
    (SameGraph s0)
    (fun y x p p' => p'.2 =
      if within_bounds s0 ⟨x, y, alpha⟩ ∧
          ¬ (node_color s0 ⟨x, y, alpha⟩ ≠ Color.black ↔ (p.1 : Int) = -alpha)
      then (if node_color s0 ⟨x, y, alpha⟩ ≠ Color.black then ((-alpha) % 256).toNat else 0)
      else p.2)
    (by
      intro y x t ht
      simp only []
      split_ifs
      · exact update_alpha_sameGraph s0 _ t ht
      · exact ht)
    (by
      intro y x t ht
      simp only []
      rw [hbody y x t _ _ ht, if_pos ⟨rfl, rfl⟩])
    (by
      intro y x t a b ht hab
      have hn : ¬ (a = (y : Int) ∧ b = (x : Int)) := by omega
      have e1 := hleft y x t a b ht hab
      have e2 := hbody y x t a b ht
      rw [if_neg hn] at e2
      simp only []
      rw [e1, e2])
    s hs
  have hflag := forPixels_flag s.pair.rows s.pair.cols
    (fun y x t =>
      if is_valid t ⟨x, y, alpha⟩ alpha then update_alpha ⟨x, y, alpha⟩ t else t)
    (fun t a b => t.pair.disparity_right.px a (b + alpha)) (fun _ => true) (SameGraph s0)
    (by
      intro y x t ht
      simp only []
      split_ifs
      · exact update_alpha_sameGraph s0 _ t ht
      · exact ht)
    (by
      intro y x t _
      simp)
    (by
      intro y x t a b ht hab
      have hn : ¬ (a = (y : Int) ∧ b = (x : Int)) := by omega
      have e2 := hbody y x t a b ht
      rw [if_neg hn] at e2
      simp only []
      rw [e2])
    s hs
  exact ⟨hrel.2, hflag.2⟩

theorem deactivated_ne_label (s : GraphCutDisparity) (alpha : Int) (y x v : Nat)
    (h : (deactivated s alpha y x v : Int) ≠ -alpha) : (v : Int) ≠ -alpha := by
  intro e
  apply h
  unfold deactivated
  rw [if_neg]
  · exact e
  · intro hc
    apply hc.1.2
    omega

/-- After `update_correspondences`, the right pixel of a visited correspondence whose
node is not black reads 0, unless the `alpha` candidate with that right pixel was
activated by the move, in which case it reads `-alpha`. -/
theorem right_after_deactivation (alpha : Int) (hlo : -255 ≤ alpha) (hhi : alpha ≤ -1)
    (s : GraphCutDisparity) (c : Correspondence) (hc : ActiveInMove alpha s c)
    (hnb : node_color s c ≠ Color.black) :
    (update_correspondences alpha s).pair.disparity_right.px c.y (c.x + c.d) = 0 ∨
    (((update_correspondences alpha s).pair.disparity_right.px c.y (c.x + c.d) : Int) = -alpha ∧
      ActivatedInMove alpha s ⟨c.x + c.d - alpha, c.y, alpha⟩) := by
  obtain ⟨⟨c1, c2, c3, c4⟩, hact, hnz, hna⟩ := hc
  obtain ⟨x, y, d⟩ := c
  simp only at c1 c2 c3 c4 hnz hna
  unfold is_active at hact
  simp only at hact
  rw [update_correspondences_eq]
  have h0 : SameGraph s { s with changed := false } := ⟨rfl, rfl, rfl, rfl, rfl, rfl⟩
  obtain ⟨a1, a2, _, _⟩ := update_active_exact alpha s { s with changed := false } h0
  obtain ⟨_, r2⟩ := update_active_right_phase alpha s { s with changed := false } h0
  have hy : ((y.toNat : Nat) : Int) = y := Int.toNat_of_nonneg c1
  have hx : ((x.toNat : Nat) : Int) = x := Int.toNat_of_nonneg c3
  have hd : -((s.pair.disparity_left.px y x : Nat) : Int) = d := by omega
  have hzero : (for_each_active update_active alpha
      { s with changed := false }).pair.disparity_right.px y (x + d) = 0 := by
    have h := r2 y.toNat x.toNat (by simp only []; omega) (by simp only []; omega)
    simp only [hy, hx, hd] at h
    exact h ⟨hnz, hna⟩ hnb
  obtain ⟨b1, b2⟩ := update_alpha_right_phase alpha s
    (for_each_active update_active alpha { s with changed := false }) a1
  have hr : (for_each_active update_active alpha { s with changed := false }).pair.rows
      = s.pair.rows := a1.2.2.2.2.1
  have hcl : (for_each_active update_active alpha { s with changed := false }).pair.cols
      = s.pair.cols := a1.2.2.2.2.2
  rw [hr, hcl] at b1 b2
  simp only
  by_cases hin : 0 ≤ x + d - alpha ∧ x + d - alpha < (s.pair.cols : Int)
  · have hx2 : (((x + d - alpha).toNat : Nat) : Int) = x + d - alpha :=
      Int.toNat_of_nonneg hin.1
    have h := b1 y.toNat (x + d - alpha).toNat (by omega) (by omega)
    have hl := a2 y.toNat (x + d - alpha).toNat (by simp only []; omega) (by simp only []; omega)
    simp only [hy, hx2] at h hl
    have e : x + d - alpha + alpha = x + d := by ring
    rw [e] at h
    rw [h]
    by_cases hcond : within_bounds s ⟨x + d - alpha, y, alpha⟩ ∧
        ¬ (node_color s ⟨x + d - alpha, y, alpha⟩ ≠ Color.black ↔
          ((for_each_active update_active alpha
            { s with changed := false }).pair.disparity_left.px y (x + d - alpha) : Int) = -alpha)
    · rw [if_pos hcond]
      by_cases hb : node_color s ⟨x + d - alpha, y, alpha⟩ ≠ Color.black
      · rw [if_pos hb]
        right
        refine ⟨byte_of_label alpha hlo hhi, ⟨rfl, hcond.1⟩, hb, ?_⟩
        have hne : ((for_each_active update_active alpha
            { s with changed := false }).pair.disparity_left.px y (x + d - alpha) : Int)
            ≠ -alpha := by
          intro e2
          exact hcond.2 ⟨fun _ => e2, fun _ => hb⟩
        rw [hl] at hne
        unfold is_active
        exact deactivated_ne_label s alpha _ _ _ hne
      · rw [if_neg hb]
        exact Or.inl rfl
    · rw [if_neg hcond]
      exact Or.inl hzero
  · left
    have h := b2 y (x + d - alpha) (by
      rintro ⟨y', x', _, hx', _, e⟩
      omega)
    have e : x + d - alpha + alpha = x + d := by ring
    rw [e] at h
    rw [h]
    exact hzero

/-! ## The edges and the cuts of the graph of a move -/

theorem add_alpha_node_edges (c : Correspondence) (alpha : Int) (s : GraphCutDisparity) :
    (add_alpha_node c alpha s).g.edges
      = s.g.edges ++
        [⟨s.source, s.g.num_vertices, data_cost s c⟩, ⟨s.g.num_vertices, s.source, 0⟩,
         ⟨s.g.num_vertices, s.sink, occ_cost s c⟩,
         ⟨s.sink, s.g.num_vertices, 0⟩] := by
  have h := add_node_index c s
  simp only [add_alpha_node, add_sink_edge, add_source_edge]
  have h1 : get_vertex (add_source_edge c (data_cost s c) (add_node c s)) c = s.g.num_vertices := h
  simp only [add_source_edge] at h1
  rw [h1, h]
  simp [add_node]

theorem add_move_node_edges (alpha : Int) (c : Correspondence) (s : GraphCutDisparity) :
    (add_move_node alpha c s).g.edges = s.g.edges ++ node_edges s alpha c s.g.num_vertices := by
  unfold add_move_node node_edges
  by_cases h : c.d = alpha
  · rw [if_pos h, if_pos h]
    exact add_alpha_node_edges c alpha s
  · rw [if_neg h, if_neg h, add_active_node_edges, smooth_cost_zero, add_zero]

theorem add_move_node_sameCosts (alpha : Int) (c : Correspondence) (s : GraphCutDisparity) :
    SameCosts s (add_move_node alpha c s) := by
  unfold add_move_node
  split_ifs
  · exact ⟨rfl, rfl, rfl, rfl, rfl, rfl, rfl, rfl, rfl⟩
  · exact ⟨rfl, rfl, rfl, rfl, rfl, rfl, rfl, rfl, rfl⟩

theorem add_move_node_num (alpha : Int) (c : Correspondence) (s : GraphCutDisparity) :
    (add_move_node alpha c s).g.num_vertices = s.g.num_vertices + 1 := by
  unfold add_move_node
  split_ifs
  · rfl
  · rfl

theorem sameCosts_trans (s t u : GraphCutDisparity) (h1 : SameCosts s t) (h2 : SameCosts t u) :
    SameCosts s u := by
  obtain ⟨a1, a2, a3, a4, a5, a6, a7, a8, a9⟩ := h1
  obtain ⟨b1, b2, b3, b4, b5, b6, b7, b8, b9⟩ := h2
  exact ⟨b1.trans a1, b2.trans a2, b3.trans a3, b4.trans a4, b5.trans a5, b6.trans a6,
    b7.trans a7, b8.trans a8, b9.trans a9⟩

theorem data_cost_same (s t : GraphCutDisparity) (h : t.pair = s.pair) (c : Correspondence) :
    data_cost t c = data_cost s c := by
  simp only [data_cost, h]

theorem occ_cost_same (s t : GraphCutDisparity) (h1 : t.Cp = s.Cp)
    (h2 : t.left_occlusion_count = s.left_occlusion_count)
    (h3 : t.right_occlusion_count = s.right_occlusion_count) (c : Correspondence) :
    occ_cost t c = occ_cost s c := by
  simp only [occ_cost, h1, h2, h3]

theorem node_edges_same (s t : GraphCutDisparity) (h : SameCosts s t) (alpha : Int)
    (c : Correspondence) (i : Nat) : node_edges t alpha c i = node_edges s alpha c i := by
  obtain ⟨a1, _, _, a4, _, a6, a7, a8, a9⟩ := h
  simp only [node_edges, data_cost_same s t a1, occ_cost_same s t a4 a8 a9, a6, a7]

theorem flatMap_congr_mem {ι κ : Type} (l : List ι) (f g : ι → List κ)
    (h : ∀ a ∈ l, f a = g a) : l.flatMap f = l.flatMap g := by
  induction l with
  | nil => rfl
  | cons a l ih =>
    rw [List.flatMap_cons, List.flatMap_cons, h a (List.mem_cons_self a l),
      ih (fun b hb => h b (List.mem_cons_of_mem a hb))]

/-- The edges stored while the nodes of a list of distinct correspondences are added:
the four edges of each node, at consecutive vertex indices. -/
theorem foldl_node_edges (alpha : Int) (l : List Correspondence) (hnd : l.Nodup)
    (t0 : GraphCutDisparity) :
    SameCosts t0 (l.foldl (fun u c => add_move_node alpha c u) t0) ∧
    (l.foldl (fun u c => add_move_node alpha c u) t0).g.edges
      = t0.g.edges ++
        l.flatMap (fun c => node_edges t0 alpha c (t0.g.num_vertices + l.indexOf c)) := by
  induction l generalizing t0 with
  | nil => exact ⟨⟨rfl, rfl, rfl, rfl, rfl, rfl, rfl, rfl, rfl⟩, by simp⟩
  | cons a l ih =>
    rw [List.nodup_cons] at hnd
    obtain ⟨q1, q2⟩ := ih hnd.2 (add_move_node alpha a t0)
    have hc := add_move_node_sameCosts alpha a t0
    rw [List.foldl_cons]
    refine ⟨sameCosts_trans _ _ _ hc q1, ?_⟩
    rw [q2, add_move_node_edges, List.flatMap_cons, List.indexOf_cons_self, add_zero,
      List.append_assoc]
    congr 2
    apply flatMap_congr_mem
    intro c hcl
    have hne : a ≠ c := fun e => hnd.1 (e ▸ hcl)
    rw [node_edges_same t0 _ hc, add_move_node_num, List.indexOf_cons_ne _ hne]
    congr 1
    omega

theorem add_nodes_foldl (alpha : Int) (t : GraphCutDisparity) :
    add_alpha_nodes alpha (add_active_nodes alpha t)
      = (considered_list alpha t).foldl (fun u c => add_move_node alpha c u) t := by
  unfold add_alpha_nodes add_active_nodes
  rw [for_each_active_foldl (fun c => add_active_node c alpha) alpha t (fun _ _ => rfl)]
  have hp : ((active_list alpha t).foldl (fun u c => add_active_node c alpha u) t).pair
      = t.pair :=
    foldl_inv (fun u : GraphCutDisparity => u.pair = t.pair)
      (fun u c => add_active_node c alpha u) _ t
      (fun u c hu => hu) rfl
  rw [for_each_alpha_foldl (fun c => add_alpha_node c alpha) alpha _ (fun _ _ => rfl),
    alpha_list_congr alpha t _ hp]
  unfold considered_list
  rw [List.foldl_append]
  have e1 : ∀ (l : List Correspondence), (∀ c ∈ l, c.d ≠ alpha) → ∀ u : GraphCutDisparity,
      l.foldl (fun u c => add_move_node alpha c u) u
        = l.foldl (fun u c => add_active_node c alpha u) u := by
    intro l
    induction l with
    | nil => intro _ _; rfl
    | cons a l ih =>
      intro hl u
      rw [List.foldl_cons, List.foldl_cons, add_move_node,
        if_neg (hl a (List.mem_cons_self a l))]
      exact ih (fun c hc => hl c (List.mem_cons_of_mem a hc)) _
  have e2 : ∀ (l : List Correspondence), (∀ c ∈ l, c.d = alpha) → ∀ u : GraphCutDisparity,
      l.foldl (fun u c => add_move_node alpha c u) u
        = l.foldl (fun u c => add_alpha_node c alpha u) u := by
    intro l
    induction l with
    | nil => intro _ _; rfl
    | cons a l ih =>
      intro hl u
      rw [List.foldl_cons, List.foldl_cons, add_move_node,
        if_pos (hl a (List.mem_cons_self a l))]
      exact ih (fun c hc => hl c (List.mem_cons_of_mem a hc)) _
  rw [e1 _ (fun c hc => ((mem_active_list alpha t c).mp hc).2.2.2),
    e2 _ (fun c hc => ((mem_alpha_list alpha t c).mp hc).1)]

theorem get_conflicts_same (s t : GraphCutDisparity) (h : t.pair = s.pair) (c : Correspondence)
    (alpha : Int) : get_conflicts t c alpha = get_conflicts s c alpha := by
  simp only [get_conflicts, is_active, is_valid, within_bounds, h]

theorem foldl_add_conflict_edges (s : GraphCutDisparity) (alpha : Int)
    (l : List Correspondence) (t : GraphCutDisparity) (ht : SameButEdges s t) :
    SameButEdges s (l.foldl (fun u c => add_conflict_edges c alpha u) t) ∧
    (l.foldl (fun u c => add_conflict_edges c alpha u) t).g.edges
      = t.g.edges ++ l.flatMap (fun c => (get_conflicts s c alpha).flatMap
          (fun c' => edge_pair s c c' INT_MAX s.Cp)) := by
  induction l generalizing t with
  | nil => exact ⟨ht, by simp⟩
  | cons a l ih =>
    obtain ⟨k1, k2⟩ := add_conflict_edges_edges a alpha t
    have k := sameButEdges_trans s t _ ht k1
    obtain ⟨q1, q2⟩ := ih (add_conflict_edges a alpha t) k
    rw [List.foldl_cons]
    refine ⟨q1, ?_⟩
    rw [q2, k2, List.flatMap_cons, List.append_assoc, get_conflicts_same s t ht.1, ht.2.2.2.2.1]
    congr 2
    apply flatMap_congr_mem
    intro c' _
    exact edge_pair_same s t ht a c' _ _

theorem add_conflict_edges_pair (c : Correspondence) (alpha : Int) (t : GraphCutDisparity) :
    (add_conflict_edges c alpha t).pair = t.pair :=
  (add_conflict_edges_edges c alpha t).1.1

/-- The edges stored by `add_all_conflict_edges`: for every visited active
correspondence, one pair of edges per conflicting `alpha` correspondence. -/
theorem add_all_conflict_edges_edges (alpha : Int) (s : GraphCutDisparity) :
    SameButEdges s (add_all_conflict_edges alpha s) ∧
    (add_all_conflict_edges alpha s).g.edges
      = s.g.edges ++ (active_list alpha s).flatMap (fun c => (get_conflicts s c alpha).flatMap
          (fun c' => edge_pair s c c' INT_MAX s.Cp)) := by
  unfold add_all_conflict_edges
  rw [for_each_active_foldl (fun c => add_conflict_edges c alpha) alpha s
    (fun c t => add_conflict_edges_pair c alpha t)]
  exact foldl_add_conflict_edges s alpha _ s (sameButEdges_self s)

theorem neighbor_edge_calls_same (s t : GraphCutDisparity) (h1 : t.pair = s.pair)
    (h2 : t.min_disparity = s.min_disparity) (h3 : t.max_disparity = s.max_disparity)
    (alpha : Int) : neighbor_edge_calls alpha t = neighbor_edge_calls alpha s := by
  unfold neighbor_edge_calls
  rw [considered_list_congr alpha s t h1]
  apply flatMap_congr_mem
  intro c _
  unfold neighbor_calls_of
  rw [get_neighbors_same s t h1]
  simp only [correspondence_hash_same s t h1 h2 h3]

theorem sameButEdges_sameCosts (s t : GraphCutDisparity) (h : SameButEdges s t) :
    SameCosts s t := by
  obtain ⟨a1, a2, a3, a4, a5, a6, a7, a8, a9, a10, a11, a12, a13, a14⟩ := h
  exact ⟨a1, a2, a3, a5, a6, a8, a9, a10, a11⟩

theorem move_edges_assembly (alpha : Int) (s sR sN sC sB : GraphCutDisparity)
    (hf : FreshGraph s sR)
    (hN : sN = (considered_list alpha sR).foldl (fun u c => add_move_node alpha c u) sR)
    (hC : sC = add_all_conflict_edges alpha sN) (hB : sB = add_all_neighbor_edges alpha sC)
    (hidx : ∀ c ∈ considered_list alpha s,
      get_index sB c = 2 + (considered_list alpha s).indexOf c) :
    (sB.g.edges
      = (considered_list alpha s).flatMap (fun c => node_edges sB alpha c (get_vertex sB c))
        ++ (active_list alpha s).flatMap (fun c => (get_conflicts s c alpha).flatMap
            (fun c' => edge_pair sB c c' INT_MAX s.Cp))
        ++ (neighbor_edge_calls alpha s).flatMap
            (fun p => edge_pair sB p.1 p.2 s.V_smooth s.V_smooth)) ∧
    SameCosts sR sB ∧ sB.source = 0 ∧ sB.sink = 1 ∧ sB.pair = s.pair ∧ sB.Cp = s.Cp ∧
    sB.V_smooth = s.V_smooth ∧ sB.min_disparity = s.min_disparity ∧
    sB.max_disparity = s.max_disparity := by
  obtain ⟨f1, f2, f3, f4, f5, f6, f7, f8, f9, f10⟩ := hf
  obtain ⟨n1, n2⟩ := foldl_node_edges alpha _ (considered_list_nodup alpha sR) sR
  rw [← hN] at n1 n2
  obtain ⟨c1, c2⟩ := add_all_conflict_edges_edges alpha sN
  rw [← hC] at c1 c2
  obtain ⟨b1, b2⟩ := add_all_neighbor_edges_edges alpha sC
  rw [← hB] at b1 b2
  have cb := sameButEdges_trans _ _ _ c1 b1
  have hRB : SameCosts sR sB := sameCosts_trans _ _ _ n1 (sameButEdges_sameCosts _ _ cb)
  have hpN : sN.pair = s.pair := n1.1.trans f1
  have hpC : sC.pair = s.pair := c1.1.trans hpN
  refine ⟨?_, hRB, hRB.2.2.2.2.2.1.trans f7, hRB.2.2.2.2.2.2.1.trans f8, hRB.1.trans f1,
    hRB.2.2.2.1.trans f9, hRB.2.2.2.2.1.trans f10, hRB.2.1.trans f2, hRB.2.2.1.trans f3⟩
  · rw [b2, c2, n2, f5, List.nil_append]
    congr 1
    · congr 1
      · rw [considered_list_congr alpha s _ f1]
        apply flatMap_congr_mem
        intro c hc
        rw [node_edges_same _ _ hRB, f4]
        congr 1
        exact (hidx c hc).symm
      · rw [active_list_congr alpha s _ hpN]
        apply flatMap_congr_mem
        intro c _
        rw [get_conflicts_same s _ hpN, n1.2.2.2.1, f9]
        apply flatMap_congr_mem
        intro c' _
        exact (edge_pair_same _ _ cb c c' _ _).symm
    · rw [neighbor_edge_calls_same s _ hpC (c1.2.1.trans (n1.2.1.trans f2))
        (c1.2.2.1.trans (n1.2.2.1.trans f3)), c1.2.2.2.2.2.1, n1.2.2.2.2.1, f10]
      apply flatMap_congr_mem
      intro p _
      exact (edge_pair_same _ _ b1 p.1 p.2 _ _).symm

/-- The edge list of the graph of a move: the four edges of every node, then the edge
pairs of the conflicts, then the edge pairs of the neighbours; and the parts of the
state that the cut formula reads. -/
theorem build_graph_edges (alpha : Int) (s : GraphCutDisparity) (hk : KeyedMove alpha s) :
    ((build_graph alpha s).g.edges
      = (considered_list alpha s).flatMap (fun c =>
            node_edges (build_graph alpha s) alpha c (get_vertex (build_graph alpha s) c))
        ++ (active_list alpha s).flatMap (fun c => (get_conflicts s c alpha).flatMap
            (fun c' => edge_pair (build_graph alpha s) c c' INT_MAX s.Cp))
        ++ (neighbor_edge_calls alpha s).flatMap
            (fun p => edge_pair (build_graph alpha s) p.1 p.2 s.V_smooth s.V_smooth)) ∧
    SameCosts (record_occlusion_counts alpha (initialize_graph s)) (build_graph alpha s) ∧
    (build_graph alpha s).source = 0 ∧ (build_graph alpha s).sink = 1 ∧
    (build_graph alpha s).pair = s.pair ∧ (build_graph alpha s).Cp = s.Cp ∧
    (build_graph alpha s).V_smooth = s.V_smooth ∧
    (build_graph alpha s).min_disparity = s.min_disparity ∧
    (build_graph alpha s).max_disparity = s.max_disparity := by
  have hidx : ∀ c ∈ considered_list alpha s,
      get_index (build_graph alpha s) c = 2 + (considered_list alpha s).indexOf c :=
    fun c hc => (build_graph_index alpha s hk c hc).1
  revert hidx
  rw [build_graph_eq]
  intro hidx
  exact move_edges_assembly alpha s _ _ _ _ (record_occlusion_counts_fresh alpha s)
    (add_nodes_foldl alpha _) rfl rfl hidx

theorem cut_of_edges_append (s : GraphCutDisparity) (col : Nat → Color) (l1 l2 : List Edge) :
    cut_of_edges s col (l1 ++ l2) = cut_of_edges s col l1 + cut_of_edges s col l2 := by
  unfold cut_of_edges
  rw [List.map_append, List.sum_append]

theorem cut_of_edges_flatMap {ι : Type} (s : GraphCutDisparity) (col : Nat → Color)
    (l : List ι) (f : ι → List Edge) :
    cut_of_edges s col (l.flatMap f) = (l.map (fun a => cut_of_edges s col (f a))).sum := by
  induction l with
  | nil => rfl
  | cons a l ih =>
    rw [List.flatMap_cons, cut_of_edges_append, List.map_cons, List.sum_cons, ih]

/-- The part of the cut at the four edges of a node: a black active node pays its
data cost and a non-black one its occlusion cost; an `alpha` node the other way
round. -/
theorem cut_of_node_edges (s : GraphCutDisparity) (col : Nat → Color) (alpha : Int)
    (c : Correspondence) (hs : s.source = 0) (ht : s.sink = 1) (hi : 2 ≤ get_vertex s c) :
    cut_of_edges s col (node_edges s alpha c (get_vertex s c))
      = if c.d = alpha then (if black_node s col c then occ_cost s c else data_cost s c)
        else (if black_node s col c then data_cost s c else occ_cost s c) := by
  have h0 : get_vertex s c ≠ 0 := by omega
  have h1 : get_vertex s c ≠ 1 := by omega
  unfold node_edges cut_of_edges
  by_cases hd : c.d = alpha
  · by_cases hb : black_node s col c
    · have hb' : col (get_vertex s c) = Color.black := hb
      simp [hd, hb, is_cut, on_source_side, hs, ht, h0, h1, hb']
    · have hb' : ¬ col (get_vertex s c) = Color.black := hb
      simp [hd, hb, is_cut, on_source_side, hs, ht, h0, h1, hb']
  · by_cases hb : black_node s col c
    · have hb' : col (get_vertex s c) = Color.black := hb
      simp [hd, hb, is_cut, on_source_side, hs, ht, h0, h1, hb']
    · have hb' : ¬ col (get_vertex s c) = Color.black := hb
      simp [hd, hb, is_cut, on_source_side, hs, ht, h0, h1, hb']

/-- The part of the cut at the two edges of a call `add_edge(c1, c2, w1, w2)`. -/
theorem cut_of_edge_pair (s : GraphCutDisparity) (col : Nat → Color) (c1 c2 : Correspondence)
    (w1 w2 : Int) (hs : s.source = 0) (ht : s.sink = 1) (h1 : 2 ≤ get_vertex s c1)
    (h2 : 2 ≤ get_vertex s c2) :
    cut_of_edges s col (edge_pair s c1 c2 w1 w2)
      = (if black_node s col c1 ∧ ¬ black_node s col c2 then w1 else 0)
        + (if black_node s col c2 ∧ ¬ black_node s col c1 then w2 else 0) := by
  have a0 : get_vertex s c1 ≠ 0 := by omega
  have a1 : get_vertex s c1 ≠ 1 := by omega
  have b0 : get_vertex s c2 ≠ 0 := by omega
  have b1 : get_vertex s c2 ≠ 1 := by omega
  unfold edge_pair cut_of_edges
  simp [is_cut, on_source_side, hs, ht, a0, a1, b0, b1, black_node]

theorem mem_get_conflicts_alpha (s : GraphCutDisparity) (c a : Correspondence) (alpha : Int)
    (h : a ∈ get_conflicts s c alpha) : AlphaInMove alpha s a := by
  by_cases h1 : is_active s c ∧ c.d ≠ alpha
  · rw [get_conflicts_eq s c alpha h1.1 h1.2] at h
    rcases List.mem_append.mp h with e | e
    · split_ifs at e with h2
      · rw [List.mem_singleton.mp e]
        exact ⟨rfl, h2⟩
      · exact absurd e (List.not_mem_nil _)
    · split_ifs at e with h2
      · rw [List.mem_singleton.mp e]
        exact ⟨rfl, h2⟩
      · exact absurd e (List.not_mem_nil _)
  · unfold get_conflicts at h
    rw [if_neg h1] at h
    exact absurd h (List.not_mem_nil _)

theorem build_graph_vertex_ge (alpha : Int) (s : GraphCutDisparity) (hk : KeyedMove alpha s)
    (c : Correspondence) (hc : Considered alpha s c) :
    2 ≤ get_vertex (build_graph alpha s) c := by
  have h := (build_graph_index alpha s hk c ((mem_considered_list alpha s c).mpr hc)).1
  unfold get_vertex
  omega

theorem cut_of_move_edges (alpha : Int) (s sB : GraphCutDisparity) (col : Nat → Color)
    (he : sB.g.edges
      = (considered_list alpha s).flatMap (fun c => node_edges sB alpha c (get_vertex sB c))
        ++ (active_list alpha s).flatMap (fun c => (get_conflicts s c alpha).flatMap
            (fun c' => edge_pair sB c c' INT_MAX s.Cp))
        ++ (neighbor_edge_calls alpha s).flatMap
            (fun p => edge_pair sB p.1 p.2 s.V_smooth s.V_smooth))
    (hs : sB.source = 0) (ht : sB.sink = 1) (hp : sB.pair = s.pair)
    (hge : ∀ c, Considered alpha s c → 2 ≤ get_vertex sB c) :
    cut_value sB col
      = ((considered_list alpha s).map (fun c =>
          if c.d = alpha then
            (if black_node sB col c then occ_cost sB c else data_cost s c)
          else
            (if black_node sB col c then data_cost s c else occ_cost sB c))).sum
        + ((active_list alpha s).map (fun c => ((get_conflicts s c alpha).map (fun a =>
            (if black_node sB col c ∧ ¬ black_node sB col a then INT_MAX else 0)
            + (if black_node sB col a ∧ ¬ black_node sB col c then s.Cp else 0))).sum)).sum
        + ((neighbor_edge_calls alpha s).map (fun p =>
            (if black_node sB col p.1 ∧ ¬ black_node sB col p.2 then s.V_smooth else 0)
            + (if black_node sB col p.2 ∧ ¬ black_node sB col p.1
                then s.V_smooth else 0))).sum := by
  unfold cut_value
  rw [he, cut_of_edges_append, cut_of_edges_append, cut_of_edges_flatMap, cut_of_edges_flatMap,
    cut_of_edges_flatMap]
  congr 1
  · congr 1
    · congr 1
      apply List.map_congr_left
      intro c hc
      rw [cut_of_node_edges _ col alpha c hs ht (hge c ((mem_considered_list alpha s c).mp hc)),
        data_cost_same s _ hp]
    · congr 1
      apply List.map_congr_left
      intro c hc
      rw [cut_of_edges_flatMap]
      congr 1
      apply List.map_congr_left
      intro a ha
      exact cut_of_edge_pair _ col c a _ _ hs ht
        (hge c (Or.inl ((mem_active_list alpha s c).mp hc)))
        (hge a (Or.inr (mem_get_conflicts_alpha s c a alpha ha)))
  · congr 1
    apply List.map_congr_left
    intro p hp'
    have hm := (mem_neighbor_edge_calls alpha s p.1 p.2).mp hp'
    exact cut_of_edge_pair _ col p.1 p.2 _ _ hs ht (hge p.1 hm.1)
      (hge p.2 (valid_neighbor_considered alpha s p.1 p.2 hm.1 hm.2.1 hm.2.2.1))

/-- The value of a cut of the graph of a move, by the colours of the nodes. -/
theorem cut_value_formula (alpha : Int) (s : GraphCutDisparity) (hk : KeyedMove alpha s)
    (col : Nat → Color) :
    cut_value (build_graph alpha s) col
      = ((considered_list alpha s).map (fun c =>
          if c.d = alpha then
            (if black_node (build_graph alpha s) col c then occ_cost (build_graph alpha s) c
             else data_cost s c)
          else
            (if black_node (build_graph alpha s) col c then data_cost s c
             else occ_cost (build_graph alpha s) c))).sum
        + ((active_list alpha s).map (fun c => ((get_conflicts s c alpha).map (fun a =>
            (if black_node (build_graph alpha s) col c ∧ ¬ black_node (build_graph alpha s) col a
              then INT_MAX else 0)
            + (if black_node (build_graph alpha s) col a ∧
                ¬ black_node (build_graph alpha s) col c then s.Cp else 0))).sum)).sum
        + ((neighbor_edge_calls alpha s).map (fun p =>
            (if black_node (build_graph alpha s) col p.1 ∧
                ¬ black_node (build_graph alpha s) col p.2 then s.V_smooth else 0)
            + (if black_node (build_graph alpha s) col p.2 ∧
                ¬ black_node (build_graph alpha s) col p.1 then s.V_smooth else 0))).sum := by
  obtain ⟨he, _, hs, ht, hp, _, _, _, _⟩ := build_graph_edges alpha s hk
  exact cut_of_move_edges alpha s _ col he hs ht hp (build_graph_vertex_ge alpha s hk)

/-! ## The occlusion counters of a move -/

theorem record_occlusion_counts_foldl (alpha : Int) (s : GraphCutDisparity) :
    record_occlusion_counts alpha s
      = (considered_list alpha s).foldl (fun u c => record_occlusion_count c alpha u) s := by
  unfold record_occlusion_counts
  simp only []
  rw [for_each_active_foldl (fun c => record_occlusion_count c alpha) alpha s (fun _ _ => rfl)]
  have hp : ((active_list alpha s).foldl (fun u c => record_occlusion_count c alpha u) s).pair
      = s.pair :=
    foldl_inv (fun u : GraphCutDisparity => u.pair = s.pair)
      (fun u c => record_occlusion_count c alpha u) _ s (fun u c hu => hu) rfl
  rw [for_each_alpha_foldl (fun c => record_occlusion_count c alpha) alpha _ (fun _ _ => rfl),
    alpha_list_congr alpha s _ hp]
  unfold considered_list
  rw [List.foldl_append]

/-- The occlusion counters after a list of correspondences is recorded: each counter
holds, modulo 256, what it held plus the number of recorded correspondences with that
left pixel, or with that right pixel. -/
theorem foldl_record_counts (alpha : Int) (l : List Correspondence) (t0 : GraphCutDisparity)
    (h0 : ∀ a b : Int, t0.left_occlusion_count.px a b < 256 ∧
      t0.right_occlusion_count.px a b < 256) (a b : Int) :
    (l.foldl (fun u c => record_occlusion_count c alpha u) t0).left_occlusion_count.px a b
      = (t0.left_occlusion_count.px a b
          + l.countP (fun c => decide (c.y = a ∧ c.x = b))) % 256 ∧
    (l.foldl (fun u c => record_occlusion_count c alpha u) t0).right_occlusion_count.px a b
      = (t0.right_occlusion_count.px a b
          + l.countP (fun c => decide (c.y = a ∧ c.x + c.d = b))) % 256 := by
  induction l generalizing t0 with
  | nil =>
    have := h0 a b
    simp only [List.foldl_nil, List.countP_nil, add_zero]
    constructor
    · omega
    · omega
  | cons c l ih =>
    have h1 : ∀ a b : Int,
        (record_occlusion_count c alpha t0).left_occlusion_count.px a b < 256 ∧
        (record_occlusion_count c alpha t0).right_occlusion_count.px a b < 256 := by
      intro a b
      have := h0 a b
      simp only [record_occlusion_count, Mat.set_px]
      constructor
      · split_ifs
        · omega
        · omega
      · split_ifs
        · omega
        · omega
    obtain ⟨q1, q2⟩ := ih (record_occlusion_count c alpha t0) h1
    have := h0 a b
    rw [List.foldl_cons, q1, q2, List.countP_cons, List.countP_cons]
    simp only [record_occlusion_count, Mat.set_px]
    constructor
    · by_cases hc : c.y = a ∧ c.x = b
      · have hc' : a = c.y ∧ b = c.x := ⟨hc.1.symm, hc.2.symm⟩
        rw [if_pos hc', if_pos (decide_eq_true hc), hc.1, hc.2]
        omega
      · have hc' : ¬ (a = c.y ∧ b = c.x) := fun e => hc ⟨e.1.symm, e.2.symm⟩
        rw [if_neg hc', if_neg (by simpa using hc)]
        omega
    · by_cases hc : c.y = a ∧ c.x + c.d = b
      · have hc' : a = c.y ∧ b = c.x + c.d := ⟨hc.1.symm, hc.2.symm⟩
        rw [if_pos hc', if_pos (decide_eq_true hc), hc.1, hc.2]
        omega
      · have hc' : ¬ (a = c.y ∧ b = c.x + c.d) := fun e => hc ⟨e.1.symm, e.2.symm⟩
        rw [if_neg hc', if_neg (by simpa using hc)]
        omega

/-- The occlusion counters of a move: modulo 256, the number of considered
correspondences with that left pixel, or with that right pixel. -/
theorem record_counts_px (alpha : Int) (s : GraphCutDisparity) (a b : Int) :
    (record_occlusion_counts alpha (initialize_graph s)).left_occlusion_count.px a b
      = (considered_list alpha s).countP (fun c => decide (c.y = a ∧ c.x = b)) % 256 ∧
    (record_occlusion_counts alpha (initialize_graph s)).right_occlusion_count.px a b
      = (considered_list alpha s).countP (fun c => decide (c.y = a ∧ c.x + c.d = b)) % 256 := by
  rw [record_occlusion_counts_foldl]
  have h := foldl_record_counts alpha (considered_list alpha (initialize_graph s))
    (initialize_graph s) (fun _ _ => ⟨by simp [initialize_graph], by simp [initialize_graph]⟩) a b
  rw [considered_list_congr alpha s (initialize_graph s) rfl] at h
  rw [considered_list_congr alpha s (initialize_graph s) rfl, h.1, h.2]
  simp [initialize_graph]

theorem countP_le_one {ι : Type} (p : ι → Bool) (l : List ι) (hnd : l.Nodup)
    (h : ∀ a ∈ l, ∀ b ∈ l, p a = true → p b = true → a = b) : l.countP p ≤ 1 := by
  induction l with
  | nil => simp
  | cons a l ih =>
    rw [List.nodup_cons] at hnd
    have ih' := ih hnd.2 (fun x hx y hy => h x (List.mem_cons_of_mem a hx) y
      (List.mem_cons_of_mem a hy))
    rw [List.countP_cons]
    by_cases ha : p a = true
    · have hz : l.countP p = 0 := by
        rw [List.countP_eq_zero]
        intro x hx hpx
        have := h a (List.mem_cons_self a l) x (List.mem_cons_of_mem a hx) ha hpx
        exact hnd.1 (this ▸ hx)
      rw [hz, if_pos ha]
    · rw [if_neg ha]
      omega

theorem countP_eq_one {ι : Type} (p : ι → Bool) (l : List ι) (hnd : l.Nodup)
    (h : ∀ a ∈ l, ∀ b ∈ l, p a = true → p b = true → a = b) (c : ι) (hc : c ∈ l)
    (hp : p c = true) : l.countP p = 1 := by
  have h1 := countP_le_one p l hnd h
  have h2 : 0 < l.countP p := List.countP_pos_iff.mpr ⟨c, hc, hp⟩
  omega

theorem countP_or_disjoint {ι : Type} (p q : ι → Prop) [DecidablePred p] [DecidablePred q]
    (l : List ι) (h : ∀ a ∈ l, ¬ (p a ∧ q a)) :
    l.countP (fun a => decide (p a ∨ q a))
      = l.countP (fun a => decide (p a)) + l.countP (fun a => decide (q a)) := by
  induction l with
  | nil => simp
  | cons a l ih =>
    have ih' := ih (fun x hx => h x (List.mem_cons_of_mem a hx))
    have ha := h a (List.mem_cons_self a l)
    rw [List.countP_cons, List.countP_cons, List.countP_cons, ih']
    by_cases hp : p a
    · have hq : ¬ q a := fun e => ha ⟨hp, e⟩
      simp [hp, hq]
      omega
    · by_cases hq : q a
      · simp [hp, hq]
        omega
      · simp [hp, hq]

theorem mem_get_conflicts (s : GraphCutDisparity) (c : Correspondence) (alpha : Int)
    (ha : is_active s c) (hd : c.d ≠ alpha) (c' : Correspondence) :
    c' ∈ get_conflicts s c alpha ↔ (AlphaInMove alpha s c' ∧ SharesPixel c c') := by
  rw [get_conflicts_eq s c alpha ha hd]
  obtain ⟨x', y', d'⟩ := c'
  simp only [List.mem_append, SharesPixel, AlphaInMove]
  constructor
  · intro h
    rcases h with h | h
    · split_ifs at h with hb
      · simp only [List.mem_singleton, Correspondence.mk.injEq] at h
        obtain ⟨rfl, rfl, rfl⟩ := h
        exact ⟨⟨rfl, hb⟩, rfl, Or.inl rfl⟩
      · exact absurd h (List.not_mem_nil _)
    · split_ifs at h with hb
      · simp only [List.mem_singleton, Correspondence.mk.injEq] at h
        obtain ⟨rfl, rfl, rfl⟩ := h
        exact ⟨⟨rfl, hb⟩, rfl, Or.inr (by ring)⟩
      · exact absurd h (List.not_mem_nil _)
  · rintro ⟨⟨h1, h2⟩, h3, h4⟩
    subst h1
    subst h3
    rcases h4 with h4 | h4
    · subst h4
      left
      rw [if_pos h2]
      exact List.mem_singleton.mpr rfl
    · have hx : x' = c.x + c.d - d' := by omega
      subst hx
      right
      rw [if_pos h2]
      exact List.mem_singleton.mpr rfl

theorem get_conflicts_nodup (s : GraphCutDisparity) (c : Correspondence) (alpha : Int) :
    (get_conflicts s c alpha).Nodup := by
  by_cases h1 : is_active s c ∧ c.d ≠ alpha
  · rw [get_conflicts_eq s c alpha h1.1 h1.2]
    have hne : (⟨c.x, c.y, alpha⟩ : Correspondence) ≠ ⟨c.x + c.d - alpha, c.y, alpha⟩ := by
      intro h
      have hx := congrArg Correspondence.x h
      simp only at hx
      have := h1.2
      omega
    split_ifs <;> simp [hne]
  · unfold get_conflicts
    rw [if_neg h1]
    exact List.nodup_nil

theorem active_same_left (alpha : Int) (s : GraphCutDisparity) (c1 c2 : Correspondence)
    (h1 : ActiveInMove alpha s c1) (h2 : ActiveInMove alpha s c2)
    (hy : c2.y = c1.y) (hx : c2.x = c1.x) : c1 = c2 := by
  obtain ⟨x1, y1, d1⟩ := c1
  obtain ⟨x2, y2, d2⟩ := c2
  simp only at hy hx
  subst hy
  subst hx
  have a1 : (s.pair.disparity_left.px y2 x2 : Int) = -d1 := h1.2.1
  have a2 : (s.pair.disparity_left.px y2 x2 : Int) = -d2 := h2.2.1
  have : d1 = d2 := by omega
  rw [this]

theorem active_same_right (alpha : Int) (s : GraphCutDisparity)
    (hU : Unique s.pair.rows s.pair.cols s.pair.disparity_left) (c1 c2 : Correspondence)
    (h1 : ActiveInMove alpha s c1) (h2 : ActiveInMove alpha s c2)
    (hy : c2.y = c1.y) (hx : c2.x + c2.d = c1.x + c1.d) : c1 = c2 := by
  by_cases hxx : c2.x = c1.x
  · exact active_same_left alpha s c1 c2 h1 h2 hy hxx
  · exfalso
    obtain ⟨⟨i1, i2, i3, i4⟩, a1, n1, _⟩ := h1
    obtain ⟨⟨j1, j2, j3, j4⟩, a2, n2, _⟩ := h2
    have a1' : (s.pair.disparity_left.px c1.y c1.x : Int) = -c1.d := a1
    have a2' : (s.pair.disparity_left.px c2.y c2.x : Int) = -c2.d := a2
    have ey : ((c1.y.toNat : Nat) : Int) = c1.y := Int.toNat_of_nonneg i1
    have ex1 : ((c1.x.toNat : Nat) : Int) = c1.x := Int.toNat_of_nonneg i3
    have ex2 : ((c2.x.toNat : Nat) : Int) = c2.x := Int.toNat_of_nonneg j3
    apply hU c1.y.toNat (by omega) c1.x.toNat (by omega) c2.x.toNat (by omega)
    unfold SharesRightPixel
    rw [ey, ex1, ex2]
    rw [hy] at a2'
    have z1 : s.pair.disparity_left.px c1.y c1.x ≠ 0 := by
      intro e
      rw [e] at a1'
      apply n1
      simp only [NULL_DISPARITY]
      omega
    have z2 : s.pair.disparity_left.px c1.y c2.x ≠ 0 := by
      intro e
      rw [e] at a2'
      apply n2
      simp only [NULL_DISPARITY]
      omega
    refine ⟨?_, z1, z2, ?_⟩
    · intro e
      apply hxx
      omega
    · omega

theorem alpha_same_left (alpha : Int) (s : GraphCutDisparity) (c1 c2 : Correspondence)
    (h1 : AlphaInMove alpha s c1) (h2 : AlphaInMove alpha s c2)
    (hy : c2.y = c1.y) (hx : c2.x = c1.x) : c1 = c2 := by
  obtain ⟨x1, y1, d1⟩ := c1
  obtain ⟨x2, y2, d2⟩ := c2
  simp only at hy hx
  have e1 : d1 = alpha := h1.1
  have e2 : d2 = alpha := h2.1
  rw [hy, hx, e1, e2]

theorem alpha_same_right (alpha : Int) (s : GraphCutDisparity) (c1 c2 : Correspondence)
    (h1 : AlphaInMove alpha s c1) (h2 : AlphaInMove alpha s c2)
    (hy : c2.y = c1.y) (hx : c2.x + c2.d = c1.x + c1.d) : c1 = c2 := by
  apply alpha_same_left alpha s c1 c2 h1 h2 hy
  have e1 : c1.d = alpha := h1.1
  have e2 : c2.d = alpha := h2.1
  omega

theorem occ_count_value (Cp : Int) (l r pl pr : Nat) (hl : l = (1 + pl) % 256)
    (hr : r = (1 + pr) % 256) (h1 : pl ≤ 1) (h2 : pr ≤ 1) :
    Cp * (if r = 1 then (if l = 1 then (0 : Int) + 1 else 0) + 1
          else (if l = 1 then (0 : Int) + 1 else 0))
      = Cp * (2 - ((pl + pr : Nat) : Int)) := by
  subst hl
  subst hr
  interval_cases pl <;> interval_cases pr <;> simp

theorem occ_cost_counted (alpha : Int) (s sR : GraphCutDisparity)
    (hU : Unique s.pair.rows s.pair.cols s.pair.disparity_left)
    (hl : ∀ a b : Int, sR.left_occlusion_count.px a b
      = (considered_list alpha s).countP (fun c => decide (c.y = a ∧ c.x = b)) % 256)
    (hr : ∀ a b : Int, sR.right_occlusion_count.px a b
      = (considered_list alpha s).countP (fun c => decide (c.y = a ∧ c.x + c.d = b)) % 256)
    (hCp : sR.Cp = s.Cp) (c : Correspondence) (hc : Considered alpha s c) :
    occ_cost sR c = s.Cp * (2 - (partners alpha s c : Int)) := by
  have hexcl : ∀ c' : Correspondence, c'.d ≠ c.d →
      ¬ ((c'.y = c.y ∧ c'.x = c.x) ∧ (c'.y = c.y ∧ c'.x + c'.d = c.x + c.d)) := by
    rintro c' hd ⟨⟨_, e1⟩, _, e2⟩
    apply hd
    omega
  have hshape : ∀ l : List Correspondence,
      l.countP (fun c' => decide (SharesPixel c c'))
        = l.countP (fun c' => decide ((c'.y = c.y ∧ c'.x = c.x) ∨
            (c'.y = c.y ∧ c'.x + c'.d = c.x + c.d))) := by
    intro l
    apply List.countP_congr
    intro c' _
    simp only [SharesPixel, decide_eq_true_eq]
    tauto
  simp only [occ_cost]
  rw [hl, hr, hCp]
  unfold considered_list partners
  rw [List.countP_append, List.countP_append]
  rcases hc with hc | hc
  · have hd : c.d ≠ alpha := hc.2.2.2
    have hm := (mem_active_list alpha s c).mpr hc
    have s1 : (active_list alpha s).countP (fun c' => decide (c'.y = c.y ∧ c'.x = c.x)) = 1 := by
      apply countP_eq_one _ _ (active_list_nodup alpha s) _ c hm (by simp)
      intro a ha b hb pa pb
      simp only [decide_eq_true_eq] at pa pb
      exact active_same_left alpha s a b ((mem_active_list alpha s a).mp ha)
        ((mem_active_list alpha s b).mp hb) (by omega) (by omega)
    have s2 : (active_list alpha s).countP
        (fun c' => decide (c'.y = c.y ∧ c'.x + c'.d = c.x + c.d)) = 1 := by
      apply countP_eq_one _ _ (active_list_nodup alpha s) _ c hm (by simp)
      intro a ha b hb pa pb
      simp only [decide_eq_true_eq] at pa pb
      exact active_same_right alpha s hU a b ((mem_active_list alpha s a).mp ha)
        ((mem_active_list alpha s b).mp hb) (by omega) (by omega)
    have o1 : (alpha_list alpha s).countP (fun c' => decide (c'.y = c.y ∧ c'.x = c.x)) ≤ 1 := by
      apply countP_le_one _ _ (alpha_list_nodup alpha s)
      intro a ha b hb pa pb
      simp only [decide_eq_true_eq] at pa pb
      exact alpha_same_left alpha s a b ((mem_alpha_list alpha s a).mp ha)
        ((mem_alpha_list alpha s b).mp hb) (by omega) (by omega)
    have o2 : (alpha_list alpha s).countP
        (fun c' => decide (c'.y = c.y ∧ c'.x + c'.d = c.x + c.d)) ≤ 1 := by
      apply countP_le_one _ _ (alpha_list_nodup alpha s)
      intro a ha b hb pa pb
      simp only [decide_eq_true_eq] at pa pb
      exact alpha_same_right alpha s a b ((mem_alpha_list alpha s a).mp ha)
        ((mem_alpha_list alpha s b).mp hb) (by omega) (by omega)
    rw [if_neg hd, hshape, countP_or_disjoint _ _ _
      (fun c' hc' => hexcl c' (by rw [((mem_alpha_list alpha s c').mp hc').1]; exact Ne.symm hd)),
      s1, s2]
    exact occ_count_value s.Cp _ _ _ _ rfl rfl o1 o2
  · have hd : c.d = alpha := hc.1
    have hm := (mem_alpha_list alpha s c).mpr hc
    have s1 : (alpha_list alpha s).countP (fun c' => decide (c'.y = c.y ∧ c'.x = c.x)) = 1 := by
      apply countP_eq_one _ _ (alpha_list_nodup alpha s) _ c hm (by simp)
      intro a ha b hb pa pb
      simp only [decide_eq_true_eq] at pa pb
      exact alpha_same_left alpha s a b ((mem_alpha_list alpha s a).mp ha)
        ((mem_alpha_list alpha s b).mp hb) (by omega) (by omega)
    have s2 : (alpha_list alpha s).countP
        (fun c' => decide (c'.y = c.y ∧ c'.x + c'.d = c.x + c.d)) = 1 := by
      apply countP_eq_one _ _ (alpha_list_nodup alpha s) _ c hm (by simp)
      intro a ha b hb pa pb
      simp only [decide_eq_true_eq] at pa pb
      exact alpha_same_right alpha s a b ((mem_alpha_list alpha s a).mp ha)
        ((mem_alpha_list alpha s b).mp hb) (by omega) (by omega)
    have o1 : (active_list alpha s).countP (fun c' => decide (c'.y = c.y ∧ c'.x = c.x)) ≤ 1 := by
      apply countP_le_one _ _ (active_list_nodup alpha s)
      intro a ha b hb pa pb
      simp only [decide_eq_true_eq] at pa pb
      exact active_same_left alpha s a b ((mem_active_list alpha s a).mp ha)
        ((mem_active_list alpha s b).mp hb) (by omega) (by omega)
    have o2 : (active_list alpha s).countP
        (fun c' => decide (c'.y = c.y ∧ c'.x + c'.d = c.x + c.d)) ≤ 1 := by
      apply countP_le_one _ _ (active_list_nodup alpha s)
      intro a ha b hb pa pb
      simp only [decide_eq_true_eq] at pa pb
      exact active_same_right alpha s hU a b ((mem_active_list alpha s a).mp ha)
        ((mem_active_list alpha s b).mp hb) (by omega) (by omega)
    rw [if_pos hd, hshape, countP_or_disjoint _ _ _
      (fun c' hc' => hexcl c' (by
        rw [hd]; exact ((mem_active_list alpha s c').mp hc').2.2.2)),
      s1, s2]
    exact occ_count_value s.Cp _ _ _ _ (by rw [Nat.add_comm]) (by rw [Nat.add_comm]) o1 o2

/-- The occlusion cost of a node of the graph of a move: `C_p` for each of its two
pixels that no conflict partner shares. -/
theorem occ_cost_move (alpha : Int) (s : GraphCutDisparity) (hk : KeyedMove alpha s)
    (hU : Unique s.pair.rows s.pair.cols s.pair.disparity_left)
    (c : Correspondence) (hc : Considered alpha s c) :
    occ_cost (build_graph alpha s) c = s.Cp * (2 - (partners alpha s c : Int)) := by
  obtain ⟨_, hRB, _, _, _, hCp, _, _, _⟩ := build_graph_edges alpha s hk
  rw [occ_cost_same _ _ hRB.2.2.2.1 hRB.2.2.2.2.2.2.2.1 hRB.2.2.2.2.2.2.2.2]
  exact occ_cost_counted alpha s _ hU (fun a b => (record_counts_px alpha s a b).1)
    (fun a b => (record_counts_px alpha s a b).2) (hRB.2.2.2.1.symm.trans hCp) c hc

/-! ## The energy as a function of the active set -/

theorem pixel_list_length (rows cols : Nat) : (pixel_list rows cols).length = rows * cols := by
  unfold pixel_list
  induction rows with
  | zero => simp
  | succ n ih =>
    rw [List.range_succ, List.flatMap_append, List.length_append, ih]
    simp [Nat.succ_mul]

theorem mem_all_active (t : GraphCutDisparity) (c : Correspondence) :
    c ∈ all_active t ↔ (InImage t c ∧ is_active t c ∧ c.d ≠ 0) := by
  unfold all_active
  rw [mem_active_list]
  unfold ActiveInMove NULL_DISPARITY
  tauto

theorem all_active_nodup (t : GraphCutDisparity) : (all_active t).Nodup :=
  active_list_nodup NULL_DISPARITY t

theorem all_active_within (t : GraphCutDisparity) (hb : ActiveWithinBounds t)
    (c : Correspondence) (hc : c ∈ all_active t) : within_bounds t c :=
  activeInMove_within_bounds NULL_DISPARITY t hb c ((mem_active_list NULL_DISPARITY t c).mp hc)

theorem occluded_left_count (t : GraphCutDisparity) :
    occluded_left t + (all_active t).length = t.pair.rows * t.pair.cols := by
  have h : ∀ l : List (Nat × Nat),
      l.countP (fun p => decide (t.pair.disparity_left.px p.1 p.2 = 0))
        + (l.filterMap (active_at NULL_DISPARITY t)).length = l.length := by
    intro l
    induction l with
    | nil => rfl
    | cons p l ih =>
      rw [List.countP_cons, List.filterMap_cons, List.length_cons]
      by_cases hz : t.pair.disparity_left.px p.1 p.2 = 0
      · have ha : active_at NULL_DISPARITY t p = none := by
          simp [active_at, hz, NULL_DISPARITY]
        rw [ha, if_pos (decide_eq_true hz)]
        simp only []
        omega
      · have ha : active_at NULL_DISPARITY t p
            = some ⟨p.2, p.1, -(t.pair.disparity_left.px p.1 p.2 : Int)⟩ := by
          simp [active_at, hz, NULL_DISPARITY]
        rw [ha, if_neg (by simpa using hz)]
        simp only [List.length_cons]
        omega
  unfold occluded_left all_active active_list
  rw [h, pixel_list_length]

theorem occluded_right_count (t : GraphCutDisparity)
    (hU : Unique t.pair.rows t.pair.cols t.pair.disparity_left) (hb : ActiveWithinBounds t) :
    occluded_right t + (all_active t).length = t.pair.rows * t.pair.cols := by
  have hinj : Set.InjOn right_pixel ((all_active t).toFinset : Set Correspondence) := by
    intro c1 h1 c2 h2 e
    simp only [Finset.mem_coe, List.mem_toFinset] at h1 h2
    have w1 := all_active_within t hb c1 h1
    have w2 := all_active_within t hb c2 h2
    obtain ⟨_, b1, b2, _, _, _⟩ := w1
    obtain ⟨_, d1, d2, _, _, _⟩ := w2
    simp only [right_pixel, Prod.mk.injEq] at e
    have e1 : c1.y = c2.y := by
      have := e.1
      omega
    have e2 : c1.x + c1.d = c2.x + c2.d := by
      have := e.2
      omega
    exact active_same_right NULL_DISPARITY t hU c1 c2
      ((mem_active_list NULL_DISPARITY t c1).mp h1) ((mem_active_list NULL_DISPARITY t c2).mp h2)
      e1.symm e2.symm
  have hcard : ((all_active t).toFinset.image right_pixel).card = (all_active t).length := by
    rw [Finset.card_image_of_injOn hinj, List.toFinset_card_of_nodup (all_active_nodup t)]
  have himg : (pixel_list t.pair.rows t.pair.cols).toFinset.filter
      (fun q => ¬ ∀ c ∈ all_active t, ¬ (c.y = (q.1 : Int) ∧ c.x + c.d = (q.2 : Int)))
      = (all_active t).toFinset.image right_pixel := by
    ext q
    simp only [Finset.mem_filter, List.mem_toFinset, mem_pixel_list, Finset.mem_image,
      not_forall, not_not, exists_prop]
    constructor
    · rintro ⟨_, c, hc, e1, e2⟩
      refine ⟨c, hc, ?_⟩
      unfold right_pixel
      rw [e1, e2]
      simp
    · rintro ⟨c, hc, e⟩
      obtain ⟨_, b1, b2, _, b4, b5⟩ := all_active_within t hb c hc
      subst e
      simp only [right_pixel]
      refine ⟨⟨by omega, by omega⟩, c, hc, by omega, by omega⟩
  have hco : occluded_right t = ((pixel_list t.pair.rows t.pair.cols).toFinset.filter
      (fun q => ∀ c ∈ all_active t, ¬ (c.y = (q.1 : Int) ∧ c.x + c.d = (q.2 : Int)))).card := by
    unfold occluded_right
    rw [List.countP_eq_length_filter, ← List.toFinset_card_of_nodup
      ((pixel_list_nodup _ _).filter _), List.toFinset_filter]
    congr 1
    ext q
    simp
  have hsplit : ((pixel_list t.pair.rows t.pair.cols).toFinset.filter
        (fun q => ∀ c ∈ all_active t, ¬ (c.y = (q.1 : Int) ∧ c.x + c.d = (q.2 : Int)))).card
      + ((pixel_list t.pair.rows t.pair.cols).toFinset.filter
        (fun q => ¬ ∀ c ∈ all_active t, ¬ (c.y = (q.1 : Int) ∧ c.x + c.d = (q.2 : Int)))).card
      = (pixel_list t.pair.rows t.pair.cols).toFinset.card :=
    Finset.filter_card_add_filter_neg_card_eq_card _
  rw [himg, hcard, List.toFinset_card_of_nodup (pixel_list_nodup _ _), pixel_list_length,
    ← hco] at hsplit
  exact hsplit

theorem within_bounds_inImage (s : GraphCutDisparity) (c : Correspondence)
    (h : within_bounds s c) : InImage s c := by
  obtain ⟨h1, _, h3, h4, _, h6⟩ := h
  exact ⟨h3, h6, h1, h4⟩

/-- The energy of a state whose active correspondences are unique and within bounds
is the energy of the set of its active correspondences. -/
theorem energy_eq_config (t : GraphCutDisparity)
    (hU : Unique t.pair.rows t.pair.cols t.pair.disparity_left) (hb : ActiveWithinBounds t) :
    energy t = config_energy t (all_active t).toFinset := by
  have hl := occluded_left_count t
  have hr := occluded_right_count t hU hb
  have hcard := List.toFinset_card_of_nodup (all_active_nodup t)
  have hdata : data_term t = ∑ c in (all_active t).toFinset, data_cost t c := by
    unfold data_term
    rw [List.sum_toFinset _ (all_active_nodup t)]
  have hbroken : ((broken_pairs t : Nat) : Int)
      = ∑ c in (all_active t).toFinset,
          (((four_neighbors c).filter
            (fun n => decide (within_bounds t n ∧ n ∉ (all_active t).toFinset))).length : Int) := by
    unfold broken_pairs
    rw [List.sum_toFinset _ (all_active_nodup t), Nat.cast_list_sum, List.map_map]
    congr 1
    apply List.map_congr_left
    intro c hc
    simp only [Function.comp]
    congr 2
    apply List.filter_congr
    intro n hn
    have hadj := (mem_four_neighbors c n).mp hn
    have hd : n.d ≠ 0 := by
      rw [← hadj.1]
      exact ((mem_all_active t c).mp hc).2.2
    by_cases hw : within_bounds t n
    · have hi := within_bounds_inImage t n hw
      simp only [List.mem_toFinset, mem_all_active, hw, hi, hd, true_and, ne_eq,
        not_false_eq_true, and_true]
    · simp [hw]
  unfold energy config_energy
  rw [hdata, hbroken, hcard]
  have e : ((occluded_left t : Nat) : Int) + ((occluded_right t : Nat) : Int)
      = 2 * ((t.pair.rows * t.pair.cols : Nat) : Int) - 2 * ((all_active t).length : Int) := by
    have hl' : ((occluded_left t : Nat) : Int) + ((all_active t).length : Int)
        = ((t.pair.rows * t.pair.cols : Nat) : Int) := by exact_mod_cast hl
    have hr' : ((occluded_right t : Nat) : Int) + ((all_active t).length : Int)
        = ((t.pair.rows * t.pair.cols : Nat) : Int) := by exact_mod_cast hr
    linarith
  rw [e]

/-! ## The energy of a selection and the value of its cut -/

theorem countP_eq_sum {ι : Type} [DecidableEq ι] (l : List ι) (hnd : l.Nodup) (p : ι → Prop)
    [DecidablePred p] :
    ((l.countP (fun x => decide (p x)) : Nat) : Int)
      = ∑ x in l.toFinset, (if p x then (1 : Int) else 0) := by
  rw [List.countP_eq_length_filter, ← List.toFinset_card_of_nodup (hnd.filter _),
    List.toFinset_filter, Finset.card_filter]
  push_cast
  apply Finset.sum_congr rfl
  intro x _
  simp

theorem length_filter_eq_sum {ι : Type} [DecidableEq ι] (l : List ι) (hnd : l.Nodup)
    (p : ι → Prop) [DecidablePred p] :
    (((l.filter (fun x => decide (p x))).length : Nat) : Int)
      = ∑ x in l.toFinset, (if p x then (1 : Int) else 0) := by
  rw [← List.countP_eq_length_filter]
  exact countP_eq_sum l hnd p

theorem sum_mem_swap {ι : Type} [DecidableEq ι] (A B : Finset ι) (q : ι → Prop)
    [DecidablePred q] :
    ∑ x in A, (if x ∈ B ∧ q x then (1 : Int) else 0)
      = ∑ x in B, (if x ∈ A ∧ q x then (1 : Int) else 0) := by
  have h1 : ∑ x in A, (if x ∈ B ∧ q x then (1 : Int) else 0)
      = (((A.filter (fun x => x ∈ B ∧ q x)).card : Nat) : Int) := by
    rw [Finset.card_filter]
    push_cast
    rfl
  have h2 : ∑ x in B, (if x ∈ A ∧ q x then (1 : Int) else 0)
      = (((B.filter (fun x => x ∈ A ∧ q x)).card : Nat) : Int) := by
    rw [Finset.card_filter]
    push_cast
    rfl
  rw [h1, h2]
  congr 2
  ext x
  simp only [Finset.mem_filter]
  tauto

theorem toFinset_considered (alpha : Int) (s : GraphCutDisparity) :
    (considered_list alpha s).toFinset
      = (active_list alpha s).toFinset ∪ (alpha_list alpha s).toFinset := by
  unfold considered_list
  exact List.toFinset_append

theorem disjoint_active_alpha (alpha : Int) (s : GraphCutDisparity) :
    Disjoint (active_list alpha s).toFinset (alpha_list alpha s).toFinset := by
  rw [Finset.disjoint_left]
  intro c h1 h2
  rw [List.mem_toFinset] at h1 h2
  exact ((mem_active_list alpha s c).mp h1).2.2.2 ((mem_alpha_list alpha s c).mp h2).1

theorem sharesPixel_symm (c c' : Correspondence) (h : SharesPixel c c') : SharesPixel c' c := by
  obtain ⟨h1, h2⟩ := h
  refine ⟨h1.symm, ?_⟩
  rcases h2 with e | e
  · exact Or.inl e.symm
  · exact Or.inr e.symm

theorem partners_active (alpha : Int) (s : GraphCutDisparity) (c : Correspondence)
    (hc : c.d ≠ alpha) :
    ((partners alpha s c : Nat) : Int)
      = ∑ a in (alpha_list alpha s).toFinset, (if SharesPixel c a then (1 : Int) else 0) := by
  unfold partners
  rw [if_neg hc]
  exact countP_eq_sum _ (alpha_list_nodup alpha s) _

theorem partners_alpha (alpha : Int) (s : GraphCutDisparity) (a : Correspondence)
    (ha : a.d = alpha) :
    ((partners alpha s a : Nat) : Int)
      = ∑ c in (active_list alpha s).toFinset, (if SharesPixel c a then (1 : Int) else 0) := by
  unfold partners
  rw [if_pos ha, countP_eq_sum _ (active_list_nodup alpha s) _]
  apply Finset.sum_congr rfl
  intro c _
  by_cases h : SharesPixel a c
  · rw [if_pos h, if_pos (sharesPixel_symm a c h)]
  · rw [if_neg h, if_neg (fun e => h (sharesPixel_symm c a e))]

theorem mem_toFinset_considered (alpha : Int) (s : GraphCutDisparity) (c : Correspondence) :
    c ∈ (considered_list alpha s).toFinset ↔ Considered alpha s c := by
  rw [List.mem_toFinset, mem_considered_list]

theorem considered_within (alpha : Int) (s : GraphCutDisparity) (hb : ActiveWithinBounds s)
    (c : Correspondence) (hc : Considered alpha s c) : within_bounds s c :=
  (considered_valid alpha s hb c hc).1

theorem mem_calls_considered (alpha : Int) (s : GraphCutDisparity) (hb : ActiveWithinBounds s)
    (c1 c2 : Correspondence) :
    (c1, c2) ∈ neighbor_edge_calls alpha s ↔
      (Considered alpha s c1 ∧ Considered alpha s c2) ∧
        (Adjacent c1 c2 ∧ correspondence_hash s c1 > correspondence_hash s c2) := by
  rw [mem_neighbor_edge_calls]
  constructor
  · rintro ⟨h1, h2, h3, h4⟩
    exact ⟨⟨h1, valid_neighbor_considered alpha s c1 c2 h1 h2 h3⟩, h2, h4⟩
  · rintro ⟨⟨h1, h2⟩, h3, h4⟩
    exact ⟨h1, h3, considered_valid alpha s hb c2 h2, h4⟩

theorem calls_toFinset (alpha : Int) (s : GraphCutDisparity) (hb : ActiveWithinBounds s) :
    (neighbor_edge_calls alpha s).toFinset
      = ((considered_list alpha s).toFinset ×ˢ (considered_list alpha s).toFinset).filter
          (fun p => Adjacent p.1 p.2 ∧ correspondence_hash s p.1 > correspondence_hash s p.2) := by
  ext p
  obtain ⟨c1, c2⟩ := p
  rw [List.mem_toFinset, mem_calls_considered alpha s hb, Finset.mem_filter, Finset.mem_product,
    mem_toFinset_considered, mem_toFinset_considered]

theorem sum_calls (alpha : Int) (s : GraphCutDisparity) (hb : ActiveWithinBounds s)
    (g : Correspondence → Correspondence → Int) :
    ∑ p in (neighbor_edge_calls alpha s).toFinset, g p.1 p.2
      = ∑ c1 in (considered_list alpha s).toFinset, ∑ c2 in (considered_list alpha s).toFinset,
          (if Adjacent c1 c2 ∧ correspondence_hash s c1 > correspondence_hash s c2
            then g c1 c2 else 0) := by
  rw [calls_toFinset alpha s hb, Finset.sum_filter, Finset.sum_product]

/-- The neighbour calls with exactly one end selected, counted from the selected end:
every selected considered correspondence with each considered 4-neighbour that is not
selected. -/
theorem calls_regroup (alpha : Int) (s : GraphCutDisparity) (hk : KeyedMove alpha s)
    (hb : ActiveWithinBounds s) (sel : Correspondence → Prop) [DecidablePred sel] :
    ∑ p in (neighbor_edge_calls alpha s).toFinset,
        ((if sel p.1 ∧ ¬ sel p.2 then (1 : Int) else 0) + (if sel p.2 ∧ ¬ sel p.1 then 1 else 0))
      = ∑ c1 in (considered_list alpha s).toFinset, ∑ c2 in (considered_list alpha s).toFinset,
          (if sel c1 ∧ Adjacent c1 c2 ∧ ¬ sel c2 then (1 : Int) else 0) := by
  rw [Finset.sum_add_distrib,
    sum_calls alpha s hb (fun c1 c2 => if sel c1 ∧ ¬ sel c2 then (1 : Int) else 0),
    sum_calls alpha s hb (fun c1 c2 => if sel c2 ∧ ¬ sel c1 then (1 : Int) else 0)]
  have hsw : (∑ c1 in (considered_list alpha s).toFinset,
      ∑ c2 in (considered_list alpha s).toFinset,
        (if Adjacent c1 c2 ∧ correspondence_hash s c1 > correspondence_hash s c2
          then (if sel c2 ∧ ¬ sel c1 then (1 : Int) else 0) else 0))
      = ∑ c1 in (considered_list alpha s).toFinset,
          ∑ c2 in (considered_list alpha s).toFinset,
            (if Adjacent c2 c1 ∧ correspondence_hash s c2 > correspondence_hash s c1
              then (if sel c1 ∧ ¬ sel c2 then (1 : Int) else 0) else 0) :=
    Finset.sum_comm
  rw [hsw, ← Finset.sum_add_distrib]
  apply Finset.sum_congr rfl
  intro c1 h1
  rw [← Finset.sum_add_distrib]
  apply Finset.sum_congr rfl
  intro c2 h2
  rw [mem_toFinset_considered] at h1 h2
  by_cases hadj : Adjacent c1 c2
  · have hadj' := adjacent_symm c1 c2 hadj
    have hne : correspondence_hash s c1 ≠ correspondence_hash s c2 := fun e =>
      adjacent_ne c1 c2 hadj (correspondence_hash_inj s c1 c2
        (considered_inKeyDomain alpha s hk c1 h1) (considered_inKeyDomain alpha s hk c2 h2) e)
    by_cases ho : correspondence_hash s c1 > correspondence_hash s c2
    · have ho' : ¬ correspondence_hash s c2 > correspondence_hash s c1 := by omega
      simp [hadj, hadj', ho, ho']
    · have ho' : correspondence_hash s c2 > correspondence_hash s c1 := by omega
      simp [hadj, hadj', ho, ho']
  · have hadj' : ¬ Adjacent c2 c1 := fun e => hadj (adjacent_symm c2 c1 e)
    simp [hadj, hadj']

theorem open_neighbors_split (alpha : Int) (s : GraphCutDisparity) (hb : ActiveWithinBounds s)
    (sel : Correspondence → Prop) [DecidablePred sel] (c : Correspondence) :
    (((four_neighbors c).filter (fun n => decide (within_bounds s n ∧
        n ∉ (considered_list alpha s).toFinset.filter sel))).length : Int)
      = (∑ n in (considered_list alpha s).toFinset,
          (if Adjacent c n ∧ ¬ sel n then (1 : Int) else 0))
        + (((four_neighbors c).filter
            (fun n => decide (within_bounds s n ∧ ¬ Considered alpha s n))).length : Int) := by
  have h1 : ∑ n in (considered_list alpha s).toFinset,
        (if Adjacent c n ∧ ¬ sel n then (1 : Int) else 0)
      = ∑ n in (four_neighbors c).toFinset,
          (if n ∈ (considered_list alpha s).toFinset ∧ ¬ sel n then (1 : Int) else 0) := by
    rw [← sum_mem_swap]
    apply Finset.sum_congr rfl
    intro n _
    simp only [List.mem_toFinset, mem_four_neighbors]
  rw [length_filter_eq_sum _ (four_neighbors_nodup c), length_filter_eq_sum _
    (four_neighbors_nodup c), h1, ← Finset.sum_add_distrib]
  apply Finset.sum_congr rfl
  intro n _
  simp only [Finset.mem_filter, mem_toFinset_considered]
  by_cases hc : Considered alpha s n
  · have hw := considered_within alpha s hb n hc
    by_cases hs : sel n
    · simp [hc, hw, hs]
    · simp [hc, hw, hs]
  · by_cases hw : within_bounds s n
    · simp [hc, hw]
    · simp [hc, hw]

/-- The smoothness term of a selection: the neighbour calls with exactly one end
selected, and the pairs of a selected correspondence and an in-bounds neighbour that
the move does not consider. -/
theorem smoothness_part (alpha : Int) (s : GraphCutDisparity) (hk : KeyedMove alpha s)
    (hb : ActiveWithinBounds s) (sel : Correspondence → Prop) [DecidablePred sel] :
    ∑ c in (considered_list alpha s).toFinset.filter sel,
        (((four_neighbors c).filter (fun n => decide (within_bounds s n ∧
          n ∉ (considered_list alpha s).toFinset.filter sel))).length : Int)
      = ∑ p in (neighbor_edge_calls alpha s).toFinset,
          ((if sel p.1 ∧ ¬ sel p.2 then (1 : Int) else 0)
            + (if sel p.2 ∧ ¬ sel p.1 then 1 else 0))
        + kept_open alpha s sel := by
  rw [calls_regroup alpha s hk hb sel]
  unfold kept_open
  rw [Finset.sum_congr rfl (fun c _ => open_neighbors_split alpha s hb sel c),
    Finset.sum_add_distrib, Finset.sum_filter]
  congr 1
  apply Finset.sum_congr rfl
  intro c1 _
  by_cases hs : sel c1
  · rw [if_pos hs]
    apply Finset.sum_congr rfl
    intro c2 _
    simp [hs]
  · rw [if_neg hs]
    symm
    apply Finset.sum_eq_zero
    intro c2 _
    simp [hs]

theorem sum_indicator_card {ι : Type} [DecidableEq ι] (F : Finset ι) (p : ι → Prop)
    [DecidablePred p] :
    ∑ x in F, (if p x then (1 : Int) else 0) = (((F.filter p).card : Nat) : Int) := by
  rw [Finset.card_filter]
  push_cast
  rfl

theorem occlusion_active_sum (alpha : Int) (s : GraphCutDisparity)
    (sel : Correspondence → Prop) [DecidablePred sel] :
    ∑ c in (active_list alpha s).toFinset,
        (if sel c then 0 else s.Cp * (2 - (partners alpha s c : Int)))
      = s.Cp * (2 * ((active_list alpha s).toFinset.card : Int)
          - 2 * (((active_list alpha s).toFinset.filter sel).card : Int))
        - s.Cp * ∑ c in (active_list alpha s).toFinset, ∑ a in (alpha_list alpha s).toFinset,
            (if SharesPixel c a ∧ ¬ sel c then (1 : Int) else 0) := by
  have hpt : ∀ c ∈ (active_list alpha s).toFinset,
      (if sel c then 0 else s.Cp * (2 - (partners alpha s c : Int)))
        = s.Cp * 2 - s.Cp * 2 * (if sel c then (1 : Int) else 0)
          - s.Cp * ∑ a in (alpha_list alpha s).toFinset,
              (if SharesPixel c a ∧ ¬ sel c then (1 : Int) else 0) := by
    intro c hc
    rw [List.mem_toFinset, mem_active_list] at hc
    rw [partners_active alpha s c hc.2.2.2]
    by_cases hs : sel c
    · simp [hs]
    · simp [hs]
      ring
  rw [Finset.sum_congr rfl hpt, Finset.sum_sub_distrib, Finset.sum_sub_distrib,
    Finset.sum_const, ← Finset.mul_sum, ← Finset.mul_sum, sum_indicator_card]
  simp only [nsmul_eq_mul]
  ring

theorem occlusion_alpha_sum (alpha : Int) (s : GraphCutDisparity)
    (sel : Correspondence → Prop) [DecidablePred sel] :
    ∑ a in (alpha_list alpha s).toFinset,
        (if sel a then 0 else s.Cp * (2 - (partners alpha s a : Int)))
      = s.Cp * (2 * ((alpha_list alpha s).toFinset.card : Int)
          - 2 * (((alpha_list alpha s).toFinset.filter sel).card : Int))
        - s.Cp * ∑ c in (active_list alpha s).toFinset, ∑ a in (alpha_list alpha s).toFinset,
            (if SharesPixel c a ∧ ¬ sel a then (1 : Int) else 0) := by
  have hpt : ∀ a ∈ (alpha_list alpha s).toFinset,
      (if sel a then 0 else s.Cp * (2 - (partners alpha s a : Int)))
        = s.Cp * 2 - s.Cp * 2 * (if sel a then (1 : Int) else 0)
          - s.Cp * ∑ c in (active_list alpha s).toFinset,
              (if SharesPixel c a ∧ ¬ sel a then (1 : Int) else 0) := by
    intro a ha
    rw [List.mem_toFinset, mem_alpha_list] at ha
    rw [partners_alpha alpha s a ha.1]
    by_cases hs : sel a
    · simp [hs]
    · simp [hs]
      ring
  have hsw : (∑ a in (alpha_list alpha s).toFinset, ∑ c in (active_list alpha s).toFinset,
        (if SharesPixel c a ∧ ¬ sel a then (1 : Int) else 0))
      = ∑ c in (active_list alpha s).toFinset, ∑ a in (alpha_list alpha s).toFinset,
          (if SharesPixel c a ∧ ¬ sel a then (1 : Int) else 0) := Finset.sum_comm
  rw [Finset.sum_congr rfl hpt, Finset.sum_sub_distrib, Finset.sum_sub_distrib,
    Finset.sum_const, ← Finset.mul_sum, ← Finset.mul_sum, sum_indicator_card, hsw]
  simp only [nsmul_eq_mul]
  ring

/-- The occlusion term of a selection that selects no two conflicting
correspondences: the occlusion costs of the unselected nodes, `C_p` per conflict with
neither end selected, and the constant of the move. -/
theorem occlusion_part (alpha : Int) (s : GraphCutDisparity)
    (sel : Correspondence → Prop) [DecidablePred sel]
    (hNC : ∀ c, ActiveInMove alpha s c → ∀ a, AlphaInMove alpha s a → SharesPixel c a →
      ¬ (sel c ∧ sel a)) :
    (∑ c in (considered_list alpha s).toFinset,
        (if sel c then 0 else s.Cp * (2 - (partners alpha s c : Int))))
      + (∑ c in (active_list alpha s).toFinset, ∑ a in (alpha_list alpha s).toFinset,
          (if SharesPixel c a then
            (if sel c ∧ sel a then INT_MAX else 0) + (if ¬ sel c ∧ ¬ sel a then s.Cp else 0)
           else 0))
      + move_constant alpha s
      = s.Cp * (2 * ((s.pair.rows * s.pair.cols : Nat) : Int)
          - 2 * (((considered_list alpha s).toFinset.filter sel).card : Int)) := by
  have hd := disjoint_active_alpha alpha s
  have hcardC : ((considered_list alpha s).toFinset.card : Int)
      = ((active_list alpha s).toFinset.card : Int) + ((alpha_list alpha s).toFinset.card : Int) := by
    rw [toFinset_considered, Finset.card_union_of_disjoint hd]
    push_cast
    rfl
  have hcardX : (((considered_list alpha s).toFinset.filter sel).card : Int)
      = (((active_list alpha s).toFinset.filter sel).card : Int)
        + (((alpha_list alpha s).toFinset.filter sel).card : Int) := by
    rw [toFinset_considered, Finset.filter_union,
      Finset.card_union_of_disjoint (Finset.disjoint_filter_filter hd)]
    push_cast
    rfl
  have hX : (∑ c in (active_list alpha s).toFinset, ∑ a in (alpha_list alpha s).toFinset,
        (if SharesPixel c a then
          (if sel c ∧ sel a then INT_MAX else 0) + (if ¬ sel c ∧ ¬ sel a then s.Cp else 0)
         else 0))
      = s.Cp * ∑ c in (active_list alpha s).toFinset, ∑ a in (alpha_list alpha s).toFinset,
          (if SharesPixel c a ∧ ¬ sel c ∧ ¬ sel a then (1 : Int) else 0) := by
    rw [Finset.mul_sum]
    apply Finset.sum_congr rfl
    intro c hc
    rw [Finset.mul_sum]
    apply Finset.sum_congr rfl
    intro a ha
    rw [List.mem_toFinset, mem_active_list] at hc
    rw [List.mem_toFinset, mem_alpha_list] at ha
    by_cases hsh : SharesPixel c a
    · have hnc := hNC c hc a ha hsh
      by_cases h1 : sel c
      · have h2 : ¬ sel a := fun e => hnc ⟨h1, e⟩
        simp [hsh, h1, h2]
      · by_cases h2 : sel a
        · simp [hsh, h1, h2]
        · simp [hsh, h1, h2]
    · simp [hsh]
  have hS : (∑ c in (active_list alpha s).toFinset, ∑ a in (alpha_list alpha s).toFinset,
        (if SharesPixel c a ∧ ¬ sel c then (1 : Int) else 0))
      + (∑ c in (active_list alpha s).toFinset, ∑ a in (alpha_list alpha s).toFinset,
        (if SharesPixel c a ∧ ¬ sel a then (1 : Int) else 0))
      - (∑ c in (active_list alpha s).toFinset, ∑ a in (alpha_list alpha s).toFinset,
        (if SharesPixel c a ∧ ¬ sel c ∧ ¬ sel a then (1 : Int) else 0))
      = ∑ c in (active_list alpha s).toFinset, ∑ a in (alpha_list alpha s).toFinset,
        (if SharesPixel c a then (1 : Int) else 0) := by
    rw [← Finset.sum_add_distrib, ← Finset.sum_sub_distrib]
    apply Finset.sum_congr rfl
    intro c hc
    rw [← Finset.sum_add_distrib, ← Finset.sum_sub_distrib]
    apply Finset.sum_congr rfl
    intro a ha
    rw [List.mem_toFinset, mem_active_list] at hc
    rw [List.mem_toFinset, mem_alpha_list] at ha
    by_cases hsh : SharesPixel c a
    · have hnc := hNC c hc a ha hsh
      by_cases h1 : sel c
      · have h2 : ¬ sel a := fun e => hnc ⟨h1, e⟩
        simp [hsh, h1, h2]
      · by_cases h2 : sel a
        · simp [hsh, h1, h2]
        · simp [hsh, h1, h2]
    · simp [hsh]
  have hsplit : ∑ c in (considered_list alpha s).toFinset,
        (if sel c then 0 else s.Cp * (2 - (partners alpha s c : Int)))
      = ∑ c in (active_list alpha s).toFinset,
          (if sel c then 0 else s.Cp * (2 - (partners alpha s c : Int)))
        + ∑ c in (alpha_list alpha s).toFinset,
          (if sel c then 0 else s.Cp * (2 - (partners alpha s c : Int))) := by
    rw [toFinset_considered, Finset.sum_union hd]
  rw [hsplit, occlusion_active_sum, occlusion_alpha_sum, hX]
  unfold move_constant
  rw [hcardC, hcardX]
  linear_combination (-s.Cp) * hS

/-- The energy of a selection of considered correspondences that selects no two
conflicting ones: the value of its cut, the constant of the move, and `V` per pair of
a selected correspondence and an in-bounds neighbour that the move does not
consider. -/
theorem config_energy_selection (alpha : Int) (s : GraphCutDisparity) (hk : KeyedMove alpha s)
    (hb : ActiveWithinBounds s) (sel : Correspondence → Prop) [DecidablePred sel]
    (hNC : ∀ c, ActiveInMove alpha s c → ∀ a, AlphaInMove alpha s a → SharesPixel c a →
      ¬ (sel c ∧ sel a)) :
    config_energy s ((considered_list alpha s).toFinset.filter sel)
      = graph_cost alpha s sel + move_constant alpha s + s.V_smooth * kept_open alpha s sel := by
  have hO := occlusion_part alpha s sel hNC
  have hSm := smoothness_part alpha s hk hb sel
  have hnode : ∑ c in (considered_list alpha s).toFinset,
        (if sel c then data_cost s c else s.Cp * (2 - (partners alpha s c : Int)))
      = (∑ c in (considered_list alpha s).toFinset.filter sel, data_cost s c)
        + ∑ c in (considered_list alpha s).toFinset,
            (if sel c then 0 else s.Cp * (2 - (partners alpha s c : Int))) := by
    rw [Finset.sum_filter, ← Finset.sum_add_distrib]
    apply Finset.sum_congr rfl
    intro c _
    by_cases hs : sel c
    · simp [hs]
    · simp [hs]
  unfold config_energy graph_cost
  rw [hnode]
  linear_combination (-1) * hO + s.V_smooth * hSm

/-! ## The active set after a move -/

theorem update_active_sameImages (s0 : GraphCutDisparity) (c : Correspondence)
    (t : GraphCutDisparity) (h : SameImages s0 t) : SameImages s0 (update_active c t) := by
  unfold update_active
  split_ifs
  · exact h
  · exact h

theorem update_alpha_sameImages (s0 : GraphCutDisparity) (c : Correspondence)
    (t : GraphCutDisparity) (h : SameImages s0 t) : SameImages s0 (update_alpha c t) := by
  unfold update_alpha
  simp only []
  split_ifs
  · exact h
  · exact h
  · exact h

theorem update_correspondences_sameImages (alpha : Int) (s : GraphCutDisparity) :
    SameImages s (update_correspondences alpha s) := by
  rw [update_correspondences_eq]
  refine for_each_alpha_inv (SameImages s) _ alpha _
    (fun c t ht => update_alpha_sameImages s c t ht) ?_
  exact for_each_active_inv (SameImages s) _ alpha _
    (fun c t ht => update_active_sameImages s c t ht) ⟨rfl, rfl, rfl, rfl, rfl, rfl, rfl, rfl⟩

/-- The left map after `update_correspondences`, at a pixel given by integer
coordinates. -/
theorem left_after_update (alpha : Int) (hlo : -255 ≤ alpha) (hhi : alpha ≤ -1)
    (s : GraphCutDisparity) (x y : Int) (hy : 0 ≤ y ∧ y < (s.pair.rows : Int))
    (hx : 0 ≤ x ∧ x < (s.pair.cols : Int)) (v v1 : Nat)
    (hv : v = s.pair.disparity_left.px y x)
    (hv1 : v1 = if (-(v : Int) ≠ 0 ∧ -(v : Int) ≠ alpha) ∧
        node_color s ⟨x, y, -(v : Int)⟩ ≠ Color.black then 0 else v) :
    (update_correspondences alpha s).pair.disparity_left.px y x
      = if within_bounds s ⟨x, y, alpha⟩ then
          if node_color s ⟨x, y, alpha⟩ ≠ Color.black then
            (if (v1 : Int) = -alpha then v1 else ((-alpha) % 256).toNat)
          else (if (v1 : Int) = -alpha then 0 else v1)
        else v1 := by
  obtain ⟨hpix, _, _⟩ := update_correspondences_exact alpha hlo hhi s
  have h := hpix y.toNat x.toNat (by omega) (by omega)
  rw [Int.toNat_of_nonneg hy.1, Int.toNat_of_nonneg hx.1] at h
  rw [h, hv1, hv]
  unfold activated deactivated NULL_DISPARITY
  simp only [Int.toNat_of_nonneg hy.1, Int.toNat_of_nonneg hx.1]

theorem considered_inImage (alpha : Int) (s : GraphCutDisparity) (c : Correspondence)
    (h : Considered alpha s c) : InImage s c := by
  rcases h with h | h
  · exact h.1
  · exact within_bounds_inImage s c h.2

theorem active_pixel_within (s : GraphCutDisparity) (hb : ActiveWithinBounds s) (x y : Int)
    (hy : 0 ≤ y ∧ y < (s.pair.rows : Int)) (hx : 0 ≤ x ∧ x < (s.pair.cols : Int))
    (hv : s.pair.disparity_left.px y x ≠ 0) :
    within_bounds s ⟨x, y, -(s.pair.disparity_left.px y x : Int)⟩ := by
  have h := hb y.toNat (by omega) x.toNat (by omega)
  rw [Int.toNat_of_nonneg hy.1, Int.toNat_of_nonneg hx.1] at h
  exact h hv

/-- The active correspondences after the update are the considered correspondences
that the colouring selects, when no two conflicting ones are selected. -/
theorem mem_all_active_update (alpha : Int) (hlo : -255 ≤ alpha) (hhi : alpha ≤ -1)
    (s : GraphCutDisparity) (hb : ActiveWithinBounds s)
    (hNC : ∀ c, ActiveInMove alpha s c → ∀ a, AlphaInMove alpha s a → SharesPixel c a →
      ¬ (selected_after s alpha c ∧ selected_after s alpha a))
    (c : Correspondence) :
    c ∈ all_active (update_correspondences alpha s)
      ↔ (Considered alpha s c ∧ selected_after s alpha c) := by
  obtain ⟨_, _, hr, hc, _, _, _, _⟩ := update_correspondences_sameImages alpha s
  have hbyte := byte_of_label alpha hlo hhi
  rw [mem_all_active]
  have himg : InImage (update_correspondences alpha s) c ↔ InImage s c := by
    unfold InImage
    rw [hr, hc]
  rw [himg]
  by_cases him : InImage s c
  swap
  · constructor
    · intro h
      exact absurd h.1 him
    · intro h
      exact absurd (considered_inImage alpha s c h.1) him
  obtain ⟨x, y, d⟩ := c
  obtain ⟨i1, i2, i3, i4⟩ := him
  simp only at i1 i2 i3 i4
  have hL := left_after_update alpha hlo hhi s x y ⟨i1, i2⟩ ⟨i3, i4⟩ _ _ rfl rfl
  have hbv := active_pixel_within s hb x y ⟨i1, i2⟩ ⟨i3, i4⟩
  unfold is_active
  simp only []
  rw [hL]
  unfold Considered ActiveInMove AlphaInMove selected_after is_active InImage NULL_DISPARITY
  simp only []
  generalize hv : s.pair.disparity_left.px y x = v at hbv ⊢
  generalize hv1 : (if (-(v : Int) ≠ 0 ∧ -(v : Int) ≠ alpha) ∧
      node_color s ⟨x, y, -(v : Int)⟩ ≠ Color.black then 0 else v) = v1
  by_cases hd : d = alpha
  · subst hd
    by_cases hB : within_bounds s ⟨x, y, d⟩
    · by_cases hA : node_color s ⟨x, y, d⟩ ≠ Color.black
      · simp only [if_pos hB, if_pos hA, if_true]
        constructor
        · intro _
          exact ⟨Or.inr ⟨trivial, hB⟩, hA⟩
        · intro _
          refine ⟨⟨i1, i2, i3, i4⟩, ?_, by omega⟩
          split_ifs with h1
          · exact h1
          · exact hbyte
      · simp only [if_pos hB, if_neg hA, if_true]
        constructor
        · rintro ⟨_, h, _⟩
          exfalso
          split_ifs at h with h1
          · simp only [Nat.cast_zero] at h
            omega
          · exact h1 h
        · rintro ⟨_, h⟩
          exact absurd h hA
    · simp only [if_neg hB, if_true]
      constructor
      · rintro ⟨_, h, _⟩
        exfalso
        split_ifs at hv1 with h1
        · subst hv1
          simp only [Nat.cast_zero] at h
          omega
        · subst hv1
          have hv : v ≠ 0 := by
            intro e
            rw [e] at h
            simp only [Nat.cast_zero] at h
            omega
          have hw := hbv hv
          rw [h, neg_neg] at hw
          exact hB hw
      · rintro ⟨h, _⟩
        rcases h with h | h
        · exact absurd rfl h.2.2.2
        · exact absurd h.2 hB
  · simp only [if_neg hd]
    constructor
    · rintro ⟨_, h, hnz⟩
      by_cases hT : (-(v : Int) ≠ 0 ∧ -(v : Int) ≠ alpha) ∧
          node_color s ⟨x, y, -(v : Int)⟩ ≠ Color.black
      · exfalso
        rw [if_pos hT] at hv1
        subst hv1
        split_ifs at h with h1 h2 h3
        · simp only [Nat.cast_zero] at h
          omega
        · rw [hbyte] at h
          apply hd
          omega
        · simp only [Nat.cast_zero] at h
          omega
        · simp only [Nat.cast_zero] at h
          omega
        · simp only [Nat.cast_zero] at h
          omega
      · rw [if_neg hT] at hv1
        subst hv1
        have hvd : (v : Int) = -d := by
          split_ifs at h with h1 h2 h3
          · exact h
          · rw [hbyte] at h
            exfalso
            apply hd
            omega
          · simp only [Nat.cast_zero] at h
            omega
          · exact h
          · exact h
        have hdv : -(v : Int) = d := by omega
        rw [hdv] at hT
        have hK : node_color s ⟨x, y, d⟩ = Color.black := by
          by_contra hK
          exact hT ⟨⟨hnz, hd⟩, hK⟩
        exact ⟨Or.inl ⟨⟨i1, i2, i3, i4⟩, hvd, hnz, hd⟩, hK⟩
    · rintro ⟨h, hK⟩
      rcases h with h | h
      swap
      · exact absurd h.1 hd
      obtain ⟨_, hvd, hnz, _⟩ := h
      have hdv : -(v : Int) = d := by omega
      refine ⟨⟨i1, i2, i3, i4⟩, ?_, hnz⟩
      rw [hdv, if_neg (fun e => e.2 hK)] at hv1
      subst hv1
      have hva : ¬ (v : Int) = -alpha := by
        intro e
        apply hd
        omega
      by_cases hB : within_bounds s ⟨x, y, alpha⟩
      · have hact : is_active s ⟨x, y, d⟩ := by
          unfold is_active
          simp only []
          rw [hv]
          exact hvd
        have hnc := hNC ⟨x, y, d⟩ ⟨⟨i1, i2, i3, i4⟩, hact, hnz, hd⟩ ⟨x, y, alpha⟩ ⟨rfl, hB⟩
          ⟨rfl, Or.inl rfl⟩
        unfold selected_after at hnc
        simp only [if_neg hd, if_true] at hnc
        have hA : ¬ node_color s ⟨x, y, alpha⟩ ≠ Color.black := fun e => hnc ⟨hK, e⟩
        rw [if_pos hB, if_neg hA, if_neg hva]
        exact hvd
      · rw [if_neg hB]
        exact hvd

theorem conflict_free_of_cuts (alpha : Int) (s : GraphCutDisparity)
    (hcut : CutsNoConflictEdge s alpha) :
    ∀ c, ActiveInMove alpha s c → ∀ a, AlphaInMove alpha s a → SharesPixel c a →
      ¬ (selected_after s alpha c ∧ selected_after s alpha a) := by
  intro c hc a ha hsh
  obtain ⟨⟨i1, i2, i3, i4⟩, hact, hnz, hd⟩ := hc
  have h := hcut c.y.toNat (by omega) c.x.toNat (by omega)
  simp only [Int.toNat_of_nonneg i1, Int.toNat_of_nonneg i3] at h
  have hact' : (s.pair.disparity_left.px c.y c.x : Int) = -c.d := hact
  have hcd : -(s.pair.disparity_left.px c.y c.x : Int) = c.d := by omega
  rw [hcd] at h
  have hmem := (mem_get_conflicts s c alpha hact hd a).mpr ⟨ha, hsh⟩
  have h2 := h hnz hd a hmem
  unfold selected_after
  rw [if_neg hd, if_pos ha.1]
  exact h2

theorem feasible_keyed (alpha : Int) (s : GraphCutDisparity) (hF : Feasible s)
    (ha : -s.max_disparity ≤ alpha ∧ alpha ≤ -s.min_disparity) : KeyedMove alpha s :=
  ⟨ha, hF.2.1⟩

/-- A move that cuts no conflict edge keeps the state feasible. -/
theorem update_keeps_feasible (alpha : Int) (s : GraphCutDisparity) (hF : Feasible s)
    (ha : -s.max_disparity ≤ alpha ∧ alpha ≤ -s.min_disparity)
    (hcut : CutsNoConflictEdge s alpha) : Feasible (update_correspondences alpha s) := by
  obtain ⟨hmM, hR, hb, hU⟩ := hF
  have hlo : -255 ≤ alpha := by omega
  have hhi : alpha ≤ -1 := by omega
  have hk : KeyedMove alpha s := ⟨ha, hR⟩
  obtain ⟨_, _, hr, hc, _, _, hmin, hmax⟩ := update_correspondences_sameImages alpha s
  have hNC := conflict_free_of_cuts alpha s hcut
  have hmem := mem_all_active_update alpha hlo hhi s hb hNC
  have hpix : ∀ y, y < s.pair.rows → ∀ x, x < s.pair.cols →
      (update_correspondences alpha s).pair.disparity_left.px (y : Nat) (x : Nat) ≠ 0 →
      Considered alpha s ⟨(x : Nat), (y : Nat),
        -((update_correspondences alpha s).pair.disparity_left.px (y : Nat) (x : Nat) : Int)⟩ := by
    intro y hy x hx hv
    refine ((hmem _).mp ?_).1
    rw [mem_all_active]
    refine ⟨⟨by simp, by simp; omega, by simp, by simp; omega⟩, ?_, ?_⟩
    · unfold is_active
      simp
    · simp only [ne_eq, neg_eq_zero, Nat.cast_eq_zero]
      exact hv
  refine ⟨by rw [hmin, hmax]; exact hmM, ?_, ?_, ?_⟩
  · intro y hy x hx
    rw [hr] at hy
    rw [hc] at hx
    rw [hmin, hmax]
    by_cases hv : (update_correspondences alpha s).pair.disparity_left.px (y : Nat) (x : Nat) = 0
    · exact Or.inl hv
    · right
      have hkd := considered_inKeyDomain alpha s hk _ (hpix y hy x hx hv)
      obtain ⟨_, _, k3, k4⟩ := hkd
      simp only at k3 k4
      constructor
      · omega
      · omega
  · intro y hy x hx hv
    rw [hr] at hy
    rw [hc] at hx
    have hw := considered_within alpha s hb _ (hpix y hy x hx hv)
    unfold within_bounds at hw ⊢
    rw [hr, hc]
    exact hw
  · rw [hr, hc]
    exact update_preserves_unique alpha hlo hhi s hU hcut

theorem cut_graph_feasible (flow : GraphCutDisparity → Nat → Color) (alpha : Int)
    (s : GraphCutDisparity) (hF : Feasible s) : Feasible (cut_graph flow alpha s) := by
  obtain ⟨h1, h2, h3⟩ := cut_graph_samePair flow alpha s
  unfold Feasible ActiveWithinBounds within_bounds
  rw [h1, h2, h3]
  exact hF

/-- A move of the run that cuts no conflict edge keeps the state feasible. -/
theorem run_alpha_expansion_feasible (flow : GraphCutDisparity → Nat → Color) (alpha : Int)
    (s : GraphCutDisparity) (hF : Feasible s)
    (ha : -s.max_disparity ≤ alpha ∧ alpha ≤ -s.min_disparity)
    (hcut : CutsNoConflictEdge (cut_graph flow alpha s) alpha) :
    Feasible (run_alpha_expansion flow alpha s) := by
  rw [run_alpha_expansion_eq]
  obtain ⟨_, h2, h3⟩ := cut_graph_samePair flow alpha s
  exact update_keeps_feasible alpha _ (cut_graph_feasible flow alpha s hF)
    (by rw [h2, h3]; exact ha) hcut

/-! ## Minimum cuts and the energy -/

theorem get_conflicts_toFinset (alpha : Int) (s : GraphCutDisparity) (c : Correspondence)
    (hc : ActiveInMove alpha s c) :
    (get_conflicts s c alpha).toFinset
      = (alpha_list alpha s).toFinset.filter (fun a => SharesPixel c a) := by
  ext a
  rw [List.mem_toFinset, mem_get_conflicts s c alpha hc.2.1 hc.2.2.2, Finset.mem_filter,
    List.mem_toFinset, mem_alpha_list]

theorem cut_nodes_sum (alpha : Int) (s sB : GraphCutDisparity) (col : Nat → Color)
    (hocc : ∀ c, Considered alpha s c →
      occ_cost sB c = s.Cp * (2 - (partners alpha s c : Int))) :
    ((considered_list alpha s).map (fun c =>
        if c.d = alpha then
          (if black_node sB col c then occ_cost sB c else data_cost s c)
        else
          (if black_node sB col c then data_cost s c else occ_cost sB c))).sum
      = ∑ c in (considered_list alpha s).toFinset,
          (if selected_by sB col alpha c then data_cost s c
           else s.Cp * (2 - (partners alpha s c : Int))) := by
  rw [← List.sum_toFinset _ (considered_list_nodup alpha s)]
  apply Finset.sum_congr rfl
  intro c hc
  rw [mem_toFinset_considered] at hc
  rw [hocc c hc]
  unfold selected_by
  by_cases hd : c.d = alpha
  · by_cases hb : black_node sB col c
    · simp [hd, hb]
    · simp [hd, hb]
  · by_cases hb : black_node sB col c
    · simp [hd, hb]
    · simp [hd, hb]

theorem cut_conflicts_sum (alpha : Int) (s sB : GraphCutDisparity) (col : Nat → Color) :
    ((active_list alpha s).map (fun c => ((get_conflicts s c alpha).map (fun a =>
        (if black_node sB col c ∧ ¬ black_node sB col a then INT_MAX else 0)
        + (if black_node sB col a ∧ ¬ black_node sB col c then s.Cp else 0))).sum)).sum
      = ∑ c in (active_list alpha s).toFinset, ∑ a in (alpha_list alpha s).toFinset,
          (if SharesPixel c a then
            (if selected_by sB col alpha c ∧ selected_by sB col alpha a then INT_MAX else 0)
            + (if ¬ selected_by sB col alpha c ∧ ¬ selected_by sB col alpha a then s.Cp else 0)
           else 0) := by
  rw [← List.sum_toFinset _ (active_list_nodup alpha s)]
  apply Finset.sum_congr rfl
  intro c hc
  rw [List.mem_toFinset, mem_active_list] at hc
  rw [← List.sum_toFinset _ (get_conflicts_nodup s c alpha), get_conflicts_toFinset alpha s c hc,
    Finset.sum_filter]
  apply Finset.sum_congr rfl
  intro a ha
  rw [List.mem_toFinset, mem_alpha_list] at ha
  have hd : c.d ≠ alpha := hc.2.2.2
  have hda : a.d = alpha := ha.1
  unfold selected_by
  by_cases hsh : SharesPixel c a
  · by_cases hb : black_node sB col c
    · by_cases hb2 : black_node sB col a
      · simp [hsh, hd, hda, hb, hb2]
      · simp [hsh, hd, hda, hb, hb2]
    · by_cases hb2 : black_node sB col a
      · simp [hsh, hd, hda, hb, hb2]
      · simp [hsh, hd, hda, hb, hb2]
  · simp [hsh]

theorem cut_calls_sum (alpha : Int) (s sB : GraphCutDisparity) (col : Nat → Color) :
    ((neighbor_edge_calls alpha s).map (fun p =>
        (if black_node sB col p.1 ∧ ¬ black_node sB col p.2 then s.V_smooth else 0)
        + (if black_node sB col p.2 ∧ ¬ black_node sB col p.1 then s.V_smooth else 0))).sum
      = s.V_smooth * (∑ p in (neighbor_edge_calls alpha s).toFinset,
          ((if selected_by sB col alpha p.1 ∧ ¬ selected_by sB col alpha p.2 then 1 else 0)
            + (if selected_by sB col alpha p.2 ∧ ¬ selected_by sB col alpha p.1
                then 1 else 0))) := by
  rw [← List.sum_toFinset _ (neighbor_edge_calls_nodup alpha s), Finset.mul_sum]
  apply Finset.sum_congr rfl
  intro p hp
  rw [List.mem_toFinset] at hp
  have hm := (mem_neighbor_edge_calls alpha s p.1 p.2).mp hp
  have hd : p.1.d = p.2.d := hm.2.1.1
  unfold selected_by
  by_cases ha : p.2.d = alpha
  · have ha1 : p.1.d = alpha := hd.trans ha
    by_cases hb : black_node sB col p.1
    · by_cases hb2 : black_node sB col p.2
      · simp [ha, ha1, hb, hb2]
      · simp [ha, ha1, hb, hb2]
    · by_cases hb2 : black_node sB col p.2
      · simp [ha, ha1, hb, hb2]
      · simp [ha, ha1, hb, hb2]
  · have ha1 : ¬ p.1.d = alpha := fun e => ha (hd.symm.trans e)
    by_cases hb : black_node sB col p.1
    · by_cases hb2 : black_node sB col p.2
      · simp [ha, ha1, hb, hb2]
      · simp [ha, ha1, hb, hb2]
    · by_cases hb2 : black_node sB col p.2
      · simp [ha, ha1, hb, hb2]
      · simp [ha, ha1, hb, hb2]

/-- The value of a cut of the graph of a move is the cost of the selection that its
colouring describes. -/
theorem cut_value_eq_graph_cost (alpha : Int) (s : GraphCutDisparity) (hk : KeyedMove alpha s)
    (hU : Unique s.pair.rows s.pair.cols s.pair.disparity_left) (col : Nat → Color) :
    cut_value (build_graph alpha s) col
      = graph_cost alpha s (selected_by (build_graph alpha s) col alpha) := by
  rw [cut_value_formula alpha s hk col,
    cut_nodes_sum alpha s _ col (fun c hc => occ_cost_move alpha s hk hU c hc),
    cut_conflicts_sum, cut_calls_sum]
  rfl

theorem graph_cost_congr (alpha : Int) (s : GraphCutDisparity) (sel sel' : Correspondence → Prop)
    [DecidablePred sel] [DecidablePred sel']
    (h : ∀ c, Considered alpha s c → (sel c ↔ sel' c)) :
    graph_cost alpha s sel = graph_cost alpha s sel' := by
  unfold graph_cost
  congr 1
  · congr 1
    · apply Finset.sum_congr rfl
      intro c hc
      rw [mem_toFinset_considered] at hc
      simp only [h c hc]
    · apply Finset.sum_congr rfl
      intro c hc
      apply Finset.sum_congr rfl
      intro a ha
      rw [List.mem_toFinset, mem_active_list] at hc
      rw [List.mem_toFinset, mem_alpha_list] at ha
      simp only [h c (Or.inl hc), h a (Or.inr ha)]
  · congr 1
    apply Finset.sum_congr rfl
    intro p hp
    rw [List.mem_toFinset] at hp
    have hm := (mem_neighbor_edge_calls alpha s p.1 p.2).mp hp
    have h2 := valid_neighbor_considered alpha s p.1 p.2 hm.1 hm.2.1 hm.2.2.1
    simp only [h p.1 hm.1, h p.2 h2]

theorem filter_considered_congr (alpha : Int) (s : GraphCutDisparity)
    (sel sel' : Correspondence → Prop) [DecidablePred sel] [DecidablePred sel']
    (h : ∀ c, Considered alpha s c → (sel c ↔ sel' c)) :
    (considered_list alpha s).toFinset.filter sel
      = (considered_list alpha s).toFinset.filter sel' := by
  apply Finset.filter_congr
  intro c hc
  rw [mem_toFinset_considered] at hc
  exact h c hc

theorem open_neighbors_alpha (alpha : Int) (s : GraphCutDisparity) (a : Correspondence)
    (ha : a.d = alpha) :
    (four_neighbors a).filter (fun n => decide (within_bounds s n ∧ ¬ Considered alpha s n))
      = [] := by
  rw [List.filter_eq_nil_iff]
  intro n hn
  have hadj := (mem_four_neighbors a n).mp hn
  simp only [decide_eq_true_eq, not_and, not_not]
  intro hw
  exact Or.inr ⟨hadj.1.symm.trans ha, hw⟩

/-- A selection that keeps fewer active correspondences leaves fewer pairs with
neighbours outside the move. -/
theorem kept_open_mono (alpha : Int) (s : GraphCutDisparity) (sel sel' : Correspondence → Prop)
    [DecidablePred sel] [DecidablePred sel']
    (h : ∀ c, ActiveInMove alpha s c → sel c → sel' c) :
    kept_open alpha s sel ≤ kept_open alpha s sel' := by
  unfold kept_open
  rw [Finset.sum_filter, Finset.sum_filter]
  apply Finset.sum_le_sum
  intro c hc
  rw [mem_toFinset_considered] at hc
  rcases hc with hc | hc
  · by_cases h1 : sel c
    · rw [if_pos h1, if_pos (h c hc h1)]
    · rw [if_neg h1]
      split_ifs
      · exact Int.natCast_nonneg _
      · exact le_refl _
  · rw [open_neighbors_alpha alpha s c hc.1]
    simp

theorem all_active_eq_filter (alpha : Int) (hhi : alpha ≤ -1) (s : GraphCutDisparity)
    (hb : ActiveWithinBounds s) :
    (all_active s).toFinset = (considered_list alpha s).toFinset.filter (fun c => is_active s c) := by
  ext c
  rw [List.mem_toFinset, mem_all_active, Finset.mem_filter, mem_toFinset_considered]
  constructor
  · rintro ⟨h1, h2, h3⟩
    refine ⟨?_, h2⟩
    by_cases hd : c.d = alpha
    · right
      refine ⟨hd, ?_⟩
      exact all_active_within s hb c ((mem_all_active s c).mpr ⟨h1, h2, h3⟩)
    · exact Or.inl ⟨h1, h2, h3, hd⟩
  · rintro ⟨h1, h2⟩
    refine ⟨considered_inImage alpha s c h1, h2, ?_⟩
    rcases h1 with h1 | h1
    · exact h1.2.2.1
    · rw [h1.1]
      omega

theorem active_conflict_free (alpha : Int) (hhi : alpha ≤ -1) (s : GraphCutDisparity)
    (hU : Unique s.pair.rows s.pair.cols s.pair.disparity_left) :
    ∀ c, ActiveInMove alpha s c → ∀ a, AlphaInMove alpha s a → SharesPixel c a →
      ¬ (is_active s c ∧ is_active s a) := by
  rintro c hc a ha hsh ⟨_, h2⟩
  have hc0 : ActiveInMove NULL_DISPARITY s c := ⟨hc.1, hc.2.1, hc.2.2.1, hc.2.2.1⟩
  have hnz : a.d ≠ NULL_DISPARITY := by
    rw [ha.1]
    unfold NULL_DISPARITY
    omega
  have ha0 : ActiveInMove NULL_DISPARITY s a :=
    ⟨within_bounds_inImage s a ha.2, h2, hnz, hnz⟩
  have hne : c ≠ a := by
    intro e
    apply hc.2.2.2
    rw [e]
    exact ha.1
  obtain ⟨hy, hx⟩ := hsh
  rcases hx with hx | hx
  · exact hne (active_same_left NULL_DISPARITY s c a hc0 ha0 hy hx)
  · exact hne (active_same_right NULL_DISPARITY s hU c a hc0 ha0 hy hx)

theorem config_energy_congr (s t : GraphCutDisparity) (h : SameImages s t)
    (X : Finset Correspondence) : config_energy t X = config_energy s X := by
  obtain ⟨h1, h2, h3, h4, h5, h6, _, _⟩ := h
  unfold config_energy within_bounds data_cost
  simp only [h1, h2, h3, h4, h5, h6]

theorem keep_coloring_selects (alpha : Int) (s : GraphCutDisparity) (hk : KeyedMove alpha s)
    (c : Correspondence) (hc : Considered alpha s c) :
    selected_by (build_graph alpha s) (keep_coloring alpha s) alpha c ↔ is_active s c := by
  have hm := (mem_considered_list alpha s c).mpr hc
  have hidx := (build_graph_index alpha s hk c hm).1
  have hcol : keep_coloring alpha s (get_vertex (build_graph alpha s) c)
      = if c.d = alpha ∧ is_active s c then Color.white else Color.black := by
    unfold get_vertex keep_coloring
    rw [hidx, Nat.add_sub_cancel_left, List.getElem?_indexOf hm]
  unfold selected_by black_node
  rw [hcol]
  by_cases hd : c.d = alpha
  · by_cases ha : is_active s c
    · simp [hd, ha]
    · simp [hd, ha]
  · rcases hc with hc | hc
    · simp [hd, hc.2.1]
    · exact absurd hc.1 hd

theorem node_color_cut_graph (flow : GraphCutDisparity → Nat → Color) (alpha : Int)
    (s : GraphCutDisparity) (c : Correspondence) :
    node_color (cut_graph flow alpha s) c
      = flow (build_graph alpha s) (get_vertex (build_graph alpha s) c) := by
  simp only [node_color, cut_graph, get_vertex, get_index, correspondence_hash]

theorem selected_after_cut_graph (flow : GraphCutDisparity → Nat → Color) (alpha : Int)
    (s : GraphCutDisparity) (c : Correspondence) :
    selected_after (cut_graph flow alpha s) alpha c
      ↔ selected_by (build_graph alpha s) (flow (build_graph alpha s)) alpha c := by
  unfold selected_after selected_by black_node
  rw [node_color_cut_graph]

theorem activeInMove_same (alpha : Int) (s t : GraphCutDisparity) (h : t.pair = s.pair)
    (c : Correspondence) : ActiveInMove alpha t c ↔ ActiveInMove alpha s c := by
  unfold ActiveInMove InImage is_active
  rw [h]

theorem alphaInMove_same (alpha : Int) (s t : GraphCutDisparity) (h : t.pair = s.pair)
    (c : Correspondence) : AlphaInMove alpha t c ↔ AlphaInMove alpha s c := by
  unfold AlphaInMove within_bounds
  rw [h]

theorem considered_same (alpha : Int) (s t : GraphCutDisparity) (h : t.pair = s.pair)
    (c : Correspondence) : Considered alpha t c ↔ Considered alpha s c := by
  unfold Considered
  rw [activeInMove_same alpha s t h, alphaInMove_same alpha s t h]

theorem cut_graph_sameImages (flow : GraphCutDisparity → Nat → Color) (alpha : Int)
    (s : GraphCutDisparity) (hk : KeyedMove alpha s) : SameImages s (cut_graph flow alpha s) := by
  obtain ⟨_, _, _, _, hp, hCp, hV, hmin, hmax⟩ := build_graph_edges alpha s hk
  have e1 : (cut_graph flow alpha s).pair = (build_graph alpha s).pair := by
    simp only [cut_graph]
  have e2 : (cut_graph flow alpha s).Cp = (build_graph alpha s).Cp := by
    simp only [cut_graph]
  have e3 : (cut_graph flow alpha s).V_smooth = (build_graph alpha s).V_smooth := by
    simp only [cut_graph]
  have e4 : (cut_graph flow alpha s).min_disparity = (build_graph alpha s).min_disparity := by
    simp only [cut_graph]
  have e5 : (cut_graph flow alpha s).max_disparity = (build_graph alpha s).max_disparity := by
    simp only [cut_graph]
  unfold SameImages
  rw [e1, e2, e3, e4, e5, hp, hCp, hV, hmin, hmax]
  exact ⟨rfl, rfl, rfl, rfl, rfl, rfl, rfl, rfl⟩

theorem sameImages_trans (s t u : GraphCutDisparity) (h1 : SameImages s t)
    (h2 : SameImages t u) : SameImages s u := by
  obtain ⟨a1, a2, a3, a4, a5, a6, a7, a8⟩ := h1
  obtain ⟨b1, b2, b3, b4, b5, b6, b7, b8⟩ := h2
  exact ⟨b1.trans a1, b2.trans a2, b3.trans a3, b4.trans a4, b5.trans a5, b6.trans a6,
    b7.trans a7, b8.trans a8⟩

/-- One move of a feasible state, led by a minimum cut that cuts no conflict edge,
does not increase the energy. -/
theorem move_energy_le (flow : GraphCutDisparity → Nat → Color) (alpha : Int)
    (s : GraphCutDisparity) (hF : Feasible s)
    (ha : -s.max_disparity ≤ alpha ∧ alpha ≤ -s.min_disparity) (hV : 0 ≤ s.V_smooth)
    (hmin : IsMinCut (build_graph alpha s) (flow (build_graph alpha s)))
    (hcut : CutsNoConflictEdge (cut_graph flow alpha s) alpha) :
    energy (run_alpha_expansion flow alpha s) ≤ energy s := by
  have hk := feasible_keyed alpha s hF ha
  have hFu := run_alpha_expansion_feasible flow alpha s hF ha hcut
  have hFc := cut_graph_feasible flow alpha s hF
  obtain ⟨hmM, _, hb, hU⟩ := hF
  have hlo : -255 ≤ alpha := by omega
  have hhi : alpha ≤ -1 := by omega
  have hpair : (cut_graph flow alpha s).pair = s.pair := (cut_graph_samePair flow alpha s).1
  have hSI : SameImages s (run_alpha_expansion flow alpha s) := by
    rw [run_alpha_expansion_eq]
    exact sameImages_trans _ _ _ (cut_graph_sameImages flow alpha s hk)
      (update_correspondences_sameImages alpha _)
  have hNCc := conflict_free_of_cuts alpha _ hcut
  have hNC : ∀ c, ActiveInMove alpha s c → ∀ a, AlphaInMove alpha s a → SharesPixel c a →
      ¬ (selected_by (build_graph alpha s) (flow (build_graph alpha s)) alpha c ∧
        selected_by (build_graph alpha s) (flow (build_graph alpha s)) alpha a) := by
    intro c hc a ha' hsh
    rw [← selected_after_cut_graph, ← selected_after_cut_graph]
    exact hNCc c ((activeInMove_same alpha s _ hpair c).mpr hc) a
      ((alphaInMove_same alpha s _ hpair a).mpr ha') hsh
  have hact : (all_active (run_alpha_expansion flow alpha s)).toFinset
      = (considered_list alpha s).toFinset.filter
          (selected_by (build_graph alpha s) (flow (build_graph alpha s)) alpha) := by
    ext c
    rw [List.mem_toFinset, run_alpha_expansion_eq,
      mem_all_active_update alpha hlo hhi _ hFc.2.2.1 hNCc c, Finset.mem_filter,
      mem_toFinset_considered, considered_same alpha s _ hpair, selected_after_cut_graph]
  have e1 : energy (run_alpha_expansion flow alpha s)
      = cut_value (build_graph alpha s) (flow (build_graph alpha s)) + move_constant alpha s
        + s.V_smooth * kept_open alpha s
            (selected_by (build_graph alpha s) (flow (build_graph alpha s)) alpha) := by
    rw [energy_eq_config _ hFu.2.2.2 hFu.2.2.1, config_energy_congr s _ hSI, hact,
      config_energy_selection alpha s hk hb _ hNC, cut_value_eq_graph_cost alpha s hk hU]
  have e2 : energy s
      = cut_value (build_graph alpha s) (keep_coloring alpha s) + move_constant alpha s
        + s.V_smooth * kept_open alpha s (fun c => is_active s c) := by
    rw [energy_eq_config s hU hb, all_active_eq_filter alpha hhi s hb,
      config_energy_selection alpha s hk hb _ (active_conflict_free alpha hhi s hU),
      cut_value_eq_graph_cost alpha s hk hU,
      graph_cost_congr alpha s _ _ (keep_coloring_selects alpha s hk)]
  have h1 := hmin (keep_coloring alpha s)
  have h2 : kept_open alpha s
        (selected_by (build_graph alpha s) (flow (build_graph alpha s)) alpha)
      ≤ kept_open alpha s (fun c => is_active s c) :=
    kept_open_mono alpha s _ _ (fun c hc _ => hc.2.1)
  rw [e1, e2]
  have h3 := mul_le_mul_of_nonneg_left h2 hV
  linarith

theorem occ_cost_nonneg (s : GraphCutDisparity) (hCp : 0 ≤ s.Cp) (c : Correspondence) :
    0 ≤ occ_cost s c := by
  unfold occ_cost
  simp only []
  apply mul_nonneg hCp
  split_ifs <;> omega

theorem list_sum_nonneg (l : List Int) (h : ∀ x ∈ l, 0 ≤ x) : 0 ≤ l.sum := by
  induction l with
  | nil => simp
  | cons a l ih =>
    rw [List.sum_cons]
    have h1 := h a (List.mem_cons_self a l)
    have h2 := ih (fun x hx => h x (List.mem_cons_of_mem a hx))
    omega

theorem list_single_le_sum (l : List Int) (h : ∀ x ∈ l, 0 ≤ x) (a : Int) (ha : a ∈ l) :
    a ≤ l.sum := by
  induction l with
  | nil => exact absurd ha (List.not_mem_nil a)
  | cons b l ih =>
    rw [List.sum_cons]
    have hb := h b (List.mem_cons_self b l)
    have hl := list_sum_nonneg l (fun x hx => h x (List.mem_cons_of_mem b hx))
    rcases List.mem_cons.mp ha with e | e
    · omega
    · have := ih (fun x hx => h x (List.mem_cons_of_mem b hx)) e
      omega

/-- A cut of the graph of a move whose value is below `INT_MAX` cuts no conflict
edge, when the costs `C_p` and `V` are not negative. -/
theorem finite_cut_no_conflict (alpha : Int) (s : GraphCutDisparity) (hk : KeyedMove alpha s)
    (hCp : 0 ≤ s.Cp) (hV : 0 ≤ s.V_smooth) (col : Nat → Color)
    (hfin : cut_value (build_graph alpha s) col < INT_MAX)
    (c : Correspondence) (hc : c ∈ active_list alpha s) (a : Correspondence)
    (ha : a ∈ get_conflicts s c alpha) :
    ¬ (black_node (build_graph alpha s) col c ∧ ¬ black_node (build_graph alpha s) col a) := by
  intro hbad
  obtain ⟨_, _, _, _, _, hCpB, _, _, _⟩ := build_graph_edges alpha s hk
  have hCpB' : 0 ≤ (build_graph alpha s).Cp := by rw [hCpB]; exact hCp
  rw [cut_value_formula alpha s hk col] at hfin
  have hIM : (0 : Int) ≤ INT_MAX := by unfold INT_MAX; omega
  have h1 : 0 ≤ ((considered_list alpha s).map (fun c =>
      if c.d = alpha then
        (if black_node (build_graph alpha s) col c then occ_cost (build_graph alpha s) c
         else data_cost s c)
      else
        (if black_node (build_graph alpha s) col c then data_cost s c
         else occ_cost (build_graph alpha s) c))).sum := by
    apply list_sum_nonneg
    intro x hx
    obtain ⟨c', _, rfl⟩ := List.mem_map.mp hx
    split_ifs
    · exact occ_cost_nonneg _ hCpB' c'
    · exact data_cost_nonneg s c'
    · exact data_cost_nonneg s c'
    · exact occ_cost_nonneg _ hCpB' c'
  have h3 : 0 ≤ ((neighbor_edge_calls alpha s).map (fun p =>
      (if black_node (build_graph alpha s) col p.1 ∧
          ¬ black_node (build_graph alpha s) col p.2 then s.V_smooth else 0)
      + (if black_node (build_graph alpha s) col p.2 ∧
          ¬ black_node (build_graph alpha s) col p.1 then s.V_smooth else 0))).sum := by
    apply list_sum_nonneg
    intro x hx
    obtain ⟨p, _, rfl⟩ := List.mem_map.mp hx
    split_ifs <;> omega
  have hterm : ∀ (c' a' : Correspondence),
      0 ≤ (if black_node (build_graph alpha s) col c' ∧
            ¬ black_node (build_graph alpha s) col a' then INT_MAX else 0)
          + (if black_node (build_graph alpha s) col a' ∧
              ¬ black_node (build_graph alpha s) col c' then s.Cp else 0) := by
    intro c' a'
    split_ifs <;> omega
  have hinner : ∀ c' : Correspondence, 0 ≤ ((get_conflicts s c' alpha).map (fun a =>
      (if black_node (build_graph alpha s) col c' ∧ ¬ black_node (build_graph alpha s) col a
        then INT_MAX else 0)
      + (if black_node (build_graph alpha s) col a ∧
          ¬ black_node (build_graph alpha s) col c' then s.Cp else 0))).sum := by
    intro c'
    apply list_sum_nonneg
    intro x hx
    obtain ⟨a', _, rfl⟩ := List.mem_map.mp hx
    exact hterm c' a'
  have h2 : INT_MAX ≤ ((active_list alpha s).map (fun c =>
      ((get_conflicts s c alpha).map (fun a =>
        (if black_node (build_graph alpha s) col c ∧ ¬ black_node (build_graph alpha s) col a
          then INT_MAX else 0)
        + (if black_node (build_graph alpha s) col a ∧
            ¬ black_node (build_graph alpha s) col c then s.Cp else 0))).sum)).sum := by
    have hin : INT_MAX ≤ ((get_conflicts s c alpha).map (fun a =>
        (if black_node (build_graph alpha s) col c ∧ ¬ black_node (build_graph alpha s) col a
          then INT_MAX else 0)
        + (if black_node (build_graph alpha s) col a ∧
            ¬ black_node (build_graph alpha s) col c then s.Cp else 0))).sum := by
      refine le_trans ?_ (list_single_le_sum _ ?_ _ (List.mem_map.mpr ⟨a, ha, rfl⟩))
      · rw [if_pos hbad, if_neg (fun e => hbad.2 e.1)]
        omega
      · intro x hx
        obtain ⟨a', _, rfl⟩ := List.mem_map.mp hx
        exact hterm c a'
    refine le_trans hin (list_single_le_sum _ ?_ _ (List.mem_map.mpr ⟨c, hc, rfl⟩))
    intro x hx
    obtain ⟨c', _, rfl⟩ := List.mem_map.mp hx
    exact hinner c'
  omega

/-- A colouring of the graph of a move whose cut has a value below `INT_MAX` cuts no
conflict edge. -/
theorem finite_cut_cuts_no_conflict_edge (flow : GraphCutDisparity → Nat → Color)
    (alpha : Int) (s : GraphCutDisparity) (hk : KeyedMove alpha s)
    (hCp : 0 ≤ s.Cp) (hV : 0 ≤ s.V_smooth)
    (hfin : cut_value (build_graph alpha s) (flow (build_graph alpha s)) < INT_MAX) :
    CutsNoConflictEdge (cut_graph flow alpha s) alpha := by
  have hpair : (cut_graph flow alpha s).pair = s.pair := (cut_graph_samePair flow alpha s).1
  intro y hy x hx
  simp only []
  intro hnz hd c' hc'
  rw [node_color_cut_graph, node_color_cut_graph]
  rw [get_conflicts_same s _ hpair] at hc'
  rw [hpair] at hy hx hc' hnz hd ⊢
  refine finite_cut_no_conflict alpha s hk hCp hV _ hfin _ ?_ c' hc'
  rw [mem_active_list]
  refine ⟨⟨by simp, by simp; omega, by simp, by simp; omega⟩, ?_, hnz, hd⟩
  unfold is_active
  simp

theorem run_alpha_expansion_sameImages (flow : GraphCutDisparity → Nat → Color) (alpha : Int)
    (s : GraphCutDisparity) (hk : KeyedMove alpha s) :
    SameImages s (run_alpha_expansion flow alpha s) := by
  rw [run_alpha_expansion_eq]
  exact sameImages_trans _ _ _ (cut_graph_sameImages flow alpha s hk)
    (update_correspondences_sameImages alpha _)

/-- One move of a feasible state with costs that are not negative, led by a minimum
cut of a value below `INT_MAX`: the energy does not increase and the state stays
feasible. -/
theorem min_cut_move (flow : GraphCutDisparity → Nat → Color) (alpha : Int)
    (s : GraphCutDisparity) (hF : Feasible s)
    (ha : -s.max_disparity ≤ alpha ∧ alpha ≤ -s.min_disparity)
    (hCp : 0 ≤ s.Cp) (hV : 0 ≤ s.V_smooth)
    (hmin : IsMinCut (build_graph alpha s) (flow (build_graph alpha s)))
    (hfin : cut_value (build_graph alpha s) (flow (build_graph alpha s)) < INT_MAX) :
    energy (run_alpha_expansion flow alpha s) ≤ energy s ∧
    Feasible (run_alpha_expansion flow alpha s) ∧
    SameImages s (run_alpha_expansion flow alpha s) := by
  have hk := feasible_keyed alpha s hF ha
  have hcut := finite_cut_cuts_no_conflict_edge flow alpha s hk hCp hV hfin
  exact ⟨move_energy_le flow alpha s hF ha hV hmin hcut,
    run_alpha_expansion_feasible flow alpha s hF ha hcut,
    run_alpha_expansion_sameImages flow alpha s hk⟩

theorem moves_energy_le (flow : GraphCutDisparity → Nat → Color) (l : List Int)
    (s : GraphCutDisparity) (hF : Feasible s) (hCp : 0 ≤ s.Cp) (hV : 0 ≤ s.V_smooth)
    (hl : ∀ d ∈ l, s.min_disparity ≤ d ∧ d ≤ s.max_disparity)
    (hg : MinCutMoves flow s l) :
    energy (l.foldl (fun t d => run_alpha_expansion flow (-d) t) s) ≤ energy s := by
  induction l generalizing s with
  | nil => exact le_refl _
  | cons d ds ih =>
    obtain ⟨⟨hmin, hfin⟩, hrest⟩ := hg
    have hd := hl d (List.mem_cons_self d ds)
    obtain ⟨h1, h2, h3⟩ := min_cut_move flow (-d) s hF ⟨by omega, by omega⟩ hCp hV hmin hfin
    obtain ⟨_, _, _, _, e5, e6, e7, e8⟩ := h3
    rw [List.foldl_cons]
    refine le_trans (ih _ h2 (by rw [e5]; exact hCp) (by rw [e6]; exact hV) ?_ hrest) h1
    intro d' hd'
    rw [e7, e8]
    exact hl d' (List.mem_cons_of_mem d hd')

theorem mem_iteration_labels (s : GraphCutDisparity) (d : Int) (h : d ∈ iteration_labels s) :
    s.min_disparity ≤ d ∧ d ≤ s.max_disparity := by
  unfold iteration_labels at h
  obtain ⟨k, hk, rfl⟩ := List.mem_map.mp h
  rw [List.mem_range] at hk
  omega

/-- A full iteration of a feasible state, every move led by a minimum cut of a value
below `INT_MAX`, does not increase the energy. -/
theorem iteration_energy_le (flow : GraphCutDisparity → Nat → Color)
    (s : GraphCutDisparity) (hF : Feasible s) (hCp : 0 ≤ s.Cp) (hV : 0 ≤ s.V_smooth)
    (hg : MinCutMoves flow s (iteration_labels s)) :
    energy (run_iteration flow s).1 ≤ energy s := by
  rw [run_iteration_fold]
  exact moves_energy_le flow _ s hF hCp hV (mem_iteration_labels s) hg

theorem cut_value_nonneg (s : GraphCutDisparity) (h : ∀ e ∈ s.g.edges, 0 ≤ e.capacity)
    (col : Nat → Color) : 0 ≤ cut_value s col := by
  unfold cut_value cut_of_edges
  apply list_sum_nonneg
  intro x hx
  obtain ⟨e, he, rfl⟩ := List.mem_map.mp hx
  split_ifs
  · exact h e he
  · exact le_refl _

theorem isMinCut_of_zero (s : GraphCutDisparity) (h : ∀ e ∈ s.g.edges, 0 ≤ e.capacity)
    (col : Nat → Color) (h0 : cut_value s col = 0) : IsMinCut s col := by
  intro col'
  rw [h0]
  exact cut_value_nonneg s h col'

/-- In the iteration started in `stateThree`, the colouring of `flowThree` is for each
of the three moves a minimum cut of the graph of the move, of value 0. -/
theorem flowThree_min_cuts : MinCutMoves flowThree stateThree (iteration_labels stateThree) := by
  have hl : iteration_labels stateThree = [1, 2, 3] := by decide
  have a0 : cut_value (build_graph (-1) stateThree)
      (flowThree (build_graph (-1) stateThree)) = 0 := by decide!
  have a1 : ∀ e ∈ (build_graph (-1) stateThree).g.edges, 0 ≤ e.capacity := by decide!
  have b0 : cut_value (build_graph (-2) (run_alpha_expansion flowThree (-1) stateThree))
      (flowThree (build_graph (-2) (run_alpha_expansion flowThree (-1) stateThree))) = 0 := by
    decide!
  have b1 : ∀ e ∈ (build_graph (-2) (run_alpha_expansion flowThree (-1) stateThree)).g.edges,
      0 ≤ e.capacity := by decide!
  have c0 : cut_value (build_graph (-3) (run_alpha_expansion flowThree (-2)
        (run_alpha_expansion flowThree (-1) stateThree)))
      (flowThree (build_graph (-3) (run_alpha_expansion flowThree (-2)
        (run_alpha_expansion flowThree (-1) stateThree)))) = 0 := by decide!
  have c1 : ∀ e ∈ (build_graph (-3) (run_alpha_expansion flowThree (-2)
      (run_alpha_expansion flowThree (-1) stateThree))).g.edges, 0 ≤ e.capacity := by decide!
  have hz : (0 : Int) < INT_MAX := by decide
  rw [hl]
  exact ⟨⟨isMinCut_of_zero _ a1 _ a0, by rw [a0]; exact hz⟩,
    ⟨isMinCut_of_zero _ b1 _ b0, by rw [b0]; exact hz⟩,
    ⟨isMinCut_of_zero _ c1 _ c0, by rw [c0]; exact hz⟩, trivial⟩

/-! ## Row locality of the cross-check -/

theorem forLoop_rel {σ : Type} (R : σ → σ → Prop) (n : Nat) (body : Nat → σ → σ)
    (hstep : ∀ k, k < n → ∀ t u, R t u → R (body k t) (body k u)) (s s' : σ) (h : R s s') :
    R (forLoop n body s) (forLoop n body s') := by
  induction n with
  | zero => exact h
  | succ n ih =>
    rw [forLoop_succ, forLoop_succ]
    exact hstep n (Nat.lt_succ_self n) _ _
      (ih (fun k hk t u htu => hstep k (Nat.lt_succ_of_lt hk) t u htu))

theorem ccp_left_eq (cols i j : Nat) (s : Mat Nat × Mat Nat) :
    (cross_check_pixel cols i j s).1
      = if ((j : Int) - (s.1.px i j : Int) < 0 ∨ (j : Int) - (s.1.px i j : Int) ≥ (cols : Int)) ∨
          |(s.2.px i ((j : Int) - (s.1.px i j : Int)) : Int) - (s.1.px i j : Int)| > 2
        then s.1.set i j 0 else s.1 := by
  simp only [cross_check_pixel]
  split_ifs <;> first | rfl | tauto

theorem ccp_right_eq (cols i j : Nat) (s : Mat Nat × Mat Nat) :
    (cross_check_pixel cols i j s).2
      = if ((j : Int) + (s.2.px i j : Int) < 0 ∨ (j : Int) + (s.2.px i j : Int) ≥ (cols : Int)) ∨
          |((cross_check_pixel cols i j s).1.px i ((j : Int) + (s.2.px i j : Int)) : Int)
            - (s.2.px i j : Int)| > 2
        then s.2.set i j 0 else s.2 := by
  simp only [cross_check_pixel]
  split_ifs <;> first | rfl | tauto

/-- One step of the cross-check at a pixel of row `i` reads and writes row `i` only:
on two states with the same row `i` it gives the same row `i`. -/
theorem ccp_sameRow (cols i j : Nat) (hj : j < cols) (s t : Mat Nat × Mat Nat)
    (h : SameRow cols i s t) :
    SameRow cols i (cross_check_pixel cols i j s) (cross_check_pixel cols i j t) := by
  have hjj := h (j : Int) (by omega) (by omega)
  have hl : ∀ b : Int, 0 ≤ b → b < (cols : Int) →
      (cross_check_pixel cols i j s).1.px i b = (cross_check_pixel cols i j t).1.px i b := by
    intro b hb0 hb1
    rw [ccp_left_eq, ccp_left_eq, ← hjj.1]
    by_cases hr : (j : Int) - (s.1.px i j : Int) < 0 ∨ (j : Int) - (s.1.px i j : Int) ≥ (cols : Int)
    · rw [if_pos (Or.inl hr), if_pos (Or.inl hr), Mat.set_px, Mat.set_px, (h b hb0 hb1).1]
    · have hjr := (h ((j : Int) - (s.1.px i j : Int)) (by omega) (by omega)).2
      rw [← hjr]
      split_ifs
      · rw [Mat.set_px, Mat.set_px, (h b hb0 hb1).1]
      · exact (h b hb0 hb1).1
  intro b hb0 hb1
  refine ⟨hl b hb0 hb1, ?_⟩
  rw [ccp_right_eq, ccp_right_eq, ← hjj.2]
  by_cases hr : (j : Int) + (s.2.px i j : Int) < 0 ∨ (j : Int) + (s.2.px i j : Int) ≥ (cols : Int)
  · rw [if_pos (Or.inl hr), if_pos (Or.inl hr), Mat.set_px, Mat.set_px, (h b hb0 hb1).2]
  · have hjl := hl ((j : Int) + (s.2.px i j : Int)) (by omega) (by omega)
    rw [← hjl]
    split_ifs
    · rw [Mat.set_px, Mat.set_px, (h b hb0 hb1).2]
    · exact (h b hb0 hb1).2

/-- One step of the cross-check at a pixel of another row leaves row `i` alone. -/
theorem ccp_otherRow (cols k j : Nat) (i : Int) (hk : i ≠ (k : Int)) (s t : Mat Nat × Mat Nat)
    (h : SameRow cols i s t) :
    SameRow cols i (cross_check_pixel cols k j s) (cross_check_pixel cols k j t) := by
  intro b hb0 hb1
  rw [ccp_left_frame cols k j s i b (Or.inl hk), ccp_left_frame cols k j t i b (Or.inl hk),
    ccp_right_frame cols k j s i b (Or.inl hk), ccp_right_frame cols k j t i b (Or.inl hk)]
  exact h b hb0 hb1

/-- The cross-check is local to rows: on two inputs with the same row `i` it gives the
same row `i`. -/
theorem cross_check_sameRow (rows cols : Nat) (i : Int) (s t : Mat Nat × Mat Nat)
    (h : SameRow cols i s t) :
    SameRow cols i (cross_check rows cols s) (cross_check rows cols t) := by
  unfold cross_check
  refine forLoop_rel (SameRow cols i) rows _ ?_ s t h
  intro k _ u v huv
  refine forLoop_rel (SameRow cols i) cols _ ?_ u v huv
  intro j hj u' v' huv'
  by_cases hk : i = (k : Int)
  · subst hk
    exact ccp_sameRow cols k j hj u' v' huv'
  · exact ccp_otherRow cols k j i hk u' v' huv'

/-! ## Consistency of the two maps along the run -/

/-- The first loop of `update_correspondences` changes `disparity_right` only at the
right pixel of a visited correspondence whose node is not black. -/
theorem update_active_right_changed (alpha : Int) (s0 s : GraphCutDisparity)
    (hs : SameGraph s0 s) (a b : Int)
    (hne : (for_each_active update_active alpha s).pair.disparity_right.px a b
      ≠ s.pair.disparity_right.px a b) :
    ∃ y x : Nat, y < s.pair.rows ∧ x < s.pair.cols ∧
      (-(s.pair.disparity_left.px y x : Int) ≠ NULL_DISPARITY ∧
        -(s.pair.disparity_left.px y x : Int) ≠ alpha) ∧
      node_color s0 ⟨x, y, -(s.pair.disparity_left.px y x : Int)⟩ ≠ Color.black ∧
      a = (y : Int) ∧ b = (x : Int) + -(s.pair.disparity_left.px y x : Int) := by
  revert hne
  unfold for_each_active
  have key := forPixels_acc_fresh s.pair.rows s.pair.cols
    (fun y x t =>
      if -(t.pair.disparity_left.px y x : Int) ≠ NULL_DISPARITY ∧
          -(t.pair.disparity_left.px y x : Int) ≠ alpha
        then update_active ⟨x, y, -(t.pair.disparity_left.px y x : Int)⟩ t else t)
    (fun P t => SameGraph s0 t ∧
      (∀ i j : Nat, ¬ P i j → t.pair.disparity_left.px i j = s.pair.disparity_left.px i j) ∧
      (t.pair.disparity_right.px a b ≠ s.pair.disparity_right.px a b →
        ∃ i j : Nat, P i j ∧
          (-(s.pair.disparity_left.px i j : Int) ≠ NULL_DISPARITY ∧
            -(s.pair.disparity_left.px i j : Int) ≠ alpha) ∧
          node_color s0 ⟨j, i, -(s.pair.disparity_left.px i j : Int)⟩ ≠ Color.black ∧
          a = (i : Int) ∧ b = (j : Int) + -(s.pair.disparity_left.px i j : Int)))
    (by
      intro P Q t hPQ ⟨h1, h2, h3⟩
      refine ⟨h1, fun i j hn => h2 i j (fun hp => hn ((hPQ i j).mp hp)), ?_⟩
      intro hne
      obtain ⟨i, j, hp, r⟩ := h3 hne
      exact ⟨i, j, (hPQ i j).mp hp, r⟩)
    (by
      intro y x P t hy hx hnew ⟨h1, h2, h3⟩
      have hold := h2 y x hnew
      have hcol := node_color_same s0 t h1 ⟨x, y, -(t.pair.disparity_left.px y x : Int)⟩
      simp only []
      by_cases hc : -(t.pair.disparity_left.px y x : Int) ≠ NULL_DISPARITY ∧
          -(t.pair.disparity_left.px y x : Int) ≠ alpha
      · rw [if_pos hc]
        refine ⟨update_active_sameGraph s0 _ t h1, ?_, ?_⟩
        · intro i j hn
          push_neg at hn
          rw [update_active_left]
          have hij : ¬ ((i : Int) = (y : Int) ∧ (j : Int) = (x : Int)) := by
            intro h
            exact hn.2 (by exact_mod_cast h.1) (by exact_mod_cast h.2)
          split_ifs
          · exact h2 i j hn.1
          · exact h2 i j hn.1
        · rw [update_active_right]
          by_cases hb : node_color t ⟨x, y, -(t.pair.disparity_left.px y x : Int)⟩ = Color.black
          · rw [if_pos hb]
            intro hne
            obtain ⟨i, j, hp, r⟩ := h3 hne
            exact ⟨i, j, Or.inl hp, r⟩
          · rw [if_neg hb]
            by_cases hab : a = (y : Int) ∧
                b = (x : Int) + -(t.pair.disparity_left.px y x : Int)
            · intro _
              rw [hold] at hc hcol hab hb
              rw [hcol] at hb
              exact ⟨y, x, Or.inr ⟨rfl, rfl⟩, hc, hb, hab.1, hab.2⟩
            · simp only [] at hab ⊢
              rw [if_neg hab]
              intro hne
              obtain ⟨i, j, hp, r⟩ := h3 hne
              exact ⟨i, j, Or.inl hp, r⟩
      · rw [if_neg hc]
        refine ⟨h1, fun i j hn => h2 i j (fun hp => hn (Or.inl hp)), ?_⟩
        intro hne
        obtain ⟨i, j, hp, r⟩ := h3 hne
        exact ⟨i, j, Or.inl hp, r⟩)
    s ⟨hs, fun _ _ _ => rfl, fun h => absurd rfl h⟩
  obtain ⟨_, _, k3⟩ := key
  intro hne
  obtain ⟨i, j, ⟨hi, hj⟩, r⟩ := k3 hne
  exact ⟨i, j, hi, hj, r⟩

/-- The value of `disparity_right` after the first loop of `update_correspondences`,
in a consistent state: the pixel is nulled exactly when the active correspondence that
it stores is visited and its node is not black. -/
theorem right_after_deactivation_phase (alpha : Int) (s0 s : GraphCutDisparity)
    (hs : SameGraph s0 s) (hC : Consistent s) (x y : Int)
    (hy : 0 ≤ y ∧ y < (s.pair.rows : Int)) (hx : 0 ≤ x ∧ x < (s.pair.cols : Int)) (m : Nat)
    (hm : m = s.pair.disparity_right.px y x) :
    (for_each_active update_active alpha s).pair.disparity_right.px y x
      = if (-(m : Int) ≠ 0 ∧ -(m : Int) ≠ alpha) ∧
          node_color s0 ⟨x + (m : Int), y, -(m : Int)⟩ ≠ Color.black then 0 else m := by
  obtain ⟨hC1, hC2⟩ := hC
  have hyn : ((y.toNat : Nat) : Int) = y := Int.toNat_of_nonneg hy.1
  have hxn : ((x.toNat : Nat) : Int) = x := Int.toNat_of_nonneg hx.1
  by_cases hc : (-(m : Int) ≠ 0 ∧ -(m : Int) ≠ alpha) ∧
      node_color s0 ⟨x + (m : Int), y, -(m : Int)⟩ ≠ Color.black
  · rw [if_pos hc]
    have h2 := hC2 y.toNat (by omega) x.toNat (by omega)
    rw [hyn, hxn, ← hm] at h2
    obtain ⟨hlt, hL⟩ := h2 (by omega)
    obtain ⟨_, r2⟩ := update_active_right_phase alpha s0 s hs
    have h := r2 y.toNat (x + (m : Int)).toNat (by omega) (by omega)
    have hxm : (((x + (m : Int)).toNat : Nat) : Int) = x + (m : Int) :=
      Int.toNat_of_nonneg (by omega)
    rw [hyn, hxm, hL] at h
    have e : x + (m : Int) + -(m : Int) = x := by omega
    rw [e] at h
    exact h hc.1 hc.2
  · rw [if_neg hc, hm]
    by_contra hne
    obtain ⟨i, j, hi, hj, hcond, hnb, ha, hb⟩ :=
      update_active_right_changed alpha s0 s hs y x hne
    subst ha
    have h1 := hC1 i hi j hj (by
      unfold NULL_DISPARITY at hcond
      omega)
    have e : (j : Int) - (s.pair.disparity_left.px i j : Int) = x := by omega
    rw [e, ← hm] at h1
    apply hc
    have ej : x + (m : Int) = (j : Int) := by
      rw [h1.2]
      omega
    rw [ej, h1.2]
    exact ⟨hcond, hnb⟩

/-- The right map after `update_correspondences` in a consistent state, at a pixel
given by integer coordinates: the mirror image of `left_after_update`. -/
theorem right_after_update (alpha : Int) (hlo : -255 ≤ alpha) (hhi : alpha ≤ -1)
    (s : GraphCutDisparity) (hC : Consistent s) (x y : Int)
    (hy : 0 ≤ y ∧ y < (s.pair.rows : Int))
    (hx : 0 ≤ x ∧ x < (s.pair.cols : Int)) (m m1 : Nat)
    (hm : m = s.pair.disparity_right.px y x)
    (hm1 : m1 = if (-(m : Int) ≠ 0 ∧ -(m : Int) ≠ alpha) ∧
        node_color s ⟨x + (m : Int), y, -(m : Int)⟩ ≠ Color.black then 0 else m) :
    (update_correspondences alpha s).pair.disparity_right.px y x
      = if within_bounds s ⟨x - alpha, y, alpha⟩ then
          if node_color s ⟨x - alpha, y, alpha⟩ ≠ Color.black then
            (if (m1 : Int) = -alpha then m1 else ((-alpha) % 256).toNat)
          else (if (m1 : Int) = -alpha then 0 else m1)
        else m1 := by
  rw [update_correspondences_eq]
  have h0 : SameGraph s { s with changed := false } := ⟨rfl, rfl, rfl, rfl, rfl, rfl⟩
  have hC' : Consistent { s with changed := false } := hC
  obtain ⟨a1, a2, _, _⟩ := update_active_exact alpha s { s with changed := false } h0
  have hR1 := right_after_deactivation_phase alpha s { s with changed := false } h0 hC' x y
    hy hx m hm
  rw [← hm1] at hR1
  obtain ⟨b1, b2⟩ := update_alpha_right_phase alpha s
    (for_each_active update_active alpha { s with changed := false }) a1
  have hr : (for_each_active update_active alpha { s with changed := false }).pair.rows
      = s.pair.rows := a1.2.2.2.2.1
  have hcl : (for_each_active update_active alpha { s with changed := false }).pair.cols
      = s.pair.cols := a1.2.2.2.2.2
  rw [hr, hcl] at b1 b2
  have hyn : ((y.toNat : Nat) : Int) = y := Int.toNat_of_nonneg hy.1
  have hxn : ((x.toNat : Nat) : Int) = x := Int.toNat_of_nonneg hx.1
  have hm1A : (m1 : Int) = -alpha ↔ (m : Int) = -alpha := by
    rw [hm1]
    split_ifs with h
    · constructor
      · intro e
        simp only [Nat.cast_zero] at e
        omega
      · intro e
        exact absurd e (by omega)
    · rfl
  by_cases hin : x - alpha < (s.pair.cols : Int)
  · have hx0 : (((x - alpha).toNat : Nat) : Int) = x - alpha :=
      Int.toNat_of_nonneg (by omega)
    have h := b1 y.toNat (x - alpha).toNat (by omega) (by omega)
    have hL1 := a2 y.toNat (x - alpha).toNat (by simp only []; omega) (by simp only []; omega)
    rw [hyn, hx0] at h hL1
    have e : x - alpha + alpha = x := by omega
    rw [e, hR1] at h
    rw [h]
    have hwb : within_bounds s ⟨x - alpha, y, alpha⟩ := by
      unfold within_bounds
      simp only []
      omega
    have hLA : ((for_each_active update_active alpha
        { s with changed := false }).pair.disparity_left.px y (x - alpha) : Int) = -alpha
        ↔ (m1 : Int) = -alpha := by
      rw [hL1, hm1A]
      have hd : ((deactivated s alpha y.toNat (x - alpha).toNat
          (s.pair.disparity_left.px y (x - alpha)) : Nat) : Int) = -alpha
          ↔ (s.pair.disparity_left.px y (x - alpha) : Int) = -alpha := by
        unfold deactivated NULL_DISPARITY
        split_ifs with h
        · constructor
          · intro e
            simp only [Nat.cast_zero] at e
            omega
          · intro e
            exact absurd e (by omega)
        · rfl
      have hs' : ({ s with changed := false } : GraphCutDisparity).pair = s.pair := rfl
      rw [hs', hd]
      obtain ⟨hC1, hC2⟩ := hC
      constructor
      · intro hl
        have h1 := hC1 y.toNat (by omega) (x - alpha).toNat (by omega)
        rw [hyn, hx0] at h1
        obtain ⟨_, h12⟩ := h1 (by omega)
        rw [hl] at h12
        have e2 : x - alpha - -alpha = x := by omega
        rw [e2] at h12
        rw [hm, h12]
        exact hl
      · intro hr
        have h2 := hC2 y.toNat (by omega) x.toNat (by omega)
        rw [hyn, hxn, ← hm] at h2
        obtain ⟨_, h22⟩ := h2 (by omega)
        rw [hr] at h22
        have e2 : x + -alpha = x - alpha := by omega
        rw [e2] at h22
        rw [h22]
        exact hr
    rw [if_pos hwb]
    simp only [hLA]
    by_cases hnb : node_color s ⟨x - alpha, y, alpha⟩ ≠ Color.black <;>
      by_cases hP : (m1 : Int) = -alpha <;> simp [hnb, hP, hwb]
  · have hwb : ¬ within_bounds s ⟨x - alpha, y, alpha⟩ := by
      unfold within_bounds
      simp only []
      omega
    rw [if_neg hwb]
    have h := b2 y (x - alpha) (by
      rintro ⟨i, j, _, hj, _, e⟩
      omega)
    have e : x - alpha + alpha = x := by omega
    rw [e] at h
    rw [h, hR1]

/-- In a consistent state whose colouring selects no two conflicting correspondences,
a pixel of `disparity_right` holds the nonzero value `t` after the update exactly when
the correspondence that it then stores is a considered one that the colouring
selects. -/
theorem right_active_update (alpha : Int) (hlo : -255 ≤ alpha) (hhi : alpha ≤ -1)
    (s : GraphCutDisparity) (hC : Consistent s)
    (hNC : ∀ c, ActiveInMove alpha s c → ∀ a, AlphaInMove alpha s a → SharesPixel c a →
      ¬ (selected_after s alpha c ∧ selected_after s alpha a))
    (x y : Int) (hy : 0 ≤ y ∧ y < (s.pair.rows : Int))
    (hx : 0 ≤ x ∧ x < (s.pair.cols : Int)) (t : Nat) (ht : t ≠ 0) :
    (update_correspondences alpha s).pair.disparity_right.px y x = t ↔
      (Considered alpha s ⟨x + (t : Int), y, -(t : Int)⟩ ∧
        selected_after s alpha ⟨x + (t : Int), y, -(t : Int)⟩) := by
  have hbyte := byte_of_label alpha hlo hhi
  obtain ⟨m1, hm1'⟩ : ∃ m1 : Nat, m1 = if (-(s.pair.disparity_right.px y x : Int) ≠ 0 ∧
      -(s.pair.disparity_right.px y x : Int) ≠ alpha) ∧
      node_color s ⟨x + (s.pair.disparity_right.px y x : Int), y,
        -(s.pair.disparity_right.px y x : Int)⟩ ≠ Color.black
      then 0 else s.pair.disparity_right.px y x := ⟨_, rfl⟩
  have hR := right_after_update alpha hlo hhi s hC x y hy hx _ m1 rfl hm1'
  have hm1 := hm1'.symm
  obtain ⟨hC1, hC2⟩ := hC
  have hyn : ((y.toNat : Nat) : Int) = y := Int.toNat_of_nonneg hy.1
  have hxn : ((x.toNat : Nat) : Int) = x := Int.toNat_of_nonneg hx.1
  have F1 : s.pair.disparity_right.px y x ≠ 0 →
      x + (s.pair.disparity_right.px y x : Int) < (s.pair.cols : Int) ∧
      s.pair.disparity_left.px y (x + (s.pair.disparity_right.px y x : Int))
        = s.pair.disparity_right.px y x := by
    have h2 := hC2 y.toNat (by omega) x.toNat (by omega)
    rw [hyn, hxn] at h2
    exact h2
  have F2 : ∀ j : Int, 0 ≤ j → j < (s.pair.cols : Int) → s.pair.disparity_left.px y j ≠ 0 →
      0 ≤ j - (s.pair.disparity_left.px y j : Int) ∧
      s.pair.disparity_right.px y (j - (s.pair.disparity_left.px y j : Int))
        = s.pair.disparity_left.px y j := by
    intro j hj0 hj1
    have h1 := hC1 y.toNat (by omega) j.toNat (by omega)
    rw [hyn, Int.toNat_of_nonneg hj0] at h1
    exact h1
  rw [hR]
  have hm1t : m1 = t → s.pair.disparity_right.px y x = t ∧
      (¬ ((-(t : Int) ≠ 0 ∧ -(t : Int) ≠ alpha) ∧
        node_color s ⟨x + (t : Int), y, -(t : Int)⟩ ≠ Color.black)) := by
    intro e
    rw [e] at hm1
    split_ifs at hm1 with h
    · exact absurd hm1.symm ht
    · rw [hm1] at h
      exact ⟨hm1, h⟩
  by_cases hd : (t : Int) = -alpha
  · have e1 : x + (t : Int) = x - alpha := by omega
    have e2 : -(t : Int) = alpha := by omega
    rw [e1, e2]
    have hrhs : (Considered alpha s ⟨x - alpha, y, alpha⟩ ∧
        selected_after s alpha ⟨x - alpha, y, alpha⟩) ↔
        (within_bounds s ⟨x - alpha, y, alpha⟩ ∧
          node_color s ⟨x - alpha, y, alpha⟩ ≠ Color.black) := by
      unfold Considered ActiveInMove AlphaInMove selected_after
      simp only [ne_eq, not_true_eq_false, and_false, false_or, true_and, if_true]
    rw [hrhs]
    by_cases hB : within_bounds s ⟨x - alpha, y, alpha⟩
    · rw [if_pos hB]
      by_cases hA : node_color s ⟨x - alpha, y, alpha⟩ ≠ Color.black
      · rw [if_pos hA]
        constructor
        · intro _
          exact ⟨hB, hA⟩
        · intro _
          split_ifs with h
          · omega
          · omega
      · rw [if_neg hA]
        constructor
        · intro e
          exfalso
          split_ifs at e with h
          · exact ht e.symm
          · apply h
            rw [e]
            exact hd
        · intro h
          exact absurd h.2 hA
    · rw [if_neg hB]
      constructor
      · intro e
        exfalso
        obtain ⟨hmt, _⟩ := hm1t e
        have h1 := F1 (by rw [hmt]; exact ht)
        rw [hmt] at h1
        apply hB
        unfold within_bounds
        simp only []
        omega
      · intro h
        exact absurd h.1 hB
  · have hda : ¬ (-(t : Int) = alpha) := by omega
    have htz : ¬ (-(t : Int) = 0) := by omega
    have hrhs : (Considered alpha s ⟨x + (t : Int), y, -(t : Int)⟩ ∧
        selected_after s alpha ⟨x + (t : Int), y, -(t : Int)⟩) ↔
        (ActiveInMove alpha s ⟨x + (t : Int), y, -(t : Int)⟩ ∧
          node_color s ⟨x + (t : Int), y, -(t : Int)⟩ = Color.black) := by
      unfold Considered AlphaInMove selected_after
      simp only [hda, false_and, or_false, if_false]
    rw [hrhs]
    constructor
    · intro hval
      have hmt : m1 = t := by
        by_cases hB : within_bounds s ⟨x - alpha, y, alpha⟩
        · rw [if_pos hB] at hval
          by_cases hA : node_color s ⟨x - alpha, y, alpha⟩ ≠ Color.black
          · rw [if_pos hA] at hval
            split_ifs at hval with h
            · exact hval
            · exfalso
              apply hd
              rw [← hval]
              exact hbyte
          · rw [if_neg hA] at hval
            split_ifs at hval with h
            · exact absurd hval.symm ht
            · exact hval
        · rw [if_neg hB] at hval
          exact hval
      obtain ⟨hmR, hnc⟩ := hm1t hmt
      have h1 := F1 (by rw [hmR]; exact ht)
      rw [hmR] at h1
      refine ⟨⟨⟨hy.1, hy.2, ?_, h1.1⟩, ?_, htz, hda⟩, ?_⟩
      · simp only []
        omega
      · unfold is_active
        simp only [neg_neg]
        rw [h1.2]
      · by_contra hnb
        exact hnc ⟨⟨by omega, hda⟩, hnb⟩
    · rintro ⟨hact, hblack⟩
      have hact' := hact
      obtain ⟨⟨_, _, _, hlt⟩, hL, _, _⟩ := hact'
      unfold is_active at hL
      simp only [neg_neg] at hL hlt
      have hLt : s.pair.disparity_left.px y (x + (t : Int)) = t := by exact_mod_cast hL
      have h2 := F2 (x + (t : Int)) (by omega) hlt (by rw [hLt]; exact ht)
      rw [hLt] at h2
      have e : x + (t : Int) - (t : Int) = x := by omega
      rw [e] at h2
      have hm1' : m1 = t := by
        rw [← hm1, h2.2, if_neg]
        intro hc
        exact hc.2 hblack
      rw [hm1']
      by_cases hB : within_bounds s ⟨x - alpha, y, alpha⟩
      · rw [if_pos hB]
        by_cases hA : node_color s ⟨x - alpha, y, alpha⟩ ≠ Color.black
        · exfalso
          have hsh : SharesPixel ⟨x + (t : Int), y, -(t : Int)⟩ ⟨x - alpha, y, alpha⟩ := by
            unfold SharesPixel
            refine ⟨rfl, Or.inr ?_⟩
            simp only []
            omega
          have hs1 : selected_after s alpha ⟨x + (t : Int), y, -(t : Int)⟩ := by
            unfold selected_after
            simp only [hda, if_false]
            exact hblack
          have hs2 : selected_after s alpha ⟨x - alpha, y, alpha⟩ := by
            unfold selected_after
            simp only [if_true]
            exact hA
          exact hNC _ hact ⟨x - alpha, y, alpha⟩ ⟨rfl, hB⟩ hsh ⟨hs1, hs2⟩
        · rw [if_neg hA, if_neg hd]
      · rw [if_neg hB]

theorem consistent_activeWithinBounds (s : GraphCutDisparity) (hC : Consistent s) :
    ActiveWithinBounds s := by
  intro y hy x hx hne
  obtain ⟨h1, _⟩ := hC.1 y hy x hx hne
  unfold within_bounds
  simp only []
  omega

/-- The update after the cut keeps the two maps consistent when the labelling cuts no
conflict edge. -/
theorem update_consistent (alpha : Int) (hlo : -255 ≤ alpha) (hhi : alpha ≤ -1)
    (s : GraphCutDisparity) (hC : Consistent s) (hcut : CutsNoConflictEdge s alpha) :
    Consistent (update_correspondences alpha s) := by
  have hb := consistent_activeWithinBounds s hC
  have hNC := conflict_free_of_cuts alpha s hcut
  obtain ⟨_, _, hr, hc, _, _, _, _⟩ := update_correspondences_sameImages alpha s
  have hleft : ∀ c : Correspondence,
      (InImage (update_correspondences alpha s) c ∧
        is_active (update_correspondences alpha s) c ∧ c.d ≠ 0) ↔
      (Considered alpha s c ∧ selected_after s alpha c) := by
    intro c
    rw [← mem_all_active]
    exact mem_all_active_update alpha hlo hhi s hb hNC c
  have hwb : ∀ c, Considered alpha s c → within_bounds s c := by
    intro c h
    rcases h with h | h
    · exact activeInMove_within_bounds alpha s hb c h
    · exact h.2
  unfold Consistent
  rw [hr, hc]
  constructor
  · intro y hy x hx hne
    have hsel := (hleft ⟨x, y, -((update_correspondences alpha s).pair.disparity_left.px y x : Int)⟩).mp
      ⟨by
        unfold InImage
        rw [hr, hc]
        simp only []
        omega, by
        unfold is_active
        simp only [neg_neg], by
        simp only []
        omega⟩
    have hw := hwb _ hsel.1
    unfold within_bounds at hw
    simp only [] at hw
    refine ⟨by omega, ?_⟩
    have hR := (right_active_update alpha hlo hhi s hC hNC
      ((x : Int) - ((update_correspondences alpha s).pair.disparity_left.px y x : Int)) y
      (by omega) (by omega)
      ((update_correspondences alpha s).pair.disparity_left.px y x) hne).mpr
    have e : (x : Int) - ((update_correspondences alpha s).pair.disparity_left.px y x : Int)
        + ((update_correspondences alpha s).pair.disparity_left.px y x : Int) = (x : Int) := by
      omega
    rw [e] at hR
    exact hR hsel
  · intro y hy x hx hne
    have hsel := (right_active_update alpha hlo hhi s hC hNC (x : Int) (y : Int)
      (by omega) (by omega)
      ((update_correspondences alpha s).pair.disparity_right.px y x) hne).mp rfl
    obtain ⟨him, hact, _⟩ := (hleft _).mpr hsel
    unfold InImage at him
    rw [hc] at him
    simp only [] at him
    refine ⟨him.2.2.2, ?_⟩
    unfold is_active at hact
    simp only [neg_neg] at hact
    exact_mod_cast hact

theorem cut_graph_consistent (flow : GraphCutDisparity → Nat → Color) (alpha : Int)
    (s : GraphCutDisparity) (hC : Consistent s) : Consistent (cut_graph flow alpha s) := by
  obtain ⟨hp, _, _⟩ := cut_graph_samePair flow alpha s
  unfold Consistent
  rw [hp]
  exact hC

/-- One alpha-expansion keeps the two maps consistent when its labelling cuts no
conflict edge. -/
theorem run_alpha_expansion_consistent (flow : GraphCutDisparity → Nat → Color)
    (alpha : Int) (hlo : -255 ≤ alpha) (hhi : alpha ≤ -1) (s : GraphCutDisparity)
    (hC : Consistent s) (hcut : CutsNoConflictEdge (cut_graph flow alpha s) alpha) :
    Consistent (run_alpha_expansion flow alpha s) := by
  rw [run_alpha_expansion_eq]
  exact update_consistent alpha hlo hhi _ (cut_graph_consistent flow alpha s hC) hcut

theorem run_alpha_expansion_consistentState (flow : GraphCutDisparity → Nat → Color)
    (alpha : Int) (hlo : -255 ≤ alpha) (hhi : alpha ≤ -1) (s : GraphCutDisparity)
    (hS : ConsistentState s) (hcut : CutsNoConflictEdge (cut_graph flow alpha s) alpha) :
    ConsistentState (run_alpha_expansion flow alpha s) := by
  have hres := run_alpha_expansion_consistent flow alpha hlo hhi s hS.2.2 hcut
  obtain ⟨_, hpmin, hpmax⟩ := cut_graph_samePair flow alpha s
  obtain ⟨_, _, _, _, _, _, h7, h8⟩ :=
    update_correspondences_sameImages alpha (cut_graph flow alpha s)
  rw [run_alpha_expansion_eq]
  rw [run_alpha_expansion_eq] at hres
  exact ⟨by rw [h7, hpmin]; exact hS.1, by rw [h8, hpmax]; exact hS.2.1, hres⟩

theorem compute_init_consistentState (s0 : GraphCutDisparity) (pair : StereoPair) :
    ConsistentState (compute_init s0 pair) := by
  refine ⟨?_, ?_, ?_, ?_⟩
  · simp only [compute_init]
    split_ifs <;> omega
  · simp only [compute_init]
    split_ifs <;> omega
  · intro y _ x _ h
    exact absurd rfl h
  · intro y _ x _ h
    exact absurd rfl h

/-! ## The detection signal of the NCC solver -/

theorem maxLoc_two (m : Mat ℚ) (hr : m.rows = 1) (hc : m.cols = 2)
    (h : m.px 0 0 < m.px 0 1) : maxLoc m = (1, 0) := by
  unfold maxLoc
  rw [hr, hc]
  simp [forLoop, List.range_succ, maxLoc_step, h]

theorem filter2D_centred (border : Int → Nat → Int) (src kernel : Mat ℚ) (w r : Int)
    (f : Int → Int → ℚ) (oy ox k : Int)
    (hw : w = 2 * r + 1) (hr : 0 ≤ r)
    (hkr : kernel.rows = w.toNat) (hkc : kernel.cols = w.toNat)
    (hsr : src.rows = w.toNat)
    (hsrc : ∀ a b : Int, src.px a b = f (oy + a) (ox + b))
    (hborder : ∀ (p : Int) (len : Nat), 0 ≤ p → p < (len : Int) → border p len = p)
    (hk : r ≤ k ∧ k + r < (src.cols : Int)) :
    (filter2D border src kernel).px r k =
      ∑ a ∈ Finset.range w.toNat, ∑ b ∈ Finset.range w.toNat,
        kernel.px a b * f (oy + (a : Int)) (ox + k - r + (b : Int)) := by
  unfold filter2D
  simp only [hkr, hkc, hsr]
  have hhalf : (((w.toNat / 2 : Nat) : Nat) : Int) = r := by
    have : w.toNat = 2 * r.toNat + 1 := by omega
    rw [this]
    omega
  rw [hhalf]
  refine Finset.sum_congr rfl (fun a ha => Finset.sum_congr rfl (fun b hb => ?_))
  rw [Finset.mem_range] at ha hb
  rw [hborder _ _ (by omega) (by omega), hborder _ _ (by omega) (by omega), hsrc]
  congr 2
  · omega
  · omega

/-- The detection value at index `k` of the signal is the normalised correlation of
the template centred on column `min_j + k` of the full image, when the window around
that column lies inside the search region. -/
theorem detections_centred (border : Int → Nat → Int) (s : NCCDisparity)
    (t row magnitude : Mat (ℚ × ℚ × ℚ)) (min_j bounds_width k : Int)
    (hws : 0 < s.window_size) (hodd : s.window_size % 2 = 1)
    (ht : t.rows = s.window_size.toNat ∧ t.cols = s.window_size.toNat)
    (hborder : ∀ (p : Int) (len : Nat), 0 ≤ p → p < (len : Int) → border p len = p)
    (hk : (s.window_size - 1).tdiv 2 ≤ k ∧ k ≤ bounds_width - s.window_size) :
    (s.detections border t row magnitude min_j bounds_width).px 0 k
      = window_score s.window_size t row magnitude (min_j + k) := by
  have hr0 : 0 ≤ (s.window_size - 1).tdiv 2 := Int.tdiv_nonneg (by omega) (by omega)
  have hw : s.window_size = 2 * (s.window_size - 1).tdiv 2 + 1 := by
    have h1 := Int.tdiv_add_tmod (s.window_size - 1) 2
    have h2 : (s.window_size - 1).tmod 2 = 0 := by
      rw [Int.tmod_eq_emod (by omega) (by omega)]
      omega
    omega
  have hch : ∀ c : Nat,
      (filter2D border ((row.roi min_j 0 bounds_width s.window_size).channel c)
        (t.channel c)).px ((s.window_size - 1).tdiv 2) k =
      ∑ a ∈ Finset.range s.window_size.toNat, ∑ b ∈ Finset.range s.window_size.toNat,
        (t.channel c).px a b *
          (row.channel c).px (0 + (a : Int))
            (min_j + k - (s.window_size - 1).tdiv 2 + (b : Int)) := by
    intro c
    refine filter2D_centred border _ _ s.window_size _
      (fun a b => (row.channel c).px a b) 0 min_j k hw hr0 ht.1 ht.2 rfl ?_ hborder ?_
    · intro a b
      rfl
    · refine ⟨hk.1, ?_⟩
      simp only [Mat.channel, Mat.roi]
      omega
  unfold NCCDisparity.detections window_score
  simp only [cvtColor_BGR2GRAY, divide, Mat.roi, merge]
  simp only [Mat.roi, add_zero, zero_add] at hch ⊢
  rw [hch 0, hch 1, hch 2]

theorem template_shift_px (a b : Int) :
    ((NCCDisparity.new pairShift 3).get_template 1 5 true).px a b =
      ((pairShift.left.px a (4 + b)).1 - 1 / 3, (pairShift.left.px a (4 + b)).2.1 - 1 / 3,
        (pairShift.left.px a (4 + b)).2.2 - 1 / 3) := by
  have hm : ∀ c : Nat, c < 3 →
      ((pairShift.left.roi 4 0 3 3).channel c).mean = 1 / 3 := by
    intro c hc
    interval_cases c <;>
      simp [Mat.mean, Mat.channel, Mat.roi, pairShift, Finset.sum_range_succ] <;> norm_num
  simp only [NCCDisparity.get_template, NCCDisparity.new]
  have e1 : ((3 : Int) - 1).tdiv 2 = 1 := by decide
  have e2 : pairShift.cols = 8 := rfl
  simp only [e1, if_true]
  have e3 : (5 : Int) - 1 = 4 := by norm_num
  have e4 : (1 : Int) - 1 = 0 := by norm_num
  rw [e3, e4, hm 0 (by decide), hm 1 (by decide), hm 2 (by decide)]
  simp only [Mat.roi, zero_add]

theorem detections_shift_values (s : NCCDisparity) (T ROW MAG : Mat (ℚ × ℚ × ℚ))
    (hs : s.window_size = 3) (hTr : T.rows = 3) (hTc : T.cols = 3)
    (hT : ∀ a b : Int, T.px a b =
      ((pairShift.left.px a (4 + b)).1 - 1 / 3, (pairShift.left.px a (4 + b)).2.1 - 1 / 3,
        (pairShift.left.px a (4 + b)).2.2 - 1 / 3))
    (hR : ∀ a b : Int, ROW.px a b = pairShift.right.px a b)
    (h2 : MAG.px 1 2 = (2 / 3, 2 / 3, 2 / 3)) (h3 : MAG.px 1 3 = (2 / 3, 2 / 3, 2 / 3)) :
    (s.detections reflect101 T ROW MAG 2 4).px 0 0 = 7 / 2 ∧
    (s.detections reflect101 T ROW MAG 2 4).px 0 1 = 6 := by
  have e1 : ((3 : Int) - 1).tdiv 2 = 1 := by decide
  have r0 : reflect101 0 3 = 0 := by decide
  have r1 : reflect101 1 3 = 1 := by decide
  have r2 : reflect101 2 3 = 2 := by decide
  have q0 : reflect101 (-1) 4 = 1 := by decide
  have q1 : reflect101 0 4 = 0 := by decide
  have q2 : reflect101 1 4 = 1 := by decide
  have q3 : reflect101 2 4 = 2 := by decide
  constructor
  · simp only [NCCDisparity.detections, cvtColor_BGR2GRAY, divide, Mat.roi, merge, filter2D,
      Mat.channel, hs, e1, hTr, hTc, hT, hR]
    simp [Finset.sum_range_succ, r0, r1, r2, q0, q1, q2, q3, h2, h3, pairShift, gray]
    norm_num
  · simp only [NCCDisparity.detections, cvtColor_BGR2GRAY, divide, Mat.roi, merge, filter2D,
      Mat.channel, hs, e1, hTr, hTc, hT, hR]
    simp [Finset.sum_range_succ, r0, r1, r2, q0, q1, q2, q3, h2, h3, pairShift, gray]
    norm_num

theorem reflect101_inRange (p : Int) (len : Nat) (h0 : 0 ≤ p) (h1 : p < (len : Int)) :
    reflect101 p len = p := by
  unfold reflect101
  by_cases hl : len ≤ 1
  · rw [if_pos hl]
    omega
  · rw [if_neg hl]
    simp only []
    have hp : p % (2 * (len : Int) - 2) = p := Int.emod_eq_of_lt h0 (by omega)
    rw [hp, if_pos h1]

/-- The value returned by the call is the centred-match disparity shifted by the
window radius. -/
theorem disparity_call_shift (border : Int → Nat → Int) (s : NCCDisparity)
    (t row magnitude : Mat (ℚ × ℚ × ℚ)) (j : Int) (left : Bool)
    (hw : ¬ bounds_width s j left < s.window_size) :
    s.disparity_call border t row magnitude j left =
      if left then centred_match_disparity border s t row magnitude j left
          - (s.window_size - 1).tdiv 2
      else centred_match_disparity border s t row magnitude j left
          + (s.window_size - 1).tdiv 2 := by
  unfold NCCDisparity.disparity_call NCCDisparity.disparity centred_match_disparity
  unfold bounds_width at hw ⊢
  simp only [if_neg hw]
  split_ifs <;> ring

theorem detections_shift (M : Mat (ℚ × ℚ × ℚ))
    (h2 : M.px 1 2 = (2 / 3, 2 / 3, 2 / 3)) (h3 : M.px 1 3 = (2 / 3, 2 / 3, 2 / 3)) :
    ((NCCDisparity.new pairShift 3).detections reflect101 templateShift rowShift
      ((NCCDisparity.new pairShift 3).get_row 1 M) 2 4).px 0 0 = 7 / 2 ∧
    ((NCCDisparity.new pairShift 3).detections reflect101 templateShift rowShift
      ((NCCDisparity.new pairShift 3).get_row 1 M) 2 4).px 0 1 = 6 := by
  have e1 : ((3 : Int) - 1).tdiv 2 = 1 := by decide
  have hmag : ∀ a b : Int, ((NCCDisparity.new pairShift 3).get_row 1 M).px a b
      = M.px a b := by
    intro a b
    simp [NCCDisparity.get_row, NCCDisparity.new, Mat.roi, e1]
  refine detections_shift_values _ templateShift rowShift _ rfl rfl rfl
    template_shift_px ?_ (by rw [hmag]; exact h2) (by rw [hmag]; exact h3)
  intro a b
  simp [rowShift, NCCDisparity.get_row, NCCDisparity.new, Mat.roi, e1]

/-! ## Runs whose colourings cut no conflict edge -/

theorem forLoop_const_front {σ : Type} (f : σ → σ) (n : Nat) (s : σ) :
    forLoop (n + 1) (fun _ u => f u) s = forLoop n (fun _ u => f u) (f s) := by
  induction n with
  | zero => rfl
  | succ m ih =>
    rw [forLoop_succ, ih, forLoop_succ]

theorem conflictFreeMoves_take (flow : GraphCutDisparity → Nat → Color) (l : List Int)
    (k : Nat) (s : GraphCutDisparity) (h : ConflictFreeMoves flow s l) :
    ConflictFreeMoves flow s (l.take k) := by
  induction l generalizing s k with
  | nil => simpa using h
  | cons d ds ih =>
    cases k with
    | zero => trivial
    | succ k =>
      rw [List.take_succ_cons]
      exact ⟨h.1, ih k _ h.2⟩

theorem conflictFreeMoves_append (flow : GraphCutDisparity → Nat → Color) (l1 l2 : List Int)
    (s : GraphCutDisparity) (h : ConflictFreeMoves flow s (l1 ++ l2)) :
    ConflictFreeMoves flow s l1 ∧
    ConflictFreeMoves flow (l1.foldl (fun u d => run_alpha_expansion flow (-d) u) s) l2 := by
  induction l1 generalizing s with
  | nil => exact ⟨trivial, h⟩
  | cons d ds ih =>
    have h1 : CutsNoConflictEdge (cut_graph flow (-d) s) (-d) := h.1
    have h2 : ConflictFreeMoves flow (run_alpha_expansion flow (-d) s) (ds ++ l2) := h.2
    have h3 := ih (run_alpha_expansion flow (-d) s) h2
    rw [List.foldl_cons]
    exact ⟨⟨h1, h3.1⟩, h3.2⟩

/-- A property of the state that holds only with a label range inside `[1, 255]` and
that every move with a colouring cutting no conflict edge preserves, is preserved by a
run of moves whose colourings cut no conflict edge. -/
theorem moves_invariant (flow : GraphCutDisparity → Nat → Color)
    (I : GraphCutDisparity → Prop)
    (hstep : ∀ s alpha, -255 ≤ alpha → alpha ≤ -1 → I s →
      CutsNoConflictEdge (cut_graph flow alpha s) alpha → I (run_alpha_expansion flow alpha s))
    (l : List Int) (s : GraphCutDisparity) (hI : I s) (hl : ∀ d ∈ l, 1 ≤ d ∧ d ≤ 255)
    (hc : ConflictFreeMoves flow s l) :
    I (l.foldl (fun u d => run_alpha_expansion flow (-d) u) s) := by
  induction l generalizing s with
  | nil => exact hI
  | cons d ds ih =>
    have hd := hl d (List.mem_cons_self d ds)
    rw [List.foldl_cons]
    exact ih _ (hstep s (-d) (by omega) (by omega) hI hc.1)
      (fun d' hd' => hl d' (List.mem_cons_of_mem d hd')) hc.2

/-- Such a property holds in every state that the run of `n` iterations reaches, and
at its end. -/
theorem run_invariant (flow : GraphCutDisparity → Nat → Color)
    (I : GraphCutDisparity → Prop)
    (hrange : ∀ s, I s → 1 ≤ s.min_disparity ∧ s.max_disparity ≤ 255)
    (hstep : ∀ s alpha, -255 ≤ alpha → alpha ≤ -1 → I s →
      CutsNoConflictEdge (cut_graph flow alpha s) alpha → I (run_alpha_expansion flow alpha s))
    (n : Nat) (s : GraphCutDisparity) (hI : I s) (hc : ConflictFreeRun flow s n) :
    (∀ m k, m < n → I (run_state flow s m k)) ∧
    I (forLoop n (fun _ u => (run_iteration flow u).1) s) := by
  have hlab : ∀ t, I t → ∀ d ∈ iteration_labels t, 1 ≤ d ∧ d ≤ 255 := by
    intro t ht d hd
    have h1 := mem_iteration_labels t d hd
    have h2 := hrange t ht
    omega
  induction n generalizing s with
  | zero => exact ⟨fun m k hm => absurd hm (Nat.not_lt_zero m), hI⟩
  | succ n ih =>
    obtain ⟨hc1, hc2⟩ := hc
    have hnext : I (run_iteration flow s).1 := by
      rw [run_iteration_fold]
      exact moves_invariant flow I hstep _ s hI (hlab s hI) hc1
    obtain ⟨ih1, ih2⟩ := ih (run_iteration flow s).1 hnext hc2
    refine ⟨?_, ?_⟩
    · intro m k hm
      cases m with
      | zero =>
        unfold run_state
        simp only [forLoop_zero]
        exact moves_invariant flow I hstep _ s hI
          (fun d hd => hlab s hI d (List.mem_of_mem_take hd))
          (conflictFreeMoves_take flow _ k s hc1)
      | succ m =>
        have h := ih1 m k (by omega)
        unfold run_state at h ⊢
        rw [forLoop_const_front]
        exact h
    · rw [forLoop_const_front]
      exact ih2

theorem terminal_cut_first (s : GraphCutDisparity) (h : HasEdges s edgesFourFirst) :
    cut_value s (flowTerminal s) = 5 ∧ ∀ col : Nat → Color, 5 ≤ cut_value s col := by
  obtain ⟨h0, h1, he⟩ := h
  constructor
  · simp only [cut_value, cut_of_edges, is_cut, on_source_side, flowTerminal,
      terminal_capacity, he, h0, h1, edgesFourFirst]
    decide
  · intro col
    simp only [cut_value, cut_of_edges, he, edgesFourFirst, List.map, List.sum_cons,
      List.sum_nil, is_cut, on_source_side, h0, h1]
    by_cases c2 : col 2 = Color.black <;> by_cases c3 : col 3 = Color.black <;>
      by_cases c4 : col 4 = Color.black <;> simp [c2, c3, c4]

theorem terminal_cut_second (s : GraphCutDisparity) (h : HasEdges s edgesFourSecond) :
    cut_value s (flowTerminal s) = 2 ∧ (∀ col : Nat → Color, 2 ≤ cut_value s col) ∧
    (∀ col : Nat → Color, cut_value s col ≤ 2 →
      col 2 = Color.black ∧ col 3 = Color.black ∧ col 4 ≠ Color.black) := by
  obtain ⟨h0, h1, he⟩ := h
  refine ⟨?_, ?_, ?_⟩
  · simp only [cut_value, cut_of_edges, is_cut, on_source_side, flowTerminal,
      terminal_capacity, he, h0, h1, edgesFourSecond]
    decide
  · intro col
    simp only [cut_value, cut_of_edges, he, edgesFourSecond, List.map, List.sum_cons,
      List.sum_nil, is_cut, on_source_side, h0, h1]
    by_cases c2 : col 2 = Color.black <;> by_cases c3 : col 3 = Color.black <;>
      by_cases c4 : col 4 = Color.black <;> simp [c2, c3, c4]
  · intro col
    simp only [cut_value, cut_of_edges, he, edgesFourSecond, List.map, List.sum_cons,
      List.sum_nil, is_cut, on_source_side, h0, h1]
    by_cases c2 : col 2 = Color.black <;> by_cases c3 : col 3 = Color.black <;>
      by_cases c4 : col 4 = Color.black <;> simp [c2, c3, c4]

theorem terminal_cut_third (s : GraphCutDisparity) (h : HasEdges s edgesFourThird) :
    cut_value s (flowTerminal s) = 0 ∧ ∀ col : Nat → Color, 0 ≤ cut_value s col := by
  obtain ⟨h0, h1, he⟩ := h
  constructor
  · simp only [cut_value, cut_of_edges, is_cut, on_source_side, flowTerminal,
      terminal_capacity, he, h0, h1, edgesFourThird]
    decide
  · intro col
    simp only [cut_value, cut_of_edges, he, edgesFourThird, List.map, List.sum_cons,
      List.sum_nil, is_cut, on_source_side, h0, h1]
    by_cases c2 : col 2 = Color.black <;> by_cases c3 : col 3 = Color.black <;>
      by_cases c4 : col 4 = Color.black <;> simp [c2, c3, c4]

theorem terminal_cut_fourth (s : GraphCutDisparity) (h : HasEdges s edgesFourFourth) :
    cut_value s (flowTerminal s) = 3 ∧ ∀ col : Nat → Color, 3 ≤ cut_value s col := by
  obtain ⟨h0, h1, he⟩ := h
  constructor
  · simp only [cut_value, cut_of_edges, is_cut, on_source_side, flowTerminal,
      terminal_capacity, he, h0, h1, edgesFourFourth]
    decide
  · intro col
    simp only [cut_value, cut_of_edges, he, edgesFourFourth, List.map, List.sum_cons,
      List.sum_nil, is_cut, on_source_side, h0, h1]
    by_cases c2 : col 2 = Color.black <;> by_cases c3 : col 3 = Color.black <;>
      by_cases c4 : col 4 = Color.black <;> by_cases c5 : col 5 = Color.black <;>
      simp [c2, c3, c4, c5]

theorem isMinCut_of_bound (s : GraphCutDisparity) (col : Nat → Color) (k : Int)
    (h : cut_value s col = k ∧ ∀ col' : Nat → Color, k ≤ cut_value s col') (hk : k < INT_MAX) :
    IsMinCut s col ∧ cut_value s col < INT_MAX := by
  refine ⟨fun col' => ?_, ?_⟩
  · rw [h.1]
    exact h.2 col'
  · rw [h.1]
    exact hk

/-- The graphs of the six moves of the run on `pairFour`. -/
theorem stateFour_graphs :
    HasEdges (build_graph (-1) (stateFourAfter 0)) edgesFourFirst ∧
    HasEdges (build_graph (-2) (stateFourAfter 1)) edgesFourSecond ∧
    HasEdges (build_graph (-3) (stateFourAfter 2)) edgesFourThird ∧
    HasEdges (build_graph (-1) (stateFourAfter 3)) edgesFourFourth ∧
    HasEdges (build_graph (-2) (stateFourAfter 4)) edgesFourSecond ∧
    HasEdges (build_graph (-3) (stateFourAfter 5)) edgesFourThird := by
  decide!

/-- In the run of `compute` on `pairFour`, the colouring of `flowTerminal` is for each
of the six moves a minimum cut of the graph of the move; the values are 5, 2, 0, 3, 2
and 0. -/
theorem flowTerminal_min_cuts : MinCutMoves flowTerminal stateFour [1, 2, 3, 1, 2, 3] := by
  obtain ⟨g1, g2, g3, g4, g5, g6⟩ := stateFour_graphs
  exact ⟨isMinCut_of_bound _ _ 5 (terminal_cut_first _ g1) (by decide),
    isMinCut_of_bound _ _ 2 ⟨(terminal_cut_second _ g2).1, (terminal_cut_second _ g2).2.1⟩
      (by decide),
    isMinCut_of_bound _ _ 0 (terminal_cut_third _ g3) (by decide),
    isMinCut_of_bound _ _ 3 (terminal_cut_fourth _ g4) (by decide),
    isMinCut_of_bound _ _ 2 ⟨(terminal_cut_second _ g5).1, (terminal_cut_second _ g5).2.1⟩
      (by decide),
    isMinCut_of_bound _ _ 0 (terminal_cut_third _ g6) (by decide), trivial⟩

theorem stateFour_second_iteration :
    (run_iteration flowTerminal stateFour).1 = stateFourAfter 3 := by
  rw [run_iteration_fold]
  have h : (List.range (stateFour.max_disparity + 1 - stateFour.min_disparity).toNat).map
      (fun k : Nat => stateFour.min_disparity + (k : Int)) = [1, 2, 3] := by decide
  rw [h]
  rfl

/-- In the run of `compute` on `pairFour`, no colouring of `flowTerminal` cuts a
conflict edge. -/
theorem flowTerminal_conflict_free : ConflictFreeRun flowTerminal stateFour 2 := by
  have h1 : iteration_labels stateFour = [1, 2, 3] := by decide
  have h2 : iteration_labels (stateFourAfter 3) = [1, 2, 3] := by decide!
  have c : ConflictFreeMoves flowTerminal stateFour ([1, 2, 3] ++ [1, 2, 3]) := by decide!
  obtain ⟨c1, c2⟩ := conflictFreeMoves_append flowTerminal _ _ _ c
  unfold ConflictFreeRun
  rw [h1, stateFour_second_iteration]
  unfold ConflictFreeRun
  rw [h2]
  exact ⟨c1, c2, trivial⟩

/-- The maps at the end of `compute` on `pairFour` with the colourings of
`flowTerminal`: the correspondences `(1, 0, -1)` and `(3, 0, -2)` are active. -/
theorem stateFour_final_maps :
    (compute flowTerminal (GraphCutDisparity.new pairFour 1 1)
      pairFour).pair.disparity_left.px 0 1 = 1 ∧
    (compute flowTerminal (GraphCutDisparity.new pairFour 1 1)
      pairFour).pair.disparity_right.px 0 0 = 1 ∧
    (compute flowTerminal (GraphCutDisparity.new pairFour 1 1)
      pairFour).pair.disparity_left.px 0 3 = 2 ∧
    (compute flowTerminal (GraphCutDisparity.new pairFour 1 1)
      pairFour).pair.disparity_right.px 0 1 = 2 := by
  decide!

/-- In the second move of the run on `pairFour`, `alpha = -2`, the correspondence
`(1, 0, -1)` is active, its one conflicting candidate is `(2, 0, -2)`, and the colouring
of `flowTerminal` has both nodes black: the active correspondence is kept and the
candidate is not activated. -/
theorem stateFour_kept_black :
    ActiveInMove (-2) (cut_graph flowTerminal (-2) (stateFourAfter 1)) ⟨1, 0, -1⟩ ∧
    get_conflicts (cut_graph flowTerminal (-2) (stateFourAfter 1)) ⟨1, 0, -1⟩ (-2)
      = [⟨2, 0, -2⟩] ∧
    node_color (cut_graph flowTerminal (-2) (stateFourAfter 1)) ⟨1, 0, -1⟩ = Color.black ∧
    node_color (cut_graph flowTerminal (-2) (stateFourAfter 1)) ⟨2, 0, -2⟩ = Color.black := by
  decide!

/-! ## Claims on the ground-truth preprocessing -/

/-- C2. After the cross-check pass of the `StereoPair` constructor, every pixel `(y, x)`
of the final left ground-truth map with a nonzero value `d` satisfies `0 ≤ x - d < cols`
and `|true_disparity_right[y, x - d] - d| ≤ 2`, the right map being the final one too. -/
theorem cross_check_left_postcondition (rows cols : Nat) (L R : Mat Nat) (y x : Nat)
    (hy : y < rows) (hx : x < cols) (d : Nat)
    (hd : (cross_check rows cols (L, R)).1.px y x = d) (hnz : d ≠ 0) :
    0 ≤ (x : Int) - (d : Int) ∧ (x : Int) - (d : Int) < (cols : Int) ∧
    |((cross_check rows cols (L, R)).2.px y ((x : Int) - (d : Int)) : Int) - (d : Int)| ≤ 2 := by
  subst hd
  exact cross_check_left_checked rows cols (L, R) y x hy hx hnz

theorem cross_check_left_postcondition_witness :
    (cross_check 1 4 (gtLeftAgree, gtRightAgree)).1.px 0 3 = 2 ∧
    (0 ≤ ((3 : Nat) : Int) - ((2 : Nat) : Int) ∧ ((3 : Nat) : Int) - ((2 : Nat) : Int) < ((4 : Nat) : Int) ∧
    |((cross_check 1 4 (gtLeftAgree, gtRightAgree)).2.px (0 : Nat)
        (((3 : Nat) : Int) - ((2 : Nat) : Int)) : Int) - ((2 : Nat) : Int)| ≤ 2) :=
  ⟨by decide,
    cross_check_left_postcondition 1 4 gtLeftAgree gtRightAgree 0 3 (by decide) (by decide) 2
      (by decide) (by decide)⟩

/-- C3, counterexample. On the `1 × 4` maps `gtLeftStale`, `gtRightStale` the final right
map keeps disparity 3 at column 0 although the final left map holds 0 at column 3, so
`|true_disparity_left[0, 3] - 3| = 3 > 2`. -/
theorem cross_check_right_postcondition_fails :
    (cross_check 1 4 (gtLeftStale, gtRightStale)).2.px 0 0 = 3 ∧
    (cross_check 1 4 (gtLeftStale, gtRightStale)).1.px 0 (0 + 3) = 0 ∧
    ¬ RightChecked 4 (cross_check 1 4 (gtLeftStale, gtRightStale))
        (cross_check 1 4 (gtLeftStale, gtRightStale)) 0 0 := by
  decide

/-- C3, amended. After the cross-check pass every pixel `(y, x)` of the final right
ground-truth map with a nonzero value `d` satisfies `0 ≤ x + d < cols` and
`|L[y, x + d] - d| ≤ 2`, where `L` is the left map passed to the constructor. -/
theorem cross_check_right_postcondition (rows cols : Nat) (L R : Mat Nat) (y x : Nat)
    (hy : y < rows) (hx : x < cols) (d : Nat)
    (hd : (cross_check rows cols (L, R)).2.px y x = d) (hnz : d ≠ 0) :
    0 ≤ (x : Int) + (d : Int) ∧ (x : Int) + (d : Int) < (cols : Int) ∧
    |(L.px y ((x : Int) + (d : Int)) : Int) - (d : Int)| ≤ 2 := by
  subst hd
  exact cross_check_right_checked rows cols (L, R) y x hy hx hnz

theorem cross_check_right_postcondition_witness :
    (cross_check 1 4 (gtLeftStale, gtRightStale)).2.px 0 0 = 3 ∧
    (0 ≤ ((0 : Nat) : Int) + ((3 : Nat) : Int) ∧ ((0 : Nat) : Int) + ((3 : Nat) : Int) < ((4 : Nat) : Int) ∧
    |(gtLeftStale.px (0 : Nat) (((0 : Nat) : Int) + ((3 : Nat) : Int)) : Int) - ((3 : Nat) : Int)| ≤ 2) :=
  ⟨by decide,
    cross_check_right_postcondition 1 4 gtLeftStale gtRightStale 0 0 (by decide) (by decide) 3
      (by decide) (by decide)⟩

/-- C4, counterexample. A second cross-check pass over the output of the first changes
it: on `gtLeftStale`, `gtRightStale` the right pixel at column 0 is 3 after one pass and
0 after two. -/
theorem cross_check_not_idempotent :
    cross_check 1 4 (cross_check 1 4 (gtLeftStale, gtRightStale))
      ≠ cross_check 1 4 (gtLeftStale, gtRightStale) := by
  intro h
  have h2 := congrArg (fun s : Mat Nat × Mat Nat => s.2.px 0 0) h
  revert h2
  decide

/-- C4, amended. Running the cross-check pass on its own output returns that output
unchanged exactly when the output satisfies the right-map condition of C3 against its
own left map (at every nonzero right pixel `d` at `(y, x)`: `0 ≤ x + d < cols` and
`|left[y, x + d] - d| ≤ 2`); in particular the pass is idempotent on every such pair. -/
theorem cross_check_idempotent_iff_right_checked (rows cols : Nat) (L R : Mat Nat) :
    cross_check rows cols (cross_check rows cols (L, R)) = cross_check rows cols (L, R) ↔
    (∀ y, y < rows → ∀ x, x < cols →
      RightChecked cols (cross_check rows cols (L, R)) (cross_check rows cols (L, R)) y x) := by
  constructor
  · intro h y hy x hx
    have hr := cross_check_right_checked rows cols (cross_check rows cols (L, R)) y x hy hx
    rw [h] at hr
    exact hr
  · intro hr
    exact cross_check_fixed rows cols _ (cross_check_left_checked rows cols (L, R))
      (fun i j hi hj => hr i hi j hj)

theorem cross_check_idempotent_iff_right_checked_witness :
    (∀ y, y < 1 → ∀ x, x < 4 →
      RightChecked 4 (cross_check 1 4 (gtLeftAgree, gtRightAgree))
        (cross_check 1 4 (gtLeftAgree, gtRightAgree)) y x) ∧
    cross_check 1 4 (cross_check 1 4 (gtLeftAgree, gtRightAgree))
      = cross_check 1 4 (gtLeftAgree, gtRightAgree) :=
  ⟨by decide,
    (cross_check_idempotent_iff_right_checked 1 4 gtLeftAgree gtRightAgree).mpr (by decide)⟩

/-- C17, counterexample. The `1 × 7` map `M` with the single disparity 3 at column 3 is
in-bounds everywhere (`3 - 3 ≥ 0`, `3 + 3 < 7`), yet the cross-check run with both maps
equal to `M` rewrites that pixel to 0 in both maps, because `M` holds 0 at the
counterparts, columns 0 and 6. -/
theorem cross_check_identical_maps_changes :
    AllInBounds 1 7 gtSelfInBounds ∧ gtSelfInBounds.px 0 3 = 3 ∧
    (cross_check 1 7 (gtSelfInBounds, gtSelfInBounds)).1.px 0 3 = 0 ∧
    (cross_check 1 7 (gtSelfInBounds, gtSelfInBounds)).2.px 0 3 = 0 := by
  decide

/-- C17, amended. For every map `M` in which every disparity is in-bounds and every
nonzero disparity `d` at `(y, x)` differs by at most 2 from the values of `M` at its
counterparts `(y, x - d)` and `(y, x + d)`, the cross-check run with
`true_disparity_left = true_disparity_right = M` leaves both maps equal to `M`. -/
theorem cross_check_identical_maps_unchanged (rows cols : Nat) (M : Mat Nat)
    (hb : AllInBounds rows cols M) (ha : SelfAgrees rows cols M) :
    cross_check rows cols (M, M) = (M, M) := by
  apply cross_check_fixed
  · intro i j hi hj hne
    obtain ⟨b1, _⟩ := hb i hi j hj
    exact ⟨b1, by omega, (ha i hi j hj hne).1⟩
  · intro i j hi hj hne
    obtain ⟨_, b2⟩ := hb i hi j hj
    exact ⟨by omega, b2, (ha i hi j hj hne).2⟩

theorem cross_check_identical_maps_unchanged_witness :
    AllInBounds 1 3 gtSelfAgree ∧ SelfAgrees 1 3 gtSelfAgree ∧
    cross_check 1 3 (gtSelfAgree, gtSelfAgree) = (gtSelfAgree, gtSelfAgree) :=
  ⟨by decide, by decide,
    cross_check_identical_maps_unchanged 1 3 gtSelfAgree (by decide) (by decide)⟩

/-- C18, counterexample. On the `1 × 3` maps with `left[0, 2] = 1` and `right[0, 1] = 10`
the left pixel at column 2 has `d = 1`, an in-range counterpart column 1, and an input
counterpart value 10 that differs from `d` by 9, yet it still holds 1 after the
cross-check: the counterpart was rewritten to 0 first, and `|0 - 1| ≤ 2`. -/
theorem cross_check_rejection_fails :
    gtLeftSmallDisp.px 0 2 = 1 ∧
    (0 ≤ ((2 : Nat) : Int) - 1 ∧ ((2 : Nat) : Int) - 1 < ((3 : Nat) : Int)) ∧
    |(gtRightFar.px 0 (((2 : Nat) : Int) - 1) : Int) - 1| > 2 ∧
    (cross_check 1 3 (gtLeftSmallDisp, gtRightFar)).1.px 0 2 = 1 := by
  decide

/-- C18, amended. A left ground-truth pixel `(y, x)` with disparity `d ≠ 0` and
`0 ≤ x - d < cols` whose counterpart `true_disparity_right[y, x - d]` in the input maps
differs from `d` by more than 2 has value 0 after the cross-check, provided `d > 2` or
the counterpart keeps its input value through the cross-check. -/
theorem cross_check_rejection (rows cols : Nat) (L R : Mat Nat) (y x : Nat)
    (hy : y < rows) (hx : x < cols) (d : Nat) (hd : L.px y x = d) (_hnz : d ≠ 0)
    (_hb : 0 ≤ (x : Int) - (d : Int) ∧ (x : Int) - (d : Int) < (cols : Int))
    (hdiff : |(R.px y ((x : Int) - (d : Int)) : Int) - (d : Int)| > 2)
    (hkeep : 2 < d ∨
      (cross_check rows cols (L, R)).2.px y ((x : Int) - (d : Int))
        = R.px y ((x : Int) - (d : Int))) :
    (cross_check rows cols (L, R)).1.px y x = 0 := by
  by_contra hne
  have hz := cross_check_zeroes rows cols (L, R)
  have hval : (cross_check rows cols (L, R)).1.px y x = d := by
    rcases (hz y x).1 with e | e
    · rw [e]; exact hd
    · exact absurd e hne
  have hchk := cross_check_left_checked rows cols (L, R) y x hy hx hne
  rw [hval] at hchk
  obtain ⟨_, _, h3⟩ := hchk
  have hcase : (cross_check rows cols (L, R)).2.px y ((x : Int) - (d : Int))
      = R.px y ((x : Int) - (d : Int)) ∨ 2 < d := by
    rcases hkeep with h | h
    · exact Or.inr h
    · exact Or.inl h
  rcases hcase with e | h
  · rw [e] at h3
    exact absurd h3 (not_le.mpr hdiff)
  · rcases (hz y ((x : Int) - (d : Int))).2 with e | e
    · rw [e] at h3
      exact absurd h3 (not_le.mpr hdiff)
    · rw [e] at h3
      have h4 := (abs_le.mp h3).1
      have : ((0 : Nat) : Int) = 0 := rfl
      omega

theorem cross_check_rejection_witness :
    gtLeftFifteen.px (0 : Nat) (15 : Nat) = 15 ∧ (15 : Nat) ≠ 0 ∧
    (0 ≤ ((15 : Nat) : Int) - ((15 : Nat) : Int) ∧
      ((15 : Nat) : Int) - ((15 : Nat) : Int) < ((16 : Nat) : Int)) ∧
    |(gtRightTwenty.px (0 : Nat) (((15 : Nat) : Int) - ((15 : Nat) : Int)) : Int)
        - ((15 : Nat) : Int)| > 2 ∧
    (cross_check 1 16 (gtLeftFifteen, gtRightTwenty)).1.px (0 : Nat) (15 : Nat) = 0 :=
  ⟨by decide, by decide, by decide, by decide,
    cross_check_rejection 1 16 gtLeftFifteen gtRightTwenty 0 15 (by decide) (by decide) 15
      (by decide) (by decide) (by decide) (by decide) (Or.inl (by decide))⟩

/-- C16. After `StereoPair` construction from 8-bit ground-truth maps, the stored
ground-truth maps are the cross-checked ones; whenever the stored `true_disparity_left`
has a nonzero entry, `min_disparity_left` is the minimum and `max_disparity_left` the
maximum of its nonzero entries, and `1 ≤ min_disparity_left ≤ max_disparity_left ≤ 255`;
the same holds for the right map and its bounds. -/
theorem disparity_bounds_from_ground_truth (left right : Mat (ℚ × ℚ × ℚ))
    (true_left true_right : Mat Nat) (base_offset : Int)
    (h8l : ∀ y x : Int, true_left.px y x ≤ 255) (h8r : ∀ y x : Int, true_right.px y x ≤ 255) :
    ((StereoPair.new left right true_left true_right base_offset).true_disparity_left
        = (cross_check left.rows left.cols (true_left, true_right)).1 ∧
      (StereoPair.new left right true_left true_right base_offset).true_disparity_right
        = (cross_check left.rows left.cols (true_left, true_right)).2) ∧
    (HasNonzero (StereoPair.new left right true_left true_right base_offset).true_disparity_left →
      IsMinNonzero (StereoPair.new left right true_left true_right base_offset).true_disparity_left
        (StereoPair.new left right true_left true_right base_offset).min_disparity_left ∧
      IsMaxNonzero (StereoPair.new left right true_left true_right base_offset).true_disparity_left
        (StereoPair.new left right true_left true_right base_offset).max_disparity_left ∧
      1 ≤ (StereoPair.new left right true_left true_right base_offset).min_disparity_left ∧
      (StereoPair.new left right true_left true_right base_offset).min_disparity_left
        ≤ (StereoPair.new left right true_left true_right base_offset).max_disparity_left ∧
      (StereoPair.new left right true_left true_right base_offset).max_disparity_left ≤ 255) ∧
    (HasNonzero (StereoPair.new left right true_left true_right base_offset).true_disparity_right →
      IsMinNonzero (StereoPair.new left right true_left true_right base_offset).true_disparity_right
        (StereoPair.new left right true_left true_right base_offset).min_disparity_right ∧
      IsMaxNonzero (StereoPair.new left right true_left true_right base_offset).true_disparity_right
        (StereoPair.new left right true_left true_right base_offset).max_disparity_right ∧
      1 ≤ (StereoPair.new left right true_left true_right base_offset).min_disparity_right ∧
      (StereoPair.new left right true_left true_right base_offset).min_disparity_right
        ≤ (StereoPair.new left right true_left true_right base_offset).max_disparity_right ∧
      (StereoPair.new left right true_left true_right base_offset).max_disparity_right ≤ 255) := by
  obtain ⟨g1, g2⟩ := cross_check_8bit left.rows left.cols (true_left, true_right) h8l h8r
  refine ⟨⟨rfl, rfl⟩, ?_, ?_⟩
  · intro h
    exact minMaxLoc_neZero _ g1 h
  · intro h
    exact minMaxLoc_neZero _ g2 h

theorem disparity_bounds_from_ground_truth_witness :
    (∀ y x : Int, gtLeftAgree.px y x ≤ 255) ∧ (∀ y x : Int, gtRightAgree.px y x ≤ 255) ∧
    HasNonzero (StereoPair.new imageBlack imageBlack gtLeftAgree gtRightAgree 0).true_disparity_left ∧
    HasNonzero (StereoPair.new imageBlack imageBlack gtLeftAgree gtRightAgree 0).true_disparity_right ∧
    (StereoPair.new imageBlack imageBlack gtLeftAgree gtRightAgree 0).min_disparity_left = 2 ∧
    (StereoPair.new imageBlack imageBlack gtLeftAgree gtRightAgree 0).max_disparity_left = 2 ∧
    IsMinNonzero (StereoPair.new imageBlack imageBlack gtLeftAgree gtRightAgree 0).true_disparity_left
      (StereoPair.new imageBlack imageBlack gtLeftAgree gtRightAgree 0).min_disparity_left ∧
    IsMinNonzero (StereoPair.new imageBlack imageBlack gtLeftAgree gtRightAgree 0).true_disparity_right
      (StereoPair.new imageBlack imageBlack gtLeftAgree gtRightAgree 0).min_disparity_right := by
  have h8l : ∀ y x : Int, gtLeftAgree.px y x ≤ 255 := by
    intro y x; simp only [gtLeftAgree]; split_ifs <;> omega
  have h8r : ∀ y x : Int, gtRightAgree.px y x ≤ 255 := by
    intro y x; simp only [gtRightAgree]; split_ifs <;> omega
  have hl : HasNonzero
      (StereoPair.new imageBlack imageBlack gtLeftAgree gtRightAgree 0).true_disparity_left := by
    decide
  have hr : HasNonzero
      (StereoPair.new imageBlack imageBlack gtLeftAgree gtRightAgree 0).true_disparity_right := by
    decide
  have key := disparity_bounds_from_ground_truth imageBlack imageBlack gtLeftAgree gtRightAgree 0
    h8l h8r
  exact ⟨h8l, h8r, hl, hr, by decide, by decide, (key.2.1 hl).1, (key.2.2 hr).1⟩

/-- C21, counterexample. A pair with `max_disparity_left = 81` resized by `0.5` ends
with `max_disparity_left = 40`, which is not `81 * 0.5 = 40.5`: the bound is an `int`. -/
theorem resize_bound_not_scaled :
    pairOddBound.max_disparity_left = 81 ∧
    (StereoPair.resize kernelId pairOddBound (1 / 2)).max_disparity_left = 40 ∧
    ((StereoPair.resize kernelId pairOddBound (1 / 2)).max_disparity_left : ℚ)
      ≠ (pairOddBound.max_disparity_left : ℚ) * (1 / 2) := by
  have h : (StereoPair.resize kernelId pairOddBound (1 / 2)).max_disparity_left = 40 :=
    scale_bound_examples.2.1
  refine ⟨rfl, h, ?_⟩
  rw [h]
  norm_num [pairOddBound]

/-- C21, amended. For every pair, every scale `s` and every outcome of the OpenCV
calls, after `StereoPair::resize(s)` each of the four disparity bounds is its
pre-resize value times `s` computed in `float` and converted to `int`: the bound is
converted to `float`, the product is rounded to `float`, and the result is truncated
toward zero. When the bound and the product are below `2 ^ 24` in magnitude the new
bound lies between the floor and the ceiling of the product, so it is the product when
that is an integer and otherwise one of the two integers next to it. A bound of 80
resized by `0.5` gives 40, and the bounds 10, 20, 30, 40 resized by the `float` nearest
to `0.7` give 7, 14, 21, 28, because the `float` products round to integers. -/
theorem resize_truncates_bounds (K : ResizeKernel) (p : StereoPair) (scale : ℚ) :
    FloatScaled p.min_disparity_left scale (StereoPair.resize K p scale).min_disparity_left ∧
    FloatScaled p.max_disparity_left scale (StereoPair.resize K p scale).max_disparity_left ∧
    FloatScaled p.min_disparity_right scale (StereoPair.resize K p scale).min_disparity_right ∧
    FloatScaled p.max_disparity_right scale (StereoPair.resize K p scale).max_disparity_right ∧
    (pairOddBound.max_disparity_right = 80 ∧
      (StereoPair.resize K pairOddBound (1 / 2)).max_disparity_right = 40) ∧
    ((StereoPair.resize K pairTens float_seven_tenths).min_disparity_left = 7 ∧
      (StereoPair.resize K pairTens float_seven_tenths).max_disparity_left = 14 ∧
      (StereoPair.resize K pairTens float_seven_tenths).min_disparity_right = 21 ∧
      (StereoPair.resize K pairTens float_seven_tenths).max_disparity_right = 28 ∧
      (10 : ℚ) * float_seven_tenths < 7) := by
  obtain ⟨e80, _, e10, e20, e30, e40⟩ := scale_bound_examples
  refine ⟨floatScaled_scale_bound _ _, floatScaled_scale_bound _ _,
    floatScaled_scale_bound _ _, floatScaled_scale_bound _ _, ⟨rfl, e80⟩,
    e10, e20, e30, e40, ?_⟩
  norm_num [float_seven_tenths]

/-- C33. The ground-truth maps stored by the `StereoPair` constructor hold, at every
pixel, the input value of that pixel or 0; and row `i` of the stored maps depends only
on row `i` of the two input maps: two constructions from images of the same size whose
input maps agree on the columns `0 .. cols - 1` of row `i` store the same values in
these columns of row `i`. -/
theorem ground_truth_only_removes (left right left' right' : Mat (ℚ × ℚ × ℚ))
    (L R L' R' : Mat Nat) (off off' : Int) (i : Int)
    (hdim : left'.rows = left.rows ∧ left'.cols = left.cols)
    (hrow : ∀ b : Int, 0 ≤ b → b < (left.cols : Int) →
      L.px i b = L'.px i b ∧ R.px i b = R'.px i b) :
    (∀ a b : Int,
      ((StereoPair.new left right L R off).true_disparity_left.px a b = L.px a b ∨
        (StereoPair.new left right L R off).true_disparity_left.px a b = 0) ∧
      ((StereoPair.new left right L R off).true_disparity_right.px a b = R.px a b ∨
        (StereoPair.new left right L R off).true_disparity_right.px a b = 0)) ∧
    (∀ b : Int, 0 ≤ b → b < (left.cols : Int) →
      (StereoPair.new left right L R off).true_disparity_left.px i b
        = (StereoPair.new left' right' L' R' off').true_disparity_left.px i b ∧
      (StereoPair.new left right L R off).true_disparity_right.px i b
        = (StereoPair.new left' right' L' R' off').true_disparity_right.px i b) := by
  refine ⟨cross_check_zeroes left.rows left.cols (L, R), ?_⟩
  have h := cross_check_sameRow left.rows left.cols i (L, R) (L', R') hrow
  intro b hb0 hb1
  simp only [StereoPair.new, hdim.1, hdim.2]
  exact h b hb0 hb1

theorem ground_truth_only_removes_witness :
    (∀ b : Int, 0 ≤ b → b < (imageBlackRows.cols : Int) →
      gtLeftRows.px 0 b = gtLeftRowsOther.px 0 b ∧ gtRightRows.px 0 b = gtRightRowsOther.px 0 b) ∧
    gtLeftRows.px 1 2 ≠ gtLeftRowsOther.px 1 2 ∧
    (StereoPair.new imageBlackRows imageBlackRows gtLeftRows gtRightRows 0).true_disparity_left.px
        0 3 = 2 ∧
    (StereoPair.new imageBlackRows imageBlackRows gtLeftRowsOther gtRightRowsOther
        0).true_disparity_left.px 0 3 = 2 ∧
    (StereoPair.new imageBlackRows imageBlackRows gtLeftRowsOther gtRightRowsOther
        0).true_disparity_left.px 1 0 = 0 := by
  have hrow : ∀ b : Int, 0 ≤ b → b < (imageBlackRows.cols : Int) →
      gtLeftRows.px 0 b = gtLeftRowsOther.px 0 b ∧
      gtRightRows.px 0 b = gtRightRowsOther.px 0 b := by
    intro b _ _
    simp [gtLeftRows, gtLeftRowsOther, gtRightRows, gtRightRowsOther]
  have h := ground_truth_only_removes imageBlackRows imageBlackRows imageBlackRows
    imageBlackRows gtLeftRows gtRightRows gtLeftRowsOther gtRightRowsOther 0 0 0
    ⟨rfl, rfl⟩ hrow
  have e1 : (StereoPair.new imageBlackRows imageBlackRows gtLeftRows gtRightRows
      0).true_disparity_left.px 0 3 = 2 := by decide
  have e2 := (h.2 3 (by decide) (by decide)).1
  refine ⟨hrow, by decide, e1, e2 ▸ e1, by decide⟩

/-! ## Claims on the graph-cut solver -/

/-- C1. Graph-cut uniqueness. Take any max-flow routine `flow` and a run of `compute`
in which no colouring that `flow` returns cuts a conflict edge of its move (no active
node black while a conflicting `alpha` node is not black). An alpha-expansion with
`-alpha` in `[1, 255]` whose colouring cuts no conflict edge keeps the left disparity
map unique; so the map is unique in every state that the run reaches, from the all-null
start through every move of every iteration, and at the end of `compute`: no two
distinct columns `x1 ≠ x2` of a row hold nonzero values `m1`, `m2` with
`x1 - m1 = x2 - m2`. -/
theorem graph_cut_uniqueness (flow : GraphCutDisparity → Nat → Color)
    (s0 : GraphCutDisparity) (pair : StereoPair)
    (hcut : ConflictFreeRun flow (compute_init s0 pair) (compute_init s0 pair).num_iters) :
    (∀ s alpha, -255 ≤ alpha → alpha ≤ -1 →
      Unique s.pair.rows s.pair.cols s.pair.disparity_left →
      CutsNoConflictEdge (cut_graph flow alpha s) alpha →
      Unique s.pair.rows s.pair.cols (run_alpha_expansion flow alpha s).pair.disparity_left) ∧
    (∀ n k, n < (compute_init s0 pair).num_iters →
      Unique pair.rows pair.cols
        (run_state flow (compute_init s0 pair) n k).pair.disparity_left) ∧
    Unique pair.rows pair.cols (compute flow s0 pair).pair.disparity_left := by
  obtain ⟨h1, h2⟩ := run_invariant flow (UniqueState pair.rows pair.cols)
    (fun s hs => ⟨hs.2.2.1, hs.2.2.2.1⟩)
    (fun s alpha hlo hhi hs hc =>
      run_alpha_expansion_uniqueState flow alpha hlo hhi _ _ s hs hc)
    _ _ (compute_init_uniqueState s0 pair) hcut
  exact ⟨fun s alpha hlo hhi hU hc =>
      (run_alpha_expansion_unique flow alpha hlo hhi s hU hc).1,
    fun n k hn => (h1 n k hn).2.2.2.2, h2.2.2.2.2⟩

/-- C1, witness. The run of `compute` on `pairFour` with `C_p = 1` and `V = 1`, led by
`flowTerminal`: the colouring of each of its six moves is a minimum cut of the graph of
the move (values 5, 2, 0, 3, 2, 0) and cuts no conflict edge; in the move `alpha = -2`
the active `(1, 0, -1)` and its conflicting candidate `(2, 0, -2)` are both black, and
the final left map holds the two labels 1 and 2, at columns 1 and 3. -/
theorem graph_cut_uniqueness_witness :
    ConflictFreeRun flowTerminal (compute_init (GraphCutDisparity.new pairFour 1 1) pairFour)
      (compute_init (GraphCutDisparity.new pairFour 1 1) pairFour).num_iters ∧
    MinCutMoves flowTerminal (compute_init (GraphCutDisparity.new pairFour 1 1) pairFour)
      [1, 2, 3, 1, 2, 3] ∧
    (ActiveInMove (-2) (cut_graph flowTerminal (-2) (stateFourAfter 1)) ⟨1, 0, -1⟩ ∧
      get_conflicts (cut_graph flowTerminal (-2) (stateFourAfter 1)) ⟨1, 0, -1⟩ (-2)
        = [⟨2, 0, -2⟩] ∧
      node_color (cut_graph flowTerminal (-2) (stateFourAfter 1)) ⟨1, 0, -1⟩ = Color.black ∧
      node_color (cut_graph flowTerminal (-2) (stateFourAfter 1)) ⟨2, 0, -2⟩ = Color.black) ∧
    ((compute flowTerminal (GraphCutDisparity.new pairFour 1 1)
        pairFour).pair.disparity_left.px 0 1 = 1 ∧
      (compute flowTerminal (GraphCutDisparity.new pairFour 1 1)
        pairFour).pair.disparity_left.px 0 3 = 2) ∧
    ((∀ s alpha, -255 ≤ alpha → alpha ≤ -1 →
      Unique s.pair.rows s.pair.cols s.pair.disparity_left →
      CutsNoConflictEdge (cut_graph flowTerminal alpha s) alpha →
      Unique s.pair.rows s.pair.cols
        (run_alpha_expansion flowTerminal alpha s).pair.disparity_left) ∧
    (∀ n k, n < (compute_init (GraphCutDisparity.new pairFour 1 1) pairFour).num_iters →
      Unique pairFour.rows pairFour.cols
        (run_state flowTerminal (compute_init (GraphCutDisparity.new pairFour 1 1) pairFour)
          n k).pair.disparity_left) ∧
    Unique pairFour.rows pairFour.cols
      (compute flowTerminal (GraphCutDisparity.new pairFour 1 1)
        pairFour).pair.disparity_left) :=
  ⟨flowTerminal_conflict_free, flowTerminal_min_cuts, stateFour_kept_black,
    ⟨stateFour_final_maps.1, stateFour_final_maps.2.2.1⟩,
    graph_cut_uniqueness flowTerminal (GraphCutDisparity.new pairFour 1 1) pairFour
      flowTerminal_conflict_free⟩

/-- C14. Graph-cut output range. After `compute`, for every pair and every labelling
produced by the max-flow routine, each value of `disparity_left` and of
`disparity_right` is 0 or lies in `[d_min, d_max]`, where
`d_min = max(1, min(min_disparity_left, min_disparity_right) - 2)` and
`d_max = min(255, max(max_disparity_left, max_disparity_right) + 2)` satisfy
`1 ≤ d_min` and `d_max ≤ 255`; so every stored value is at most 255. -/
theorem graph_cut_output_range (flow : GraphCutDisparity → Nat → Color)
    (s0 : GraphCutDisparity) (pair : StereoPair) :
    (∀ y x : Int,
      (compute flow s0 pair).pair.disparity_left.px y x = 0 ∨
      (max 1 (min pair.min_disparity_left pair.min_disparity_right - 2)
          ≤ ((compute flow s0 pair).pair.disparity_left.px y x : Int) ∧
        ((compute flow s0 pair).pair.disparity_left.px y x : Int)
          ≤ min 255 (max pair.max_disparity_left pair.max_disparity_right + 2))) ∧
    (∀ y x : Int,
      (compute flow s0 pair).pair.disparity_right.px y x = 0 ∨
      (max 1 (min pair.min_disparity_left pair.min_disparity_right - 2)
          ≤ ((compute flow s0 pair).pair.disparity_right.px y x : Int) ∧
        ((compute flow s0 pair).pair.disparity_right.px y x : Int)
          ≤ min 255 (max pair.max_disparity_left pair.max_disparity_right + 2))) ∧
    1 ≤ max 1 (min pair.min_disparity_left pair.min_disparity_right - 2) ∧
    min 255 (max pair.max_disparity_left pair.max_disparity_right + 2) ≤ 255 ∧
    (∀ y x : Int, (compute flow s0 pair).pair.disparity_left.px y x ≤ 255 ∧
      (compute flow s0 pair).pair.disparity_right.px y x ≤ 255) := by
  obtain ⟨_, _, h3⟩ := compute_inRange flow s0 pair
  rw [compute_init_min, compute_init_max] at h3
  have hM : min 255 (max pair.max_disparity_left pair.max_disparity_right + 2) ≤ 255 :=
    min_le_left _ _
  refine ⟨fun y x => (h3 y x).1, fun y x => (h3 y x).2, le_max_left _ _, hM, ?_⟩
  intro y x
  constructor
  · rcases (h3 y x).1 with e | ⟨_, e⟩
    · omega
    · omega
  · rcases (h3 y x).2 with e | ⟨_, e⟩
    · omega
    · omega

/-- C15. `compute` derives its label range as
`d_min = max(1, min(min_disparity_left, min_disparity_right) - 2)` and
`d_max = min(255, max(max_disparity_left, max_disparity_right) + 2)`, so `d_min ≥ 1` and
`d_max ≤ 255`; and `run_iteration` is the left fold of `run_alpha_expansion(-d)` over
the integers `d` of `[min_disparity, max_disparity]` sorted ascending: it visits
exactly these labels, once each, in ascending order of magnitude. -/
theorem label_range_and_order (flow : GraphCutDisparity → Nat → Color)
    (s0 : GraphCutDisparity) (pair : StereoPair) :
    (compute_init s0 pair).min_disparity
      = max 1 (min pair.min_disparity_left pair.min_disparity_right - 2) ∧
    (compute_init s0 pair).max_disparity
      = min 255 (max pair.max_disparity_left pair.max_disparity_right + 2) ∧
    1 ≤ (compute_init s0 pair).min_disparity ∧
    (compute_init s0 pair).max_disparity ≤ 255 ∧
    (∀ s : GraphCutDisparity,
      (run_iteration flow s).1 =
        ((Finset.Icc s.min_disparity s.max_disparity).sort (· ≤ ·)).foldl
          (fun t d => run_alpha_expansion flow (-d) t) s) := by
  refine ⟨compute_init_min s0 pair, compute_init_max s0 pair, ?_, ?_, ?_⟩
  · rw [compute_init_min]; exact le_max_left _ _
  · rw [compute_init_max]; exact min_le_left _ _
  · intro s
    rw [run_iteration_fold, labels_eq_sort]

/-- C20. When the derived bounds give `d_min > d_max`, the loop of `run_iteration` runs
zero times and `compute` returns, for every max-flow routine, the state it started its
iterations from: `disparity_left` and `disparity_right` have size `rows × cols` and
are zero at every pixel. -/
theorem infeasible_range_noop (flow : GraphCutDisparity → Nat → Color)
    (s0 : GraphCutDisparity) (pair : StereoPair)
    (h : min 255 (max pair.max_disparity_left pair.max_disparity_right + 2)
          < max 1 (min pair.min_disparity_left pair.min_disparity_right - 2)) :
    run_iteration flow (compute_init s0 pair) = (compute_init s0 pair, false) ∧
    compute flow s0 pair = compute_init s0 pair ∧
    ((compute flow s0 pair).pair.disparity_left.rows = pair.rows ∧
      (compute flow s0 pair).pair.disparity_left.cols = pair.cols ∧
      ∀ y x : Int, (compute flow s0 pair).pair.disparity_left.px y x = 0) ∧
    ((compute flow s0 pair).pair.disparity_right.rows = pair.rows ∧
      (compute flow s0 pair).pair.disparity_right.cols = pair.cols ∧
      ∀ y x : Int, (compute flow s0 pair).pair.disparity_right.px y x = 0) := by
  have h' : (compute_init s0 pair).max_disparity < (compute_init s0 pair).min_disparity := by
    rw [compute_init_min, compute_init_max]; exact h
  have hc := compute_empty flow s0 pair h'
  refine ⟨run_iteration_empty flow _ h', hc, ?_, ?_⟩
  · rw [hc]
    exact ⟨rfl, rfl, fun _ _ => rfl⟩
  · rw [hc]
    exact ⟨rfl, rfl, fun _ _ => rfl⟩

theorem infeasible_range_noop_witness :
    min 255 (max pairInfeasible.max_disparity_left pairInfeasible.max_disparity_right + 2)
        < max 1 (min pairInfeasible.min_disparity_left pairInfeasible.min_disparity_right - 2) ∧
    (run_iteration flowAllWhite (compute_init (GraphCutDisparity.new pairInfeasible 50 10)
        pairInfeasible)
      = (compute_init (GraphCutDisparity.new pairInfeasible 50 10) pairInfeasible, false) ∧
    compute flowAllWhite (GraphCutDisparity.new pairInfeasible 50 10) pairInfeasible
      = compute_init (GraphCutDisparity.new pairInfeasible 50 10) pairInfeasible ∧
    ((compute flowAllWhite (GraphCutDisparity.new pairInfeasible 50 10)
        pairInfeasible).pair.disparity_left.rows = pairInfeasible.rows ∧
      (compute flowAllWhite (GraphCutDisparity.new pairInfeasible 50 10)
        pairInfeasible).pair.disparity_left.cols = pairInfeasible.cols ∧
      ∀ y x : Int, (compute flowAllWhite (GraphCutDisparity.new pairInfeasible 50 10)
        pairInfeasible).pair.disparity_left.px y x = 0) ∧
    ((compute flowAllWhite (GraphCutDisparity.new pairInfeasible 50 10)
        pairInfeasible).pair.disparity_right.rows = pairInfeasible.rows ∧
      (compute flowAllWhite (GraphCutDisparity.new pairInfeasible 50 10)
        pairInfeasible).pair.disparity_right.cols = pairInfeasible.cols ∧
      ∀ y x : Int, (compute flowAllWhite (GraphCutDisparity.new pairInfeasible 50 10)
        pairInfeasible).pair.disparity_right.px y x = 0)) :=
  ⟨by decide,
    infeasible_range_noop flowAllWhite (GraphCutDisparity.new pairInfeasible 50 10)
      pairInfeasible (by decide)⟩

/-- C30. The code evaluated where the claim fails: for the in-bounds correspondence
`(1, 0, -1)` of a pair whose left pixel is `(1, 1, 0)` and whose right pixel is black,
the squared colour error is `1 + 1 + 0 = 2` but `data_cost` returns 1, because the
norm `√2` is converted to `int` before it is squared. In general `data_cost` is
non-negative and at most the squared colour error. -/
theorem data_cost_truncates_norm :
    within_bounds (GraphCutDisparity.new pairTwoTone 50 10) ⟨1, 0, -1⟩ ∧
    squared_colour_error (GraphCutDisparity.new pairTwoTone 50 10) ⟨1, 0, -1⟩ = 2 ∧
    data_cost (GraphCutDisparity.new pairTwoTone 50 10) ⟨1, 0, -1⟩ = 1 ∧
    (∀ (s : GraphCutDisparity) (c : Correspondence),
      0 ≤ data_cost s c ∧ (data_cost s c : ℚ) ≤ squared_colour_error s c) := by
  refine ⟨by decide, by decide!, by decide!, ?_⟩
  intro s c
  exact ⟨data_cost_nonneg s c, data_cost_le_error s c⟩

/-- C26. For a currently active correspondence `c = (x, y, d)` with `d ≠ alpha`,
`get_conflicts(c, alpha)` lists `(x, y, alpha)` if it is in bounds and then
`(x + d - alpha, y, alpha)` if it is in bounds; these are exactly the in-bounds
`alpha` candidates sharing a pixel with `c`, each listed once; and
`add_conflict_edges` appends, for each of them in turn, the edge from `c` to it with
capacity `INT_MAX` and the reverse edge with capacity `C_p`, and changes nothing else. -/
theorem conflict_edges (s : GraphCutDisparity) (c : Correspondence) (alpha : Int)
    (ha : is_active s c) (hd : c.d ≠ alpha) :
    get_conflicts s c alpha
      = (if within_bounds s ⟨c.x, c.y, alpha⟩ then [(⟨c.x, c.y, alpha⟩ : Correspondence)] else [])
        ++ (if within_bounds s ⟨c.x + c.d - alpha, c.y, alpha⟩
            then [(⟨c.x + c.d - alpha, c.y, alpha⟩ : Correspondence)] else []) ∧
    (∀ c' : Correspondence, c' ∈ get_conflicts s c alpha ↔
      (c'.d = alpha ∧ within_bounds s c' ∧ SharesPixel c c')) ∧
    (get_conflicts s c alpha).Nodup ∧
    (add_conflict_edges c alpha s).g.edges
      = s.g.edges ++ (get_conflicts s c alpha).flatMap
          (fun c' => [⟨get_vertex s c, get_vertex s c', INT_MAX⟩,
                      ⟨get_vertex s c', get_vertex s c, s.Cp⟩]) ∧
    SameButEdges s (add_conflict_edges c alpha s) := by
  have heq := get_conflicts_eq s c alpha ha hd
  refine ⟨heq, ?_, ?_, (add_conflict_edges_edges c alpha s).2, (add_conflict_edges_edges c alpha s).1⟩
  · intro c'
    rw [heq]
    obtain ⟨x', y', d'⟩ := c'
    simp only [List.mem_append, SharesPixel]
    constructor
    · intro h
      rcases h with h | h
      · split_ifs at h with hb
        · simp only [List.mem_singleton, Correspondence.mk.injEq] at h
          obtain ⟨rfl, rfl, rfl⟩ := h
          exact ⟨rfl, hb, rfl, Or.inl rfl⟩
        · exact absurd h (List.not_mem_nil _)
      · split_ifs at h with hb
        · simp only [List.mem_singleton, Correspondence.mk.injEq] at h
          obtain ⟨rfl, rfl, rfl⟩ := h
          exact ⟨rfl, hb, rfl, Or.inr (by ring)⟩
        · exact absurd h (List.not_mem_nil _)
    · rintro ⟨h1, h2, h3, h4⟩
      subst h1
      subst h3
      rcases h4 with h4 | h4
      · subst h4
        left
        rw [if_pos h2]
        exact List.mem_singleton.mpr rfl
      · have hx : x' = c.x + c.d - d' := by omega
        subst hx
        right
        rw [if_pos h2]
        exact List.mem_singleton.mpr rfl
  · rw [heq]
    have hne : (⟨c.x, c.y, alpha⟩ : Correspondence) ≠ ⟨c.x + c.d - alpha, c.y, alpha⟩ := by
      intro h
      have hx := congrArg Correspondence.x h
      simp only at hx
      omega
    split_ifs <;> simp [hne]

theorem conflict_edges_witness :
    is_active stateOneActiveNodes ⟨3, 0, -2⟩ ∧
    (add_conflict_edges ⟨3, 0, -2⟩ (-1) stateOneActiveNodes).g.edges
      = stateOneActiveNodes.g.edges
        ++ [⟨2, 5, INT_MAX⟩, ⟨5, 2, 50⟩, ⟨2, 4, INT_MAX⟩, ⟨4, 2, 50⟩] :=
  have h := conflict_edges stateOneActiveNodes ⟨3, 0, -2⟩ (-1) (by decide) (by decide)
  ⟨by decide, h.2.2.2.1.trans (congrArg (fun l => stateOneActiveNodes.g.edges ++ l) (by decide))⟩

/-- C25. The code evaluated where the claim fails. In every state `smooth_cost(c)` is
0, because it asks `get_inactive_neighbors` for the neighbours that are not valid for
`alpha = c.d`, and every in-bounds neighbour of the same `d` is valid for that
`alpha`. So `add_active_node` gives the node of `c` the source-edge capacity
`C_p * occ_factor(c)` and the sink-edge capacity `data(c)`. For the active
correspondence `(3, 0, -2)` of `stateOneActiveCounted` and the move `alpha = -1`, with
`V = 10` and `k = 2` in-bounds same-`d` neighbours that are neither active nor of
disparity `alpha`, the sink-edge capacity is `data(c) = 0`, not `data(c) + V * k = 20`. -/
theorem active_node_sink_capacity_omits_smoothness :
    (∀ (s : GraphCutDisparity) (c : Correspondence), smooth_cost s c = 0) ∧
    (∀ (s : GraphCutDisparity) (c : Correspondence) (alpha : Int),
      (add_active_node c alpha s).g.edges
        = s.g.edges ++
          [⟨s.source, s.g.num_vertices, occ_cost s c⟩, ⟨s.g.num_vertices, s.source, 0⟩,
           ⟨s.g.num_vertices, s.sink, data_cost s c⟩, ⟨s.sink, s.g.num_vertices, 0⟩]) ∧
    (is_active stateOneActiveCounted ⟨3, 0, -2⟩ ∧
      get_inactive_neighbors stateOneActiveCounted ⟨3, 0, -2⟩ (-1)
        = [⟨4, 0, -2⟩, ⟨2, 0, -2⟩] ∧
      stateOneActiveCounted.V_smooth = 10 ∧
      data_cost stateOneActiveCounted ⟨3, 0, -2⟩ = 0 ∧
      (add_active_node ⟨3, 0, -2⟩ (-1) stateOneActiveCounted).g.edges
        = [⟨0, 2, 0⟩, ⟨2, 0, 0⟩, ⟨2, 1, 0⟩, ⟨1, 2, 0⟩]) := by
  refine ⟨smooth_cost_zero, ?_, by decide, by decide, by decide, by decide!, by decide!⟩
  intro s c alpha
  rw [add_active_node_edges, smooth_cost_zero, add_zero]

/-- C29. The key `correspondence_hash(x, y, d)` is
`(x * rows + y) * (d_max - d_min + 1) + (d - d_min)`; it is injective on the
correspondences with `0 ≤ y < rows` and `d` in `[-d_max, -d_min]`, for any `x` (a
non-empty domain has `rows ≥ 1` and `d_min ≤ d_max`), so on them the order by key is a
strict total order; and when the stored disparities and the expanded label lie in the
label range, the correspondences considered in a move lie in that domain and get
pairwise distinct vertex indices in the graph of the move, none of them the index of
the source or of the sink. -/
theorem correspondence_key_collision_free (alpha : Int) (s : GraphCutDisparity)
    (hk : KeyedMove alpha s) :
    (∀ c : Correspondence, correspondence_hash s c
      = ((c.x * (s.pair.rows : Int) + c.y) * (s.max_disparity - s.min_disparity + 1))
        + (c.d - s.min_disparity)) ∧
    (∀ c1 c2 : Correspondence, InKeyDomain s c1 → InKeyDomain s c2 →
      correspondence_hash s c1 = correspondence_hash s c2 → c1 = c2) ∧
    (∀ c1 c2 : Correspondence, InKeyDomain s c1 → InKeyDomain s c2 → c1 ≠ c2 →
      (correspondence_hash s c1 < correspondence_hash s c2 ∨
        correspondence_hash s c2 < correspondence_hash s c1) ∧
      ¬ (correspondence_hash s c1 < correspondence_hash s c2 ∧
        correspondence_hash s c2 < correspondence_hash s c1)) ∧
    (∀ c1 c2 c3 : Correspondence, correspondence_hash s c1 < correspondence_hash s c2 →
      correspondence_hash s c2 < correspondence_hash s c3 →
      correspondence_hash s c1 < correspondence_hash s c3) ∧
    (∀ c : Correspondence, Considered alpha s c → InKeyDomain s c) ∧
    (∀ c1 c2 : Correspondence, Considered alpha s c1 → Considered alpha s c2 → c1 ≠ c2 →
      get_index (build_graph alpha s) c1 ≠ get_index (build_graph alpha s) c2 ∧
      2 ≤ get_index (build_graph alpha s) c1 ∧
      get_index (build_graph alpha s) c1 < (build_graph alpha s).g.num_vertices) := by
  refine ⟨fun c => rfl, correspondence_hash_inj s, ?_, fun _ _ _ h1 h2 => lt_trans h1 h2,
    considered_inKeyDomain alpha s hk, ?_⟩
  · intro c1 c2 h1 h2 hne
    have hh : correspondence_hash s c1 ≠ correspondence_hash s c2 :=
      fun h => hne (correspondence_hash_inj s c1 c2 h1 h2 h)
    exact ⟨lt_or_gt_of_ne hh, fun h => lt_asymm h.1 h.2⟩
  · intro c1 c2 h1 h2 hne
    refine ⟨build_graph_index_inj alpha s hk c1 c2 h1 h2 hne, ?_, ?_⟩
    · rw [(build_graph_index alpha s hk c1 ((mem_considered_list alpha s c1).mpr h1)).1]
      omega
    · have hm := (mem_considered_list alpha s c1).mpr h1
      rw [(build_graph_index alpha s hk c1 hm).1, (build_graph_index alpha s hk c1 hm).2]
      have := List.indexOf_lt_length.mpr hm
      omega

theorem correspondence_key_collision_free_witness :
    KeyedMove (-1) stateOneActive ∧
    Considered (-1) stateOneActive ⟨3, 0, -2⟩ ∧ Considered (-1) stateOneActive ⟨3, 0, -1⟩ ∧
    get_index (build_graph (-1) stateOneActive) ⟨3, 0, -2⟩
      ≠ get_index (build_graph (-1) stateOneActive) ⟨3, 0, -1⟩ :=
  ⟨by decide, by decide, by decide,
    ((correspondence_key_collision_free (-1) stateOneActive (by decide)).2.2.2.2.2
      ⟨3, 0, -2⟩ ⟨3, 0, -1⟩ (by decide) (by decide) (by decide)).1⟩

/-- C27. When the stored disparities and the expanded label lie in the label range and
every active correspondence is within bounds, `add_all_neighbor_edges` appends to the
graph exactly the edge pairs of its calls `add_edge(c1, c2, V, V)`, with capacity `V`
in both directions; for every two considered correspondences (active with
`d ≠ alpha`, or in bounds with `d = alpha`) that have the same `d` and differ by one
in `x` or in `y`, `add_edge` is called exactly once (the list of calls has no
duplicates and holds the pair in exactly one of its two orders); and it is called
for no other pair. -/
theorem smoothness_edges_once (alpha : Int) (s : GraphCutDisparity) (hk : KeyedMove alpha s)
    (hb : ActiveWithinBounds s) :
    (add_all_neighbor_edges alpha s).g.edges
      = s.g.edges ++ (neighbor_edge_calls alpha s).flatMap
          (fun p => [⟨get_vertex s p.1, get_vertex s p.2, s.V_smooth⟩,
                     ⟨get_vertex s p.2, get_vertex s p.1, s.V_smooth⟩]) ∧
    SameButEdges s (add_all_neighbor_edges alpha s) ∧
    (neighbor_edge_calls alpha s).Nodup ∧
    (∀ c1 c2 : Correspondence, Considered alpha s c1 → Considered alpha s c2 → Adjacent c1 c2 →
      ((c1, c2) ∈ neighbor_edge_calls alpha s ∧ (c2, c1) ∉ neighbor_edge_calls alpha s) ∨
      ((c2, c1) ∈ neighbor_edge_calls alpha s ∧ (c1, c2) ∉ neighbor_edge_calls alpha s)) ∧
    (∀ c1 c2 : Correspondence, (c1, c2) ∈ neighbor_edge_calls alpha s →
      Considered alpha s c1 ∧ Considered alpha s c2 ∧ Adjacent c1 c2) := by
  obtain ⟨e1, e2⟩ := add_all_neighbor_edges_edges alpha s
  refine ⟨e2, e1, neighbor_edge_calls_nodup alpha s, ?_, ?_⟩
  · intro c1 c2 h1 h2 ha
    have hne : correspondence_hash s c1 ≠ correspondence_hash s c2 := fun h =>
      adjacent_ne c1 c2 ha (correspondence_hash_inj s c1 c2
        (considered_inKeyDomain alpha s hk c1 h1) (considered_inKeyDomain alpha s hk c2 h2) h)
    rcases lt_or_gt_of_ne hne with hlt | hgt
    · have hm : (c2, c1) ∈ neighbor_edge_calls alpha s :=
        (mem_neighbor_edge_calls alpha s c2 c1).mpr
          ⟨h2, adjacent_symm c1 c2 ha, considered_valid alpha s hb c1 h1, hlt⟩
      have hn : (c1, c2) ∉ neighbor_edge_calls alpha s := by
        intro h
        have := ((mem_neighbor_edge_calls alpha s c1 c2).mp h).2.2.2
        omega
      exact Or.inr ⟨hm, hn⟩
    · have hm : (c1, c2) ∈ neighbor_edge_calls alpha s :=
        (mem_neighbor_edge_calls alpha s c1 c2).mpr
          ⟨h1, ha, considered_valid alpha s hb c2 h2, hgt⟩
      have hn : (c2, c1) ∉ neighbor_edge_calls alpha s := by
        intro h
        have := ((mem_neighbor_edge_calls alpha s c2 c1).mp h).2.2.2
        omega
      exact Or.inl ⟨hm, hn⟩
  · intro c1 c2 h
    obtain ⟨h1, h2, h3, _⟩ := (mem_neighbor_edge_calls alpha s c1 c2).mp h
    exact ⟨h1, valid_neighbor_considered alpha s c1 c2 h1 h2 h3, h2⟩

theorem smoothness_edges_once_witness :
    KeyedMove (-1) stateOneActiveNodes ∧ ActiveWithinBounds stateOneActiveNodes ∧
    neighbor_edge_calls (-1) stateOneActiveNodes
      = [(⟨2, 0, -1⟩, ⟨1, 0, -1⟩), (⟨3, 0, -1⟩, ⟨2, 0, -1⟩), (⟨4, 0, -1⟩, ⟨3, 0, -1⟩),
         (⟨5, 0, -1⟩, ⟨4, 0, -1⟩)] ∧
    (add_all_neighbor_edges (-1) stateOneActiveNodes).g.edges
      = stateOneActiveNodes.g.edges
        ++ [⟨4, 3, 10⟩, ⟨3, 4, 10⟩, ⟨5, 4, 10⟩, ⟨4, 5, 10⟩, ⟨6, 5, 10⟩, ⟨5, 6, 10⟩,
            ⟨7, 6, 10⟩, ⟨6, 7, 10⟩] :=
  have h := smoothness_edges_once (-1) stateOneActiveNodes (by decide) (by decide)
  ⟨by decide, by decide, by decide,
    h.1.trans (congrArg (fun l => stateOneActiveNodes.g.edges ++ l) (by decide))⟩

/-- C28. For every state and every colouring, with `alpha` in `[-255, -1]` as passed by
`run_iteration`, the flag returned by `update_correspondences(alpha)` is true exactly
when `disparity_left` differs from its value before the update at some pixel of the
image, which is exactly when some correspondence of the image has been activated or
deactivated (its `is_active` status differs), and exactly when the two maps differ;
it is false exactly when `disparity_left` is unchanged. -/
theorem changed_flag_exact (alpha : Int) (hlo : -255 ≤ alpha) (hhi : alpha ≤ -1)
    (s : GraphCutDisparity) :
    ((update_correspondences alpha s).changed = true ↔
      ∃ y x : Nat, y < s.pair.rows ∧ x < s.pair.cols ∧
        (update_correspondences alpha s).pair.disparity_left.px y x
          ≠ s.pair.disparity_left.px y x) ∧
    ((update_correspondences alpha s).changed = true ↔
      ∃ c : Correspondence, InImage s c ∧
        ¬ (is_active (update_correspondences alpha s) c ↔ is_active s c)) ∧
    ((update_correspondences alpha s).changed = true ↔
      (update_correspondences alpha s).pair.disparity_left ≠ s.pair.disparity_left) ∧
    ((update_correspondences alpha s).changed = false ↔
      (update_correspondences alpha s).pair.disparity_left = s.pair.disparity_left) := by
  obtain ⟨_, h2, h3⟩ := update_correspondences_exact alpha hlo hhi s
  obtain ⟨d1, d2⟩ := update_correspondences_dims alpha s
  have hmat : (update_correspondences alpha s).pair.disparity_left ≠ s.pair.disparity_left ↔
      ∃ y x : Nat, y < s.pair.rows ∧ x < s.pair.cols ∧
        (update_correspondences alpha s).pair.disparity_left.px y x
          ≠ s.pair.disparity_left.px y x := by
    constructor
    · intro hne
      by_contra hall
      push_neg at hall
      apply hne
      refine Mat.ext_px _ _ d1 d2 ?_
      intro a b
      by_cases hin : ∃ y x : Nat, y < s.pair.rows ∧ x < s.pair.cols ∧ a = (y : Int) ∧ b = (x : Int)
      · obtain ⟨y, x, hy, hx, rfl, rfl⟩ := hin
        exact hall y x hy hx
      · exact h3 a b hin
    · rintro ⟨y, x, _, _, h⟩ he
      apply h
      rw [he]
  have hcorr : (∃ c : Correspondence, InImage s c ∧
        ¬ (is_active (update_correspondences alpha s) c ↔ is_active s c)) ↔
      ∃ y x : Nat, y < s.pair.rows ∧ x < s.pair.cols ∧
        (update_correspondences alpha s).pair.disparity_left.px y x
          ≠ s.pair.disparity_left.px y x := by
    constructor
    · rintro ⟨c, ⟨c1, c2, c3, c4⟩, hdiff⟩
      refine ⟨c.y.toNat, c.x.toNat, by omega, by omega, ?_⟩
      rw [Int.toNat_of_nonneg c1, Int.toNat_of_nonneg c3]
      intro he
      apply hdiff
      unfold is_active
      rw [he]
    · rintro ⟨y, x, hy, hx, h⟩
      refine ⟨⟨x, y, -((update_correspondences alpha s).pair.disparity_left.px y x : Int)⟩,
        ⟨by simp, by simpa using hy, by simp, by simpa using hx⟩, ?_⟩
      unfold is_active
      simp only [neg_neg, true_iff]
      intro he
      apply h
      exact_mod_cast he.symm
  refine ⟨h2, by rw [h2, hcorr], by rw [h2, hmat], ?_⟩
  rw [← not_iff_not, Bool.not_eq_false, h2, ← hmat]

theorem changed_flag_exact_witness :
    (update_correspondences (-1) (cut_graph flowAllWhite (-1) stateOneActive)).changed = true ∧
    (update_correspondences (-1) (cut_graph flowAllWhite (-1) stateOneActive)).pair.disparity_left
      ≠ (cut_graph flowAllWhite (-1) stateOneActive).pair.disparity_left ∧
    (update_correspondences (-1) (cut_graph flowAllBlack (-1) stateOneActive)).changed = false ∧
    (update_correspondences (-1) (cut_graph flowAllBlack (-1) stateOneActive)).pair.disparity_left
      = (cut_graph flowAllBlack (-1) stateOneActive).pair.disparity_left :=
  have h1 := changed_flag_exact (-1) (by decide) (by decide)
    (cut_graph flowAllWhite (-1) stateOneActive)
  have h2 := changed_flag_exact (-1) (by decide) (by decide)
    (cut_graph flowAllBlack (-1) stateOneActive)
  have c1 : (update_correspondences (-1)
      (cut_graph flowAllWhite (-1) stateOneActive)).changed = true := by decide
  have c2 : (update_correspondences (-1)
      (cut_graph flowAllBlack (-1) stateOneActive)).changed = false := by decide
  ⟨c1, h1.2.2.1.mp c1, c2, h2.2.2.2.mp c2⟩

/-- C24, counterexample. In the run of `compute` on `pairFour` (`C_p = 1`, `V = 1`),
after the first move has activated `(1, 0, -1)`, the move `alpha = -2` has a single
minimum cut, of value 2, which is the colouring of `flowTerminal`: every minimum cut
colours the node of the active correspondence `(1, 0, -1)` black. After
`update_correspondences(-2)` that correspondence is still active: its left pixel and
its right pixel read 1, neither 0 nor the byte 2 of an activated `alpha`
correspondence. -/
theorem black_node_stays_active :
    IsMinCut (build_graph (-2) (stateFourAfter 1))
      (flowTerminal (build_graph (-2) (stateFourAfter 1))) ∧
    (∀ col : Nat → Color, IsMinCut (build_graph (-2) (stateFourAfter 1)) col →
      col (get_vertex (build_graph (-2) (stateFourAfter 1)) ⟨1, 0, -1⟩) = Color.black) ∧
    ActiveInMove (-2) (cut_graph flowTerminal (-2) (stateFourAfter 1)) ⟨1, 0, -1⟩ ∧
    node_color (cut_graph flowTerminal (-2) (stateFourAfter 1)) ⟨1, 0, -1⟩ = Color.black ∧
    (update_correspondences (-2)
      (cut_graph flowTerminal (-2) (stateFourAfter 1))).pair.disparity_left.px 0 1 = 1 ∧
    (update_correspondences (-2)
      (cut_graph flowTerminal (-2) (stateFourAfter 1))).pair.disparity_right.px 0 0 = 1 ∧
    is_active (update_correspondences (-2)
      (cut_graph flowTerminal (-2) (stateFourAfter 1))) ⟨1, 0, -1⟩ := by
  have g2 := stateFour_graphs.2.1
  obtain ⟨v, lb, uniq⟩ := terminal_cut_second _ g2
  have hv : get_vertex (build_graph (-2) (stateFourAfter 1)) ⟨1, 0, -1⟩ = 2 := by decide!
  refine ⟨(isMinCut_of_bound _ _ 2 ⟨v, lb⟩ (by decide)).1, ?_, by decide!⟩
  intro col hmin
  rw [hv]
  refine (uniq col ?_).1
  have h := hmin (flowTerminal (build_graph (-2) (stateFourAfter 1)))
  rw [v] at h
  exact h

/-- C24, amended. In `update_correspondences`, for every colouring: every previously
active correspondence (`d ≠ alpha`) whose node is not black is deactivated, that is,
its left pixel in `disparity_left` and its right pixel in `disparity_right` read 0
afterwards unless the `alpha` correspondence on that pixel was activated in the same
move, in which case they read `-alpha`; one whose node is black stays active unless
the `alpha` correspondence on its left pixel was activated; and an in-bounds `alpha`
candidate is active afterwards exactly when its node is not black. -/
theorem update_after_cut (alpha : Int) (hlo : -255 ≤ alpha) (hhi : alpha ≤ -1)
    (s : GraphCutDisparity) :
    (∀ c : Correspondence, ActiveInMove alpha s c → node_color s c ≠ Color.black →
      ((update_correspondences alpha s).pair.disparity_left.px c.y c.x = 0 ∨
        (((update_correspondences alpha s).pair.disparity_left.px c.y c.x : Int) = -alpha ∧
          ActivatedInMove alpha s ⟨c.x, c.y, alpha⟩)) ∧
      ((update_correspondences alpha s).pair.disparity_right.px c.y (c.x + c.d) = 0 ∨
        (((update_correspondences alpha s).pair.disparity_right.px c.y (c.x + c.d) : Int)
            = -alpha ∧
          ActivatedInMove alpha s ⟨c.x + c.d - alpha, c.y, alpha⟩))) ∧
    (∀ c : Correspondence, ActiveInMove alpha s c → node_color s c = Color.black →
      (is_active (update_correspondences alpha s) c ∨
        (((update_correspondences alpha s).pair.disparity_left.px c.y c.x : Int) = -alpha ∧
          ActivatedInMove alpha s ⟨c.x, c.y, alpha⟩))) ∧
    (∀ c : Correspondence, AlphaInMove alpha s c →
      (is_active (update_correspondences alpha s) c ↔ node_color s c ≠ Color.black)) := by
  obtain ⟨hpix, _, _⟩ := update_correspondences_exact alpha hlo hhi s
  have hbyte := byte_of_label alpha hlo hhi
  have hleft : ∀ c : Correspondence, InImage s c →
      (update_correspondences alpha s).pair.disparity_left.px c.y c.x
        = activated s alpha c.y.toNat c.x.toNat
            (deactivated s alpha c.y.toNat c.x.toNat (s.pair.disparity_left.px c.y c.x)) := by
    intro c ⟨c1, c2, c3, c4⟩
    have h := hpix c.y.toNat c.x.toNat (by omega) (by omega)
    rw [Int.toNat_of_nonneg c1, Int.toNat_of_nonneg c3] at h
    exact h
  have hactv : ∀ (x y : Int) (v : Nat), 0 ≤ y → 0 ≤ x →
      activated s alpha y.toNat x.toNat v
        = if within_bounds s ⟨x, y, alpha⟩ then
            if node_color s ⟨x, y, alpha⟩ ≠ Color.black then
              (if (v : Int) = -alpha then v else ((-alpha) % 256).toNat)
            else (if (v : Int) = -alpha then 0 else v)
          else v := by
    intro x y v hy hx
    unfold activated
    simp only [Int.toNat_of_nonneg hy, Int.toNat_of_nonneg hx]
  have hdeact : ∀ (x y : Int) (v : Nat), 0 ≤ y → 0 ≤ x →
      deactivated s alpha y.toNat x.toNat v
        = if (-(v : Int) ≠ NULL_DISPARITY ∧ -(v : Int) ≠ alpha) ∧
              node_color s ⟨x, y, -(v : Int)⟩ ≠ Color.black then 0 else v := by
    intro x y v hy hx
    unfold deactivated
    simp only [Int.toNat_of_nonneg hy, Int.toNat_of_nonneg hx]
  refine ⟨?_, ?_, ?_⟩
  · intro c hc hnb
    refine ⟨?_, right_after_deactivation alpha hlo hhi s c hc hnb⟩
    obtain ⟨him, hact, hnz, hna⟩ := hc
    rw [hleft c him]
    obtain ⟨c1, c2, c3, c4⟩ := him
    obtain ⟨x, y, d⟩ := c
    simp only at c1 c2 c3 c4 hnz hna hact hnb ⊢
    unfold is_active at hact
    simp only at hact
    have hd : -((s.pair.disparity_left.px y x : Nat) : Int) = d := by omega
    have h1 : deactivated s alpha y.toNat x.toNat (s.pair.disparity_left.px y x) = 0 := by
      rw [hdeact x y _ c1 c3, hd, if_pos ⟨⟨hnz, hna⟩, hnb⟩]
    rw [h1, hactv x y 0 c1 c3]
    by_cases hw : within_bounds s ⟨x, y, alpha⟩
    · rw [if_pos hw]
      by_cases hb : node_color s ⟨x, y, alpha⟩ ≠ Color.black
      · rw [if_pos hb, if_neg (by simp only [Nat.cast_zero]; omega)]
        right
        refine ⟨hbyte, ⟨rfl, hw⟩, hb, ?_⟩
        unfold is_active
        simp only
        omega
      · rw [if_neg hb, if_neg (by simp only [Nat.cast_zero]; omega)]
        exact Or.inl rfl
    · rw [if_neg hw]
      exact Or.inl rfl
  · intro c hc hb
    obtain ⟨him, hact, hnz, hna⟩ := hc
    unfold is_active
    rw [hleft c him]
    obtain ⟨c1, c2, c3, c4⟩ := him
    obtain ⟨x, y, d⟩ := c
    simp only at c1 c2 c3 c4 hnz hna hact hb ⊢
    unfold is_active at hact
    simp only at hact
    have hd : -((s.pair.disparity_left.px y x : Nat) : Int) = d := by omega
    have h1 : deactivated s alpha y.toNat x.toNat (s.pair.disparity_left.px y x)
        = s.pair.disparity_left.px y x := by
      rw [hdeact x y _ c1 c3, hd, if_neg (fun h => h.2 hb)]
    rw [h1, hactv x y _ c1 c3]
    by_cases hw : within_bounds s ⟨x, y, alpha⟩
    · rw [if_pos hw]
      by_cases hb2 : node_color s ⟨x, y, alpha⟩ ≠ Color.black
      · rw [if_pos hb2, if_neg (by omega)]
        right
        refine ⟨hbyte, ⟨rfl, hw⟩, hb2, ?_⟩
        unfold is_active
        simp only
        omega
      · rw [if_neg hb2, if_neg (by omega)]
        exact Or.inl hact
    · rw [if_neg hw]
      exact Or.inl hact
  · intro c ⟨hd, hw⟩
    have him : InImage s c := by
      obtain ⟨b1, _, b3, b4, _, b6⟩ := hw
      exact ⟨b3, b6, b1, b4⟩
    unfold is_active
    rw [hleft c him]
    obtain ⟨c1, c2, c3, c4⟩ := him
    obtain ⟨x, y, d⟩ := c
    simp only at c1 c2 c3 c4 hd hw ⊢
    subst hd
    rw [hactv x y _ c1 c3, if_pos hw]
    by_cases hb : node_color s ⟨x, y, d⟩ ≠ Color.black
    · rw [if_pos hb]
      refine ⟨fun _ => hb, fun _ => ?_⟩
      split_ifs with h1
      · exact h1
      · exact hbyte
    · rw [if_neg hb]
      refine ⟨fun h => ?_, fun h => absurd h hb⟩
      exfalso
      split_ifs at h with h1
      · simp only [Nat.cast_zero] at h
        omega
      · exact h1 h

theorem update_after_cut_witness :
    ActiveInMove (-1) stateAllWhite ⟨3, 0, -2⟩ ∧
    node_color stateAllWhite ⟨3, 0, -2⟩ ≠ Color.black ∧
    ((update_correspondences (-1) stateAllWhite).pair.disparity_left.px 0 3 = 0 ∨
      (((update_correspondences (-1) stateAllWhite).pair.disparity_left.px 0 3 : Int) = -(-1) ∧
        ActivatedInMove (-1) stateAllWhite ⟨3, 0, -1⟩)) ∧
    (update_correspondences (-1) stateAllWhite).pair.disparity_left.px 0 3 = 1 :=
  have h := ((update_after_cut (-1) (by decide) (by decide) stateAllWhite).1
    ⟨3, 0, -2⟩ (by decide) (by decide)).1
  ⟨by decide, by decide, h, by decide⟩

/-- C23, counterexample. Let `compute` start on the `1 × 3` pair with black images
and bounds `[1, 1]`, with `C_p = 1` and `V = 10`: all-null maps, label range `[1, 3]`.
In the first iteration the colourings of `flowThree` are minimum cuts of the graphs of
the three moves (value 0, no negative capacity). The first move, `alpha = -1`,
activates the neighbouring correspondences `(1, 0, -1)` and `(2, 0, -1)`, and the
energy with `V` per pair of neighbouring active correspondences rises from 6 to 12,
after that move and after the full `run_iteration`. -/
theorem energy_of_active_pairs_increases :
    Feasible stateThree ∧
    IsMinCut (build_graph (-1) stateThree) (flowThree (build_graph (-1) stateThree)) ∧
    MinCutMoves flowThree stateThree (iteration_labels stateThree) ∧
    spec_energy stateThree = 6 ∧
    spec_energy (run_alpha_expansion flowThree (-1) stateThree) = 12 ∧
    spec_energy (run_iteration flowThree stateThree).1 = 12 ∧
    ¬ spec_energy (run_alpha_expansion flowThree (-1) stateThree) ≤ spec_energy stateThree ∧
    ¬ spec_energy (run_iteration flowThree stateThree).1 ≤ spec_energy stateThree := by
  have hg := flowThree_min_cuts
  have hl : iteration_labels stateThree = [1, 2, 3] := by decide
  have hm : IsMinCut (build_graph (-1) stateThree) (flowThree (build_graph (-1) stateThree)) := by
    have h := hg
    rw [hl] at h
    exact h.1.1
  have e1 : spec_energy stateThree = 6 := by decide!
  have e2 : spec_energy (run_alpha_expansion flowThree (-1) stateThree) = 12 := by decide!
  have e3 : spec_energy (run_iteration flowThree stateThree).1 = 12 := by decide!
  refine ⟨by decide, hm, hg, e1, e2, e3, ?_, ?_⟩
  · rw [e1, e2]
    decide
  · rw [e1, e3]
    decide

/-- C23, amended. Let the energy count, as its smoothness term, `V` for every pair of
an active correspondence and an in-bounds 4-neighbour of the same disparity that is
not active. For a feasible state (label range in `[1, 255]`, stored disparities in the
range, active correspondences within bounds and unique) with `C_p ≥ 0` and `V ≥ 0`:
every move `run_alpha_expansion(alpha)` with `-alpha` in the label range whose
colouring is a minimum cut of the constructed graph, of a value below `INT_MAX`,
leaves the energy lower or equal; hence so does a full `run_iteration` all of whose
moves are led by such minimum cuts. -/
theorem alpha_expansion_energy (flow : GraphCutDisparity → Nat → Color)
    (s : GraphCutDisparity) (hF : Feasible s) (hCp : 0 ≤ s.Cp) (hV : 0 ≤ s.V_smooth) :
    (∀ alpha : Int, (-s.max_disparity ≤ alpha ∧ alpha ≤ -s.min_disparity) →
      IsMinCut (build_graph alpha s) (flow (build_graph alpha s)) →
      cut_value (build_graph alpha s) (flow (build_graph alpha s)) < INT_MAX →
      energy (run_alpha_expansion flow alpha s) ≤ energy s) ∧
    (MinCutMoves flow s (iteration_labels s) →
      energy (run_iteration flow s).1 ≤ energy s) :=
  ⟨fun alpha ha hmin hfin => (min_cut_move flow alpha s hF ha hCp hV hmin hfin).1,
    fun hg => iteration_energy_le flow s hF hCp hV hg⟩

theorem alpha_expansion_energy_witness :
    Feasible stateThree ∧
    IsMinCut (build_graph (-1) stateThree) (flowThree (build_graph (-1) stateThree)) ∧
    MinCutMoves flowThree stateThree (iteration_labels stateThree) ∧
    energy stateThree = 6 ∧
    energy (run_alpha_expansion flowThree (-1) stateThree) = 2 ∧
    energy (run_iteration flowThree stateThree).1 = 2 ∧
    energy (run_alpha_expansion flowThree (-1) stateThree) ≤ energy stateThree ∧
    energy (run_iteration flowThree stateThree).1 ≤ energy stateThree := by
  have hg := flowThree_min_cuts
  have hl : iteration_labels stateThree = [1, 2, 3] := by decide
  have hm : (IsMinCut (build_graph (-1) stateThree) (flowThree (build_graph (-1) stateThree)) ∧
      cut_value (build_graph (-1) stateThree) (flowThree (build_graph (-1) stateThree))
        < INT_MAX) := by
    have h := hg
    rw [hl] at h
    exact h.1
  have hF : Feasible stateThree := by decide
  have h := alpha_expansion_energy flowThree stateThree hF (by decide) (by decide)
  exact ⟨hF, hm.1, hg, by decide!, by decide!, by decide!,
    h.1 (-1) (by decide) hm.1 hm.2, h.2 hg⟩

/-- C32. Consistency of the two maps of the graph-cut solver. Take any max-flow routine
`flow` and a run of `compute` in which no colouring that `flow` returns cuts a conflict
edge of its move. An alpha-expansion with `-alpha` in `[1, 255]` whose colouring cuts no
conflict edge takes consistent maps to consistent maps; so the maps are consistent in
every state that the run reaches, from the all-null start through every move of every
iteration, and at the end of `compute`. Consistent means: `disparity_left[y, x] = m ≠ 0`
implies `x - m ≥ 0` and `disparity_right[y, x - m] = m`, and
`disparity_right[y, x] = m ≠ 0` implies `x + m < cols` and
`disparity_left[y, x + m] = m`. -/
theorem left_right_consistency (flow : GraphCutDisparity → Nat → Color)
    (s0 : GraphCutDisparity) (pair : StereoPair)
    (hcut : ConflictFreeRun flow (compute_init s0 pair) (compute_init s0 pair).num_iters) :
    (∀ s alpha, -255 ≤ alpha → alpha ≤ -1 → Consistent s →
      CutsNoConflictEdge (cut_graph flow alpha s) alpha →
      Consistent (run_alpha_expansion flow alpha s)) ∧
    (∀ n k, n < (compute_init s0 pair).num_iters →
      Consistent (run_state flow (compute_init s0 pair) n k)) ∧
    Consistent (compute flow s0 pair) := by
  obtain ⟨h1, h2⟩ := run_invariant flow ConsistentState
    (fun s hs => ⟨hs.1, hs.2.1⟩)
    (fun s alpha hlo hhi hs hc =>
      run_alpha_expansion_consistentState flow alpha hlo hhi s hs hc)
    _ _ (compute_init_consistentState s0 pair) hcut
  exact ⟨fun s alpha hlo hhi hC hc => run_alpha_expansion_consistent flow alpha hlo hhi s hC hc,
    fun n k hn => (h1 n k hn).2.2, h2.2.2⟩

/-- C32, witness. The run of `compute` on `pairFour` with `C_p = 1` and `V = 1`, led by
`flowTerminal`: the colouring of each of its six moves is a minimum cut of the graph of
the move and cuts no conflict edge; in the move `alpha = -2` the active `(1, 0, -1)`
and its conflicting candidate `(2, 0, -2)` are both black, and the final maps hold the
active correspondences `(1, 0, -1)` and `(3, 0, -2)`: `disparity_left = (0, 1, 0, 2)`
and `disparity_right = (1, 2, 0, 0)`. -/
theorem left_right_consistency_witness :
    ConflictFreeRun flowTerminal (compute_init (GraphCutDisparity.new pairFour 1 1) pairFour)
      (compute_init (GraphCutDisparity.new pairFour 1 1) pairFour).num_iters ∧
    MinCutMoves flowTerminal (compute_init (GraphCutDisparity.new pairFour 1 1) pairFour)
      [1, 2, 3, 1, 2, 3] ∧
    (ActiveInMove (-2) (cut_graph flowTerminal (-2) (stateFourAfter 1)) ⟨1, 0, -1⟩ ∧
      get_conflicts (cut_graph flowTerminal (-2) (stateFourAfter 1)) ⟨1, 0, -1⟩ (-2)
        = [⟨2, 0, -2⟩] ∧
      node_color (cut_graph flowTerminal (-2) (stateFourAfter 1)) ⟨1, 0, -1⟩ = Color.black ∧
      node_color (cut_graph flowTerminal (-2) (stateFourAfter 1)) ⟨2, 0, -2⟩ = Color.black) ∧
    ((compute flowTerminal (GraphCutDisparity.new pairFour 1 1)
        pairFour).pair.disparity_left.px 0 1 = 1 ∧
      (compute flowTerminal (GraphCutDisparity.new pairFour 1 1)
        pairFour).pair.disparity_right.px 0 0 = 1 ∧
      (compute flowTerminal (GraphCutDisparity.new pairFour 1 1)
        pairFour).pair.disparity_left.px 0 3 = 2 ∧
      (compute flowTerminal (GraphCutDisparity.new pairFour 1 1)
        pairFour).pair.disparity_right.px 0 1 = 2) ∧
    ((∀ s alpha, -255 ≤ alpha → alpha ≤ -1 → Consistent s →
      CutsNoConflictEdge (cut_graph flowTerminal alpha s) alpha →
      Consistent (run_alpha_expansion flowTerminal alpha s)) ∧
    (∀ n k, n < (compute_init (GraphCutDisparity.new pairFour 1 1) pairFour).num_iters →
      Consistent
        (run_state flowTerminal (compute_init (GraphCutDisparity.new pairFour 1 1) pairFour)
          n k)) ∧
    Consistent (compute flowTerminal (GraphCutDisparity.new pairFour 1 1) pairFour)) :=
  ⟨flowTerminal_conflict_free, flowTerminal_min_cuts, stateFour_kept_black,
    stateFour_final_maps,
    left_right_consistency flowTerminal (GraphCutDisparity.new pairFour 1 1) pairFour
      flowTerminal_conflict_free⟩

/-! ## Claims on the error metrics -/

/-- C6. `get_occlusion_confusion_matrix(G, H)` is the four-element vector
`(TN, FP, FN, TP)` with occluded (value 0) as the positive class: the numbers of pixels
nonzero in both maps, nonzero in `G` and zero in `H`, zero in `G` and nonzero in `H`,
and zero in both. -/
theorem confusion_matrix_counts (G H : Mat Nat) (_hs : SameSize G H) :
    get_occlusion_confusion_matrix G H =
      [((pixels G.rows G.cols).filter (fun p => G.px p.1 p.2 ≠ 0 ∧ H.px p.1 p.2 ≠ 0)).card,
       ((pixels G.rows G.cols).filter (fun p => G.px p.1 p.2 ≠ 0 ∧ H.px p.1 p.2 = 0)).card,
       ((pixels G.rows G.cols).filter (fun p => G.px p.1 p.2 = 0 ∧ H.px p.1 p.2 ≠ 0)).card,
       ((pixels G.rows G.cols).filter (fun p => G.px p.1 p.2 = 0 ∧ H.px p.1 p.2 = 0)).card] := by
  simp only [get_occlusion_confusion_matrix, countNonZero_eq_card]
  have hrows : ∀ a b : Mat Nat, (a.and b).rows = a.rows := fun _ _ => rfl
  have hcols : ∀ a b : Mat Nat, (a.and b).cols = a.cols := fun _ _ => rfl
  simp only [hrows, hcols]
  have e1 : G.neZero.rows = G.rows := rfl
  have e2 : G.neZero.cols = G.cols := rfl
  have e3 : G.eqZero.rows = G.rows := rfl
  have e4 : G.eqZero.cols = G.cols := rfl
  rw [e1, e2, e3, e4]
  congr 1
  · congr 1
    apply Finset.filter_congr
    intro p _
    simp only [Mat.and, Mat.neZero]
    by_cases hg : G.px p.1 p.2 = 0 <;> by_cases hh : H.px p.1 p.2 = 0 <;> simp [hg, hh]
  congr 1
  · congr 1
    apply Finset.filter_congr
    intro p _
    simp only [Mat.and, Mat.neZero, Mat.eqZero]
    by_cases hg : G.px p.1 p.2 = 0 <;> by_cases hh : H.px p.1 p.2 = 0 <;> simp [hg, hh]
  congr 1
  · congr 1
    apply Finset.filter_congr
    intro p _
    simp only [Mat.and, Mat.neZero, Mat.eqZero]
    by_cases hg : G.px p.1 p.2 = 0 <;> by_cases hh : H.px p.1 p.2 = 0 <;> simp [hg, hh]
  congr 1
  · congr 1
    apply Finset.filter_congr
    intro p _
    simp only [Mat.and, Mat.eqZero]
    by_cases hg : G.px p.1 p.2 = 0 <;> by_cases hh : H.px p.1 p.2 = 0 <;> simp [hg, hh]

theorem confusion_matrix_counts_witness :
    SameSize goldFive guessFive ∧ get_occlusion_confusion_matrix goldFive guessFive =
      [((pixels goldFive.rows goldFive.cols).filter
          (fun p => goldFive.px p.1 p.2 ≠ 0 ∧ guessFive.px p.1 p.2 ≠ 0)).card,
       ((pixels goldFive.rows goldFive.cols).filter
          (fun p => goldFive.px p.1 p.2 ≠ 0 ∧ guessFive.px p.1 p.2 = 0)).card,
       ((pixels goldFive.rows goldFive.cols).filter
          (fun p => goldFive.px p.1 p.2 = 0 ∧ guessFive.px p.1 p.2 ≠ 0)).card,
       ((pixels goldFive.rows goldFive.cols).filter
          (fun p => goldFive.px p.1 p.2 = 0 ∧ guessFive.px p.1 p.2 = 0)).card] :=
  ⟨by decide, confusion_matrix_counts goldFive guessFive (by decide)⟩

/-- C7. With `n = |U| > 0` mutually unoccluded pixels and a threshold `t ≥ 0`,
`get_bad_matching_unoccluded(G, H, t)` is the number of pixels of `U` with
`|H - G| > t` divided by `n`; pixels outside `U` are not counted. -/
theorem bad_matching_unoccluded_eq (G H : Mat Nat) (t : Int) (hs : SameSize G H)
    (ht : 0 ≤ t) (_hn : 0 < (unoccludedSet G H).card) :
    get_bad_matching_unoccluded G H t
      = (((unoccludedSet G H).filter (fun p => |residual G H p| > (t : ℚ))).card : ℚ)
          / ((unoccludedSet G H).card : ℚ) :=
  bad_matching_unoccluded_counts G H t hs ht

theorem bad_matching_unoccluded_eq_witness :
    SameSize goldFive guessFive ∧ (0 : Int) ≤ 1 ∧ 0 < (unoccludedSet goldFive guessFive).card ∧
    get_bad_matching_unoccluded goldFive guessFive 1
      = (((unoccludedSet goldFive guessFive).filter
            (fun p => |residual goldFive guessFive p| > ((1 : Int) : ℚ))).card : ℚ)
          / ((unoccludedSet goldFive guessFive).card : ℚ) :=
  ⟨by decide, by decide, by decide,
    bad_matching_unoccluded_eq goldFive guessFive 1 (by decide) (by decide) (by decide)⟩

/-- C8. With `n = |U| > 0`, `get_bias_unoccluded(G, H)` is the sum over `U` of
`H - G` (candidate minus ground truth) divided by `n`; pixels zero in either map
contribute nothing. -/
theorem bias_unoccluded_eq (G H : Mat Nat) (hs : SameSize G H)
    (_hn : 0 < (unoccludedSet G H).card) :
    get_bias_unoccluded G H
      = (∑ p ∈ unoccludedSet G H, ((H.px p.1 p.2 : ℚ) - (G.px p.1 p.2 : ℚ)))
          / ((unoccludedSet G H).card : ℚ) :=
  bias_unoccluded_sum G H hs

theorem bias_unoccluded_eq_witness :
    SameSize goldFive guessFive ∧ 0 < (unoccludedSet goldFive guessFive).card ∧
    get_bias_unoccluded goldFive guessFive
      = (∑ p ∈ unoccludedSet goldFive guessFive,
            ((guessFive.px p.1 p.2 : ℚ) - (goldFive.px p.1 p.2 : ℚ)))
          / ((unoccludedSet goldFive guessFive).card : ℚ) :=
  ⟨by decide, by decide, bias_unoccluded_eq goldFive guessFive (by decide) (by decide)⟩

/-- C9. With `n = |U| > 0` and `ss_tot ≠ 0`, `get_r_squared_unoccluded(G, H)` is
`1 - ss_res / ss_tot` with `ss_res = Σ_U (H - G)²` and `ss_tot = Σ_U (G - μ)²`, where
`μ = Σ_U G / n` is the mean of the ground truth `G` over `U`. -/
theorem r_squared_unoccluded_eq (G H : Mat Nat) (hs : SameSize G H)
    (_hn : 0 < (unoccludedSet G H).card)
    (_htot : (∑ p ∈ unoccludedSet G H, ((G.px p.1 p.2 : ℚ)
        - (∑ q ∈ unoccludedSet G H, (G.px q.1 q.2 : ℚ)) / ((unoccludedSet G H).card : ℚ)) ^ 2) ≠ 0) :
    get_r_squared_unoccluded G H
      = 1 - (∑ p ∈ unoccludedSet G H, ((H.px p.1 p.2 : ℚ) - (G.px p.1 p.2 : ℚ)) ^ 2)
          / (∑ p ∈ unoccludedSet G H, ((G.px p.1 p.2 : ℚ)
              - (∑ q ∈ unoccludedSet G H, (G.px q.1 q.2 : ℚ)) / ((unoccludedSet G H).card : ℚ)) ^ 2) :=
  r_squared_unoccluded_sums G H hs

theorem r_squared_unoccluded_eq_witness :
    SameSize goldFive guessFive ∧ 0 < (unoccludedSet goldFive guessFive).card ∧
    (∑ p ∈ unoccludedSet goldFive guessFive, ((goldFive.px p.1 p.2 : ℚ)
        - (∑ q ∈ unoccludedSet goldFive guessFive, (goldFive.px q.1 q.2 : ℚ))
            / ((unoccludedSet goldFive guessFive).card : ℚ)) ^ 2) ≠ 0 ∧
    get_r_squared_unoccluded goldFive guessFive
      = 1 - (∑ p ∈ unoccludedSet goldFive guessFive,
              ((guessFive.px p.1 p.2 : ℚ) - (goldFive.px p.1 p.2 : ℚ)) ^ 2)
          / (∑ p ∈ unoccludedSet goldFive guessFive, ((goldFive.px p.1 p.2 : ℚ)
              - (∑ q ∈ unoccludedSet goldFive guessFive, (goldFive.px q.1 q.2 : ℚ))
                  / ((unoccludedSet goldFive guessFive).card : ℚ)) ^ 2) :=
  ⟨by decide, by decide, by decide!,
    r_squared_unoccluded_eq goldFive guessFive (by decide) (by decide) (by decide!)⟩

/-- C5, the code at the failing input. On the one-pixel maps `G = [0]`, `H = [5]` the
8-bit difference `G - H` that `get_rms_error_all` takes the norm of is 0, not -5: the
sum of squares it sees is 0 while the true `Σ (G - H)²` is 25, and for every square
root the returned score is the score of a perfect match. -/
theorem get_rms_error_all_saturates :
    (goldZero.subSat guessAbove).px 0 0 = 0 ∧
    (∑ i ∈ Finset.range goldZero.rows, ∑ j ∈ Finset.range goldZero.cols,
      ((goldZero.subSat guessAbove).px i j : ℚ) ^ 2) = 0 ∧
    (∑ i ∈ Finset.range goldZero.rows, ∑ j ∈ Finset.range goldZero.cols,
      ((goldZero.px i j : ℚ) - (guessAbove.px i j : ℚ)) ^ 2) = 25 ∧
    (∀ sqrt : ℚ → ℚ,
      get_rms_error_all sqrt goldZero guessAbove = get_rms_error_all sqrt goldZero goldZero) := by
  refine ⟨by decide, by decide!, by decide!, ?_⟩
  intro sqrt
  have h : ∀ X : Mat Nat, X = guessAbove ∨ X = goldZero →
      (∑ i ∈ Finset.range goldZero.rows, ∑ j ∈ Finset.range goldZero.cols,
        ((goldZero.subSat X).px i j : ℚ) ^ 2) = 0 := by
    intro X hX
    rcases hX with rfl | rfl <;> decide!
  unfold get_rms_error_all norm_L2_u8
  simp only []
  have e : ∀ X : Mat Nat, (goldZero.subSat X).rows = goldZero.rows ∧
      (goldZero.subSat X).cols = goldZero.cols := fun _ => ⟨rfl, rfl⟩
  rw [(e guessAbove).1, (e guessAbove).2, (e goldZero).1, (e goldZero).2,
    h guessAbove (Or.inl rfl), h goldZero (Or.inr rfl)]

/-- C10, counterexample. Shifting `G = [0, 5]` and `H = [3, 5]` by `c = 1` keeps both
maps within `[0, 255]` but turns the occluded first pixel into an unoccluded one, and
`get_bias_unoccluded` changes from `0` to `3/2`. -/
theorem translation_changes_bias :
    SameSize goldShift guessShift ∧ InByteRange goldShift 1 ∧ InByteRange guessShift 1 ∧
    get_bias_unoccluded goldShift guessShift = 0 ∧
    get_bias_unoccluded (translate goldShift 1) (translate guessShift 1) = 3 / 2 := by
  refine ⟨by decide, by decide, by decide, by decide!, by decide!⟩

/-- C10, amended. For same-size maps `G`, `H` and an integer `c` such that `G + c` and
`H + c` stay within `[0, 255]` and the shift leaves the mutually unoccluded set
unchanged (a pixel is nonzero in both `G` and `H` exactly when it is nonzero in both
`G + c` and `H + c`), the unoccluded RMSE, bad-match rate (any threshold), bias,
correlation and R² of `(G + c, H + c)` equal those of `(G, H)`, in exact arithmetic and
for every square-root function. -/
theorem unoccluded_metrics_translation_invariant (G H : Mat Nat) (c : Int)
    (hs : SameSize G H) (hG : InByteRange G c) (hH : InByteRange H c)
    (hU : KeepsUnoccluded G H c) :
    (∀ sqrt : ℚ → ℚ, get_rms_error_unoccluded sqrt (translate G c) (translate H c)
      = get_rms_error_unoccluded sqrt G H) ∧
    (∀ t : Int, get_bad_matching_unoccluded (translate G c) (translate H c) t
      = get_bad_matching_unoccluded G H t) ∧
    get_bias_unoccluded (translate G c) (translate H c) = get_bias_unoccluded G H ∧
    (∀ sqrt : ℚ → ℚ, get_correlation_unoccluded sqrt (translate G c) (translate H c)
      = get_correlation_unoccluded sqrt G H) ∧
    get_r_squared_unoccluded (translate G c) (translate H c) = get_r_squared_unoccluded G H := by
  have hs' := translate_sameSize G H c hs
  have hset := unoccludedSet_translate G H c hs hG hH hU
  refine ⟨?_, ?_, ?_, ?_, ?_⟩
  · intro sqrt
    rw [rms_error_unoccluded_sums sqrt _ _ hs', rms_error_unoccluded_sums sqrt G H hs,
      translate_ss_res G H c hs hG hH hU, hset]
  · intro t
    exact translate_bad_matching G H c hs hG hH hU t
  · rw [bias_unoccluded_sum _ _ hs', bias_unoccluded_sum G H hs]
    unfold spec_bias
    rw [hset]
    congr 1
    apply Finset.sum_congr rfl
    intro p hp
    exact translate_residual G H c hs hG hH p hp
  · intro sqrt
    exact translate_correlation sqrt G H c hs hG hH hU
  · rw [r_squared_unoccluded_sums _ _ hs', r_squared_unoccluded_sums G H hs,
      translate_ss_res G H c hs hG hH hU, translate_ss_tot G H c hs hG hH hU]

theorem unoccluded_metrics_translation_invariant_witness :
    SameSize goldDense guessDense ∧ InByteRange goldDense 2 ∧ InByteRange guessDense 2 ∧
    KeepsUnoccluded goldDense guessDense 2 ∧
    ((∀ sqrt : ℚ → ℚ,
      get_rms_error_unoccluded sqrt (translate goldDense 2) (translate guessDense 2)
        = get_rms_error_unoccluded sqrt goldDense guessDense) ∧
    (∀ t : Int, get_bad_matching_unoccluded (translate goldDense 2) (translate guessDense 2) t
      = get_bad_matching_unoccluded goldDense guessDense t) ∧
    get_bias_unoccluded (translate goldDense 2) (translate guessDense 2)
      = get_bias_unoccluded goldDense guessDense ∧
    (∀ sqrt : ℚ → ℚ,
      get_correlation_unoccluded sqrt (translate goldDense 2) (translate guessDense 2)
        = get_correlation_unoccluded sqrt goldDense guessDense) ∧
    get_r_squared_unoccluded (translate goldDense 2) (translate guessDense 2)
      = get_r_squared_unoccluded goldDense guessDense) :=
  ⟨by decide, by decide, by decide, by decide,
    unoccluded_metrics_translation_invariant goldDense guessDense 2
      (by decide) (by decide) (by decide) (by decide)⟩

/-- C19. For same-size maps `G` and `H` the four counts returned by
`get_occlusion_confusion_matrix` sum to `rows * cols`: every pixel falls in exactly
one cell. -/
theorem confusion_matrix_total (G H : Mat Nat) (_hs : SameSize G H) :
    (get_occlusion_confusion_matrix G H).sum = G.rows * G.cols := by
  have hcell : ∀ i j : Int,
      (if (G.neZero.and H.neZero).px i j ≠ 0 then 1 else 0)
        + ((if (G.neZero.and H.eqZero).px i j ≠ 0 then 1 else 0)
        + ((if (G.eqZero.and H.neZero).px i j ≠ 0 then 1 else 0)
        + (if (G.eqZero.and H.eqZero).px i j ≠ 0 then 1 else 0))) = 1 := by
    intro i j
    simp only [Mat.and, Mat.neZero, Mat.eqZero]
    by_cases hg : G.px i j = 0 <;> by_cases hh : H.px i j = 0 <;> simp [hg, hh]
  have hr : ∀ a b : Mat Nat, (a.and b).rows = a.rows := fun _ _ => rfl
  have hc : ∀ a b : Mat Nat, (a.and b).cols = a.cols := fun _ _ => rfl
  have e1 : G.neZero.rows = G.rows := rfl
  have e2 : G.neZero.cols = G.cols := rfl
  have e3 : G.eqZero.rows = G.rows := rfl
  have e4 : G.eqZero.cols = G.cols := rfl
  simp only [get_occlusion_confusion_matrix, countNonZero, List.sum_cons, List.sum_nil,
    hr, hc, e1, e2, e3, e4, add_zero]
  simp only [← Finset.sum_add_distrib]
  have hsum : ∀ i ∈ Finset.range G.rows,
      (∑ j ∈ Finset.range G.cols,
        ((if (G.neZero.and H.neZero).px (i : Int) (j : Int) ≠ 0 then 1 else 0)
          + ((if (G.neZero.and H.eqZero).px (i : Int) (j : Int) ≠ 0 then 1 else 0)
          + ((if (G.eqZero.and H.neZero).px (i : Int) (j : Int) ≠ 0 then 1 else 0)
          + (if (G.eqZero.and H.eqZero).px (i : Int) (j : Int) ≠ 0 then 1 else 0)))))
        = ∑ _j ∈ Finset.range G.cols, 1 :=
    fun i _ => Finset.sum_congr rfl (fun j _ => hcell i j)
  rw [Finset.sum_congr rfl hsum]
  simp

theorem confusion_matrix_total_witness :
    SameSize goldFive guessFive ∧
    (get_occlusion_confusion_matrix goldFive guessFive).sum = goldFive.rows * goldFive.cols :=
  ⟨by decide, confusion_matrix_total goldFive guessFive (by decide)⟩

/-! ## Claims on the NCC solver -/

/-- C13. NCC border convention: after `NCCDisparity::compute` with
`window_size = 2 r + 1`, every pixel `(y, x)` outside
`[r, rows - r) × [r, cols - r)` is 0 in both `disparity_left` and `disparity_right`,
for every pair and every outcome of the correlation searches. -/
theorem ncc_border_zero (locate : Int → Int → Bool → Int → Int → Int) (s : NCCDisparity)
    (pair : StereoPair) (r : Int) (hw : s.window_size = 2 * r + 1) (y x : Int)
    (hout : ¬ Interior r pair.rows pair.cols y x) :
    (NCCDisparity.compute locate s pair).pair.disparity_left.px y x = 0 ∧
    (NCCDisparity.compute locate s pair).pair.disparity_right.px y x = 0 := by
  have hr : (s.window_size - 1).tdiv 2 = r := by rw [hw]; exact tdiv_window r
  exact ncc_compute_frame locate s pair y x (by rw [hr]; exact hout)

theorem ncc_border_zero_witness :
    (NCCDisparity.new pairNcc 3).window_size = 2 * 1 + 1 ∧
    ¬ Interior 1 pairNcc.rows pairNcc.cols 0 3 ∧
    (NCCDisparity.compute locateFirst (NCCDisparity.new pairNcc 3) pairNcc).pair.disparity_left.px
        0 3 = 0 ∧
    (NCCDisparity.compute locateFirst (NCCDisparity.new pairNcc 3)
        pairNcc).pair.disparity_right.px 0 3 = 0 :=
  ⟨by decide, by decide,
    ncc_border_zero locateFirst (NCCDisparity.new pairNcc 3) pairNcc 1 (by decide) 0 3
      (by decide)⟩

/-- C12. NCC occlusion by narrow search window: for every column `j` and either search
direction, if the clamped search interval has width `max_j - min_j + 1` smaller than
`window_size`, then `NCCDisparity::disparity` returns 0 whatever the correlation
search would report, and after `NCCDisparity::compute` the stored disparity of every
pixel of column `j` is 0 on that side. -/
theorem ncc_narrow_window_zero (locate : Int → Int → Bool → Int → Int → Int)
    (s : NCCDisparity) (j : Int) (left : Bool)
    (hn : bounds_width s j left < s.window_size) :
    (∀ maxLoc_x : Int → Int → Int, s.disparity maxLoc_x j left = 0) ∧
    (∀ i : Int, (searched_map (NCCDisparity.compute locate s s.pair).pair left).px i j = 0) := by
  have hd : ∀ maxLoc_x : Int → Int → Int, s.disparity maxLoc_x j left = 0 := by
    intro f
    unfold bounds_width at hn
    simp only [NCCDisparity.disparity, if_pos hn]
  refine ⟨hd, ?_⟩
  intro i
  by_cases h : Interior ((s.window_size - 1).tdiv 2) s.pair.rows s.pair.cols i j
  · rw [ncc_compute_at locate s i j left h, hd]
    rfl
  · have hz := ncc_compute_frame locate s s.pair i j h
    cases left
    · exact hz.2
    · exact hz.1

theorem ncc_narrow_window_zero_witness :
    bounds_width (NCCDisparity.new pairNcc 3) 1 true < (NCCDisparity.new pairNcc 3).window_size ∧
    (∀ maxLoc_x : Int → Int → Int, (NCCDisparity.new pairNcc 3).disparity maxLoc_x 1 true = 0) ∧
    (∀ i : Int, (searched_map (NCCDisparity.compute locateFirst (NCCDisparity.new pairNcc 3)
        (NCCDisparity.new pairNcc 3).pair).pair true).px i 1 = 0) :=
  ⟨by decide, ncc_narrow_window_zero locateFirst (NCCDisparity.new pairNcc 3) 1 true (by decide)⟩

/-- C11. NCC output range: for an odd `window_size = 2 r + 1` with `r ≥ 1`, bounds
`0 ≤ min_disparity ≤ max_disparity ≤ 255` on the searched side, a column `j` in
`[r, cols - r)` and a reported maximum inside the detection signal, the integer `d`
returned by `NCCDisparity::disparity` (either direction) is 0 or lies in
`[min_disparity, max_disparity]` of that side; it lies in `[0, 255]`, converting it
to 8 bits does not change it, and `NCCDisparity::compute` stores exactly `d` at each
pixel `(i, j)` with `i` in `[r, rows - r)`. -/
theorem ncc_output_range (locate : Int → Int → Bool → Int → Int → Int) (s : NCCDisparity)
    (r i j : Int) (left : Bool)
    (hw : s.window_size = 2 * r + 1) (hr : 1 ≤ r)
    (hmin : 0 ≤ searched_min s.pair left)
    (hmm : searched_min s.pair left ≤ searched_max s.pair left)
    (hmax : searched_max s.pair left ≤ 255)
    (hj : r ≤ j ∧ j < (s.pair.cols : Int) - r)
    (hx : s.window_size ≤ bounds_width s j left →
      0 ≤ locate i j left (search_region s j left).1 (bounds_width s j left) ∧
      locate i j left (search_region s j left).1 (bounds_width s j left)
        < bounds_width s j left - s.window_size + 1) :
    (s.disparity (locate i j left) j left = 0 ∨
      (searched_min s.pair left ≤ s.disparity (locate i j left) j left ∧
        s.disparity (locate i j left) j left ≤ searched_max s.pair left)) ∧
    0 ≤ s.disparity (locate i j left) j left ∧
    s.disparity (locate i j left) j left ≤ 255 ∧
    (((s.disparity (locate i j left) j left % 256).toNat : Nat) : Int)
      = s.disparity (locate i j left) j left ∧
    (r ≤ i ∧ i < (s.pair.rows : Int) - r →
      (((searched_map (NCCDisparity.compute locate s s.pair).pair left).px i j : Nat) : Int)
        = s.disparity (locate i j left) j left) := by
  have hrange := disparity_range s (locate i j left) r j left hw hr hmin hmax hj hx
  have hr2 : (s.window_size - 1).tdiv 2 = r := by rw [hw]; exact tdiv_window r
  have h0 : 0 ≤ s.disparity (locate i j left) j left := by omega
  have h255 : s.disparity (locate i j left) j left ≤ 255 := by omega
  have hst : (((s.disparity (locate i j left) j left % 256).toNat : Nat) : Int)
      = s.disparity (locate i j left) j left := by omega
  refine ⟨hrange, h0, h255, hst, ?_⟩
  intro hi
  rw [ncc_compute_at locate s i j left (by rw [hr2]; exact ⟨hi.1, hi.2, hj.1, hj.2⟩)]
  exact hst

theorem ncc_output_range_witness :
    (NCCDisparity.new pairNcc 3).disparity (locateFirst 1 3 true) 3 true = 2 ∧
    (((searched_map (NCCDisparity.compute locateFirst (NCCDisparity.new pairNcc 3)
        (NCCDisparity.new pairNcc 3).pair).pair true).px 1 3 : Nat) : Int) = 2 :=
  have h := ncc_output_range locateFirst (NCCDisparity.new pairNcc 3) 1 1 3 true
    (by decide) (by decide) (by decide) (by decide) (by decide) (by decide) (by decide)
  have hd : (NCCDisparity.new pairNcc 3).disparity (locateFirst 1 3 true) 3 true = 2 := by
    decide
  ⟨hd, by rw [h.2.2.2.2 (by decide)]; exact hd⟩

/-- C31. The code evaluated where the claim fails. In general, when the search region
is at least `window_size` wide, detection value `k` is the normalised correlation of the
template centred on full-image column `min_j + k` (for `k` at least the window radius
`r`), but `disparity` reports the maximum at `maxLoc.x = k` as column `k + min_j + r`:
its result is the centred-match disparity minus `r` for a left template and plus `r`
for a right one. On the `3 × 8` pair `pairShift`, whose views show the same two pixels
at disparity 2, with `window_size = 3`, left bounds `[1, 2]` and the template at
`(1, 5)`: the search region is `[2, 5]`, the detection signal is `(7/2, 6)` with its
maximum at index 1, which is the score of the template centred on column 3, so the
match is at disparity `5 - 3 = 2`; the code returns 1. -/
theorem ncc_match_position_shifted :
    (∀ (border : Int → Nat → Int) (s : NCCDisparity) (t row magnitude : Mat (ℚ × ℚ × ℚ))
      (j : Int) (left : Bool), ¬ bounds_width s j left < s.window_size →
      s.disparity_call border t row magnitude j left =
        if left then centred_match_disparity border s t row magnitude j left
            - (s.window_size - 1).tdiv 2
        else centred_match_disparity border s t row magnitude j left
            + (s.window_size - 1).tdiv 2) ∧
    (∀ (border : Int → Nat → Int) (s : NCCDisparity) (t row magnitude : Mat (ℚ × ℚ × ℚ))
      (min_j bounds_width k : Int),
      0 < s.window_size → s.window_size % 2 = 1 →
      (t.rows = s.window_size.toNat ∧ t.cols = s.window_size.toNat) →
      (∀ (p : Int) (len : Nat), 0 ≤ p → p < (len : Int) → border p len = p) →
      ((s.window_size - 1).tdiv 2 ≤ k ∧ k ≤ bounds_width - s.window_size) →
      (s.detections border t row magnitude min_j bounds_width).px 0 k
        = window_score s.window_size t row magnitude (min_j + k)) ∧
    (∀ M : Mat (ℚ × ℚ × ℚ),
      M.px 1 2 = (2 / 3, 2 / 3, 2 / 3) → M.px 1 3 = (2 / 3, 2 / 3, 2 / 3) →
      search_region (NCCDisparity.new pairShift 3) 5 true = (2, 5) ∧
      ((NCCDisparity.new pairShift 3).detections reflect101 templateShift rowShift
        ((NCCDisparity.new pairShift 3).get_row 1 M) 2 4).px 0 0 = 7 / 2 ∧
      ((NCCDisparity.new pairShift 3).detections reflect101 templateShift rowShift
        ((NCCDisparity.new pairShift 3).get_row 1 M) 2 4).px 0 1 = 6 ∧
      window_score 3 templateShift rowShift ((NCCDisparity.new pairShift 3).get_row 1 M) 3 = 6 ∧
      maxLoc ((NCCDisparity.new pairShift 3).detections reflect101 templateShift rowShift
        ((NCCDisparity.new pairShift 3).get_row 1 M) 2 4) = (1, 0) ∧
      centred_match_disparity reflect101 (NCCDisparity.new pairShift 3) templateShift rowShift
        ((NCCDisparity.new pairShift 3).get_row 1 M) 5 true = 2 ∧
      (NCCDisparity.new pairShift 3).disparity_call reflect101 templateShift rowShift
        ((NCCDisparity.new pairShift 3).get_row 1 M) 5 true = 1) := by
  refine ⟨disparity_call_shift, ?_, ?_⟩
  · intro border s t row magnitude min_j bounds_width k hws hodd ht hborder hk
    exact detections_centred border s t row magnitude min_j bounds_width k hws hodd ht
      hborder hk
  · intro M h2 h3
    obtain ⟨d0, d1⟩ := detections_shift M h2 h3
    have hreg : search_region (NCCDisparity.new pairShift 3) 5 true = (2, 5) := by decide
    have hbw : bounds_width (NCCDisparity.new pairShift 3) 5 true = 4 := by decide
    have hmax : maxLoc ((NCCDisparity.new pairShift 3).detections reflect101 templateShift
        rowShift ((NCCDisparity.new pairShift 3).get_row 1 M) 2 4) = (1, 0) := by
      refine maxLoc_two _ rfl rfl ?_
      rw [d0, d1]
      norm_num
    have hcen := detections_centred reflect101 (NCCDisparity.new pairShift 3) templateShift
      rowShift ((NCCDisparity.new pairShift 3).get_row 1 M) 2 4 1 (by decide) (by decide)
      ⟨rfl, rfl⟩ reflect101_inRange (by decide)
    have hscore : window_score 3 templateShift rowShift
        ((NCCDisparity.new pairShift 3).get_row 1 M) 3 = 6 := by
      rw [← d1, hcen]
      rfl
    have hclaim : centred_match_disparity reflect101 (NCCDisparity.new pairShift 3)
        templateShift rowShift ((NCCDisparity.new pairShift 3).get_row 1 M) 5 true = 2 := by
      unfold centred_match_disparity
      simp only [hbw, hreg, hmax]
      decide
    have hcode := disparity_call_shift reflect101 (NCCDisparity.new pairShift 3) templateShift
      rowShift ((NCCDisparity.new pairShift 3).get_row 1 M) 5 true (by rw [hbw]; decide)
    rw [hclaim] at hcode
    exact ⟨hreg, d0, d1, hscore, hmax, hclaim, hcode⟩

/-! ## Claims on solver construction -/

/-- C22, counterexample. The constructors return solver objects for an even window
size, for a window size that is not positive, and for negative graph-cut costs. -/
theorem construction_accepts_bad_parameters :
    (NCCDisparity.new pairSmall 4).window_size = 4 ∧ (4 : Int) % 2 = 0 ∧
    (NCCDisparity.new pairSmall (-3)).window_size = -3 ∧
    (GraphCutDisparity.new pairSmall (-1) (-7)).Cp = -1 ∧
    (GraphCutDisparity.new pairSmall (-1) (-7)).V_smooth = -7 := by
  decide

/-- C22, amended. Solver construction checks nothing and cannot fail:
`NCCDisparity(window_size)` returns a solver holding the given window size, whatever
integer it is, and `GraphCutDisparity(C_p, V)` returns a solver holding the given
`C_p` and `V`, whatever integers they are, with `num_iters = 2`. -/
theorem construction_keeps_parameters (pair : StereoPair) :
    (∀ window_size : Int, (NCCDisparity.new pair window_size).window_size = window_size) ∧
    (∀ Cp V : Int, (GraphCutDisparity.new pair Cp V).Cp = Cp ∧
      (GraphCutDisparity.new pair Cp V).V_smooth = V ∧
      (GraphCutDisparity.new pair Cp V).num_iters = 2) :=
  ⟨fun _ => rfl, fun _ _ => ⟨rfl, rfl, rfl⟩⟩

end Stereo
